import Mathlib

/-!
# MBG: minimizer-based sparse de Bruijn graph construction

A shallow embedding of the core of `src/MBG.cpp` together with machine-checked statements
about it.  Machine integers are natural numbers with explicit reduction modulo `2 ^ 64` (or
`2 ^ 16` for run lengths) where the source can wrap.  A failed `assert`, and an access outside
a container, is modelled by `none`.
-/

namespace MBG

/-! ## Bidirected identifiers (`MBG.cpp`, lines 98-114) -/

/-- A directed node: `std::pair<size_t, bool>`, the boolean is `true` for forward. -/
abbrev DirNode := Nat × Bool

/-- Source: `reverse` flips the orientation and keeps the id. -/
def reverse (pos : DirNode) : DirNode := (pos.1, !pos.2)

/-- Source: `canon` picks the representative of the two readings of a bidirected edge. -/
def canon (src dst : DirNode) : DirNode × DirNode :=
  if dst.1 < src.1 then (reverse dst, reverse src)
  else if dst.1 = src.1 ∧ dst.2 = false ∧ src.2 = false then (reverse dst, reverse src)
  else (src, dst)

/-! ## Read encoding (`MBG.cpp`, lines 660-755 and 1468-1480) -/

/-- Source: the `switch` shared by both encoders; `none` is the `default: assert(false)`. -/
def charCode (c : Char) : Option Nat :=
  if c = 'a' ∨ c = 'A' then some 1
  else if c = 'c' ∨ c = 'C' then some 2
  else if c = 'g' ∨ c = 'G' then some 3
  else if c = 't' ∨ c = 'T' then some 4
  else none

/-- Source: `lens.back() += 1` on a vector of `uint16_t`; the sum wraps at `2 ^ 16`. -/
def incrBack : List Nat → List Nat
  | [] => []
  | [l] => [(l + 1) % 2 ^ 16]
  | l :: rest => l :: incrBack rest

/-- Source: the `for` loop of `runLengthEncode` from index 1 on; `prev` is `original[i-1]`. -/
def rleLoop (prev : Char) : List Char → List Nat → List Nat → Option (List Nat × List Nat)
  | [], resultStr, lens => some (resultStr, lens)
  | c :: rest, resultStr, lens =>
    if c = prev then rleLoop c rest resultStr (incrBack lens)
    else
      match charCode c with
      | none => none
      | some code => rleLoop c rest (resultStr ++ [code]) (lens ++ [1])

/-- Source: `runLengthEncode`; returns the base codes and the `uint16_t` run lengths. -/
def runLengthEncode (original : List Char) : Option (List Nat × List Nat) :=
  match original with
  | [] => none
  | c :: rest =>
    match charCode c with
    | none => none
    | some code => rleLoop c rest [code] [1]

/-- Source: the `for` loop of `noRunLengthEncode`. -/
def noRleLoop : List Char → List Nat → Option (List Nat)
  | [], resultStr => some resultStr
  | c :: rest, resultStr =>
    match charCode c with
    | none => none
    | some code => noRleLoop rest (resultStr ++ [code])

/-- Source: `noRunLengthEncode`; every run length is 1. -/
def noRunLengthEncode (original : List Char) : Option (List Nat × List Nat) :=
  if original.length = 0 then none
  else
    match noRleLoop original [] with
    | none => none
    | some resultStr =>
      let lens := List.replicate original.length 1
      if lens.length = resultStr.length then some (resultStr, lens) else none

/-- Source: the literal `"-ACGT"` indexed by a base code; index 5 is its terminating NUL and
larger indices are outside the literal. -/
def baseChar (code : Nat) : Option Char :=
  ['-', 'A', 'C', 'G', 'T', Char.ofNat 0].get? code

/-- Source: the nested loops of `getSequence`. -/
def getSequenceLoop : List Nat → List Nat → List Char → Option (List Char)
  | code :: rle, n :: characterLength, result =>
    if n = 0 then getSequenceLoop rle characterLength result
    else
      match baseChar code with
      | none => none
      | some ch => getSequenceLoop rle characterLength (result ++ List.replicate n ch)
  | _, _, result => some result

/-- Source: `getSequence`, the decoder of both encodings. -/
def getSequence (rle : List Nat) (characterLength : List Nat) : Option (List Char) :=
  if rle.length = characterLength.length then getSequenceLoop rle characterLength [] else none

/-- Source: `revCompRLE`; `mapping` has five entries, so codes above 4 are outside it (the
model reads 0 there, and the statements below keep to codes `0..4`). -/
def revCompRLE (original : List Nat) : List Nat :=
  original.reverse.map (fun c => [0, 4, 3, 2, 1].getD c 0)

/-! ## Rolling hasher (`MBG.cpp`, lines 170-292)

`uint64_t` values are natural numbers below `2 ^ 64`.  A shift by 64 or more is outside what
the source language defines; the shift instructions of the compiled program take the count
modulo 64, and so does the model.  This matters for `rotlkmin1` when the stored `kmerSize` is
0: the count `kmerSize - 1` wraps to `2 ^ 64 - 1`, and the word is rotated by 63. -/

/-- Left shift on `uint64_t` by `s % 64`: the bits shifted past position 63 are dropped. -/
def shl64 (val s : Nat) : Nat := (val <<< (s % 64)) % 2 ^ 64

/-- Right shift on `uint64_t` by `s % 64`. -/
def shr64 (val s : Nat) : Nat := val >>> (s % 64)

/-- Subtraction on `size_t`, wrapping modulo `2 ^ 64`. -/
def subSize (a b : Nat) : Nat := (a + 2 ^ 64 - b % 2 ^ 64) % 2 ^ 64

/-- Source: `charHashes`, one 64-bit constant per base code. -/
def charHashes : List Nat :=
  [0, 0x3c8bfbb395c60474, 0x3193c18562a02b4c, 0x20323ed082572324, 0x295549f54be24456]

/-- Source: `FastHasher::complement`, the table `comp`. -/
def complement (c : Nat) : Nat := [0, 4, 3, 2, 1].getD c 0

/-- Source: `rotlone`. -/
def rotlone (val : Nat) : Nat := shl64 val 1 ||| shr64 val (64 - 1)

/-- Source: `rotrone`. -/
def rotrone (val : Nat) : Nat := shr64 val 1 ||| shl64 val (64 - 1)

/-- Source: `rotlk`; `kmerSize` is the stored `kmerSize % 64`. -/
def rotlk (kmerSize val : Nat) : Nat := shl64 val kmerSize ||| shr64 val (subSize 64 kmerSize)

/-- Source: `rotlkmin1`. -/
def rotlkmin1 (kmerSize val : Nat) : Nat :=
  shl64 val (subSize kmerSize 1) ||| shr64 val (subSize 64 (subSize kmerSize 1))

/-- Source: the data members of `FastHasher`. -/
structure FastHasher where
  fwAdd : List Nat
  fwRemove : List Nat
  bwAdd : List Nat
  bwRemove : List Nat
  fwHash : Nat
  bwHash : Nat
  kmerSize : Nat
  deriving DecidableEq, Repr

/-- Source: the three-argument constructor, which stores `kmerSize % 64` and then runs
`precalcRots` to fill the four tables. -/
def FastHasher.seeded (kmerSize fwHash bwHash : Nat) : FastHasher :=
  let m := kmerSize % 64
  { fwAdd := (List.range 5).map (fun i => charHashes.getD i 0)
    fwRemove := (List.range 5).map (fun i => rotlk m (charHashes.getD i 0))
    bwAdd := (List.range 5).map (fun i => rotlkmin1 m (charHashes.getD (complement i) 0))
    bwRemove := (List.range 5).map (fun i => rotrone (charHashes.getD (complement i) 0))
    fwHash := fwHash
    bwHash := bwHash
    kmerSize := m }

/-- Source: the one-argument constructor; both hashes start at 0. -/
def FastHasher.fresh (kmerSize : Nat) : FastHasher := FastHasher.seeded kmerSize 0 0

/-- Source: `addChar`.  The four tables have five entries; the model reads 0 outside them. -/
def FastHasher.addChar (h : FastHasher) (c : Nat) : FastHasher :=
  { h with
    fwHash := rotlone h.fwHash ^^^ h.fwAdd.getD c 0
    bwHash := rotrone h.bwHash ^^^ h.bwAdd.getD c 0 }

/-- Source: `removeChar`. -/
def FastHasher.removeChar (h : FastHasher) (c : Nat) : FastHasher :=
  { h with
    fwHash := h.fwHash ^^^ h.fwRemove.getD c 0
    bwHash := h.bwHash ^^^ h.bwRemove.getD c 0 }

/-- Source: `hash`, the smaller of the two strand hashes. -/
def FastHasher.hash (h : FastHasher) : Nat := min h.fwHash h.bwHash

/-- Source: `getFwHash`. -/
def FastHasher.getFwHash (h : FastHasher) : Nat := h.fwHash

/-- Source: `getBwHash`. -/
def FastHasher.getBwHash (h : FastHasher) : Nat := h.bwHash

/-- Feeding a sequence of base codes with `addChar`, as the first loop of
`findMinimizerPositions` does. -/
def FastHasher.addChars (h : FastHasher) (cs : List Nat) : FastHasher :=
  cs.foldl FastHasher.addChar h

/-- Rotation of a 64-bit word to the left by `r % 64` positions: the common form of `rotlone`,
`rotrone`, `rotlk` and `rotlkmin1`. -/
def rot64 (r val : Nat) : Nat := shl64 val (r % 64) ||| shr64 val (64 - r % 64)

/-- The hash a hasher holds after feeding `cs` from the value `f0`, when each step rotates by
`r` and mixes in the table entry `T c`. -/
def rotFold (r : Nat) (T : Nat → Nat) (f0 : Nat) (cs : List Nat) : Nat :=
  cs.foldl (fun f c => rot64 r f ^^^ T c) f0

/-! ## Containers

`phmap::flat_hash_map` is an association list with distinct keys, in insertion order.
`std::numeric_limits<size_t>::max()` is `2 ^ 64 - 1`. -/

/-- The `size_t` value used by the source as a null marker. -/
def sizeMax : Nat := 2 ^ 64 - 1

/-- Source: `map.count(key)`. -/
def mapCount {κ ν : Type} [DecidableEq κ] (m : List (κ × ν)) (key : κ) : Nat :=
  if m.any (fun e => decide (e.1 = key)) then 1 else 0

/-- Source: `map.find(key)` / `map.at(key)`; `none` when the key is absent. -/
def mapFind {κ ν : Type} [DecidableEq κ] : List (κ × ν) → κ → Option ν
  | [], _ => none
  | e :: rest, key => if e.1 = key then some e.2 else mapFind rest key

/-- Source: `map[key] = value`. -/
def mapSet {κ ν : Type} [DecidableEq κ] : List (κ × ν) → κ → ν → List (κ × ν)
  | [], key, value => [(key, value)]
  | e :: rest, key, value =>
    if e.1 = key then (key, value) :: rest else e :: mapSet rest key value

/-- Source: `VectorWithDirection<T>`, one vector per orientation. -/
structure VectorWithDirection (α : Type) where
  forward : List α
  backward : List α
  deriving DecidableEq, Repr

/-- Source: `VectorWithDirection::size`. -/
def VectorWithDirection.size {α : Type} (v : VectorWithDirection α) : Nat := v.forward.length

/-- Source: `VectorWithDirection::emplace_back`. -/
def VectorWithDirection.emplace_back {α : Type} (v : VectorWithDirection α) (item : α) :
    VectorWithDirection α :=
  { forward := v.forward ++ [item], backward := v.backward ++ [item] }

/-- Source: `VectorWithDirection::resize(newSize, item)` on an empty vector. -/
def VectorWithDirection.filled {α : Type} (newSize : Nat) (item : α) : VectorWithDirection α :=
  { forward := List.replicate newSize item, backward := List.replicate newSize item }

/-- Source: reading `operator[]`; an index past the end is outside the vector (`none`). -/
def VectorWithDirection.get? {α : Type} (v : VectorWithDirection α) (index : DirNode) :
    Option α :=
  if index.2 then v.forward[index.1]? else v.backward[index.1]?

/-- Source: writing through `operator[]`; an index past the end is outside the vector. -/
def VectorWithDirection.set? {α : Type} (v : VectorWithDirection α) (index : DirNode)
    (item : α) : Option (VectorWithDirection α) :=
  if index.2 then
    if index.1 < v.forward.length then some { v with forward := v.forward.set index.1 item }
    else none
  else
    if index.1 < v.backward.length then some { v with backward := v.backward.set index.1 item }
    else none

/-- The directed edge maps of the hash list. -/
abbrev EdgeMaps := VectorWithDirection (List (DirNode × Nat))

/-- Source: `maps[from][to] = value`. -/
def EdgeMaps.assign (maps : EdgeMaps) (src dst : DirNode) (value : Nat) : Option EdgeMaps :=
  match maps.get? src with
  | none => none
  | some m => maps.set? src (mapSet m dst value)

/-- Source: `maps[from][to]` read through `operator[]`, which gives 0 for an absent key. -/
def EdgeMaps.valueOrZero (maps : EdgeMaps) (src dst : DirNode) : Option Nat :=
  match maps.get? src with
  | none => none
  | some m => some ((mapFind m dst).getD 0)

/-! ## Adjacent packed storage (`MBG.cpp`, lines 305-393) -/

/-- Source: `AdjacentMinimizerList`. -/
structure AdjacentMinimizerList where
  data : List (List Nat)
  lastHash : Nat
  deriving DecidableEq, Repr

/-- Source: `AdjacentMinimizerList::getView`; `none` when the view leaves the buffer. -/
def AdjacentMinimizerList.getView (l : AdjacentMinimizerList) (coord1 coord2 size : Nat) :
    Option (List Nat) :=
  match l.data[coord1]? with
  | none => none
  | some buf => if coord2 + size ≤ buf.length then some ((buf.drop coord2).take size) else none

/-- Source: `AdjacentMinimizerList::addString`. -/
def AdjacentMinimizerList.addString (l : AdjacentMinimizerList) (str : List Nat)
    (currentHash previousHash overlap : Nat) : Option (AdjacentMinimizerList × (Nat × Nat)) :=
  if l.data.length = 0 ∨ l.lastHash = 0 ∨ previousHash = 0 ∨ previousHash ≠ l.lastHash then
    some ({ data := l.data ++ [str], lastHash := currentHash }, (l.data.length, 0))
  else if ¬ overlap < str.length then none
  else
    match l.data.getLast? with
    | none => none
    | some back =>
      let back2 := back ++ str.drop overlap
      if ¬ back2.length ≥ str.length then none
      else
        some ({ data := l.data.dropLast ++ [back2], lastHash := currentHash },
          (l.data.length - 1, back2.length - str.length))

/-- Source: `AdjacentMinimizerList::getReverseComplementStorage`; the result starts from a
default-constructed list, so its `lastHash` is 0. -/
def AdjacentMinimizerList.getReverseComplementStorage (l : AdjacentMinimizerList) :
    AdjacentMinimizerList :=
  { data := l.data.map revCompRLE, lastHash := 0 }

/-- Source: `AdjacentMinimizerList::getRevCompLocation`. -/
def AdjacentMinimizerList.getRevCompLocation (l : AdjacentMinimizerList)
    (coord1 coord2 size : Nat) : Option (Nat × Nat) :=
  match l.data[coord1]? with
  | none => none
  | some buf => if buf.length ≥ coord2 + size then some (coord1, buf.length - size - coord2) else none

/-- Source: `AdjacentLengthList`. -/
structure AdjacentLengthList where
  data : List (List Nat)
  lastHash : Nat
  deriving DecidableEq, Repr

/-- Source: `AdjacentLengthList::getData`. -/
def AdjacentLengthList.getData (l : AdjacentLengthList) (coord1 coord2 size : Nat) :
    Option (List Nat) :=
  match l.data[coord1]? with
  | none => none
  | some buf => if coord2 + size ≤ buf.length then some ((buf.drop coord2).take size) else none

/-- Source: `AdjacentLengthList::addData`. -/
def AdjacentLengthList.addData (l : AdjacentLengthList) (lens : List Nat)
    (start stop currentHash previousHash overlap : Nat) :
    Option (AdjacentLengthList × (Nat × Nat)) :=
  if ¬ stop > start then none
  else if ¬ stop ≤ lens.length then none
  else if l.data.length = 0 ∨ l.lastHash = 0 ∨ previousHash = 0 ∨ previousHash ≠ l.lastHash then
    some ({ data := l.data ++ [(lens.take stop).drop start], lastHash := currentHash },
      (l.data.length, 0))
  else if ¬ overlap < lens.length then none
  else if ¬ stop > start + overlap then none
  else
    match l.data.getLast? with
    | none => none
    | some back =>
      let back2 := back ++ (lens.take stop).drop (start + overlap)
      if ¬ back2.length ≥ stop - start then none
      else
        some ({ data := l.data.dropLast ++ [back2], lastHash := currentHash },
          (l.data.length - 1, back2.length - (stop - start)))

/-! ## Hash list (`MBG.cpp`, lines 395-481) -/

/-- Source: `HashList`. -/
structure HashList where
  coverage : List Nat
  fakeFwHashes : List Nat
  fakeBwHashes : List Nat
  sequenceOverlap : EdgeMaps
  edgeCoverage : EdgeMaps
  hashToNode : List (Nat × DirNode)
  hashCharacterLengths : AdjacentLengthList
  hashCharacterLengthPtr : List (Nat × Nat)
  hashSequences : AdjacentMinimizerList
  hashSeqPtr : List (Nat × Nat)
  hashSequencesRevComp : AdjacentMinimizerList
  kmerSize : Nat
  deriving DecidableEq, Repr

/-- Source: the constructor `HashList(kmerSize)`. -/
def HashList.empty (kmerSize : Nat) : HashList :=
  { coverage := [], fakeFwHashes := [], fakeBwHashes := []
    sequenceOverlap := ⟨[], []⟩, edgeCoverage := ⟨[], []⟩, hashToNode := []
    hashCharacterLengths := ⟨[], 0⟩, hashCharacterLengthPtr := []
    hashSequences := ⟨[], 0⟩, hashSeqPtr := [], hashSequencesRevComp := ⟨[], 0⟩
    kmerSize := kmerSize }

/-- Source: `HashList::size`. -/
def HashList.size (list : HashList) : Nat := list.hashSeqPtr.length

/-- Source: `HashList::addSequenceOverlap`. -/
def HashList.addSequenceOverlap (list : HashList) (src dst : DirNode) (overlap : Nat) :
    Option HashList :=
  let p := canon src dst
  match list.sequenceOverlap.get? p.1 with
  | none => none
  | some m =>
    if mapCount m p.2 = 1 then some list
    else
      match list.sequenceOverlap.assign p.1 p.2 overlap with
      | none => none
      | some so => some { list with sequenceOverlap := so }

/-- Source: `HashList::getHashSequenceRLE`. -/
def HashList.getHashSequenceRLE (list : HashList) (index : Nat) : Option (List Nat) :=
  match list.hashSeqPtr[index]? with
  | none => none
  | some ptr => list.hashSequences.getView ptr.1 ptr.2 list.kmerSize

/-- Source: `HashList::getRevCompHashSequenceRLE`. -/
def HashList.getRevCompHashSequenceRLE (list : HashList) (index : Nat) : Option (List Nat) :=
  match list.hashSeqPtr[index]? with
  | none => none
  | some ptr =>
    match list.hashSequences.getRevCompLocation ptr.1 ptr.2 list.kmerSize with
    | none => none
    | some pos => list.hashSequencesRevComp.getView pos.1 pos.2 list.kmerSize

/-- Source: `HashList::addHashSequenceRLE`. -/
def HashList.addHashSequenceRLE (list : HashList) (seq : List Nat)
    (currentHash previousHash overlap : Nat) : Option HashList :=
  match list.hashSequences.addString seq currentHash previousHash overlap with
  | none => none
  | some (store, ptr) =>
    some { list with hashSequences := store, hashSeqPtr := list.hashSeqPtr ++ [ptr] }

/-- Source: `HashList::addHashCharacterLength`. -/
def HashList.addHashCharacterLength (list : HashList) (data : List Nat)
    (start stop currentHash previousHash overlap : Nat) : Option HashList :=
  match list.hashCharacterLengths.addData data start stop currentHash previousHash overlap with
  | none => none
  | some (store, ptr) =>
    some { list with
      hashCharacterLengths := store
      hashCharacterLengthPtr := list.hashCharacterLengthPtr ++ [ptr] }

/-- Source: `HashList::buildReverseCompHashSequences`. -/
def HashList.buildReverseCompHashSequences (list : HashList) : HashList :=
  { list with hashSequencesRevComp := list.hashSequences.getReverseComplementStorage }

/-- Source: `getNodeOrNull`; `hash` is the 128-bit content hash of the source, which relies on
the standard library's string hash and is a parameter here. -/
def getNodeOrNull (hash : List Nat → Nat) (list : HashList) (sequence : List Nat) : DirNode :=
  match mapFind list.hashToNode (hash sequence) with
  | none => (sizeMax, true)
  | some node => node

/-! ## Minimizer scanner (`MBG.cpp`, lines 797-844) -/

/-- Source: `sequence[i]` on a `std::string`: index `size()` reads the terminating 0, larger
indices are outside the string (`none`). -/
def strAt (sequence : List Nat) (i : Nat) : Option Nat :=
  if i < sequence.length then sequence[i]?
  else if i = sequence.length then some 0
  else none

/-- An entry `(position, hash, fwHash, bwHash)` of the deque `minimizerOrder`. -/
abbrev MinEntry := Nat × Nat × Nat × Nat

/-- Source: `while (size() > 0 && get<1>(back()) > hash) pop_back()`. -/
def popBackWhileGreater (order : List MinEntry) (hash : Nat) : List MinEntry :=
  (order.reverse.dropWhile (fun e => decide (e.2.1 > hash))).reverse

/-- Source: `while (size() > 0 && get<0>(front()) <= bound) pop_front()`. -/
def popFrontWhileStale (order : List MinEntry) (bound : Nat) : List MinEntry :=
  order.dropWhile (fun e => decide (e.1 ≤ bound))

/-- Source: the `while (pos != end && get<1>(*pos) == get<1>(front()))` loops: the leading
entries tied with the front one, as `(position, fwHash, bwHash)` callback arguments. -/
def frontTies (order : List MinEntry) : List (Nat × Nat × Nat) :=
  match order with
  | [] => []
  | front :: _ =>
    (order.takeWhile (fun e => decide (e.2.1 = front.2.1))).map (fun e => (e.1, e.2.2.1, e.2.2.2))

/-- Source: the first loop of `findMinimizerPositions`, feeding the first `kmerSize`
characters. -/
def feedFirstKmer (sequence : List Nat) : Nat → Nat → FastHasher → Option FastHasher
  | 0, _, h => some h
  | n + 1, i, h =>
    match strAt sequence i with
    | none => none
    | some c => feedFirstKmer sequence n (i + 1) (h.addChar c)

/-- Source: the loop over the first window, `for (i = 0; i < windowSize-1; i++)`, with `n`
iterations left. -/
def firstWindowLoop (sequence : List Nat) (kmerSize : Nat) :
    Nat → Nat → FastHasher → List MinEntry → Option (FastHasher × List MinEntry)
  | 0, _, h, order => some (h, order)
  | n + 1, i, h, order =>
    let seqPos := kmerSize + i
    match strAt sequence seqPos, strAt sequence (seqPos - kmerSize) with
    | some cAdd, some cRemove =>
      let h2 := (h.addChar cAdd).removeChar cRemove
      let hash := h2.hash
      let order2 := popBackWhileGreater order hash
      firstWindowLoop sequence kmerSize n (i + 1) h2
        (order2 ++ [(i + 1, hash, h2.getFwHash, h2.getBwHash)])
    | _, _ => none

/-- Source: the sliding loop `for (i = windowSize-1; kmerSize+i < sequence.size(); i++)`, with
`n` iterations left; `emitted` collects the callback arguments in call order. -/
def slideLoop (sequence : List Nat) (kmerSize windowSize : Nat) :
    Nat → Nat → FastHasher → List MinEntry → List (Nat × Nat × Nat) →
      Option (List (Nat × Nat × Nat))
  | 0, _, _, _, emitted => some emitted
  | n + 1, i, h, order, emitted =>
    let seqPos := kmerSize + i
    match strAt sequence seqPos, strAt sequence (seqPos - kmerSize), order.head? with
    | some cAdd, some cRemove, some front =>
      let h2 := (h.addChar cAdd).removeChar cRemove
      let oldMinimizer := front.2.1
      let hash := h2.hash
      let order2 := popFrontWhileStale order (subSize (i + 1) windowSize)
      let order3 := popBackWhileGreater order2 hash
      let emitted2 :=
        match order3.head? with
        | some front3 => if oldMinimizer ≠ front3.2.1 then emitted ++ frontTies order3 else emitted
        | none => emitted
      let emitted3 :=
        match order3.head? with
        | some front3 =>
          if hash = front3.2.1 then emitted2 ++ [(i + 1, h2.getFwHash, h2.getBwHash)]
          else emitted2
        | none => emitted2 ++ [(i + 1, h2.getFwHash, h2.getBwHash)]
      slideLoop sequence kmerSize windowSize n (i + 1) h2
        (order3 ++ [(i + 1, hash, h2.getFwHash, h2.getBwHash)]) emitted3
    | _, _, _ => none

/-- Source: `findMinimizerPositions`; the result lists the arguments of the callback calls in
call order.  The callback of the source does not touch the scanner's state.  The sum
`kmerSize + windowSize` of the early return is a `size_t` sum and wraps modulo `2 ^ 64`. -/
def findMinimizerPositions (sequence : List Nat) (kmerSize windowSize : Nat) :
    Option (List (Nat × Nat × Nat)) :=
  if sequence.length < (kmerSize + windowSize) % 2 ^ 64 then some []
  else
    match feedFirstKmer sequence kmerSize 0 (FastHasher.fresh kmerSize) with
    | none => none
    | some h0 =>
      match firstWindowLoop sequence kmerSize (subSize windowSize 1) 0 h0
          [(0, h0.hash, h0.getFwHash, h0.getBwHash)] with
      | none => none
      | some (h1, order) =>
        slideLoop sequence kmerSize windowSize
          (sequence.length - (kmerSize + subSize windowSize 1)) (subSize windowSize 1)
          h1 order (frontTies order)

/-! ## Ingestion (`MBG.cpp`, lines 768-795 and 919-972) -/

/-- Source: `getNode`; returns the updated list, the node and the forward content hash. -/
def getNode (hash : List Nat → Nat) (list : HashList) (sequence reverse : List Nat)
    (sequenceCharacterLength : List Nat) (seqCharLenStart seqCharLenEnd : Nat)
    (previousHash overlap fakeFwHash fakeBwHash : Nat) : Option (HashList × DirNode × Nat) :=
  let fwHash := hash sequence
  match mapFind list.hashToNode fwHash with
  | some found => some (list, found, fwHash)
  | none =>
    let bwHash := hash reverse
    if (mapFind list.hashToNode bwHash).isSome then none
    else
      let fwNode := list.size
      let l1 : HashList :=
        { list with
          hashToNode := mapSet (mapSet list.hashToNode fwHash (fwNode, true)) bwHash (fwNode, false) }
      match l1.addHashSequenceRLE sequence fwHash previousHash overlap with
      | none => none
      | some l2 =>
        match l2.addHashCharacterLength sequenceCharacterLength seqCharLenStart seqCharLenEnd
            fwHash previousHash overlap with
        | none => none
        | some l3 =>
          if l3.coverage.length = fwNode ∧ l3.edgeCoverage.size = fwNode ∧
              l3.sequenceOverlap.size = fwNode ∧ l3.fakeFwHashes.length = fwNode ∧
              l3.fakeBwHashes.length = fwNode then
            some ({ l3 with
                coverage := l3.coverage ++ [0]
                edgeCoverage := l3.edgeCoverage.emplace_back []
                sequenceOverlap := l3.sequenceOverlap.emplace_back []
                fakeFwHashes := l3.fakeFwHashes ++ [fakeFwHash]
                fakeBwHashes := l3.fakeBwHashes ++ [fakeBwHash] }, (fwNode, true), fwHash)
          else none

/-- The variables the per-read callback of `loadReadsAsHashes` captures by reference. -/
structure ReadState where
  result : HashList
  lastMinimizerPosition : Nat
  last : DirNode
  lastHash : Nat
  deriving DecidableEq, Repr

/-- Source: `maps[from][to] += amount`. -/
def EdgeMaps.increase (maps : EdgeMaps) (src dst : DirNode) (amount : Nat) : Option EdgeMaps :=
  match maps.valueOrZero src dst with
  | none => none
  | some old => maps.assign src dst ((old + amount) % 2 ^ 64)

/-- Source: `coverage[index] += amount`. -/
def addCoverage (coverage : List Nat) (index amount : Nat) : Option (List Nat) :=
  match coverage[index]? with
  | none => none
  | some old => some (coverage.set index ((old + amount) % 2 ^ 64))

/-- Source: the callback passed to `findMinimizerPositions` in `loadReadsAsHashes`, run on one
emission `(pos, fwHash, bwHash)`.  The first three tests are the assertions of the callback; the
fourth keeps the `string_view` of the k-mer inside the read.  The counter `totalNodes`, which
is only logged, is left out. -/
def ingestEmission (hash : List Nat → Nat) (kmerSize windowSize : Nat)
    (seq revSeq lens : List Nat) (st : ReadState) (em : Nat × Nat × Nat) : Option ReadState :=
  let pos := em.1
  if ¬ (st.lastMinimizerPosition = sizeMax ∨ pos > st.lastMinimizerPosition) then none
  else if ¬ (st.lastMinimizerPosition = sizeMax ∨
      subSize pos st.lastMinimizerPosition ≤ windowSize) then none
  else if ¬ (st.last.1 = sizeMax ∨ subSize pos st.lastMinimizerPosition ≤ kmerSize) then none
  else if ¬ pos + kmerSize ≤ seq.length then none
  else
    let minimizerSequence := (seq.drop pos).take kmerSize
    let revPos := seq.length - (pos + kmerSize)
    let revMinimizerSequence := (revSeq.drop revPos).take kmerSize
    let overlap := subSize (st.lastMinimizerPosition + kmerSize) pos
    match getNode hash st.result minimizerSequence revMinimizerSequence lens pos (pos + kmerSize)
        st.lastHash overlap em.2.1 em.2.2 with
    | none => none
    | some (r1, current, newHash) =>
      let linked : Option HashList :=
        if st.last.1 ≠ sizeMax ∧ subSize pos st.lastMinimizerPosition < kmerSize then
          if ¬ st.lastMinimizerPosition + kmerSize ≥ pos then none
          else
            match r1.addSequenceOverlap st.last current overlap with
            | none => none
            | some r2 =>
              let pair := canon st.last current
              match r2.edgeCoverage.increase pair.1 pair.2 1 with
              | none => none
              | some ec => some { r2 with edgeCoverage := ec }
        else some r1
      match linked with
      | none => none
      | some r3 =>
        match addCoverage r3.coverage current.1 1 with
        | none => none
        | some cov =>
          some { result := { r3 with coverage := cov }
                 lastMinimizerPosition := pos, last := current, lastHash := newHash }

/-- Running the callback over the emissions of one read, in call order. -/
def ingestEmissions (hash : List Nat → Nat) (kmerSize windowSize : Nat)
    (seq revSeq lens : List Nat) : ReadState → List (Nat × Nat × Nat) → Option ReadState
  | st, [] => some st
  | st, em :: rest =>
    match ingestEmission hash kmerSize windowSize seq revSeq lens st em with
    | none => none
    | some st2 => ingestEmissions hash kmerSize windowSize seq revSeq lens st2 rest

/-- Source: the per-read lambda of `loadReadsAsHashes`.  The sum `kmerSize + windowSize` of the
skip test is a `size_t` sum and wraps modulo `2 ^ 64`. -/
def ingestRead (hash : List Nat → Nat) (kmerSize windowSize : Nat) (hpc : Bool)
    (result : HashList) (sequence : List Char) : Option HashList :=
  if sequence.length = 0 then some result
  else
    match (if hpc then runLengthEncode sequence else noRunLengthEncode sequence) with
    | none => none
    | some (seq, lens) =>
      if seq.length ≤ (kmerSize + windowSize) % 2 ^ 64 then some result
      else
        let revSeq := revCompRLE seq
        match findMinimizerPositions seq kmerSize windowSize with
        | none => none
        | some emissions =>
          match ingestEmissions hash kmerSize windowSize seq revSeq lens
              { result := result, lastMinimizerPosition := sizeMax, last := (sizeMax, true),
                lastHash := 0 } emissions with
          | none => none
          | some st => some st.result

/-- The reads of all files, fed to the per-read lambda in order. -/
def ingestReads (hash : List Nat → Nat) (kmerSize windowSize : Nat) (hpc : Bool) :
    HashList → List (List Char) → Option HashList
  | result, [] => some result
  | result, read :: rest =>
    match ingestRead hash kmerSize windowSize hpc result read with
    | none => none
    | some r2 => ingestReads hash kmerSize windowSize hpc r2 rest

/-- Source: `loadReadsAsHashes`; `reads` are the sequences the read source delivers. -/
def loadReadsAsHashes (hash : List Nat → Nat) (reads : List (List Char))
    (kmerSize windowSize : Nat) (hpc : Bool) : Option HashList :=
  match ingestReads hash kmerSize windowSize hpc (HashList.empty kmerSize) reads with
  | none => none
  | some result => some result.buildReverseCompHashSequences

/-! ## Transitive cleaner (`MBG.cpp`, lines 483-658 and 846-917) -/

/-- Source: `LazyString`, the bridging sequence `first · second[overlap..]`; the cached
`str` of the source is the value of `LazyString.str`. -/
structure LazyString where
  first : List Nat
  second : List Nat
  overlap : Nat
  deriving DecidableEq, Repr

/-- Source: the constructor of `LazyString` with its two assertions. -/
def LazyString.make (first second : List Nat) (overlap : Nat) : Option LazyString :=
  if overlap < first.length ∧ overlap < second.length then some ⟨first, second, overlap⟩
  else none

/-- Source: `LazyString::size`. -/
def LazyString.size (s : LazyString) : Nat :=
  subSize (s.first.length + s.second.length) s.overlap

/-- Source: `LazyString::operator[]`. -/
def LazyString.index (s : LazyString) (index : Nat) : Option Nat :=
  if index < s.first.length then s.first[index]?
  else
    let secondIndex := index - s.first.length + s.overlap
    if secondIndex < s.second.length then s.second[secondIndex]? else none

/-- Source: the string `str` that `LazyString::view` builds on first use. -/
def LazyString.str (s : LazyString) : List Nat := s.first ++ s.second.drop s.overlap

/-- Source: `LazyString::view`. -/
def LazyString.view (s : LazyString) (start kmerSize : Nat) : Option (List Nat) :=
  if s.str.length = s.size ∧ start + kmerSize ≤ s.str.length then
    some ((s.str.drop start).take kmerSize)
  else none

/-- Source: the data members of `TransitiveCleaner`. -/
structure TransitiveCleaner where
  newSequenceOverlaps : List (DirNode × DirNode × Nat)
  transitiveMiddle : VectorWithDirection (List (DirNode × List DirNode))
  deriving DecidableEq, Repr

/-- Source: the `for` loop of `TransitiveCleaner::addMiddles`, with `n` iterations left. -/
def addMiddlesLoop (hash : List Nat → Nat) (kmerSize : Nat) (seq : LazyString)
    (list : HashList) (minimizerPrefixes : List Nat) :
    Nat → Nat → FastHasher → List DirNode → DirNode → Nat → List (DirNode × DirNode × Nat) →
      Option (List DirNode × DirNode × Nat × List (DirNode × DirNode × Nat))
  | 0, _, _, path, old, oldpos, overlaps => some (path, old, oldpos, overlaps)
  | n + 1, i, h, path, old, oldpos, overlaps =>
    match seq.index (i + kmerSize - 1), seq.index (i - 1) with
    | some cAdd, some cRemove =>
      let h2 := (h.addChar cAdd).removeChar cRemove
      if h2.hash ∈ minimizerPrefixes then
        match seq.view i kmerSize with
        | none => none
        | some window =>
          let here := getNodeOrNull hash list window
          if here.1 = sizeMax then
            addMiddlesLoop hash kmerSize seq list minimizerPrefixes n (i + 1) h2 path old oldpos
              overlaps
          else
            let p := canon old here
            addMiddlesLoop hash kmerSize seq list minimizerPrefixes n (i + 1) h2 (path ++ [here])
              here i (overlaps ++ [(p.1, p.2, subSize kmerSize (subSize i oldpos))])
      else
        addMiddlesLoop hash kmerSize seq list minimizerPrefixes n (i + 1) h2 path old oldpos
          overlaps
    | _, _ => none

/-- Source: `TransitiveCleaner::addMiddles`. -/
def addMiddles (hash : List Nat → Nat) (cleaner : TransitiveCleaner) (kmerSize : Nat)
    (start stop : DirNode) (seq : LazyString) (list : HashList)
    (minimizerPrefixes : List Nat) : Option TransitiveCleaner :=
  match (if start.2 then list.fakeFwHashes[start.1]? else list.fakeBwHashes[start.1]?),
      (if start.2 then list.fakeBwHashes[start.1]? else list.fakeFwHashes[start.1]?) with
  | some fwHash, some bwHash =>
    let hasher := FastHasher.seeded kmerSize fwHash bwHash
    if ¬ hasher.hash ∈ minimizerPrefixes then none
    else
      match addMiddlesLoop hash kmerSize seq list minimizerPrefixes
          (subSize seq.size kmerSize - 1) 1 hasher [] start 0 cleaner.newSequenceOverlaps with
      | none => none
      | some (path, old, oldpos, overlaps) =>
        if path.length > 0 then
          if old = start then none
          else
            let p := canon old stop
            match cleaner.transitiveMiddle.get? start with
            | none => none
            | some m =>
              match cleaner.transitiveMiddle.set? start (mapSet m stop path) with
              | none => none
              | some tm =>
                some { newSequenceOverlaps :=
                         overlaps ++ [(p.1, p.2,
                           subSize kmerSize (subSize (subSize seq.size kmerSize) oldpos))]
                       transitiveMiddle := tm }
        else if old = start then some { cleaner with newSequenceOverlaps := overlaps }
        else none
  | _, _ => none

/-- Source: `TransitiveCleaner::getMinimizerPrefixes`; the set is a list tested by
membership. -/
def getMinimizerPrefixes (hashlist : HashList) : List Nat :=
  hashlist.fakeFwHashes ++ hashlist.fakeBwHashes

/-- Source: the inner `for (auto pair : hashlist.sequenceOverlap[start])` loops of
`getMiddles`; `seq` is the k-mer of `start` read in its orientation. -/
def getMiddlesEdges (hash : List Nat → Nat) (kmerSize : Nat) (hashlist : HashList)
    (minimizerPrefixes : List Nat) (i : Nat) (start : DirNode) (seq : List Nat) :
    TransitiveCleaner → List (DirNode × Nat) → Option TransitiveCleaner
  | cleaner, [] => some cleaner
  | cleaner, pair :: rest =>
    if ¬ pair.1.1 ≥ i then none
    else
      match (if pair.1.2 then hashlist.getHashSequenceRLE pair.1.1
             else hashlist.getRevCompHashSequenceRLE pair.1.1) with
      | none => none
      | some second =>
        match LazyString.make seq second pair.2 with
        | none => none
        | some lazy =>
          match addMiddles hash cleaner kmerSize start pair.1 lazy hashlist minimizerPrefixes with
          | none => none
          | some cleaner2 =>
            getMiddlesEdges hash kmerSize hashlist minimizerPrefixes i start seq cleaner2 rest

/-- One orientation of one node in `getMiddles`; `order` gives the order in which the hash map
is iterated, which the source leaves to the container. -/
def getMiddlesSide (hash : List Nat → Nat) (order : List (DirNode × Nat) → List (DirNode × Nat))
    (kmerSize : Nat) (hashlist : HashList) (minimizerPrefixes : List Nat) (i : Nat)
    (start : DirNode) (cleaner : TransitiveCleaner) : Option TransitiveCleaner :=
  match hashlist.sequenceOverlap.get? start with
  | none => none
  | some m =>
    if m.length > 0 then
      match (if start.2 then hashlist.getHashSequenceRLE i
             else hashlist.getRevCompHashSequenceRLE i) with
      | none => none
      | some seq =>
        getMiddlesEdges hash kmerSize hashlist minimizerPrefixes i start seq cleaner (order m)
    else some cleaner

/-- Source: the outer loop of `TransitiveCleaner::getMiddles`, with `n` nodes left. -/
def getMiddlesLoop (hash : List Nat → Nat) (order : List (DirNode × Nat) → List (DirNode × Nat))
    (kmerSize : Nat) (hashlist : HashList) (minimizerPrefixes : List Nat) :
    Nat → Nat → TransitiveCleaner → Option TransitiveCleaner
  | 0, _, cleaner => some cleaner
  | n + 1, i, cleaner =>
    match getMiddlesSide hash order kmerSize hashlist minimizerPrefixes i (i, true) cleaner with
    | none => none
    | some c1 =>
      match getMiddlesSide hash order kmerSize hashlist minimizerPrefixes i (i, false) c1 with
      | none => none
      | some c2 => getMiddlesLoop hash order kmerSize hashlist minimizerPrefixes n (i + 1) c2

/-- Source: the constructor of `TransitiveCleaner`. -/
def TransitiveCleaner.make (hash : List Nat → Nat)
    (order : List (DirNode × Nat) → List (DirNode × Nat)) (kmerSize : Nat)
    (hashlist : HashList) : Option TransitiveCleaner :=
  getMiddlesLoop hash order kmerSize hashlist (getMinimizerPrefixes hashlist)
    hashlist.sequenceOverlap.size 0
    { newSequenceOverlaps := [], transitiveMiddle := VectorWithDirection.filled hashlist.size [] }

/-- Source: the `while` loop of `TransitiveCleaner::insertMiddles`; `none` when an assertion
fails, an index leaves its container, or `fuel` rounds do not finish the loop. -/
def insertMiddlesLoop (transitiveMiddle : VectorWithDirection (List (DirNode × List DirNode))) :
    Nat → List DirNode → List DirNode → Option (List DirNode)
  | 0, _, _ => none
  | fuel + 1, raw, result =>
    match raw.reverse with
    | [] => none
    | [last] => some (result ++ [last]).reverse
    | dst :: src :: _ =>
      match transitiveMiddle.get? src with
      | none => none
      | some m =>
        match mapFind m dst with
        | none => insertMiddlesLoop transitiveMiddle fuel raw.dropLast (result ++ [dst])
        | some middle =>
          if middle.length > 0 then
            insertMiddlesLoop transitiveMiddle fuel (raw.dropLast ++ middle ++ [dst]) result
          else none

/-- Source: `TransitiveCleaner::insertMiddles`. -/
def TransitiveCleaner.insertMiddles (cleaner : TransitiveCleaner) (fuel : Nat)
    (raw : List DirNode) : Option (List DirNode) :=
  insertMiddlesLoop cleaner.transitiveMiddle fuel raw []

/-- Source: `coverage[vec[i].first] += amount` for each node of `middles`. -/
def addCoverageAll (amount : Nat) : List Nat → List DirNode → Option (List Nat)
  | coverage, [] => some coverage
  | coverage, node :: rest =>
    match addCoverage coverage node.1 amount with
    | none => none
    | some c2 => addCoverageAll amount c2 rest

/-- The three things the first phase of `cleanTransitiveEdges` builds: the node coverage and
the lists `addEdgeCoverage` and `removeEdgeCoverage`. -/
structure CleanAcc where
  coverage : List Nat
  addEdgeCoverage : List (DirNode × DirNode × Nat)
  removeEdgeCoverage : List (DirNode × DirNode × Nat)
  deriving DecidableEq, Repr

/-- Source: the body of `for (auto target : result.edgeCoverage[start])` in
`cleanTransitiveEdges`. -/
def cleanTargets (cleaner : TransitiveCleaner) (fuel : Nat) (start : DirNode) :
    CleanAcc → List (DirNode × Nat) → Option CleanAcc
  | acc, [] => some acc
  | acc, target :: rest =>
    match cleaner.insertMiddles fuel [start, target.1] with
    | none => none
    | some vec =>
      if vec.length = 2 then cleanTargets cleaner fuel start acc rest
      else
        match vec.head?, vec.getLast? with
        | some vfirst, some vlast =>
          let p := canon vfirst vlast
          let added := (vec.zip vec.tail).map
            (fun e => ((canon e.1 e.2).1, (canon e.1 e.2).2, target.2))
          match addCoverageAll target.2 acc.coverage vec.tail.dropLast with
          | none => none
          | some cov =>
            cleanTargets cleaner fuel start
              { coverage := cov
                addEdgeCoverage := acc.addEdgeCoverage ++ added
                removeEdgeCoverage := acc.removeEdgeCoverage ++ [(p.1, p.2, target.2)] } rest
        | _, _ => none

/-- Source: the loop `for (node = 0; node < result.edgeCoverage.size(); node++)` of
`cleanTransitiveEdges`, with `n` nodes left. -/
def cleanNodesLoop (order : List (DirNode × Nat) → List (DirNode × Nat))
    (cleaner : TransitiveCleaner) (fuel : Nat) (edgeCoverage : EdgeMaps) :
    Nat → Nat → CleanAcc → Option CleanAcc
  | 0, _, acc => some acc
  | n + 1, node, acc =>
    match edgeCoverage.get? (node, true), edgeCoverage.get? (node, false) with
    | some fwTargets, some bwTargets =>
      match cleanTargets cleaner fuel (node, true) acc (order fwTargets) with
      | none => none
      | some acc1 =>
        match cleanTargets cleaner fuel (node, false) acc1 (order bwTargets) with
        | none => none
        | some acc2 => cleanNodesLoop order cleaner fuel edgeCoverage n (node + 1) acc2
    | _, _ => none

/-- Source: `for (auto t : cleaner.newSequenceOverlaps) result.sequenceOverlap[..][..] = ..`. -/
def applyOverlaps : EdgeMaps → List (DirNode × DirNode × Nat) → Option EdgeMaps
  | maps, [] => some maps
  | maps, t :: rest =>
    match maps.assign t.1 t.2.1 t.2.2 with
    | none => none
    | some m2 => applyOverlaps m2 rest

/-- Source: `for (auto t : addEdgeCoverage) result.edgeCoverage[..][..] += ..`. -/
def applyAdd : EdgeMaps → List (DirNode × DirNode × Nat) → Option EdgeMaps
  | maps, [] => some maps
  | maps, t :: rest =>
    match maps.increase t.1 t.2.1 t.2.2 with
    | none => none
    | some m2 => applyAdd m2 rest

/-- Source: `for (auto t : removeEdgeCoverage)` with its two assertions. -/
def applyRemove : EdgeMaps → List (DirNode × DirNode × Nat) → Option EdgeMaps
  | maps, [] => some maps
  | maps, t :: rest =>
    match maps.get? t.1 with
    | none => none
    | some m =>
      match mapFind m t.2.1 with
      | none => none
      | some old =>
        if old ≥ t.2.2 then
          match maps.assign t.1 t.2.1 (old - t.2.2) with
          | none => none
          | some m2 => applyRemove m2 rest
        else none

/-- Source: `cleanTransitiveEdges`.  `fuel` bounds the rounds of each `insertMiddles` call. -/
def cleanTransitiveEdges (hash : List Nat → Nat)
    (order : List (DirNode × Nat) → List (DirNode × Nat)) (fuel : Nat) (result : HashList)
    (kmerSize : Nat) : Option HashList :=
  match TransitiveCleaner.make hash order kmerSize result with
  | none => none
  | some cleaner =>
    match cleanNodesLoop order cleaner fuel result.edgeCoverage result.edgeCoverage.size 0
        { coverage := result.coverage, addEdgeCoverage := [], removeEdgeCoverage := [] } with
    | none => none
    | some acc =>
      match applyOverlaps result.sequenceOverlap cleaner.newSequenceOverlaps with
      | none => none
      | some so =>
        match applyAdd result.edgeCoverage acc.addEdgeCoverage with
        | none => none
        | some ec1 =>
          match applyRemove ec1 acc.removeEdgeCoverage with
          | none => none
          | some ec2 =>
            some { result with coverage := acc.coverage, sequenceOverlap := so, edgeCoverage := ec2 }

/-! ## Predicates used by the statements -/

/-- Every key pair `(a, b)` of the directed edge maps is in canonical form. -/
def EdgeMaps.Canonical (maps : EdgeMaps) : Prop :=
  ∀ (a : DirNode) (m : List (DirNode × Nat)) (b : DirNode) (v : Nat),
    maps.get? a = some m → (b, v) ∈ m → canon a b = (a, b)

/-- Every entry `(from, to, value)` of a pending edge list is in canonical form. -/
def AllCanon (l : List (DirNode × DirNode × Nat)) : Prop :=
  ∀ t ∈ l, canon t.1 t.2.1 = (t.1, t.2.1)

/-! ## A worked example

Two reads, `k = 3`, `w = 2`, no homopolymer compression.  The first read records the edge from
`AGA` to `AAA`; the second read makes `GAA` a node, and the cleaner finds it inside the bridging
sequence of that edge. -/

/-- A stand-in for the content hash in examples: the base-5 positional value of the codes
behind a leading 1, which is injective and never 0. -/
def exampleHash (s : List Nat) : Nat := s.foldl (fun a c => a * 5 + c) 1

/-- The two reads of the example. -/
def exampleReads : List (List Char) :=
  [['A', 'G', 'A', 'A', 'A', 'A'], ['G', 'G', 'A', 'A', 'A', 'A']]

/-- The hash list after ingesting `exampleReads`. -/
def exampleLoaded : HashList :=
  { coverage := [1, 4, 1]
    fakeFwHashes := [10286336846345556972, 13237172334983519564, 14219262150204358668]
    fakeBwHashes := [17233003266504852374, 16044915670574423458, 14297932362391859896]
    sequenceOverlap :=
      { forward := [[((1, true), 1)], [((1, true), 2)], []]
        backward := [[], [((2, false), 2)], []] }
    edgeCoverage :=
      { forward := [[((1, true), 1)], [((1, true), 2)], []]
        backward := [[], [((2, false), 1)], []] }
    hashToNode :=
      [(166, 0, true), (239, 0, false), (156, 1, true), (249, 1, false), (206, 2, true),
        (247, 2, false)]
    hashCharacterLengths := { data := [[1, 1, 1, 1, 1], [1, 1, 1]], lastHash := 206 }
    hashCharacterLengthPtr := [(0, 0), (0, 2), (1, 0)]
    hashSequences := { data := [[1, 3, 1, 1, 1], [3, 1, 1]], lastHash := 206 }
    hashSeqPtr := [(0, 0), (0, 2), (1, 0)]
    hashSequencesRevComp := { data := [[4, 4, 4, 2, 4], [4, 4, 2]], lastHash := 0 }
    kmerSize := 3 }

/-- The hash list of the example after `cleanTransitiveEdges`. -/
def exampleCleaned : HashList :=
  { exampleLoaded with
    coverage := [1, 4, 2]
    sequenceOverlap :=
      { forward := [[((1, true), 1), ((2, true), 2)], [((1, true), 2)], []]
        backward := [[], [((2, false), 2)], []] }
    edgeCoverage :=
      { forward := [[((1, true), 0), ((2, true), 1)], [((1, true), 2)], []]
        backward := [[], [((2, false), 2)], []] } }


/-! ## Predicates on minimizer windows -/

/-- Position `p` lies in the window of `w` consecutive positions that ends at `t`. -/
def InWindow (w t p : Nat) : Prop := p ≤ t ∧ t < p + w

/-- Position `p` lies in the window ending at `t` and has the smallest value of `H` there. -/
def IsWindowMin (H : Nat → Nat) (w t p : Nat) : Prop :=
  InWindow w t p ∧ ∀ q, InWindow w t q → H p ≤ H q

/-- Position `p` has the smallest value of `H` in some window of `w` consecutive positions
that lies inside `[0, last]`, that is, a window ending at some `t` with `w - 1 ≤ t ≤ last`. -/
def IsMinimizer (H : Nat → Nat) (w last p : Nat) : Prop :=
  ∃ t, w ≤ t + 1 ∧ t ≤ last ∧ IsWindowMin H w t p

/-- No later position up to `j` has a smaller value of `H` than `p`. -/
def SuffixMin (H : Nat → Nat) (j p : Nat) : Prop := ∀ q, p < q → q ≤ j → H p ≤ H q

/-- The positions a monotone deque holds after position `j` was pushed: increasing, and
exactly the positions of the window ending at `j` that no later position undercuts. -/
def DequeInv (H : Nat → Nat) (w j : Nat) (ps : List Nat) : Prop :=
  ps.Pairwise (fun a b => a < b) ∧ ∀ p, p ∈ ps ↔ InWindow w j p ∧ SuffixMin H j p

/-- The positions emitted after position `j` was pushed: increasing, and exactly the
minimizers of the windows inside `[0, j]`. -/
def EmitInv (H : Nat → Nat) (w j : Nat) (es : List Nat) : Prop :=
  es.Pairwise (fun a b => a < b) ∧ ∀ p, p ∈ es ↔ IsMinimizer H w j p

/-- The deque positions after pushing position `j + 1`: stale positions leave at the front,
positions with a larger hash leave at the back. -/
def dequeKeep (H : Nat → Nat) (w j : Nat) (ps : List Nat) : List Nat :=
  ps.filter (fun p => decide (j + 1 < p + w) && decide (H p ≤ H (j + 1)))

/-- The positions emitted while pushing position `j + 1`, given the deque positions `ps` and
the previous minimum `m`. -/
def stepEmitted (H : Nat → Nat) (w j m : Nat) (ps : List Nat) : List Nat :=
  match dequeKeep H w j ps with
  | [] => [j + 1]
  | p3 :: rest =>
    (if m ≠ H p3 then (p3 :: rest).filter (fun p => decide (H p = H p3)) else []) ++
      (if H (j + 1) = H p3 then [j + 1] else [])

/-! ## Predicates on overlap values -/

/-- Every value stored in the directed edge maps is below `k`. -/
def EdgeMaps.ValuesBelow (maps : EdgeMaps) (k : Nat) : Prop :=
  ∀ (a : DirNode) (m : List (DirNode × Nat)) (b : DirNode) (v : Nat),
    maps.get? a = some m → (b, v) ∈ m → v < k

/-- Every value of a pending edge list is below `k`. -/
def AllBelow (k : Nat) (l : List (DirNode × DirNode × Nat)) : Prop :=
  ∀ t ∈ l, t.2.2 < k

/-! ## The scanner's hashes by position -/

/-- The hasher `findMinimizerPositions` holds when it has reached k-mer position `p`: fed with
the first `kmerSize` characters, then rolled forward `p` times. -/
def scanHasher (sequence : List Nat) (kmerSize : Nat) : Nat → FastHasher
  | 0 => (FastHasher.fresh kmerSize).addChars (sequence.take kmerSize)
  | p + 1 =>
    ((scanHasher sequence kmerSize p).addChar (sequence.getD (kmerSize + p) 0)).removeChar
      (sequence.getD p 0)

/-- The hash `min(fw, bw)` the scanner compares at k-mer position `p`. -/
def scanHash (sequence : List Nat) (kmerSize p : Nat) : Nat :=
  (scanHasher sequence kmerSize p).hash

/-- The deque entry the scanner builds at k-mer position `p`. -/
def scanEntry (sequence : List Nat) (kmerSize p : Nat) : MinEntry :=
  (p, (scanHasher sequence kmerSize p).hash, (scanHasher sequence kmerSize p).getFwHash,
    (scanHasher sequence kmerSize p).getBwHash)

/-- The canonical hash of the k-mer at position `p`: `hash()`, the smaller of the two strand
hashes, of a fresh hasher fed the `kmerSize` characters from position `p` on. -/
def kmerHash (sequence : List Nat) (kmerSize p : Nat) : Nat :=
  ((FastHasher.fresh kmerSize).addChars ((sequence.drop p).take kmerSize)).hash

/-- The callback arguments the scanner passes for k-mer position `p`. -/
def scanEmission (sequence : List Nat) (kmerSize p : Nat) : Nat × Nat × Nat :=
  (p, (scanHasher sequence kmerSize p).getFwHash, (scanHasher sequence kmerSize p).getBwHash)

/-! ## Reading the hash list (`MBG.cpp`, lines 416-434 and 1482-1502) -/

/-- Source: `HashList::getEdgeCoverage`, with its assertion that the canonical key is
present. -/
def HashList.getEdgeCoverage (list : HashList) (src dst : DirNode) : Option Nat :=
  let p := canon src dst
  match list.edgeCoverage.get? p.1 with
  | none => none
  | some m => if mapCount m p.2 = 1 then mapFind m p.2 else none

/-- Source: `HashList::getOverlap`; `at` on an absent key is outside the map (`none`). -/
def HashList.getOverlap (list : HashList) (src dst : DirNode) : Option Nat :=
  let p := canon src dst
  match list.sequenceOverlap.get? p.1 with
  | none => none
  | some m => mapFind m p.2

/-- Source: `HashList::getHashCharacterLength`. -/
def HashList.getHashCharacterLength (list : HashList) (index : Nat) : Option (List Nat) :=
  match list.hashCharacterLengthPtr[index]? with
  | none => none
  | some ptr => list.hashCharacterLengths.getData ptr.1 ptr.2 list.kmerSize

/-- Source: the `for` loop of `getOverlapFromRLE`, with `n` iterations left; `RLEoverlap` is
a `size_t`. -/
def overlapFromRLELoop (lens : List Nat) (toFw : Bool) : Nat → Nat → Nat → Option Nat
  | 0, _, rleOverlap => some rleOverlap
  | n + 1, offset, rleOverlap =>
    let i := if toFw then offset else subSize (subSize lens.length offset) 1
    match lens[i]? with
    | none => none
    | some len => overlapFromRLELoop lens toFw n (offset + 1) ((rleOverlap + len) % 2 ^ 64)

/-- Source: `getOverlapFromRLE`. -/
def getOverlapFromRLE (hashlist : HashList) (src dst : DirNode) : Option Nat :=
  match hashlist.getOverlap src dst with
  | none => none
  | some overlap =>
    match hashlist.getHashCharacterLength dst.1 with
    | none => none
    | some lens =>
      if lens.length > overlap then overlapFromRLELoop lens dst.2 overlap 0 0 else none

/-! ## Consensus finalisation (`ConsensusMaker.cpp`, lines 35-82)

The class declaration, the packed code vector and the string index are not part of the
sources at hand.  A unitig is given by its code vector, its `simpleCounts` cells
`(index, count)` and its `complexCounts` map from `(position, index)` to a count.  The test
`stringIndex.getString(code, index) != ""` is the parameter `validString`.  The vector
`complexCountsHere` after the map was iterated and `std::sort` ran with a comparator that
looks at positions only is `arrange complexCounts`: the order of entries with equal positions
is left to the container and to the sorting routine. -/

/-- Source: the `while` loop of `ConsensusMaker::getSequences` at position `j`.  `stack` is
the vector `complexCountsHere` read from its back; the result is what is left of it, with
`maxIndex` and `maxCount`.  The local `count` is a `uint32_t`. -/
def popPosition (simple : Nat × Nat) (j : Nat) :
    List (Nat × Nat × Nat) → Nat → Nat → List (Nat × Nat × Nat) × Nat × Nat
  | [], maxIndex, maxCount => ([], maxIndex, maxCount)
  | e :: rest, maxIndex, maxCount =>
    if e.1 = j then
      let count := if e.2.1 = simple.1 then (e.2.2 + simple.2) % 2 ^ 32 else e.2.2
      if count ≤ maxCount then popPosition simple j rest maxIndex maxCount
      else popPosition simple j rest e.2.1 count
    else (e :: rest, maxIndex, maxCount)

/-- Source: `assert(complexCountsHere.size() == 0 || get<0>(complexCountsHere.back()) >= j)`. -/
def backNotBefore (stack : List (Nat × Nat × Nat)) (j : Nat) : Bool :=
  match stack with
  | [] => true
  | e :: _ => decide (e.1 ≥ j)

/-- Source: the loop over the positions `j` of one unitig in `ConsensusMaker::getSequences`,
with `n` positions left. -/
def consensusLoop (validString : Nat → Nat → Bool) (codes : List Nat)
    (simpleCounts : List (Nat × Nat)) :
    Nat → Nat → List (Nat × Nat × Nat) → List Nat → Option (List Nat)
  | 0, _, _, expanded => some expanded
  | n + 1, j, stack, expanded =>
    match codes[j]?, simpleCounts[j]? with
    | some code, some simple =>
      if ¬ backNotBefore stack j then none
      else
        let r := popPosition simple j stack simple.1 simple.2
        if ¬ r.2.2 > 0 then none
        else if ¬ validString code r.2.1 then none
        else consensusLoop validString codes simpleCounts n (j + 1) r.1 (expanded ++ [r.2.1])
    | _, _ => none

/-- Source: the body of the loop over unitigs in `ConsensusMaker::getSequences`: the code
vector of the unitig paired with the emitted expanded-string indexes. -/
def getSequencesUnitig (arrange : List ((Nat × Nat) × Nat) → List (Nat × Nat × Nat))
    (validString : Nat → Nat → Bool) (codes : List Nat) (simpleCounts : List (Nat × Nat))
    (complexCounts : List ((Nat × Nat) × Nat)) : Option (List Nat × List Nat) :=
  let complexCountsHere := arrange complexCounts
  match consensusLoop validString codes simpleCounts codes.length 0 complexCountsHere.reverse
      [] with
  | none => none
  | some expanded =>
    if codes.length ≥ 1 ∧ codes.length = expanded.length then some (codes, expanded) else none

/-- Source: the data members of `ConsensusMaker` that `getSequences` reads. -/
structure ConsensusMaker where
  compressedSequences : List (List Nat)
  simpleCounts : List (List (Nat × Nat))
  complexCounts : List (List ((Nat × Nat) × Nat))
  deriving DecidableEq, Repr

/-- Source: the loop over unitigs of `ConsensusMaker::getSequences`, with `n` unitigs left. -/
def getSequencesLoop (arrange : List ((Nat × Nat) × Nat) → List (Nat × Nat × Nat))
    (validString : Nat → Nat → Bool) (maker : ConsensusMaker) :
    Nat → Nat → List (List Nat × List Nat) → Option (List (List Nat × List Nat))
  | 0, _, result => some result
  | n + 1, i, result =>
    match maker.compressedSequences[i]?, maker.simpleCounts[i]?, maker.complexCounts[i]? with
    | some codes, some simple, some complex =>
      match getSequencesUnitig arrange validString codes simple complex with
      | none => none
      | some r => getSequencesLoop arrange validString maker n (i + 1) (result ++ [r])
    | _, _, _ => none

/-- Source: `ConsensusMaker::getSequences`, the sequences it returns. -/
def ConsensusMaker.getSequences (arrange : List ((Nat × Nat) × Nat) → List (Nat × Nat × Nat))
    (validString : Nat → Nat → Bool) (maker : ConsensusMaker) :
    Option (List (List Nat × List Nat)) :=
  getSequencesLoop arrange validString maker maker.compressedSequences.length 0 []

/-! ## Unitig graph (`MBG.cpp`, lines 974-1079 and 1155-1336) -/

/-- Source: the data members of `UnitigGraph`; an `unordered_set` of edges is a list without
repetitions. -/
structure UnitigGraph where
  unitigs : List (List DirNode)
  unitigCoverage : List (List Nat)
  edges : VectorWithDirection (List DirNode)
  edgeCov : EdgeMaps
  deriving DecidableEq, Repr

/-- Source: a default-constructed `UnitigGraph`. -/
def UnitigGraph.empty : UnitigGraph :=
  { unitigs := [], unitigCoverage := [], edges := ⟨[], []⟩, edgeCov := ⟨[], []⟩ }

/-- Source: the data members of `SparseEdgeContainer`. -/
structure SparseEdgeContainer where
  firstEdge : VectorWithDirection DirNode
  extraEdges : List (DirNode × List DirNode)
  deriving DecidableEq, Repr

/-- Source: the constructor `SparseEdgeContainer(size)`. -/
def SparseEdgeContainer.make (size : Nat) : SparseEdgeContainer :=
  { firstEdge := VectorWithDirection.filled size (sizeMax, false), extraEdges := [] }

/-- Source: `SparseEdgeContainer::addEdge`. -/
def SparseEdgeContainer.addEdge (c : SparseEdgeContainer) (src dst : DirNode) :
    Option SparseEdgeContainer :=
  match c.firstEdge.get? src with
  | none => none
  | some first =>
    if first.1 = sizeMax then
      match c.firstEdge.set? src dst with
      | none => none
      | some fe => some { c with firstEdge := fe }
    else if first = dst then some c
    else
      some { c with
        extraEdges := mapSet c.extraEdges src ((mapFind c.extraEdges src).getD [] ++ [dst]) }

/-- Source: `SparseEdgeContainer::getEdges` (and `operator[]`). -/
def SparseEdgeContainer.getEdges (c : SparseEdgeContainer) (src : DirNode) :
    Option (List DirNode) :=
  match c.firstEdge.get? src with
  | none => none
  | some first =>
    if first.1 = sizeMax then some []
    else
      match mapFind c.extraEdges src with
      | none => some [first]
      | some extra => some (first :: extra)

/-- Source: the body shared by the two inner loops of `getCoveredEdges`, over the edges
leaving `src`. -/
def coveredEdgesFrom (minCoverage : Nat) (src : DirNode) :
    SparseEdgeContainer → List (DirNode × Nat) → Option SparseEdgeContainer
  | c, [] => some c
  | c, edge :: rest =>
    if edge.2 < minCoverage then coveredEdgesFrom minCoverage src c rest
    else
      match c.addEdge src edge.1 with
      | none => none
      | some c1 =>
        match c1.addEdge (reverse edge.1) (reverse src) with
        | none => none
        | some c2 => coveredEdgesFrom minCoverage src c2 rest

/-- Source: the loop over the nodes in `getCoveredEdges`, with `n` nodes left. -/
def coveredEdgesLoop (order : List (DirNode × Nat) → List (DirNode × Nat))
    (hashlist : HashList) (minCoverage : Nat) :
    Nat → Nat → SparseEdgeContainer → Option SparseEdgeContainer
  | 0, _, c => some c
  | n + 1, i, c =>
    match hashlist.edgeCoverage.get? (i, true), hashlist.edgeCoverage.get? (i, false) with
    | some fwEdges, some bwEdges =>
      match coveredEdgesFrom minCoverage (i, true) c (order fwEdges) with
      | none => none
      | some c1 =>
        match coveredEdgesFrom minCoverage (i, false) c1 (order bwEdges) with
        | none => none
        | some c2 => coveredEdgesLoop order hashlist minCoverage n (i + 1) c2
    | _, _ => none

/-- Source: `getCoveredEdges`. -/
def getCoveredEdges (order : List (DirNode × Nat) → List (DirNode × Nat))
    (hashlist : HashList) (minCoverage : Nat) : Option SparseEdgeContainer :=
  coveredEdgesLoop order hashlist minCoverage hashlist.coverage.length 0
    (SparseEdgeContainer.make hashlist.coverage.length)

/-- Source: the `while (true)` loop of the hash-level `startUnitig`; `none` when an assertion
fails, an index leaves its container, or `fuel` rounds do not finish the loop.  The result is
`belongsToUnitig` with the node list and the coverage list of the unitig. -/
def startUnitigLoop (edges : SparseEdgeContainer) (hashlist : HashList) (start : DirNode) :
    Nat → DirNode → List Bool → List DirNode → List Nat →
      Option (List Bool × List DirNode × List Nat)
  | 0, _, _, _, _ => none
  | fuel + 1, pos, belongsToUnitig, unitig, coverage =>
    match edges.getEdges pos with
    | none => none
    | some out =>
      if out.length ≠ 1 then some (belongsToUnitig, unitig, coverage)
      else
        match out[0]? with
        | none => none
        | some newPos =>
          match edges.getEdges (newPos.1, !newPos.2) with
          | none => none
          | some back =>
            if back.length ≠ 1 then some (belongsToUnitig, unitig, coverage)
            else if newPos = start then some (belongsToUnitig, unitig, coverage)
            else
              match belongsToUnitig[newPos.1]? with
              | none => none
              | some true =>
                if newPos.1 = pos.1 ∧ newPos.2 ≠ pos.2 then
                  some (belongsToUnitig, unitig, coverage)
                else none
              | some false =>
                match hashlist.coverage[newPos.1]? with
                | none => none
                | some c =>
                  startUnitigLoop edges hashlist start fuel newPos
                    (belongsToUnitig.set newPos.1 true) (unitig ++ [newPos]) (coverage ++ [c])

/-- Source: the hash-level `startUnitig`. -/
def startUnitig (fuel : Nat) (result : UnitigGraph) (start : DirNode)
    (edges : SparseEdgeContainer) (belongsToUnitig : List Bool) (hashlist : HashList) :
    Option (UnitigGraph × List Bool) :=
  match belongsToUnitig[start.1]?, hashlist.coverage[start.1]? with
  | some belongs, some c =>
    if belongs then none
    else
      match startUnitigLoop edges hashlist start fuel start (belongsToUnitig.set start.1 true)
          [start] [c] with
      | none => none
      | some (b2, unitig, coverage) =>
        some ({ unitigs := result.unitigs ++ [unitig]
                unitigCoverage := result.unitigCoverage ++ [coverage]
                edges := result.edges.emplace_back []
                edgeCov := result.edgeCov.emplace_back [] }, b2)
  | _, _ => none

/-- The variables the loops of `getUnitigGraph` update. -/
structure UnitigState where
  result : UnitigGraph
  belongsToUnitig : List Bool
  unitigTip : List (DirNode × DirNode)
  deriving DecidableEq, Repr

/-- Source: a call of `startUnitig` in `getUnitigGraph` with the two `unitigTip` updates that
follow it. -/
def startUnitigAndTips (fuel : Nat) (edges : SparseEdgeContainer) (hashlist : HashList)
    (st : UnitigState) (start : DirNode) : Option UnitigState :=
  match startUnitig fuel st.result start edges st.belongsToUnitig hashlist with
  | none => none
  | some (r2, b2) =>
    match r2.unitigs.getLast? with
    | none => none
    | some unitig =>
      match unitig.getLast?, unitig.head? with
      | some last, some first =>
        let tips1 := mapSet st.unitigTip last (r2.unitigs.length - 1, true)
        let tips2 := mapSet tips1 (reverse first) (r2.unitigs.length - 1, false)
        some { result := r2, belongsToUnitig := b2, unitigTip := tips2 }
      | _, _ => none

/-- Source: the loops `for (auto edge : bwEdges)` and `for (auto edge : fwEdges)` of
`getUnitigGraph`. -/
def startNeighbours (fuel : Nat) (edges : SparseEdgeContainer) (hashlist : HashList)
    (minCoverage : Nat) : UnitigState → List DirNode → Option UnitigState
  | st, [] => some st
  | st, edge :: rest =>
    match st.belongsToUnitig[edge.1]? with
    | none => none
    | some true => startNeighbours fuel edges hashlist minCoverage st rest
    | some false =>
      match hashlist.coverage[edge.1]? with
      | none => none
      | some c =>
        if ¬ c ≥ minCoverage then none
        else
          match startUnitigAndTips fuel edges hashlist st edge with
          | none => none
          | some st2 => startNeighbours fuel edges hashlist minCoverage st2 rest

/-- Source: one side of the body of the first loop of `getUnitigGraph`: when `sideEdges` does
not hold exactly one edge, a unitig starts at `own` if the node is free, and at every free
neighbour. -/
def startSide (fuel : Nat) (edges : SparseEdgeContainer) (hashlist : HashList)
    (minCoverage : Nat) (i : Nat) (own : DirNode) (sideEdges : List DirNode)
    (st : UnitigState) : Option UnitigState :=
  if sideEdges.length ≠ 1 then
    match st.belongsToUnitig[i]? with
    | none => none
    | some belongs =>
      match (if belongs then some st else startUnitigAndTips fuel edges hashlist st own) with
      | none => none
      | some st1 => startNeighbours fuel edges hashlist minCoverage st1 sideEdges
  else some st

/-- Source: the first loop of `getUnitigGraph`, with `n` nodes left. -/
def branchLoop (fuel : Nat) (edges : SparseEdgeContainer) (hashlist : HashList)
    (minCoverage : Nat) : Nat → Nat → UnitigState → Option UnitigState
  | 0, _, st => some st
  | n + 1, i, st =>
    match hashlist.coverage[i]? with
    | none => none
    | some c =>
      if c < minCoverage then branchLoop fuel edges hashlist minCoverage n (i + 1) st
      else
        match edges.getEdges (i, true), edges.getEdges (i, false) with
        | some fwEdges, some bwEdges =>
          match startSide fuel edges hashlist minCoverage i (i, true) bwEdges st with
          | none => none
          | some st1 =>
            match startSide fuel edges hashlist minCoverage i (i, false) fwEdges st1 with
            | none => none
            | some st2 => branchLoop fuel edges hashlist minCoverage n (i + 1) st2
        | _, _ => none

/-- Source: the second loop of `getUnitigGraph`, over the nodes no unitig holds yet, with `n`
nodes left. -/
def cycleLoop (fuel : Nat) (edges : SparseEdgeContainer) (hashlist : HashList)
    (minCoverage : Nat) : Nat → Nat → UnitigState → Option UnitigState
  | 0, _, st => some st
  | n + 1, i, st =>
    match st.belongsToUnitig[i]?, hashlist.coverage[i]? with
    | some belongs, some c =>
      if belongs then cycleLoop fuel edges hashlist minCoverage n (i + 1) st
      else if c < minCoverage then cycleLoop fuel edges hashlist minCoverage n (i + 1) st
      else
        match edges.getEdges (i, true), edges.getEdges (i, false) with
        | some fwEdges, some bwEdges =>
          if ¬ fwEdges.length = 1 then none
          else if ¬ bwEdges.length = 1 then none
          else
            match startUnitigAndTips fuel edges hashlist st (i, true), bwEdges[0]? with
            | some st2, some bwFirst =>
              match st2.result.unitigs.getLast? with
              | none => none
              | some unitig =>
                if unitig.getLast? = some (reverse bwFirst) then
                  cycleLoop fuel edges hashlist minCoverage n (i + 1) st2
                else none
            | _, _ => none
        | _, _ => none
    | _, _ => none

/-- Source: the third loop of `getUnitigGraph`: every node with enough coverage is in a
unitig. -/
def allCoveredBelong (hashlist : HashList) (minCoverage : Nat) (belongsToUnitig : List Bool) :
    Bool :=
  (List.range hashlist.coverage.length).all (fun i =>
    match hashlist.coverage[i]?, belongsToUnitig[i]? with
    | some c, some belongs => decide (c < minCoverage) || belongs
    | _, _ => false)

/-- Source: inserting into one of the `unordered_set`s `result.edges[src]`. -/
def insertEdge (edges : VectorWithDirection (List DirNode)) (src dst : DirNode) :
    Option (VectorWithDirection (List DirNode)) :=
  match edges.get? src with
  | none => none
  | some out => if dst ∈ out then some edges else edges.set? src (out ++ [dst])

/-- Source: the body of `for (auto edge : edges[fromNode])` in the last loop of
`getUnitigGraph`. -/
def linkTip (hashlist : HashList) (minCoverage : Nat) (unitigTip : List (DirNode × DirNode))
    (fromNode fromUnitig : DirNode) : UnitigGraph → List DirNode → Option UnitigGraph
  | result, [] => some result
  | result, edge :: rest =>
    if ¬ mapCount unitigTip (reverse edge) = 1 then none
    else
      match mapFind unitigTip (reverse edge), hashlist.coverage[fromNode.1]?,
          hashlist.coverage[edge.1]?, hashlist.getEdgeCoverage fromNode edge with
      | some tip, some cFrom, some cTo, some ec =>
        let toUnitig := reverse tip
        if ¬ cFrom ≥ minCoverage then none
        else if ¬ cTo ≥ minCoverage then none
        else
          match insertEdge result.edges fromUnitig toUnitig with
          | none => none
          | some e1 =>
            match insertEdge e1 (reverse toUnitig) (reverse fromUnitig) with
            | none => none
            | some e2 =>
              let p := canon fromUnitig toUnitig
              match result.edgeCov.assign p.1 p.2 ec with
              | none => none
              | some cov =>
                linkTip hashlist minCoverage unitigTip fromNode fromUnitig
                  { result with edges := e2, edgeCov := cov } rest
      | _, _, _, _ => none

/-- Source: the last loop of `getUnitigGraph`, over the entries of `unitigTip`. -/
def linkTips (edges : SparseEdgeContainer) (hashlist : HashList) (minCoverage : Nat)
    (unitigTip : List (DirNode × DirNode)) :
    UnitigGraph → List (DirNode × DirNode) → Option UnitigGraph
  | result, [] => some result
  | result, tip :: rest =>
    match edges.getEdges tip.1 with
    | none => none
    | some out =>
      match linkTip hashlist minCoverage unitigTip tip.1 tip.2 result out with
      | none => none
      | some r2 => linkTips edges hashlist minCoverage unitigTip r2 rest

/-- Source: `getUnitigGraph`.  `order` and `tipOrder` give the orders in which the hash maps
are iterated; `fuel` bounds the rounds of each `startUnitig` call. -/
def getUnitigGraph (order : List (DirNode × Nat) → List (DirNode × Nat))
    (tipOrder : List (DirNode × DirNode) → List (DirNode × DirNode)) (fuel : Nat)
    (hashlist : HashList) (minCoverage : Nat) : Option UnitigGraph :=
  match getCoveredEdges order hashlist minCoverage with
  | none => none
  | some edges =>
    match branchLoop fuel edges hashlist minCoverage hashlist.coverage.length 0
        { result := UnitigGraph.empty
          belongsToUnitig := List.replicate hashlist.coverage.length false
          unitigTip := [] } with
    | none => none
    | some st1 =>
      match cycleLoop fuel edges hashlist minCoverage hashlist.coverage.length 0 st1 with
      | none => none
      | some st2 =>
        if ¬ allCoveredBelong hashlist minCoverage st2.belongsToUnitig then none
        else linkTips edges hashlist minCoverage st2.unitigTip st2.result (tipOrder st2.unitigTip)

/-! ## Predicates on consensus counts -/

/-- The entry of `complexCountsHere` built from a `complexCounts` pair. -/
def countTriple (e : (Nat × Nat) × Nat) : Nat × Nat × Nat := (e.1.1, e.1.2, e.2)

/-- The merged count of an expanded-string index at position `j`: its `complexCounts` value
(0 when the map has no such key) plus the count of the simple cell when the index is the
simple cell's index. -/
def mergedCount (simple : Nat × Nat) (complexCounts : List ((Nat × Nat) × Nat))
    (j index : Nat) : Nat :=
  (mapFind complexCounts (j, index)).getD 0 + (if index = simple.1 then simple.2 else 0)

/-- What `std::sort` with the comparator of `getSequences` guarantees about an arrangement of
the `complexCounts` entries: the same entries, positions in descending order. -/
def ArrangesByPosition (arrange : List ((Nat × Nat) × Nat) → List (Nat × Nat × Nat))
    (complexCounts : List ((Nat × Nat) × Nat)) : Prop :=
  (arrange complexCounts).Perm (complexCounts.map countTriple) ∧
    (arrange complexCounts).Pairwise (fun a b => b.1 ≤ a.1)

/-! ## Totals of the coverage counters -/

/-- The sum of the values of one edge map. -/
def mapSum (m : List (DirNode × Nat)) : Nat := (m.map Prod.snd).sum

/-- The sum of the values over all stored edges of the directed edge maps. -/
def EdgeMaps.total (maps : EdgeMaps) : Nat :=
  (maps.forward.map mapSum).sum + (maps.backward.map mapSum).sum

/-- The sum of the amounts of a pending edge list. -/
def amountSum (l : List (DirNode × DirNode × Nat)) : Nat := (l.map (fun t => t.2.2)).sum

/-- The coverage `cleanTransitiveEdges` puts on chain edges: the total of its list
`addEdgeCoverage` (0 when its first phase stops). -/
def reroutedCoverage (hash : List Nat → Nat)
    (order : List (DirNode × Nat) → List (DirNode × Nat)) (fuel : Nat) (result : HashList)
    (kmerSize : Nat) : Nat :=
  match TransitiveCleaner.make hash order kmerSize result with
  | none => 0
  | some cleaner =>
    match cleanNodesLoop order cleaner fuel result.edgeCoverage result.edgeCoverage.size 0
        { coverage := result.coverage, addEdgeCoverage := [], removeEdgeCoverage := [] } with
    | none => 0
    | some acc => amountSum acc.addEdgeCoverage

/-! ## More worked examples -/

/-- The hash list after ingesting only the first read of `exampleReads`: two nodes, `AGA` and
`AAA`, and no k-mer inside the bridging sequence of an edge is a node. -/
def exampleSingle : HashList :=
  { coverage := [1, 2]
    fakeFwHashes := [10286336846345556972, 13237172334983519564]
    fakeBwHashes := [17233003266504852374, 16044915670574423458]
    sequenceOverlap := { forward := [[((1, true), 1)], [((1, true), 2)]], backward := [[], []] }
    edgeCoverage := { forward := [[((1, true), 1)], [((1, true), 1)]], backward := [[], []] }
    hashToNode := [(166, 0, true), (239, 0, false), (156, 1, true), (249, 1, false)]
    hashCharacterLengths := { data := [[1, 1, 1, 1, 1]], lastHash := 156 }
    hashCharacterLengthPtr := [(0, 0), (0, 2)]
    hashSequences := { data := [[1, 3, 1, 1, 1]], lastHash := 156 }
    hashSeqPtr := [(0, 0), (0, 2)]
    hashSequencesRevComp := { data := [[4, 4, 4, 2, 4]], lastHash := 0 }
    kmerSize := 3 }

/-- The hash list after ingesting the read `GATCGCG` with `k = 3`, `w = 2`: node 0 is `GAT`
(read backwards: `ATC`), node 1 is `CGC` (backwards: `GCG`).  The read passes through
`GAT`, `ATC`, `CGC`, `GCG`, so both nodes carry a hairpin edge and every directed node has
exactly one outgoing edge. -/
def exampleHairpin : HashList :=
  { coverage := [2, 2]
    fakeFwHashes := [15026899868095529006, 13238535828240515124]
    fakeBwHashes := [10454750987389022768, 14113514427211577644]
    sequenceOverlap :=
      { forward := [[((0, false), 2)], [((1, false), 2)]], backward := [[((1, true), 1)], []] }
    edgeCoverage :=
      { forward := [[((0, false), 1)], [((1, false), 1)]], backward := [[((1, true), 1)], []] }
    hashToNode := [(209, 0, true), (172, 0, false), (192, 1, true), (213, 1, false)]
    hashCharacterLengths := { data := [[1, 1, 1], [1, 1, 1]], lastHash := 192 }
    hashCharacterLengthPtr := [(0, 0), (1, 0)]
    hashSequences := { data := [[3, 1, 4], [2, 3, 2]], lastHash := 192 }
    hashSeqPtr := [(0, 0), (1, 0)]
    hashSequencesRevComp := { data := [[1, 4, 2], [3, 2, 3]], lastHash := 0 }
    kmerSize := 3 }

/-- The codes of a read of 70 characters, `GGATCACAGT...`, for the scanner with `k = 64`. -/
def exampleLongRead : List Nat :=
  [3, 3, 1, 4, 2, 1, 2, 1, 3, 4, 2, 4, 1, 2, 1, 2, 4, 3, 2, 4, 2, 1, 2, 4,
    2, 2, 1, 1, 2, 2, 2, 2, 3, 3, 2, 2, 2, 2, 4, 3, 1, 3, 4, 2, 2, 3, 1, 3,
    3, 1, 3, 1, 3, 3, 3, 4, 3, 2, 4, 4, 2, 1, 3, 1, 3, 4, 1, 4, 3, 4]

/-- Two reads, `AGCAGCAGCTGG` and `AACCAGCTAACC`.  With `k = 5`, `w = 3` the first read joins
`GCAGC` (node 0) and `GCTGG` (node 1) by an edge; the second read makes `CAGCT` node 2, and
the bridging sequence `GCAGCTGG` of the edge passes through `CAGCT` and through its reverse
complement `AGCTG`. -/
def exampleTwiceReads : List (List Char) :=
  [['A', 'G', 'C', 'A', 'G', 'C', 'A', 'G', 'C', 'T', 'G', 'G'],
    ['A', 'A', 'C', 'C', 'A', 'G', 'C', 'T', 'A', 'A', 'C', 'C']]

/-- A hash list that holds the k-mers `GAT` (node 0) and `TCA` (node 1) of the sequence
`GATCA`, joined by an edge of overlap 1 and coverage 1, as the callback of
`loadReadsAsHashes` builds it when it is called at the positions 0 and 2 of that sequence
(`k = 3`).  The bridging sequence of the edge passes through `ATC`, the reverse complement
of `GAT`.  The scanner itself emits position 1 of this sequence as well, so this is a value
of the data structure rather than the hash list of a read. -/
def exampleThroughStart : HashList :=
  { coverage := [1, 1]
    fakeFwHashes := [15026899868095529006, 18084590698275750836]
    fakeBwHashes := [10454750987389022768, 15689030131171545956]
    sequenceOverlap := { forward := [[((1, true), 1)], []], backward := [[], []] }
    edgeCoverage := { forward := [[((1, true), 1)], []], backward := [[], []] }
    hashToNode := [(209, 0, true), (172, 0, false), (236, 1, true), (241, 1, false)]
    hashCharacterLengths := { data := [[1, 1, 1, 1, 1]], lastHash := 236 }
    hashCharacterLengthPtr := [(0, 0), (0, 2)]
    hashSequences := { data := [[3, 1, 4, 2, 1]], lastHash := 236 }
    hashSeqPtr := [(0, 0), (0, 2)]
    hashSequencesRevComp := { data := [[4, 3, 1, 4, 2]], lastHash := 0 }
    kmerSize := 3 }

/-- The covered edges of `exampleHairpin` for `minCoverage = 1`. -/
def exampleHairpinEdges : SparseEdgeContainer :=
  { firstEdge := { forward := [(0, false), (1, false)], backward := [(1, true), (0, true)] }
    extraEdges := [] }

/-! ## Predicates on coverage counters -/

/-- Every stored edge coverage is at most the coverage of both end nodes of its edge. -/
def HashList.EdgesWithinCoverage (list : HashList) : Prop :=
  ∀ (a : DirNode) (m : List (DirNode × Nat)) (b : DirNode) (v : Nat),
    list.edgeCoverage.get? a = some m → (b, v) ∈ m →
    ∃ ca cb, list.coverage[a.1]? = some ca ∧ list.coverage[b.1]? = some cb ∧
      v ≤ min ca cb

/-- The invariant of the ingestion callback between two emissions of a read: every edge
coverage is at most the coverage of both end nodes, with one to spare at the side of the
edge that the last emitted node `last` can still extend; `last` has been counted; and no
coverage exceeds `B`. -/
def CoverageInv (B : Nat) (coverage : List Nat) (edgeCoverage : EdgeMaps) (last : DirNode) :
    Prop :=
  (∀ (a : DirNode) (m : List (DirNode × Nat)) (b : DirNode) (v : Nat),
      edgeCoverage.get? a = some m → (b, v) ∈ m →
      ∃ ca cb, coverage[a.1]? = some ca ∧ coverage[b.1]? = some cb ∧
        v + (if last = a ∧ last.1 ≠ sizeMax then 1 else 0) ≤ ca ∧
        v + (if last = reverse b ∧ last.1 ≠ sizeMax then 1 else 0) ≤ cb) ∧
    (last.1 ≠ sizeMax → ∃ c, coverage[last.1]? = some c ∧ 1 ≤ c) ∧
    ∀ (i c : Nat), coverage[i]? = some c → c ≤ B

/-! ## Reading single counters -/

/-- The value stored for the edge `(src, dst)`, 0 when there is none. -/
def EdgeMaps.valueAt (maps : EdgeMaps) (src dst : DirNode) : Nat :=
  match maps.get? src with
  | none => 0
  | some m => (mapFind m dst).getD 0

/-- The canonical edges of a chain of nodes, each with the amount `c`: the entries
`cleanTransitiveEdges` appends to `addEdgeCoverage` for the chain. -/
def chainEdges (vec : List DirNode) (c : Nat) : List (DirNode × DirNode × Nat) :=
  (vec.zip vec.tail).map (fun e => ((canon e.1 e.2).1, (canon e.1 e.2).2, c))


/-- The chains that `TransitiveCleaner.make` finds in the worked example: the edge from node 0
to node 1 goes through node 2. -/
def exampleCleaner : TransitiveCleaner :=
  { newSequenceOverlaps := [((0, true), (2, true), 2), ((1, false), (2, false), 2)]
    transitiveMiddle :=
      { forward := [[((1, true), [(2, true)])], [], []]
        backward := [[], [], []] } }

/-! ## One read and its reverse complement

The hash list that the ingestion of one read builds is described by the positions the scanner
emits: a node per k-mer (either strand), its coverage the number of emissions of the k-mer,
and the coverage of a canonical edge the number of consecutive emissions less than `k` apart
that the edge joins. -/

/-- The k-mer of `seq` at position `p`, the `string_view` the callback takes. -/
def kmerAt (seq : List Nat) (k p : Nat) : List Nat := (seq.drop p).take k

/-- The node that `hashToNode` holds for the k-mer at position `p`; the null node of
`getNodeOrNull` when there is none. -/
def nodeAt (hash : List Nat → Nat) (htn : List (Nat × DirNode)) (seq : List Nat) (k p : Nat) :
    DirNode :=
  (mapFind htn (hash (kmerAt seq k p))).getD (sizeMax, true)

/-- Consecutive pairs of a list of positions. -/
def adjacentPairs (l : List Nat) : List (Nat × Nat) := l.zip l.tail

/-- The number of consecutive positions in `seen`, less than `k` apart, whose k-mers are
joined by the canonical edge `(a, b)`. -/
def edgeCount (hash : List Nat → Nat) (htn : List (Nat × DirNode)) (seq : List Nat) (k : Nat)
    (seen : List Nat) (a b : DirNode) : Nat :=
  ((adjacentPairs seen).filter (fun e => decide (e.2 - e.1 < k ∧
    canon (nodeAt hash htn seq k e.1) (nodeAt hash htn seq k e.2) = (a, b)))).length

/-- Reading an entry of the directed edge maps; `none` when the key is absent. -/
def EdgeMaps.findAt (maps : EdgeMaps) (src dst : DirNode) : Option Nat :=
  match maps.get? src with
  | none => none
  | some m => mapFind m dst

/-- Source: the body of the loop over `j` that `writeGraph` and `getSizeAndN50` share: the
expanded sequence node `dst` adds to its unitig.  `fwd` is the outcome of the caller's
orientation test and `prev` the node before `dst` in the unitig (`none` when `j = 0`). -/
def unitigPiece (hashlist : HashList) (fwd : Bool) (prev : Option DirNode) (dst : DirNode) :
    Option (List Char) :=
  match hashlist.getHashCharacterLength dst.1 with
  | none => none
  | some lens =>
    match (if fwd then hashlist.getHashSequenceRLE dst.1
      else hashlist.getRevCompHashSequenceRLE dst.1) with
    | none => none
    | some sequenceRLE =>
      let sequenceCharacterLength := if fwd then lens else lens.reverse
      match prev with
      | none => getSequence sequenceRLE sequenceCharacterLength
      | some src =>
        match hashlist.getOverlap src dst with
        | none => none
        | some overlap =>
          if ¬ overlap < sequenceRLE.length then none
          else getSequence (sequenceRLE.drop overlap) (sequenceCharacterLength.drop overlap)

/-- Source: the loop over `j` in `writeGraph`, which tests `to.second`: the sequence written
on the `S` line of a unitig. -/
def writeGraphLoop (hashlist : HashList) : Option DirNode → List DirNode → Option (List Char)
  | _, [] => some []
  | prev, dst :: rest =>
    match unitigPiece hashlist dst.2 prev dst with
    | none => none
    | some sequence =>
      match writeGraphLoop hashlist (some dst) rest with
      | none => none
      | some more => some (sequence ++ more)

/-- Source: the `S` lines of `writeGraph`: the sequence of every unitig, in order. -/
def writeGraph (unitigs : UnitigGraph) (hashlist : HashList) : Option (List (List Char)) :=
  unitigs.unitigs.mapM (writeGraphLoop hashlist none)

/-- Source: the loop over `j` in `getSizeAndN50`, which tests `to.first`: the `size_t` local
`length` of a unitig. -/
def sizeLoop (hashlist : HashList) : Option DirNode → List DirNode → Nat → Option Nat
  | _, [], length => some length
  | prev, dst :: rest, length =>
    match unitigPiece hashlist (decide (dst.1 ≠ 0)) prev dst with
    | none => none
    | some sequence => sizeLoop hashlist (some dst) rest ((length + sequence.length) % 2 ^ 64)

/-- Source: the loop over the unitigs in `getSizeAndN50`: the `size_t` local `total`. -/
def sizeTotalLoop (hashlist : HashList) : List (List DirNode) → Nat → Option Nat
  | [], total => some total
  | unitig :: rest, total =>
    match sizeLoop hashlist none unitig 0 with
    | none => none
    | some length => sizeTotalLoop hashlist rest ((total + length) % 2 ^ 64)

/-- Source: the first component of the pair `getSizeAndN50` returns, the total assembly
size.  Every `return` of the function gives `total` as the first component. -/
def getSizeAndN50 (hashlist : HashList) (graph : UnitigGraph) : Option Nat :=
  sizeTotalLoop hashlist graph.unitigs 0

/-- Source: `runMBG` up to the unitig graph it writes, for a unitig coverage threshold that
does not exceed `minCoverage` (the filtering step is then skipped): the hash list after
cleaning and the unitig graph. -/
def runMBG (hash : List Nat → Nat) (order : List (DirNode × Nat) → List (DirNode × Nat))
    (tipOrder : List (DirNode × DirNode) → List (DirNode × DirNode)) (fuel : Nat)
    (inputReads : List (List Char)) (kmerSize windowSize minCoverage : Nat) (hpc : Bool) :
    Option (HashList × UnitigGraph) :=
  match loadReadsAsHashes hash inputReads kmerSize windowSize hpc with
  | none => none
  | some loaded =>
    match cleanTransitiveEdges hash order fuel loaded kmerSize with
    | none => none
    | some reads =>
      match getUnitigGraph order tipOrder fuel reads minCoverage with
      | none => none
      | some unitigs => some (reads, unitigs)

/-! ## Call sequences on the sparse edge container -/

/-- A sequence of `addEdge` calls on a container, in order; each call is the pair
`(from, to)` of its arguments. -/
def addEdgeCalls : SparseEdgeContainer → List (DirNode × DirNode) → Option SparseEdgeContainer
  | c, [] => some c
  | c, call :: rest =>
    match c.addEdge call.1 call.2 with
    | none => none
    | some c2 => addEdgeCalls c2 rest

/-- What a `SparseEdgeContainer` of `size` nodes holds after the calls `calls`: every source
inside the container has a first edge, which is the sentinel exactly when no call named the
source, and otherwise the extra edges of the source are the targets other than the first
one. -/
structure SparseInv (size : Nat) (c : SparseEdgeContainer) (calls : List (DirNode × DirNode)) :
    Prop where
  forwardLength : c.firstEdge.forward.length = size
  backwardLength : c.firstEdge.backward.length = size
  first : ∀ src : DirNode, src.1 < size → ∃ f, c.firstEdge.get? src = some f ∧
    (f.1 = sizeMax → mapFind c.extraEdges src = none ∧ ∀ t, (src, t) ∉ calls) ∧
    (f.1 ≠ sizeMax → (src, f) ∈ calls ∧
      (mapFind c.extraEdges src = none → ∀ t, (src, t) ∈ calls → t = f) ∧
      (∀ extra, mapFind c.extraEdges src = some extra →
        extra ≠ [] ∧ ∀ t, t ∈ extra ↔ ((src, t) ∈ calls ∧ t ≠ f)))

/-! ## The calls `getCoveredEdges` makes -/

/-- The `addEdge` calls of `coveredEdgesFrom`: two for every edge with enough coverage. -/
def callsFrom (minCoverage : Nat) (src : DirNode) (l : List (DirNode × Nat)) :
    List (DirNode × DirNode) :=
  l.flatMap (fun edge =>
    if edge.2 < minCoverage then [] else [(src, edge.1), (reverse edge.1, reverse src)])

/-- The `addEdge` calls of `coveredEdgesLoop` over `n` nodes from node `i` on. -/
def loopCalls (order : List (DirNode × Nat) → List (DirNode × Nat)) (hashlist : HashList)
    (minCoverage : Nat) : Nat → Nat → List (DirNode × DirNode)
  | 0, _ => []
  | n + 1, i =>
    callsFrom minCoverage (i, true) (order ((hashlist.edgeCoverage.get? (i, true)).getD [])) ++
      (callsFrom minCoverage (i, false)
          (order ((hashlist.edgeCoverage.get? (i, false)).getD [])) ++
        loopCalls order hashlist minCoverage n (i + 1))

/-- The edge from `src` to `dst` is stored in `edgeCoverage` with a value of at least
`minCoverage`. -/
def HashList.Covered (list : HashList) (minCoverage : Nat) (src dst : DirNode) : Prop :=
  ∃ m v, list.edgeCoverage.get? src = some m ∧ (dst, v) ∈ m ∧ minCoverage ≤ v

/-- The hash list has an edge map for every node on both sides, every stored edge leads to a
node, and the number of nodes is a `size_t` below the sentinel. -/
structure HashList.EdgesInside (list : HashList) : Prop where
  forwardLength : list.edgeCoverage.forward.length = list.coverage.length
  backwardLength : list.edgeCoverage.backward.length = list.coverage.length
  inside : ∀ (a : DirNode) (m : List (DirNode × Nat)) (b : DirNode) (v : Nat),
    list.edgeCoverage.get? a = some m → (b, v) ∈ m → b.1 < list.coverage.length
  sizeBound : list.coverage.length ≤ sizeMax

/-- The adjacency lists `dst` under `src` exactly when it lists `reverse src` under
`reverse dst`. -/
def SparseEdgeContainer.Symmetric (c : SparseEdgeContainer) : Prop :=
  ∀ (src dst : DirNode) (out : List DirNode), c.getEdges src = some out → dst ∈ out →
    ∃ back, c.getEdges (reverse dst) = some back ∧ reverse src ∈ back

/-- A unitig has no internal branch in the adjacency `edges`: of every two consecutive nodes
`a`, `b` of its list, `b` is the only out-neighbour of `a` and `reverse a` the only
out-neighbour of `reverse b`. -/
def NoBranch (edges : SparseEdgeContainer) (unitig : List DirNode) : Prop :=
  ∀ p ∈ unitig.zip unitig.tail,
    edges.getEdges p.1 = some [p.2] ∧ edges.getEdges (reverse p.2) = some [reverse p.1]

/-! ## Worked examples with homopolymer compression -/

/-- The read `AAACCCGGGAAATTT`: its run-length encoding `ACGAT` has five codes, each with run
length 3. -/
def exampleCollapsedRead : List Char :=
  ['A', 'A', 'A', 'C', 'C', 'C', 'G', 'G', 'G', 'A', 'A', 'A', 'T', 'T', 'T']

/-- The hash list after ingesting `exampleCollapsedRead` with `k = 3`, `w = 1` and homopolymer
compression: the nodes `ACG`, `CGA`, `GAT` in a chain. -/
def exampleCollapsed : HashList :=
  { coverage := [1, 1, 1]
    fakeFwHashes := [12770611038996358252, 13447889255349677836, 15026899868095529006]
    fakeBwHashes := [12645600061775720238, 16591430418203305188, 10454750987389022768]
    sequenceOverlap :=
      { forward := [[((1, true), 2)], [((2, true), 2)], []], backward := [[], [], []] }
    edgeCoverage :=
      { forward := [[((1, true), 1)], [((2, true), 1)], []], backward := [[], [], []] }
    hashToNode :=
      [(163, 0, true), (194, 0, false), (191, 1, true), (238, 1, false), (209, 2, true),
        (172, 2, false)]
    hashCharacterLengths := { data := [[3, 3, 3, 3, 3]], lastHash := 209 }
    hashCharacterLengthPtr := [(0, 0), (0, 1), (0, 2)]
    hashSequences := { data := [[1, 2, 3, 1, 4]], lastHash := 209 }
    hashSeqPtr := [(0, 0), (0, 1), (0, 2)]
    hashSequencesRevComp := { data := [[1, 4, 2, 3, 4]], lastHash := 0 }
    kmerSize := 3 }

/-- The covered edges of `exampleCollapsed` for `minCoverage = 1`. -/
def exampleCollapsedEdges : SparseEdgeContainer :=
  { firstEdge :=
      { forward := [(1, true), (2, true), (sizeMax, false)]
        backward := [(sizeMax, false), (0, false), (1, false)] }
    extraEdges := [] }

/-- The unitig graph of `exampleCollapsed` for `minCoverage = 1`: one unitig of three
nodes. -/
def exampleCollapsedGraph : UnitigGraph :=
  { unitigs := [[(0, true), (1, true), (2, true)]]
    unitigCoverage := [[1, 1, 1]]
    edges := { forward := [[]], backward := [[]] }
    edgeCov := { forward := [[]], backward := [[]] } }

/-- The read `AACGTA`: its run-length encoding is `ACGTA` with run lengths 2, 1, 1, 1, 1. -/
def exampleSizeRead : List Char := ['A', 'A', 'C', 'G', 'T', 'A']

/-- The hash list after ingesting `exampleSizeRead` with `k = 3`, `w = 1` and homopolymer
compression: node 0 is `ACG` with run lengths 2, 1, 1 (read backwards it is `CGT`, the second
k-mer of the read), node 1 is `GTA`. -/
def exampleSizeList : HashList :=
  { coverage := [2, 1]
    fakeFwHashes := [12770611038996358252, 17215452794964541512]
    fakeBwHashes := [12645600061775720238, 17136496986764423932]
    sequenceOverlap :=
      { forward := [[((0, false), 2)], []], backward := [[((1, true), 2)], []] }
    edgeCoverage :=
      { forward := [[((0, false), 1)], []], backward := [[((1, true), 1)], []] }
    hashToNode := [(163, 0, true), (194, 0, false), (221, 1, true), (232, 1, false)]
    hashCharacterLengths := { data := [[2, 1, 1], [1, 1, 1]], lastHash := 221 }
    hashCharacterLengthPtr := [(0, 0), (1, 0)]
    hashSequences := { data := [[1, 2, 3], [3, 4, 1]], lastHash := 221 }
    hashSeqPtr := [(0, 0), (1, 0)]
    hashSequencesRevComp := { data := [[2, 3, 4], [4, 1, 2]], lastHash := 0 }
    kmerSize := 3 }

/-- The unitig graph of `exampleSizeList` for `minCoverage = 1`: one unitig, node 1 backwards
followed by node 0 forwards, with the hairpin edge of node 0 as a self-loop. -/
def exampleSizeGraph : UnitigGraph :=
  { unitigs := [[(1, false), (0, true)]]
    unitigCoverage := [[1, 2]]
    edges := { forward := [[(0, false)]], backward := [[]] }
    edgeCov := { forward := [[((0, false), 1)]], backward := [[]] } }

/-! ## Unitigs of unitigs (`MBG.cpp`, lines 981-985 and 1081-1143 and 1386-1466)

An `unordered_set` of directed nodes is a list without repetitions; `setOrder` gives the
order in which such a set is iterated. -/

/-- Source: the `const` overload of `UnitigGraph::edgeCoverage`, `edgeCov[from].at(to)` at the
canonical key; an absent key is outside the map (`none`). -/
def UnitigGraph.edgeCoverage (g : UnitigGraph) (src dst : DirNode) : Option Nat :=
  let p := canon src dst
  match g.edgeCov.get? p.1 with
  | none => none
  | some m => mapFind m p.2

/-- Source: an assignment through the non-`const` overload of `UnitigGraph::edgeCoverage`. -/
def UnitigGraph.setEdgeCoverage (g : UnitigGraph) (src dst : DirNode) (value : Nat) :
    Option UnitigGraph :=
  let p := canon src dst
  match g.edgeCov.assign p.1 p.2 value with
  | none => none
  | some cov => some { g with edgeCov := cov }

/-- Source: the two branches of the unitig-level `startUnitig` that read the old unitig at
`pos`: as it is for a forward position; from its last node to its first with every
orientation flipped, and the coverage entries at the same indices, otherwise. -/
def orientedUnitig (old : UnitigGraph) (pos : DirNode) : Option (List DirNode × List Nat) :=
  match old.unitigs[pos.1]?, old.unitigCoverage[pos.1]? with
  | some nodes, some coverage =>
    if pos.2 then some (nodes, coverage)
    else if nodes.length ≤ coverage.length then
      some (nodes.reverse.map (fun node => (node.1, !node.2)),
        (coverage.take nodes.length).reverse)
    else none
  | _, _ => none

/-- Source: appending to `result.unitigs.back()` and `result.unitigCoverage.back()`. -/
def appendToBack (result : UnitigGraph) (piece : List DirNode × List Nat) :
    Option UnitigGraph :=
  match result.unitigs.getLast?, result.unitigCoverage.getLast? with
  | some unitig, some coverage =>
    some { result with
      unitigs := result.unitigs.dropLast ++ [unitig ++ piece.1]
      unitigCoverage := result.unitigCoverage.dropLast ++ [coverage ++ piece.2] }
  | _, _ => none

/-- Source: the two statements that record a self-edge of the unitig under construction, from
`src` to `dst`, with the coverage of the old edge from `pos` to `newPos`. -/
def addSelfEdge (result old : UnitigGraph) (src dst pos newPos : DirNode) :
    Option UnitigGraph :=
  match insertEdge result.edges src dst, old.edgeCoverage pos newPos with
  | some e, some c => UnitigGraph.setEdgeCoverage { result with edges := e } src dst c
  | _, _ => none

/-- Source: the `while (true)` loop of the unitig-level `startUnitig`; `none` when an
assertion fails, an index leaves its container, or `fuel` rounds do not finish the loop. -/
def Unitigs.startUnitigLoop (old : UnitigGraph) (edges : VectorWithDirection (List DirNode))
    (start : DirNode) (currentUnitig : Nat) :
    Nat → DirNode → UnitigGraph → List DirNode → Option (UnitigGraph × List DirNode)
  | 0, _, _, _ => none
  | fuel + 1, pos, result, belongsToUnitig =>
    match edges.get? pos with
    | none => none
    | some out =>
      if out.length ≠ 1 then some (result, belongsToUnitig)
      else
        match out[0]? with
        | none => none
        | some newPos =>
          match edges.get? (newPos.1, !newPos.2) with
          | none => none
          | some back =>
            if back.length ≠ 1 then some (result, belongsToUnitig)
            else if newPos = start then
              match addSelfEdge result old (currentUnitig, true) (currentUnitig, true) pos
                  newPos with
              | none => none
              | some r2 => some (r2, belongsToUnitig)
            else
              match belongsToUnitig[newPos.1]?, belongsToUnitig[pos.1]? with
              | some owner, some own =>
                if owner.1 ≠ sizeMax then
                  if ¬ newPos.1 = pos.1 then none
                  else if ¬ newPos.2 ≠ pos.2 then none
                  else if ¬ owner.1 = currentUnitig then none
                  else if ¬ owner.2 ≠ newPos.2 then none
                  else
                    match addSelfEdge result old (currentUnitig, own.2) (currentUnitig, !own.2)
                        pos newPos with
                    | none => none
                    | some r2 => some (r2, belongsToUnitig)
                else
                  match orientedUnitig old newPos with
                  | none => none
                  | some piece =>
                    match appendToBack result piece with
                    | none => none
                    | some r2 =>
                      Unitigs.startUnitigLoop old edges start currentUnitig fuel newPos r2
                        (belongsToUnitig.set newPos.1 (currentUnitig, newPos.2))
              | _, _ => none

/-- Source: the unitig-level `startUnitig`. -/
def Unitigs.startUnitig (fuel : Nat) (result old : UnitigGraph) (start : DirNode)
    (edges : VectorWithDirection (List DirNode)) (belongsToUnitig : List DirNode) :
    Option (UnitigGraph × List DirNode) :=
  let currentUnitig := result.unitigs.length
  let r0 : UnitigGraph :=
    { unitigs := result.unitigs ++ [[]]
      unitigCoverage := result.unitigCoverage ++ [[]]
      edges := result.edges.emplace_back []
      edgeCov := result.edgeCov.emplace_back [] }
  match belongsToUnitig[start.1]? with
  | none => none
  | some owner =>
    if ¬ owner.1 = sizeMax then none
    else
      match orientedUnitig old start with
      | none => none
      | some piece =>
        match appendToBack r0 piece with
        | none => none
        | some r1 =>
          Unitigs.startUnitigLoop old edges start currentUnitig fuel start r1
            (belongsToUnitig.set start.1 (currentUnitig, start.2))

/-- Source: the body of the two inner loops that fill `edges` in `getUnitigs`: every old edge
is entered in both directions. -/
def addBothWays (src : DirNode) :
    VectorWithDirection (List DirNode) → List DirNode →
      Option (VectorWithDirection (List DirNode))
  | edges, [] => some edges
  | edges, dst :: rest =>
    match insertEdge edges src dst with
    | none => none
    | some e1 =>
      match insertEdge e1 (reverse dst) (reverse src) with
      | none => none
      | some e2 => addBothWays src e2 rest

/-- Source: the loop that fills `edges` in `getUnitigs`, with `n` nodes left. -/
def symmetricEdgesLoop (setOrder : List DirNode → List DirNode) (oldgraph : UnitigGraph) :
    Nat → Nat → VectorWithDirection (List DirNode) →
      Option (VectorWithDirection (List DirNode))
  | 0, _, edges => some edges
  | n + 1, i, edges =>
    match oldgraph.edges.get? (i, true), oldgraph.edges.get? (i, false) with
    | some fwEdges, some bwEdges =>
      match addBothWays (i, true) edges (setOrder fwEdges) with
      | none => none
      | some e1 =>
        match addBothWays (i, false) e1 (setOrder bwEdges) with
        | none => none
        | some e2 => symmetricEdgesLoop setOrder oldgraph n (i + 1) e2
    | _, _ => none

/-- Source: `for (auto start : edges.at(...))` in the first loop of `getUnitigs`: a unitig
starts at every neighbour that is in none yet. -/
def Unitigs.startNeighbours (fuel : Nat) (oldgraph : UnitigGraph)
    (edges : VectorWithDirection (List DirNode)) :
    UnitigGraph × List DirNode → List DirNode → Option (UnitigGraph × List DirNode)
  | st, [] => some st
  | st, start :: rest =>
    match st.2[start.1]? with
    | none => none
    | some owner =>
      if owner.1 ≠ sizeMax then Unitigs.startNeighbours fuel oldgraph edges st rest
      else
        match Unitigs.startUnitig fuel st.1 oldgraph start edges st.2 with
        | none => none
        | some st2 => Unitigs.startNeighbours fuel oldgraph edges st2 rest

/-- Source: one of the two `if (edges.at(side).size() != 1)` blocks of the first loop of
`getUnitigs`; `other` is the opposite side of the node. -/
def Unitigs.startSide (setOrder : List DirNode → List DirNode) (fuel : Nat)
    (oldgraph : UnitigGraph) (edges : VectorWithDirection (List DirNode)) (node : Nat)
    (side other : DirNode) (st : UnitigGraph × List DirNode) :
    Option (UnitigGraph × List DirNode) :=
  match edges.get? side with
  | none => none
  | some out =>
    if out.length ≠ 1 then
      match Unitigs.startNeighbours fuel oldgraph edges st (setOrder out) with
      | none => none
      | some st1 =>
        match st1.2[node]? with
        | none => none
        | some owner =>
          if owner.1 = sizeMax then Unitigs.startUnitig fuel st1.1 oldgraph other edges st1.2
          else some st1
    else some st

/-- Source: the first loop over the nodes in `getUnitigs`, with `n` nodes left. -/
def Unitigs.branchLoop (setOrder : List DirNode → List DirNode) (fuel : Nat)
    (oldgraph : UnitigGraph) (edges : VectorWithDirection (List DirNode)) :
    Nat → Nat → UnitigGraph × List DirNode → Option (UnitigGraph × List DirNode)
  | 0, _, st => some st
  | n + 1, node, st =>
    match Unitigs.startSide setOrder fuel oldgraph edges node (node, true) (node, false) st with
    | none => none
    | some st1 =>
      match Unitigs.startSide setOrder fuel oldgraph edges node (node, false) (node, true)
          st1 with
      | none => none
      | some st2 => Unitigs.branchLoop setOrder fuel oldgraph edges n (node + 1) st2

/-- Source: the second loop over the nodes in `getUnitigs`, with `n` nodes left. -/
def Unitigs.cycleLoop (fuel : Nat) (oldgraph : UnitigGraph)
    (edges : VectorWithDirection (List DirNode)) :
    Nat → Nat → UnitigGraph × List DirNode → Option (UnitigGraph × List DirNode)
  | 0, _, st => some st
  | n + 1, node, st =>
    match st.2[node]? with
    | none => none
    | some owner =>
      if owner.1 = sizeMax then
        match Unitigs.startUnitig fuel st.1 oldgraph (node, true) edges st.2 with
        | none => none
        | some st2 => Unitigs.cycleLoop fuel oldgraph edges n (node + 1) st2
      else Unitigs.cycleLoop fuel oldgraph edges n (node + 1) st

/-- Source: the body of the two inner loops of the last loop of `getUnitigs`, over the old
edges leaving `src`. -/
def Unitigs.linkEdges (oldgraph : UnitigGraph) (belongsToUnitig : List DirNode)
    (src : DirNode) : UnitigGraph → List DirNode → Option UnitigGraph
  | result, [] => some result
  | result, curr :: rest =>
    match belongsToUnitig[src.1]?, belongsToUnitig[curr.1]? with
    | some srcOwner, some dstOwner =>
      if srcOwner.1 = dstOwner.1 then
        Unitigs.linkEdges oldgraph belongsToUnitig src result rest
      else
        let srcNew : DirNode := (srcOwner.1, !(xor srcOwner.2 src.2))
        let dstNew : DirNode := (dstOwner.1, !(xor dstOwner.2 curr.2))
        match insertEdge result.edges srcNew dstNew, oldgraph.edgeCoverage src curr with
        | some e, some c =>
          match UnitigGraph.setEdgeCoverage { result with edges := e } srcNew dstNew c with
          | none => none
          | some r2 => Unitigs.linkEdges oldgraph belongsToUnitig src r2 rest
        | _, _ => none
    | _, _ => none

/-- Source: the last loop of `getUnitigs`, with `n` nodes left. -/
def Unitigs.linkLoop (setOrder : List DirNode → List DirNode) (oldgraph : UnitigGraph)
    (belongsToUnitig : List DirNode) : Nat → Nat → UnitigGraph → Option UnitigGraph
  | 0, _, result => some result
  | n + 1, i, result =>
    match oldgraph.edges.get? (i, true), oldgraph.edges.get? (i, false) with
    | some fwEdges, some bwEdges =>
      match Unitigs.linkEdges oldgraph belongsToUnitig (i, true) result (setOrder fwEdges) with
      | none => none
      | some r1 =>
        match Unitigs.linkEdges oldgraph belongsToUnitig (i, false) r1 (setOrder bwEdges) with
        | none => none
        | some r2 => Unitigs.linkLoop setOrder oldgraph belongsToUnitig n (i + 1) r2
    | _, _ => none

/-- Source: `getUnitigs`.  `fuel` bounds the rounds of each `startUnitig` call. -/
def getUnitigs (setOrder : List DirNode → List DirNode) (fuel : Nat) (oldgraph : UnitigGraph) :
    Option UnitigGraph :=
  match symmetricEdgesLoop setOrder oldgraph oldgraph.edges.size 0
      (VectorWithDirection.filled oldgraph.unitigs.length []) with
  | none => none
  | some edges =>
    match Unitigs.branchLoop setOrder fuel oldgraph edges oldgraph.unitigs.length 0
        (UnitigGraph.empty, List.replicate oldgraph.unitigs.length (sizeMax, true)) with
    | none => none
    | some st1 =>
      match Unitigs.cycleLoop fuel oldgraph edges oldgraph.unitigs.length 0 st1 with
      | none => none
      | some st2 => Unitigs.linkLoop setOrder oldgraph st2.2 oldgraph.edges.size 0 st2.1

/-- The edges of a unitig graph are symmetric: `dst` is listed under `src` exactly when
`reverse src` is listed under `reverse dst`. -/
def UnitigGraph.SymmetricEdges (g : UnitigGraph) : Prop :=
  ∀ (src dst : DirNode) (out : List DirNode), g.edges.get? src = some out → dst ∈ out →
    ∃ back, g.edges.get? (reverse dst) = some back ∧ reverse src ∈ back

/-- A unitig graph of two single-node unitigs in which every side has exactly one edge:
`0+ → 0-`, `0- → 1-`, `1- → 1+`, `1+ → 0+`, a cycle through the hairpins of both. -/
def exampleTwoHairpins : UnitigGraph :=
  { unitigs := [[(0, true)], [(1, true)]]
    unitigCoverage := [[2], [2]]
    edges := { forward := [[(0, false)], [(0, true)]], backward := [[(1, false)], [(1, true)]] }
    edgeCov :=
      { forward := [[((0, false), 1)], []]
        backward := [[((1, false), 1)], [((1, true), 1)]] } }

/-- The same cycle with unitig 1 stored in the other orientation:
`0+ → 0-`, `0- → 1+`, `1+ → 1-`, `1- → 0+`. -/
def exampleTwoHairpinsTurned : UnitigGraph :=
  { unitigs := [[(0, true)], [(1, false)]]
    unitigCoverage := [[2], [2]]
    edges := { forward := [[(0, false)], [(1, false)]], backward := [[(1, true)], [(0, true)]] }
    edgeCov :=
      { forward := [[((0, false), 1)], [((1, false), 1)]]
        backward := [[((1, true), 1)], []] } }

/-- Source: the first loop of `UnitigGraph::filterNodes`: the vector `newIndex`, from
`nextIndex` on. -/
def newIndexLoop : List Bool → Nat → List Nat
  | [], _ => []
  | keep :: rest, nextIndex =>
    if keep then nextIndex :: newIndexLoop rest (nextIndex + 1)
    else sizeMax :: newIndexLoop rest nextIndex

/-- Source: the loops `for (auto to : edges[...])` of `UnitigGraph::filterNodes`: the kept
targets under their new indices, entered into the set `out`. -/
def filterTargets (newIndex : List Nat) : List DirNode → List DirNode → Option (List DirNode)
  | out, [] => some out
  | out, dst :: rest =>
    match newIndex[dst.1]? with
    | none => none
    | some j =>
      if j = sizeMax then filterTargets newIndex out rest
      else if (j, dst.2) ∈ out then filterTargets newIndex out rest
      else filterTargets newIndex (out ++ [(j, dst.2)]) rest

/-- Source: the loops `for (auto pair : edgeCov[...])` of `UnitigGraph::filterNodes`. -/
def filterCoverages (newIndex : List Nat) :
    List (DirNode × Nat) → List (DirNode × Nat) → Option (List (DirNode × Nat))
  | out, [] => some out
  | out, pair :: rest =>
    match newIndex[pair.1.1]? with
    | none => none
    | some j =>
      if j = sizeMax then filterCoverages newIndex out rest
      else filterCoverages newIndex (mapSet out (j, pair.1.2) pair.2) rest

/-- Source: the second loop of `UnitigGraph::filterNodes`, with `n` unitigs left. -/
def filterNodesLoop (setOrder : List DirNode → List DirNode)
    (order : List (DirNode × Nat) → List (DirNode × Nat)) (g : UnitigGraph)
    (newIndex : List Nat) : Nat → Nat → UnitigGraph → Option UnitigGraph
  | 0, _, result => some result
  | n + 1, i, result =>
    match newIndex[i]? with
    | none => none
    | some j =>
      if j = sizeMax then filterNodesLoop setOrder order g newIndex n (i + 1) result
      else
        match g.unitigs[i]?, g.unitigCoverage[i]?, g.edges.get? (i, true),
            g.edges.get? (i, false), g.edgeCov.get? (i, true), g.edgeCov.get? (i, false) with
        | some unitig, some coverage, some fwEdges, some bwEdges, some fwCov, some bwCov =>
          match filterTargets newIndex [] (setOrder fwEdges),
              filterTargets newIndex [] (setOrder bwEdges),
              filterCoverages newIndex [] (order fwCov),
              filterCoverages newIndex [] (order bwCov) with
          | some fwNew, some bwNew, some fwCovNew, some bwCovNew =>
            if j < result.unitigs.length ∧ j < result.unitigCoverage.length then
              match result.edges.set? (j, true) fwNew with
              | none => none
              | some e1 =>
                match e1.set? (j, false) bwNew with
                | none => none
                | some e2 =>
                  match result.edgeCov.set? (j, true) fwCovNew with
                  | none => none
                  | some c1 =>
                    match c1.set? (j, false) bwCovNew with
                    | none => none
                    | some c2 =>
                      filterNodesLoop setOrder order g newIndex n (i + 1)
                        { unitigs := result.unitigs.set j unitig
                          unitigCoverage := result.unitigCoverage.set j coverage
                          edges := e2
                          edgeCov := c2 }
            else none
          | _, _, _, _ => none
        | _, _, _, _, _, _ => none

/-- Source: `UnitigGraph::filterNodes`. -/
def UnitigGraph.filterNodes (setOrder : List DirNode → List DirNode)
    (order : List (DirNode × Nat) → List (DirNode × Nat)) (g : UnitigGraph)
    (kept : List Bool) : Option UnitigGraph :=
  if ¬ kept.length = g.unitigs.length then none
  else
    let newIndex := newIndexLoop kept 0
    let nextIndex := (kept.filter id).length
    filterNodesLoop setOrder order g newIndex g.unitigs.length 0
      { unitigs := List.replicate nextIndex []
        unitigCoverage := List.replicate nextIndex []
        edges := VectorWithDirection.filled nextIndex []
        edgeCov := VectorWithDirection.filled nextIndex [] }

/-! ## Worked examples for the pipeline -/

/-- The read `AAACCCGGGTTT`: its run-length encoding `ACGT` has four codes. -/
def exampleSkippedRead : List Char :=
  ['A', 'A', 'A', 'C', 'C', 'C', 'G', 'G', 'G', 'T', 'T', 'T']

/-- Three reads whose unitig graph (`k = 3`, `w = 2`, no homopolymer compression,
`minCoverage = 1`) has five unitigs; three of them have an average coverage of at least 2. -/
def exampleChainReads : List (List Char) :=
  [['A', 'T', 'C', 'C', 'A', 'C', 'C', 'C'], ['C', 'C', 'A', 'T', 'C', 'C', 'G', 'T'],
    ['C', 'C', 'C', 'G', 'G', 'G', 'C', 'C']]

/-- The unitig graph of `exampleChainReads`.  The average coverages of its unitigs are 1.5, 1,
3, 2 and 2. -/
def exampleBranched : UnitigGraph :=
  { unitigs := [[(0, false), (4, false)], [(1, true), (2, true)], [(5, true)], [(3, true)],
      [(6, true)]]
    unitigCoverage := [[2, 1], [1, 1], [3], [2], [2]]
    edges :=
      { forward := [[], [(3, true)], [(2, false)], [(2, true)], [(4, false)]]
        backward := [[(1, true), (2, true)], [(0, true)], [(0, true), (3, false)],
          [(1, false), (4, true)], [(3, true)]] }
    edgeCov :=
      { forward := [[], [((3, true), 1)], [((2, false), 1)], [], [((4, false), 1)]]
        backward := [[((1, true), 1), ((2, true), 1)], [], [((3, false), 1)],
          [((4, true), 1)], []] } }

/-- The unitigs of `exampleBranched` with an average coverage of at least 2, as `filterNodes`
leaves them: three single-node unitigs in a chain, `0+ → 0-` and `2+ → 2-` being hairpins at
its two ends, `1+ → 0+` and `1- → 2+` joining the middle unitig to them. -/
def exampleChain : UnitigGraph :=
  { unitigs := [[(5, true)], [(3, true)], [(6, true)]]
    unitigCoverage := [[3], [2], [2]]
    edges :=
      { forward := [[(0, false)], [(0, true)], [(2, false)]]
        backward := [[(1, false)], [(2, true)], [(1, true)]] }
    edgeCov :=
      { forward := [[((0, false), 1)], [], [((2, false), 1)]]
        backward := [[((1, false), 1)], [((2, true), 1)], []] } }

/-! ## Consensus counts (`HPCConsensus.cpp`, lines 14-75 and 102-108)

`addCounts` is under the sources at hand; the class `CompressedSequenceType` and the helpers
`complement` and `revCompRaw` are declared in headers that are not.  The two helpers are
parameters of the definitions below.  A read piece is given by its codes `seq`, the positions
`poses` of its runs in the raw sequence, and the raw sequence `rawSeq`; the counts of a
unitig are one map from expanded strings to numbers per position. -/

/-- Source: the constant `MutexLength`. -/
def MutexLength : Nat := 1000000

/-- Modelled from the spec: the class `CompressedSequenceType` is declared in a header that
is not among the sources.  The spec describes it as the "packed vector of codes of length
`L_u`" of a unitig, whose code 0 means that the position is unset. -/
structure CompressedSequenceType where
  compressed : List Nat
  deriving DecidableEq, Repr

/-- Modelled from the spec: the missing member `CompressedSequenceType::compressedSize`, the
length of the vector of codes. -/
def CompressedSequenceType.compressedSize (s : CompressedSequenceType) : Nat :=
  s.compressed.length

/-- Modelled from the spec: the missing member `CompressedSequenceType::getCompressed`, the
code at a position. -/
def CompressedSequenceType.getCompressed (s : CompressedSequenceType) (off : Nat) :
    Option Nat :=
  s.compressed[off]?

/-- Modelled from the spec: the missing member `CompressedSequenceType::setCompressed`, which
writes the code at a position. -/
def CompressedSequenceType.setCompressed (s : CompressedSequenceType) (off code : Nat) :
    CompressedSequenceType :=
  { compressed := s.compressed.set off code }

/-- Source: the loop `for (size_t j = 0; j < offset + kmerSize; j += MutexLength)` of
`getHPCUnitigSequences`, which allocates one mutex per round; `size` is `offset + kmerSize`,
the number of positions of the unitig, and the result is the number of mutexes. -/
def mutexCountLoop (size : Nat) : Nat → Nat → Nat → Nat
  | 0, _, count => count
  | fuel + 1, j, count =>
    if j < size then mutexCountLoop size fuel ((j + MutexLength) % 2 ^ 64) (count + 1)
    else count

/-- Source: the mutexes `getHPCUnitigSequences` allocates for a unitig of `size` positions;
the loop ends after at most `size` rounds. -/
def mutexCount (size : Nat) : Nat := mutexCountLoop size size 0 0

/-- Source: `lowMutexIndex` and `highMutexIndex` of `addCounts` for a unitig with
`numMutexes` mutexes. -/
def mutexRange (numMutexes unitigStart unitigEnd : Nat) : Nat × Nat :=
  let lowMutexIndex :=
    if unitigStart > 64 then subSize unitigStart 64 / MutexLength
    else unitigStart / MutexLength
  let highMutexIndex := ((unitigEnd + 64 + MutexLength - 1) % 2 ^ 64) / MutexLength
  (lowMutexIndex, if highMutexIndex ≥ numMutexes then numMutexes else highMutexIndex)

/-- Source: the loop `for (size_t i = lowMutexIndex; i < highMutexIndex; i++)` of `addCounts`:
the indices of the mutexes it locks, in the order of locking. -/
def lockedMutexes (numMutexes unitigStart unitigEnd : Nat) : List Nat :=
  List.range' (mutexRange numMutexes unitigStart unitigEnd).1
    ((mutexRange numMutexes unitigStart unitigEnd).2
      - (mutexRange numMutexes unitigStart unitigEnd).1)

/-- Source: the offset `off` of round `i` of the second loop of `addCounts`. -/
def countOffset (unitigStart unitigEnd : Nat) (fw : Bool) (i : Nat) : Nat :=
  if fw then (unitigStart + i) % 2 ^ 64 else subSize (subSize unitigEnd 1) i

/-- Source: the second loop of `addCounts`, with `n` rounds left from round `i` on; `none`
when an assertion fails or an index leaves its container. -/
def addCountsLoop (complement : Nat → Nat) (revCompRaw : List Char → List Char)
    (seq poses : List Nat) (rawSeq : List Char) (seqStart unitigStart unitigEnd : Nat)
    (fw : Bool) :
    Nat → Nat → CompressedSequenceType → List (List (List Char × Nat)) →
      Option (CompressedSequenceType × List (List (List Char × Nat)))
  | 0, _, result, counts => some (result, counts)
  | n + 1, i, result, counts =>
    let off := countOffset unitigStart unitigEnd fw i
    if ¬ off < result.compressedSize then none
    else
      match result.getCompressed off, seq[(seqStart + i) % 2 ^ 64]? with
      | some code, some c =>
        let checked : Option CompressedSequenceType :=
          if code = 0 then
            if fw then some (result.setCompressed off c)
            else some (result.setCompressed off (complement c))
          else if ¬ (¬ fw ∨ code = c) then none
          else if ¬ (fw ∨ code = complement c) then none
          else some result
        match checked with
        | none => none
        | some result2 =>
          if ¬ off < counts.length then none
          else if ¬ (seqStart + i + 1) % 2 ^ 64 < poses.length then none
          else
            match poses[(seqStart + i) % 2 ^ 64]?, poses[(seqStart + i + 1) % 2 ^ 64]?,
                counts[off]? with
            | some expandedStart, some expandedEnd, some m =>
              if ¬ expandedEnd > expandedStart then none
              else if expandedStart > rawSeq.length then none
              else
                let piece := (rawSeq.drop expandedStart).take (expandedEnd - expandedStart)
                let key := if fw then piece else revCompRaw piece
                addCountsLoop complement revCompRaw seq poses rawSeq seqStart unitigStart
                  unitigEnd fw n (i + 1) result2
                  (counts.set off (mapSet m key (((mapFind m key).getD 0 + 1) % 2 ^ 64)))
            | _, _, _ => none
      | _, _ => none

/-- Source: `addCounts`.  `seqMutexes` holds the number of mutexes of every unitig; the
result is the list of locked mutex indices with the updated sequences and counts. -/
def addCounts (complement : Nat → Nat) (revCompRaw : List Char → List Char)
    (result : List CompressedSequenceType)
    (expandedCounts : List (List (List (List Char × Nat)))) (seqMutexes : List Nat)
    (seq poses : List Nat) (rawSeq : List Char)
    (seqStart seqEnd unitig unitigStart unitigEnd : Nat) (fw : Bool) :
    Option (List Nat × List CompressedSequenceType × List (List (List (List Char × Nat)))) :=
  if ¬ unitig < expandedCounts.length then none
  else if ¬ subSize unitigEnd unitigStart = subSize seqEnd seqStart then none
  else if ¬ unitigEnd > unitigStart then none
  else
    match expandedCounts[unitig]?, seqMutexes[unitig]?, result[unitig]? with
    | some counts, some numMutexes, some sequence =>
      if ¬ unitigEnd ≤ counts.length then none
      else
        match addCountsLoop complement revCompRaw seq poses rawSeq seqStart unitigStart
            unitigEnd fw (subSize seqEnd seqStart) 0 sequence counts with
        | none => none
        | some (sequence2, counts2) =>
          some (lockedMutexes numMutexes unitigStart unitigEnd,
            result.set unitig sequence2, expandedCounts.set unitig counts2)
    | _, _, _ => none

/-- Source: `addCounts` up to the end of its first loop: the four assertions at the head of
the function and the indices of the mutexes locked, in the order of locking.  The second loop,
which may stop at an assertion of its own, runs with these mutexes held. -/
def addCountsLocked (expandedCounts : List (List (List (List Char × Nat))))
    (seqMutexes : List Nat) (seqStart seqEnd unitig unitigStart unitigEnd : Nat) :
    Option (List Nat) :=
  if ¬ unitig < expandedCounts.length then none
  else if ¬ subSize unitigEnd unitigStart = subSize seqEnd seqStart then none
  else if ¬ unitigEnd > unitigStart then none
  else
    match expandedCounts[unitig]?, seqMutexes[unitig]? with
    | some counts, some numMutexes =>
      if ¬ unitigEnd ≤ counts.length then none
      else some (lockedMutexes numMutexes unitigStart unitigEnd)
    | _, _ => none

/-- The number of observations a position holds: the sum of the counts of its map. -/
def countTotal (m : List (List Char × Nat)) : Nat := (m.map Prod.snd).sum

/-- The offset of round `i` of the second loop of `addCounts` as a number: `unitigStart + i`
for a forward match, `unitigEnd - 1 - i` for a reverse match. -/
def blockOffset (unitigStart unitigEnd : Nat) (fw : Bool) (i : Nat) : Nat :=
  if fw then unitigStart + i else unitigEnd - 1 - i
/-! ## Encoder lemmas -/

theorem charCode_upper (c : Char) (h : c ∈ ['A', 'C', 'G', 'T']) :
    ∃ code, charCode c = some code ∧ baseChar code = some c := by
  simp only [List.mem_cons, List.mem_singleton, List.not_mem_nil, or_false] at h
  rcases h with h | h | h | h <;> subst h <;> decide

theorem charCode_upper_inj (c d : Char) (hc : c ∈ ['A', 'C', 'G', 'T'])
    (hd : d ∈ ['A', 'C', 'G', 'T']) (h : charCode c = charCode d) : c = d := by
  simp only [List.mem_cons, List.mem_singleton, List.not_mem_nil, or_false] at hc hd
  rcases hc with hc | hc | hc | hc <;> rcases hd with hd | hd | hd | hd <;> subst hc <;> subst hd <;>
    first | rfl | (exfalso; revert h; decide)

theorem charCode_eq_none_iff (c : Char) :
    charCode c = none ↔ c ∉ ['A', 'C', 'G', 'T', 'a', 'c', 'g', 't'] := by
  unfold charCode
  simp only [List.mem_cons, List.mem_singleton, List.not_mem_nil, or_false]
  constructor
  · intro h
    split_ifs at h with h1 h2 h3 h4
    tauto
  · intro h
    split_ifs with h1 h2 h3 h4 <;> tauto

theorem incrBack_append_singleton (init : List Nat) (l : Nat) :
    incrBack (init ++ [l]) = init ++ [(l + 1) % 2 ^ 16] := by
  induction init with
  | nil => rfl
  | cons a rest ih =>
    cases rest with
    | nil => rfl
    | cons b rest2 =>
      have h : incrBack (a :: (b :: rest2 ++ [l])) = a :: incrBack (b :: rest2 ++ [l]) := rfl
      rw [List.cons_append, h, ih]
      rfl

theorem replicate_head_fits (l : Nat) (prev : Char) (s : List Char)
    (h : ∀ c : Char, ¬ List.replicate (2 ^ 16) c <:+: List.replicate l prev ++ s) :
    l < 2 ^ 16 := by
  by_contra hl
  have hl2 : 2 ^ 16 ≤ l := Nat.le_of_not_lt hl
  apply h prev
  obtain ⟨d, hd⟩ := Nat.exists_eq_add_of_le hl2
  refine ⟨[], List.replicate d prev ++ s, ?_⟩
  rw [hd, List.replicate_add, List.nil_append, List.append_assoc]

theorem rleLoop_spec (s : List Char) :
    ∀ (prev : Char) (code : Nat) (res init : List Nat) (l : Nat),
      prev ∈ ['A', 'C', 'G', 'T'] → charCode prev = some code → baseChar code = some prev →
      (∀ c ∈ s, c ∈ ['A', 'C', 'G', 'T']) →
      ∃ R Ls, rleLoop prev s res (init ++ [l]) = some (res ++ R, init ++ Ls) ∧
        Ls.length = R.length + 1 ∧ List.Chain' (fun a b => a ≠ b) (code :: R) ∧
        ((∀ c : Char, ¬ List.replicate (2 ^ 16) c <:+: List.replicate l prev ++ s) → 1 ≤ l →
          (∀ x ∈ Ls, 1 ≤ x) ∧
          ∀ out, getSequenceLoop (code :: R) Ls out = some (out ++ (List.replicate l prev ++ s))) := by
  induction s with
  | nil =>
    intro prev code res init l _ _ hb _
    refine ⟨[], [l], by simp [rleLoop], rfl, List.chain'_singleton _, ?_⟩
    intro _ hl
    refine ⟨by simpa using hl, ?_⟩
    intro out
    have hl0 : l ≠ 0 := by omega
    simp [getSequenceLoop, hl0, hb]
  | cons c rest ih =>
    intro prev code res init l hprev hcode hb hs
    have hrest : ∀ d ∈ rest, d ∈ ['A', 'C', 'G', 'T'] := fun d hd => hs d (List.mem_cons_of_mem _ hd)
    by_cases hc : c = prev
    · subst hc
      obtain ⟨R, Ls, hrun, hlen, hchain, hdec⟩ :=
        ih c code res init ((l + 1) % 2 ^ 16) hprev hcode hb hrest
      refine ⟨R, Ls, ?_, hlen, hchain, ?_⟩
      · rw [rleLoop, if_pos rfl, incrBack_append_singleton]
        exact hrun
      · intro hfit hl
        have hEq : List.replicate (l + 1) c ++ rest = List.replicate l c ++ c :: rest := by
          rw [List.replicate_succ', List.append_assoc]
          rfl
        have hfit2 : ∀ d : Char, ¬ List.replicate (2 ^ 16) d <:+: List.replicate (l + 1) c ++ rest := by
          intro d
          rw [hEq]
          exact hfit d
        have hlt : l + 1 < 2 ^ 16 := replicate_head_fits (l + 1) c rest hfit2
        have hmod : (l + 1) % 2 ^ 16 = l + 1 := Nat.mod_eq_of_lt hlt
        rw [hmod] at hdec
        obtain ⟨hpos, hout⟩ := hdec hfit2 (by omega)
        refine ⟨hpos, ?_⟩
        intro out
        rw [hout out, hEq]
    · have hcU : c ∈ ['A', 'C', 'G', 'T'] := hs c (List.mem_cons_self _ _)
      obtain ⟨code2, hcode2, hb2⟩ := charCode_upper c hcU
      obtain ⟨R, Ls, hrun, hlen, hchain, hdec⟩ :=
        ih c code2 (res ++ [code2]) (init ++ [l]) 1 hcU hcode2 hb2 hrest
      refine ⟨code2 :: R, l :: Ls, ?_, by simp [hlen], ?_, ?_⟩
      · rw [rleLoop, if_neg hc, hcode2]
        simp only
        rw [hrun]
        simp
      · refine List.Chain'.cons ?_ hchain
        intro hEq
        apply hc
        apply charCode_upper_inj c prev hcU hprev
        rw [hcode, hcode2, hEq]
      · intro hfit hl
        have hfit2 : ∀ d : Char, ¬ List.replicate (2 ^ 16) d <:+: List.replicate 1 c ++ rest := by
          intro d hd
          apply hfit d
          exact hd.trans (List.suffix_append _ _).isInfix
        obtain ⟨hpos, hout⟩ := hdec hfit2 (le_refl 1)
        refine ⟨?_, ?_⟩
        · intro x hx
          rcases List.mem_cons.mp hx with hx | hx
          · omega
          · exact hpos x hx
        · intro out
          have hl0 : l ≠ 0 := by omega
          rw [getSequenceLoop, if_neg hl0, hb]
          simp only
          rw [hout]
          simp

theorem noRleLoop_spec (s : List Char) :
    ∀ acc : List Nat, (∀ c ∈ s, c ∈ ['A', 'C', 'G', 'T']) →
      ∃ R, noRleLoop s acc = some (acc ++ R) ∧ R.length = s.length ∧
        ∀ out, getSequenceLoop R (List.replicate s.length 1) out = some (out ++ s) := by
  induction s with
  | nil =>
    intro acc _
    exact ⟨[], by simp [noRleLoop], rfl, fun out => by simp [getSequenceLoop]⟩
  | cons c rest ih =>
    intro acc hs
    obtain ⟨code, hcode, hb⟩ := charCode_upper c (hs c (List.mem_cons_self _ _))
    obtain ⟨R, hrun, hlen, hdec⟩ :=
      ih (acc ++ [code]) (fun d hd => hs d (List.mem_cons_of_mem _ hd))
    refine ⟨code :: R, ?_, by simp [hlen], ?_⟩
    · rw [noRleLoop, hcode]
      simp only
      rw [hrun]
      simp
    · intro out
      rw [List.length_cons, List.replicate_succ, getSequenceLoop, if_neg (by decide), hb]
      simp only
      rw [hdec]
      simp

theorem noRleLoop_length (s : List Char) :
    ∀ acc R : List Nat, noRleLoop s acc = some R → R.length = acc.length + s.length := by
  induction s with
  | nil =>
    intro acc R h
    simp [noRleLoop] at h
    simp [h]
  | cons c rest ih =>
    intro acc R h
    rw [noRleLoop] at h
    cases hc : charCode c with
    | none => rw [hc] at h; simp at h
    | some code =>
      rw [hc] at h
      have := ih _ _ h
      simp at this
      simp [this]
      omega

theorem noRleLoop_eq_none_iff (s : List Char) :
    ∀ acc : List Nat, noRleLoop s acc = none ↔ ∃ c ∈ s, charCode c = none := by
  induction s with
  | nil => intro acc; simp [noRleLoop]
  | cons c rest ih =>
    intro acc
    rw [noRleLoop]
    cases hc : charCode c with
    | none => simp [hc]
    | some code => simp [hc, ih]

theorem rleLoop_eq_none_iff (s : List Char) :
    ∀ (prev : Char) (res lens : List Nat), charCode prev ≠ none →
      (rleLoop prev s res lens = none ↔ ∃ c ∈ s, charCode c = none) := by
  induction s with
  | nil => intro prev res lens _; simp [rleLoop]
  | cons c rest ih =>
    intro prev res lens hprev
    rw [rleLoop]
    by_cases h : c = prev
    · subst h
      rw [if_pos rfl, ih c res _ hprev]
      simp [hprev]
    · rw [if_neg h]
      cases hc : charCode c with
      | none => simp [hc]
      | some code =>
        have hne : charCode c ≠ none := by rw [hc]; simp
        simp only
        rw [ih c _ _ hne]
        simp [hc]

theorem rleLoop_replicate (c : Char) (n : Nat) :
    ∀ (res init : List Nat) (l : Nat), l < 2 ^ 16 →
      rleLoop c (List.replicate n c) res (init ++ [l]) = some (res, init ++ [(l + n) % 2 ^ 16]) := by
  induction n with
  | zero =>
    intro res init l hl
    rw [Nat.add_zero, Nat.mod_eq_of_lt hl]
    rfl
  | succ n ih =>
    intro res init l _
    have hlt : (l + 1) % 2 ^ 16 < 2 ^ 16 := Nat.mod_lt _ (by norm_num)
    have hmod : ((l + 1) % 2 ^ 16 + n) % 2 ^ 16 = (l + (n + 1)) % 2 ^ 16 := by omega
    rw [List.replicate_succ, rleLoop, if_pos rfl, incrBack_append_singleton, ih _ _ _ hlt, hmod]

/-! ## Rotation lemmas -/

theorem testBit_high_false (v i : Nat) (hv : v < 2 ^ 64) (hi : 64 ≤ i) : v.testBit i = false := by
  apply Nat.testBit_lt_two_pow
  calc v < 2 ^ 64 := hv
    _ ≤ 2 ^ i := Nat.pow_le_pow_right (by norm_num) hi

theorem testBit_rot64 (r v i : Nat) (hv : v < 2 ^ 64) :
    (rot64 r v).testBit i = (decide (i < 64) && v.testBit ((i + (64 - r % 64)) % 64)) := by
  unfold rot64 shl64 shr64
  rw [Nat.mod_mod, Nat.testBit_or, Nat.testBit_mod_two_pow, Nat.testBit_shiftLeft,
    Nat.testBit_shiftRight]
  by_cases hi : i < 64
  · by_cases hs : r % 64 = 0
    · rw [hs]
      simp [hi, Nat.mod_eq_of_lt hi]
    · have h1 : (64 - r % 64) % 64 = 64 - r % 64 := by omega
      rw [h1]
      by_cases hge : r % 64 ≤ i
      · have h2 : (i + (64 - r % 64)) % 64 = i - r % 64 := by omega
        have h3 : v.testBit (64 - r % 64 + i) = false :=
          testBit_high_false v _ hv (by omega)
        rw [h2, h3]
        simp [hi, hge]
      · have h2 : (i + (64 - r % 64)) % 64 = 64 - r % 64 + i := by omega
        rw [h2]
        simp [hi, hge]
  · have hi2 : 64 ≤ i := Nat.le_of_not_lt hi
    have h3 : v.testBit ((64 - r % 64) % 64 + i) = false :=
      testBit_high_false v _ hv (by omega)
    rw [h3]
    simp [hi]

theorem rot64_lt (r v : Nat) (hv : v < 2 ^ 64) : rot64 r v < 2 ^ 64 := by
  apply Nat.lt_pow_two_of_testBit
  intro i hi
  rw [testBit_rot64 r v i hv]
  have : ¬ i < 64 := by omega
  simp [this]

theorem rot64_rot64 (a b v : Nat) (hv : v < 2 ^ 64) : rot64 a (rot64 b v) = rot64 (a + b) v := by
  apply Nat.eq_of_testBit_eq
  intro i
  rw [testBit_rot64 a _ i (rot64_lt b v hv), testBit_rot64 b v _ hv, testBit_rot64 (a + b) v i hv]
  have h1 : (i + (64 - a % 64)) % 64 < 64 := Nat.mod_lt _ (by norm_num)
  have h2 : ((i + (64 - a % 64)) % 64 + (64 - b % 64)) % 64 = (i + (64 - (a + b) % 64)) % 64 := by
    omega
  rw [h2]
  simp [h1]

theorem rot64_xor (r x y : Nat) (hx : x < 2 ^ 64) (hy : y < 2 ^ 64) :
    rot64 r (x ^^^ y) = rot64 r x ^^^ rot64 r y := by
  apply Nat.eq_of_testBit_eq
  intro i
  rw [Nat.testBit_xor, testBit_rot64 r _ i (Nat.xor_lt_two_pow hx hy), testBit_rot64 r x i hx,
    testBit_rot64 r y i hy, Nat.testBit_xor]
  by_cases hi : i < 64 <;> simp [hi]

theorem rot64_congr (a b v : Nat) (h : a % 64 = b % 64) : rot64 a v = rot64 b v := by
  unfold rot64
  rw [h]

theorem rot64_zero_left (v : Nat) (hv : v < 2 ^ 64) : rot64 0 v = v := by
  apply Nat.eq_of_testBit_eq
  intro i
  rw [testBit_rot64 0 v i hv]
  by_cases hi : i < 64
  · have : (i + (64 - 0 % 64)) % 64 = i := by omega
    rw [this]
    simp [hi]
  · rw [testBit_high_false v i hv (by omega)]
    simp [hi]

theorem rot64_zero_right (r : Nat) : rot64 r 0 = 0 := by
  apply Nat.eq_of_testBit_eq
  intro i
  rw [testBit_rot64 r 0 i (by norm_num)]
  simp

theorem rotlone_eq (v : Nat) : rotlone v = rot64 1 v := rfl

theorem rotrone_eq (v : Nat) : rotrone v = rot64 63 v := by
  unfold rotrone rot64
  exact Nat.lor_comm _ _

theorem rotlk_eq (m v : Nat) (hm : m < 64) : rotlk m v = rot64 m v := by
  unfold rotlk rot64 subSize
  have h1 : m % 64 = m := Nat.mod_eq_of_lt hm
  have h2 : (64 + 2 ^ 64 - m % 2 ^ 64) % 2 ^ 64 = 64 - m := by omega
  rw [h1, h2]

theorem rotlkmin1_eq (m v : Nat) (hm : m < 64) (hpos : m ≠ 0) :
    rotlkmin1 m v = rot64 (m + 63) v := by
  unfold rotlkmin1 rot64 subSize
  have h1 : (m + 63) % 64 = m - 1 := by omega
  have h2 : (m + 2 ^ 64 - 1 % 2 ^ 64) % 2 ^ 64 = m - 1 := by omega
  have h3 : (64 + 2 ^ 64 - (m - 1) % 2 ^ 64) % 2 ^ 64 = 64 - (m - 1) := by omega
  rw [h1, h2, h3]

theorem shl64_congr (v a b : Nat) (h : a % 64 = b % 64) : shl64 v a = shl64 v b := by
  unfold shl64
  rw [h]

theorem shr64_congr (v a b : Nat) (h : a % 64 = b % 64) : shr64 v a = shr64 v b := by
  unfold shr64
  rw [h]

/-- `rotlkmin1` rotates by `m - 1` modulo 64, also for the stored size `m = 0`. -/
theorem rotlkmin1_rot (m v : Nat) (hm : m < 64) : rotlkmin1 m v = rot64 (m + 63) v := by
  unfold rotlkmin1 rot64
  rw [shl64_congr v (subSize m 1) ((m + 63) % 64) (by unfold subSize; omega),
    shr64_congr v (subSize 64 (subSize m 1)) (64 - (m + 63) % 64) (by unfold subSize; omega)]

/-! ## Hasher lemmas -/

theorem rotFold_lt (r : Nat) (T : Nat → Nat) (hT : ∀ c, T c < 2 ^ 64) (cs : List Nat) :
    ∀ f0, f0 < 2 ^ 64 → rotFold r T f0 cs < 2 ^ 64 := by
  induction cs with
  | nil => intro f0 h; exact h
  | cons c rest ih =>
    intro f0 h
    exact ih _ (Nat.xor_lt_two_pow (rot64_lt r f0 h) (hT c))

theorem rotFold_append_singleton (r : Nat) (T : Nat → Nat) (f0 : Nat) (cs : List Nat) (c : Nat) :
    rotFold r T f0 (cs ++ [c]) = rot64 r (rotFold r T f0 cs) ^^^ T c := by
  unfold rotFold
  rw [List.foldl_append]
  rfl

theorem rotFold_linear (r : Nat) (T : Nat → Nat) (hT : ∀ c, T c < 2 ^ 64) (cs : List Nat) :
    ∀ f0, f0 < 2 ^ 64 →
      rotFold r T f0 cs = rot64 (r * cs.length) f0 ^^^ rotFold r T 0 cs := by
  induction cs with
  | nil =>
    intro f0 h
    show f0 = rot64 (r * 0) f0 ^^^ 0
    rw [Nat.mul_zero, rot64_zero_left f0 h, Nat.xor_zero]
  | cons c rest ih =>
    intro f0 h
    have hstep : ∀ g, rotFold r T g (c :: rest) = rotFold r T (rot64 r g ^^^ T c) rest :=
      fun _ => rfl
    have h1 : rot64 r f0 ^^^ T c < 2 ^ 64 := Nat.xor_lt_two_pow (rot64_lt r f0 h) (hT c)
    have h2 : rot64 r 0 ^^^ T c < 2 ^ 64 :=
      Nat.xor_lt_two_pow (rot64_lt r 0 (by norm_num)) (hT c)
    rw [hstep f0, hstep 0, ih _ h1, ih _ h2, rot64_zero_right, Nat.zero_xor,
      rot64_xor _ _ _ (rot64_lt r f0 h) (hT c), rot64_rot64 _ _ _ h, Nat.xor_assoc]
    have h3 : rot64 (r * rest.length + r) f0 = rot64 (r * (c :: rest).length) f0 := by
      apply rot64_congr
      rw [List.length_cons, Nat.mul_succ]
    rw [h3]

theorem rotFold_cons_zero (r : Nat) (T : Nat → Nat) (hT : ∀ c, T c < 2 ^ 64) (c : Nat)
    (cs : List Nat) :
    rotFold r T 0 (c :: cs) = rot64 (r * cs.length) (T c) ^^^ rotFold r T 0 cs := by
  have hstep : rotFold r T 0 (c :: cs) = rotFold r T (rot64 r 0 ^^^ T c) cs := rfl
  rw [hstep, rot64_zero_right, Nat.zero_xor, rotFold_linear r T hT cs _ (hT c)]

theorem addChars_fwHash (cs : List Nat) :
    ∀ h : FastHasher,
      (h.addChars cs).fwHash = rotFold 1 (fun c => h.fwAdd.getD c 0) h.fwHash cs := by
  induction cs with
  | nil => intro h; rfl
  | cons c rest ih =>
    intro h
    show ((h.addChar c).addChars rest).fwHash = _
    rw [ih (h.addChar c)]
    rfl

theorem addChars_bwHash (cs : List Nat) :
    ∀ h : FastHasher,
      (h.addChars cs).bwHash = rotFold 63 (fun c => h.bwAdd.getD c 0) h.bwHash cs := by
  induction cs with
  | nil => intro h; rfl
  | cons c rest ih =>
    intro h
    show ((h.addChar c).addChars rest).bwHash = _
    rw [ih (h.addChar c)]
    show rotFold 63 _ (rotrone h.bwHash ^^^ h.bwAdd.getD c 0) rest = _
    rw [rotrone_eq]
    rfl

theorem addChars_tables (cs : List Nat) :
    ∀ h : FastHasher,
      (h.addChars cs).fwAdd = h.fwAdd ∧ (h.addChars cs).fwRemove = h.fwRemove ∧
        (h.addChars cs).bwAdd = h.bwAdd ∧ (h.addChars cs).bwRemove = h.bwRemove ∧
        (h.addChars cs).kmerSize = h.kmerSize := by
  induction cs with
  | nil => intro h; exact ⟨rfl, rfl, rfl, rfl, rfl⟩
  | cons c rest ih =>
    intro h
    exact ih (h.addChar c)

/-- The character constant of a base code; 0 outside the table. -/
theorem charHash_lt (c : Nat) : charHashes.getD c 0 < 2 ^ 64 := by
  by_cases hc : c < 5
  · interval_cases c <;> decide
  · have : charHashes.getD c 0 = 0 := by
      apply List.getD_eq_default
      simp [charHashes]
      omega
    rw [this]
    norm_num

theorem range_map_getD (f : Nat → Nat) (hf : ∀ c, 5 ≤ c → f c = 0) (c : Nat) :
    ((List.range 5).map f).getD c 0 = f c := by
  by_cases hc : c < 5
  · interval_cases c <;> rfl
  · rw [List.getD_eq_default _ _ (by simp; omega), hf c (by omega)]

theorem complement_big (c : Nat) (hc : 5 ≤ c) : complement c = 0 := by
  unfold complement
  apply List.getD_eq_default
  simpa using hc

theorem charHash_big (c : Nat) (hc : 5 ≤ c) : charHashes.getD c 0 = 0 := by
  apply List.getD_eq_default
  simpa [charHashes] using hc

theorem charHash_zero : charHashes.getD 0 0 = 0 := rfl

theorem seeded_fwAdd (k f b c : Nat) :
    (FastHasher.seeded k f b).fwAdd.getD c 0 = charHashes.getD c 0 :=
  range_map_getD _ (fun c hc => charHash_big c hc) c

theorem seeded_fwRemove (k f b c : Nat) :
    (FastHasher.seeded k f b).fwRemove.getD c 0 = rot64 k (charHashes.getD c 0) := by
  have hm : k % 64 < 64 := Nat.mod_lt _ (by norm_num)
  have h := range_map_getD (fun i => rotlk (k % 64) (charHashes.getD i 0))
    (fun c hc => by
      show rotlk (k % 64) (charHashes.getD c 0) = 0
      rw [charHash_big c hc, rotlk_eq _ _ hm, rot64_zero_right]) c
  show ((List.range 5).map (fun i => rotlk (k % 64) (charHashes.getD i 0))).getD c 0 = _
  rw [h, rotlk_eq _ _ hm]
  exact rot64_congr _ _ _ (Nat.mod_mod _ _)

theorem seeded_bwAdd (k f b c : Nat) (hk : k % 64 ≠ 0) :
    (FastHasher.seeded k f b).bwAdd.getD c 0
      = rot64 (k + 63) (charHashes.getD (complement c) 0) := by
  have hm : k % 64 < 64 := Nat.mod_lt _ (by norm_num)
  have h := range_map_getD (fun i => rotlkmin1 (k % 64) (charHashes.getD (complement i) 0))
    (fun c hc => by
      show rotlkmin1 (k % 64) (charHashes.getD (complement c) 0) = 0
      rw [complement_big c hc, charHash_zero, rotlkmin1_eq _ _ hm hk, rot64_zero_right]) c
  show ((List.range 5).map
    (fun i => rotlkmin1 (k % 64) (charHashes.getD (complement i) 0))).getD c 0 = _
  rw [h, rotlkmin1_eq _ _ hm hk]
  exact rot64_congr _ _ _ (by omega)

theorem seeded_bwRemove (k f b c : Nat) :
    (FastHasher.seeded k f b).bwRemove.getD c 0
      = rot64 63 (charHashes.getD (complement c) 0) := by
  have h := range_map_getD (fun i => rotrone (charHashes.getD (complement i) 0))
    (fun c hc => by
      show rotrone (charHashes.getD (complement c) 0) = 0
      rw [complement_big c hc, charHash_zero, rotrone_eq, rot64_zero_right]) c
  show ((List.range 5).map (fun i => rotrone (charHashes.getD (complement i) 0))).getD c 0 = _
  rw [h, rotrone_eq]

theorem fresh_fwHash (k : Nat) (cs : List Nat) :
    ((FastHasher.fresh k).addChars cs).fwHash
      = rotFold 1 (fun c => charHashes.getD c 0) 0 cs := by
  rw [addChars_fwHash]
  have : (fun c => (FastHasher.fresh k).fwAdd.getD c 0) = fun c => charHashes.getD c 0 :=
    funext (fun c => seeded_fwAdd k 0 0 c)
  rw [this]
  rfl

theorem fresh_bwHash (k : Nat) (hk : k % 64 ≠ 0) (cs : List Nat) :
    ((FastHasher.fresh k).addChars cs).bwHash
      = rotFold 63 (fun c => rot64 (k + 63) (charHashes.getD (complement c) 0)) 0 cs := by
  rw [addChars_bwHash]
  have : (fun c => (FastHasher.fresh k).bwAdd.getD c 0)
      = fun c => rot64 (k + 63) (charHashes.getD (complement c) 0) :=
    funext (fun c => seeded_bwAdd k 0 0 c hk)
  rw [this]
  rfl

theorem seeded_bwAdd_rot (k f b c : Nat) :
    (FastHasher.seeded k f b).bwAdd.getD c 0
      = rot64 (k + 63) (charHashes.getD (complement c) 0) := by
  have hm : k % 64 < 64 := Nat.mod_lt _ (by norm_num)
  have h := range_map_getD (fun i => rotlkmin1 (k % 64) (charHashes.getD (complement i) 0))
    (fun c hc => by
      show rotlkmin1 (k % 64) (charHashes.getD (complement c) 0) = 0
      rw [complement_big c hc, charHash_zero, rotlkmin1_rot _ _ hm, rot64_zero_right]) c
  show ((List.range 5).map
    (fun i => rotlkmin1 (k % 64) (charHashes.getD (complement i) 0))).getD c 0 = _
  rw [h, rotlkmin1_rot _ _ hm]
  exact rot64_congr _ _ _ (by omega)

theorem fresh_bwHash_rot (k : Nat) (cs : List Nat) :
    ((FastHasher.fresh k).addChars cs).bwHash
      = rotFold 63 (fun c => rot64 (k + 63) (charHashes.getD (complement c) 0)) 0 cs := by
  rw [addChars_bwHash]
  have : (fun c => (FastHasher.fresh k).bwAdd.getD c 0)
      = fun c => rot64 (k + 63) (charHashes.getD (complement c) 0) :=
    funext (fun c => seeded_bwAdd_rot k 0 0 c)
  rw [this]
  rfl

/-- With the stored size 0 (`k % 64 = 0`) the backward table entry is the constant rotated by
63, as the program computes it. -/
theorem rotlkmin1_stored_zero : rotlkmin1 0 1 = 2 ^ 63 := by decide

theorem revCompRLE_append_singleton (cs : List Nat) (c : Nat) :
    revCompRLE (cs ++ [c]) = complement c :: revCompRLE cs := by
  unfold revCompRLE
  rw [List.reverse_append]
  rfl

theorem revCompRLE_length (cs : List Nat) : (revCompRLE cs).length = cs.length := by
  simp [revCompRLE]

theorem strand_fold (k : Nat) (cs : List Nat) :
    rotFold 63 (fun c => rot64 (k + 63) (charHashes.getD (complement c) 0)) 0 cs
      = rot64 (k + 63 * cs.length) (rotFold 1 (fun c => charHashes.getD c 0) 0 (revCompRLE cs)) := by
  have hH : ∀ c, (fun c => charHashes.getD c 0) c < 2 ^ 64 := fun c => charHash_lt c
  induction cs using List.reverseRecOn with
  | nil =>
    show (0 : Nat) = rot64 _ 0
    rw [rot64_zero_right]
  | append_singleton cs c ih =>
    have hG : rotFold 1 (fun c => charHashes.getD c 0) 0 (revCompRLE cs) < 2 ^ 64 :=
      rotFold_lt 1 _ hH _ 0 (by norm_num)
    have hc : charHashes.getD (complement c) 0 < 2 ^ 64 := charHash_lt _
    rw [rotFold_append_singleton, ih, revCompRLE_append_singleton,
      rotFold_cons_zero 1 _ hH, revCompRLE_length, rot64_rot64 _ _ _ hG,
      rot64_xor _ _ _ (rot64_lt _ _ hc) hG, rot64_rot64 _ _ _ hc, Nat.xor_comm]
    have e1 : rot64 (k + 63 * (cs ++ [c]).length + 1 * cs.length)
        (charHashes.getD (complement c) 0) = rot64 (k + 63) (charHashes.getD (complement c) 0) := by
      apply rot64_congr
      rw [List.length_append, List.length_singleton]
      omega
    have e2 : rot64 (k + 63 * (cs ++ [c]).length)
        (rotFold 1 (fun c => charHashes.getD c 0) 0 (revCompRLE cs))
        = rot64 (63 + (k + 63 * cs.length))
          (rotFold 1 (fun c => charHashes.getD c 0) 0 (revCompRLE cs)) := by
      apply rot64_congr
      rw [List.length_append, List.length_singleton]
      omega
    rw [e1, e2]

theorem strand_symmetry_bw (k : Nat) (hk : k % 64 ≠ 0) (x : List Nat) (hlen : x.length = k) :
    ((FastHasher.fresh k).addChars x).bwHash
      = ((FastHasher.fresh k).addChars (revCompRLE x)).fwHash := by
  rw [fresh_bwHash k hk, fresh_fwHash, strand_fold, hlen]
  have h0 : rot64 (k + 63 * k) (rotFold 1 (fun c => charHashes.getD c 0) 0 (revCompRLE x))
      = rot64 0 (rotFold 1 (fun c => charHashes.getD c 0) 0 (revCompRLE x)) := by
    apply rot64_congr
    omega
  rw [h0, rot64_zero_left]
  exact rotFold_lt 1 _ (fun c => charHash_lt c) _ 0 (by norm_num)

theorem revCompRLE_revCompRLE (s : List Nat) (hs : ∀ c ∈ s, c ≤ 4) :
    revCompRLE (revCompRLE s) = s := by
  have hinv : ∀ c, c ≤ 4 → [0, 4, 3, 2, 1].getD ([0, 4, 3, 2, 1].getD c 0) 0 = c := by
    intro c hc
    interval_cases c <;> rfl
  unfold revCompRLE
  rw [← List.map_reverse, List.reverse_reverse, List.map_map]
  conv_rhs => rw [← List.map_id s]
  apply List.map_congr_left
  intro c hc
  exact hinv c (hs c hc)

/-! ## Canonical-edge lemmas -/

theorem canon_reverse_swap (a b : DirNode) : canon (reverse b) (reverse a) = canon a b := by
  obtain ⟨f, fo⟩ := a
  obtain ⟨t, tb⟩ := b
  rcases Nat.lt_trichotomy t f with h | h | h
  · have h1 : ¬ f < t := by omega
    have h2 : ¬ f = t := by omega
    cases fo <;> cases tb <;> simp [canon, reverse, h, h1, h2]
  · subst h
    cases fo <;> cases tb <;> simp [canon, reverse]
  · have h1 : ¬ t < f := by omega
    have h2 : ¬ t = f := by omega
    have h3 : ¬ f = t := by omega
    cases fo <;> cases tb <;> simp [canon, reverse, h, h1, h2, h3]

theorem canon_canon (a b : DirNode) : canon (canon a b).1 (canon a b).2 = canon a b := by
  obtain ⟨f, fo⟩ := a
  obtain ⟨t, tb⟩ := b
  rcases Nat.lt_trichotomy t f with h | h | h
  · have h1 : ¬ f < t := by omega
    have h2 : ¬ f = t := by omega
    cases fo <;> cases tb <;> simp [canon, reverse, h, h1, h2]
  · subst h
    cases fo <;> cases tb <;> simp [canon, reverse]
  · have h1 : ¬ t < f := by omega
    have h2 : ¬ t = f := by omega
    cases fo <;> cases tb <;> simp [canon, reverse, h, h1, h2]

theorem mem_mapSet {κ ν : Type} [DecidableEq κ] (m : List (κ × ν)) (key : κ) (value : ν)
    (e : κ × ν) (h : e ∈ mapSet m key value) : e ∈ m ∨ e.1 = key := by
  induction m with
  | nil =>
    simp only [mapSet, List.mem_singleton] at h
    right
    rw [h]
  | cons x rest ih =>
    unfold mapSet at h
    split_ifs at h with hx
    · rcases List.mem_cons.mp h with h1 | h1
      · right; rw [h1]
      · left; exact List.mem_cons_of_mem _ h1
    · rcases List.mem_cons.mp h with h1 | h1
      · left; rw [h1]; exact List.mem_cons_self _ _
      · rcases ih h1 with h2 | h2
        · left; exact List.mem_cons_of_mem _ h2
        · right; exact h2

theorem get?_of_set? {α : Type} (v v2 : VectorWithDirection α) (a a2 : DirNode) (x y : α)
    (hset : v.set? a x = some v2) (hget : v2.get? a2 = some y) :
    (a2 = a ∧ y = x) ∨ v.get? a2 = some y := by
  obtain ⟨i, o⟩ := a
  obtain ⟨j, o2⟩ := a2
  unfold VectorWithDirection.set? at hset
  unfold VectorWithDirection.get? at hget ⊢
  cases o <;> cases o2 <;> simp only [Bool.false_eq_true, if_false, if_true] at hset hget ⊢ <;>
    split_ifs at hset with hlt <;> cases hset <;> simp only at hget
  · by_cases hij : i = j
    · subst hij
      rw [List.getElem?_set_self hlt] at hget
      left
      exact ⟨rfl, (Option.some.inj hget).symm⟩
    · rw [List.getElem?_set_ne hij] at hget
      right; exact hget
  · right; exact hget
  · right; exact hget
  · by_cases hij : i = j
    · subst hij
      rw [List.getElem?_set_self hlt] at hget
      left
      exact ⟨rfl, (Option.some.inj hget).symm⟩
    · rw [List.getElem?_set_ne hij] at hget
      right; exact hget

theorem assign_canonical (maps maps2 : EdgeMaps) (a b : DirNode) (value : Nat)
    (hc : maps.Canonical) (hab : canon a b = (a, b))
    (h : maps.assign a b value = some maps2) : maps2.Canonical := by
  unfold EdgeMaps.assign at h
  cases hm : maps.get? a with
  | none => rw [hm] at h; cases h
  | some m =>
    rw [hm] at h
    simp only at h
    intro a2 m2 b2 v2 hget hmem
    rcases get?_of_set? maps maps2 a a2 _ m2 h hget with ⟨ha, hm2⟩ | hold
    · subst ha hm2
      rcases mem_mapSet m b value (b2, v2) hmem with h1 | h1
      · exact hc a2 m b2 v2 hm h1
      · simp only at h1
        rw [h1]
        exact hab
    · exact hc a2 m2 b2 v2 hold hmem

theorem increase_canonical (maps maps2 : EdgeMaps) (a b : DirNode) (amount : Nat)
    (hc : maps.Canonical) (hab : canon a b = (a, b))
    (h : maps.increase a b amount = some maps2) : maps2.Canonical := by
  unfold EdgeMaps.increase at h
  cases hv : maps.valueOrZero a b with
  | none => rw [hv] at h; cases h
  | some old =>
    rw [hv] at h
    exact assign_canonical maps maps2 a b _ hc hab h

theorem emplace_back_canonical (maps : EdgeMaps) (hc : maps.Canonical) :
    EdgeMaps.Canonical (maps.emplace_back []) := by
  intro a m b v hget hmem
  obtain ⟨i, o⟩ := a
  have key : ∀ (l : List (List (DirNode × Nat))), (l ++ [[]])[i]? = some m → l[i]? = some m := by
    intro l hl
    by_cases hi : i < l.length
    · rw [List.getElem?_append_left hi] at hl
      exact hl
    · rw [List.getElem?_append_right (by omega)] at hl
      by_cases h0 : i - l.length = 0
      · rw [h0] at hl
        simp only [List.getElem?_cons_zero, Option.some.injEq] at hl
        subst hl
        cases hmem
      · obtain ⟨n, hn⟩ := Nat.exists_eq_succ_of_ne_zero h0
        rw [hn] at hl
        simp at hl
  apply hc (i, o) m b v _ hmem
  unfold VectorWithDirection.get? VectorWithDirection.emplace_back at *
  cases o <;> simp only [Bool.false_eq_true, if_false, if_true] at hget ⊢
  · exact key _ hget
  · exact key _ hget

/-! ## The canonical-key invariant through ingestion -/

theorem addHashSequenceRLE_edges (list l2 : HashList) (seq : List Nat) (c p o : Nat)
    (h : list.addHashSequenceRLE seq c p o = some l2) :
    l2.sequenceOverlap = list.sequenceOverlap ∧ l2.edgeCoverage = list.edgeCoverage := by
  unfold HashList.addHashSequenceRLE at h
  split at h
  · cases h
  · cases h
    exact ⟨rfl, rfl⟩

theorem addHashCharacterLength_edges (list l2 : HashList) (data : List Nat) (s e c p o : Nat)
    (h : list.addHashCharacterLength data s e c p o = some l2) :
    l2.sequenceOverlap = list.sequenceOverlap ∧ l2.edgeCoverage = list.edgeCoverage := by
  unfold HashList.addHashCharacterLength at h
  split at h
  · cases h
  · cases h
    exact ⟨rfl, rfl⟩

theorem getNode_canonical (hash : List Nat → Nat) (list l2 : HashList) (sequence rev : List Nat)
    (lens : List Nat) (s e p o f b : Nat) (node : DirNode) (fwHash : Nat)
    (hso : list.sequenceOverlap.Canonical) (hec : list.edgeCoverage.Canonical)
    (h : getNode hash list sequence rev lens s e p o f b = some (l2, node, fwHash)) :
    l2.sequenceOverlap.Canonical ∧ l2.edgeCoverage.Canonical := by
  unfold getNode at h
  simp only at h
  split at h
  · cases h
    exact ⟨hso, hec⟩
  · split at h
    · cases h
    · split at h
      · cases h
      · rename_i l2a h2
        split at h
        · cases h
        · rename_i l3 h3
          split at h
          · cases h
            obtain ⟨e1, e2⟩ := addHashSequenceRLE_edges _ _ _ _ _ _ h2
            obtain ⟨e3, e4⟩ := addHashCharacterLength_edges _ _ _ _ _ _ _ _ h3
            simp only at e1 e2
            constructor
            · show EdgeMaps.Canonical (l3.sequenceOverlap.emplace_back [])
              apply emplace_back_canonical
              rw [e3, e1]
              exact hso
            · show EdgeMaps.Canonical (l3.edgeCoverage.emplace_back [])
              apply emplace_back_canonical
              rw [e4, e2]
              exact hec
          · cases h

theorem addSequenceOverlap_canonical (list l2 : HashList) (a b : DirNode) (overlap : Nat)
    (hso : list.sequenceOverlap.Canonical) (hec : list.edgeCoverage.Canonical)
    (h : list.addSequenceOverlap a b overlap = some l2) :
    l2.sequenceOverlap.Canonical ∧ l2.edgeCoverage.Canonical := by
  unfold HashList.addSequenceOverlap at h
  simp only at h
  split at h
  · cases h
  · split at h
    · cases h
      exact ⟨hso, hec⟩
    · split at h
      · cases h
      · rename_i so hassign
        cases h
        exact ⟨assign_canonical _ _ _ _ _ hso (canon_canon a b) hassign, hec⟩

theorem ingestEmission_canonical (hash : List Nat → Nat) (k w : Nat) (seq revSeq lens : List Nat)
    (st st2 : ReadState) (em : Nat × Nat × Nat)
    (hso : st.result.sequenceOverlap.Canonical) (hec : st.result.edgeCoverage.Canonical)
    (h : ingestEmission hash k w seq revSeq lens st em = some st2) :
    st2.result.sequenceOverlap.Canonical ∧ st2.result.edgeCoverage.Canonical := by
  unfold ingestEmission at h
  simp only at h
  by_cases c1 : st.lastMinimizerPosition = sizeMax ∨ em.1 > st.lastMinimizerPosition
  swap
  · rw [if_pos c1] at h; cases h
  rw [if_neg (not_not.mpr c1)] at h
  by_cases c2 : st.lastMinimizerPosition = sizeMax ∨ subSize em.1 st.lastMinimizerPosition ≤ w
  swap
  · rw [if_pos c2] at h; cases h
  rw [if_neg (not_not.mpr c2)] at h
  by_cases c3 : st.last.1 = sizeMax ∨ subSize em.1 st.lastMinimizerPosition ≤ k
  swap
  · rw [if_pos c3] at h; cases h
  rw [if_neg (not_not.mpr c3)] at h
  by_cases c4 : em.1 + k ≤ seq.length
  swap
  · rw [if_pos c4] at h; cases h
  rw [if_neg (not_not.mpr c4)] at h
  split at h
  · cases h
  · rename_i r1 current newHash hnode
    obtain ⟨hso1, hec1⟩ := getNode_canonical _ _ _ _ _ _ _ _ _ _ _ _ _ _ hso hec hnode
    split at h
    · cases h
    · rename_i r3 hlinked
      have hr3 : r3.sequenceOverlap.Canonical ∧ r3.edgeCoverage.Canonical := by
        by_cases d1 : st.last.1 ≠ sizeMax ∧ subSize em.1 st.lastMinimizerPosition < k
        · rw [if_pos d1] at hlinked
          by_cases d2 : st.lastMinimizerPosition + k ≥ em.1
          · rw [if_neg (not_not.mpr d2)] at hlinked
            split at hlinked
            · cases hlinked
            · rename_i r2 hadd
              obtain ⟨hso2, hec2⟩ := addSequenceOverlap_canonical _ _ _ _ _ hso1 hec1 hadd
              split at hlinked
              · cases hlinked
              · rename_i ec hinc
                cases hlinked
                exact ⟨hso2, increase_canonical _ _ _ _ _ hec2 (canon_canon _ _) hinc⟩
          · rw [if_pos d2] at hlinked
            cases hlinked
        · rw [if_neg d1] at hlinked
          cases hlinked
          exact ⟨hso1, hec1⟩
      split at h
      · cases h
      · cases h
        exact hr3

theorem ingestEmissions_canonical (hash : List Nat → Nat) (k w : Nat) (seq revSeq lens : List Nat)
    (ems : List (Nat × Nat × Nat)) :
    ∀ st st2 : ReadState,
      st.result.sequenceOverlap.Canonical → st.result.edgeCoverage.Canonical →
      ingestEmissions hash k w seq revSeq lens st ems = some st2 →
      st2.result.sequenceOverlap.Canonical ∧ st2.result.edgeCoverage.Canonical := by
  induction ems with
  | nil =>
    intro st st2 hso hec h
    simp only [ingestEmissions, Option.some.injEq] at h
    subst h
    exact ⟨hso, hec⟩
  | cons em rest ih =>
    intro st st2 hso hec h
    unfold ingestEmissions at h
    split at h
    · cases h
    · rename_i st1 hstep
      obtain ⟨h1, h2⟩ := ingestEmission_canonical _ _ _ _ _ _ _ _ _ hso hec hstep
      exact ih st1 st2 h1 h2 h

theorem ingestRead_canonical (hash : List Nat → Nat) (k w : Nat) (hpc : Bool)
    (result r2 : HashList) (sequence : List Char)
    (hso : result.sequenceOverlap.Canonical) (hec : result.edgeCoverage.Canonical)
    (h : ingestRead hash k w hpc result sequence = some r2) :
    r2.sequenceOverlap.Canonical ∧ r2.edgeCoverage.Canonical := by
  unfold ingestRead at h
  by_cases c1 : sequence.length = 0
  · rw [if_pos c1] at h
    cases h
    exact ⟨hso, hec⟩
  · rw [if_neg c1] at h
    generalize (if hpc = true then runLengthEncode sequence else noRunLengthEncode sequence)
      = enc at h
    cases enc with
    | none => cases h
    | some p =>
      obtain ⟨seq, lens⟩ := p
      simp only at h
      by_cases c2 : seq.length ≤ (k + w) % 2 ^ 64
      · rw [if_pos c2] at h
        cases h
        exact ⟨hso, hec⟩
      · rw [if_neg c2] at h
        split at h
        · cases h
        · split at h
          · cases h
          · rename_i st hems
            cases h
            exact ingestEmissions_canonical _ _ _ _ _ _ _ _ _ hso hec hems

theorem ingestReads_canonical (hash : List Nat → Nat) (k w : Nat) (hpc : Bool)
    (reads : List (List Char)) :
    ∀ result r2 : HashList,
      result.sequenceOverlap.Canonical → result.edgeCoverage.Canonical →
      ingestReads hash k w hpc result reads = some r2 →
      r2.sequenceOverlap.Canonical ∧ r2.edgeCoverage.Canonical := by
  induction reads with
  | nil =>
    intro result r2 hso hec h
    simp only [ingestReads, Option.some.injEq] at h
    subst h
    exact ⟨hso, hec⟩
  | cons read rest ih =>
    intro result r2 hso hec h
    unfold ingestReads at h
    split at h
    · cases h
    · rename_i r1 hstep
      obtain ⟨h1, h2⟩ := ingestRead_canonical _ _ _ _ _ _ _ hso hec hstep
      exact ih r1 r2 h1 h2 h

theorem empty_canonical : EdgeMaps.Canonical (⟨[], []⟩ : EdgeMaps) := by
  intro a m b v hget _
  unfold VectorWithDirection.get? at hget
  split_ifs at hget <;> simp at hget

theorem loadReadsAsHashes_canonical (hash : List Nat → Nat) (reads : List (List Char))
    (k w : Nat) (hpc : Bool) (result : HashList)
    (h : loadReadsAsHashes hash reads k w hpc = some result) :
    result.sequenceOverlap.Canonical ∧ result.edgeCoverage.Canonical := by
  unfold loadReadsAsHashes at h
  split at h
  · cases h
  · rename_i r hr
    have hinv := ingestReads_canonical _ _ _ _ _ _ _ empty_canonical empty_canonical hr
    cases h
    exact hinv

/-! ## The canonical-key invariant through the transitive cleaner -/

theorem allCanon_nil : AllCanon [] := by
  intro t ht
  cases ht

theorem allCanon_append (l1 l2 : List (DirNode × DirNode × Nat)) (h1 : AllCanon l1)
    (h2 : AllCanon l2) : AllCanon (l1 ++ l2) := by
  intro t ht
  rcases List.mem_append.mp ht with h | h
  · exact h1 t h
  · exact h2 t h

theorem allCanon_singleton_canon (a b : DirNode) (v : Nat) :
    AllCanon [((canon a b).1, (canon a b).2, v)] := by
  intro t ht
  rw [List.mem_singleton.mp ht]
  exact canon_canon a b

theorem addMiddlesLoop_allCanon (hash : List Nat → Nat) (k : Nat) (seq : LazyString)
    (list : HashList) (prefixes : List Nat) (n : Nat) :
    ∀ (i : Nat) (h : FastHasher) (path : List DirNode) (old : DirNode) (oldpos : Nat)
      (overlaps : List (DirNode × DirNode × Nat))
      (res : List DirNode × DirNode × Nat × List (DirNode × DirNode × Nat)),
      AllCanon overlaps →
      addMiddlesLoop hash k seq list prefixes n i h path old oldpos overlaps = some res →
      AllCanon res.2.2.2 := by
  induction n with
  | zero =>
    intro i h path old oldpos overlaps res hall hrun
    simp only [addMiddlesLoop, Option.some.injEq] at hrun
    subst hrun
    exact hall
  | succ n ih =>
    intro i h path old oldpos overlaps res hall hrun
    unfold addMiddlesLoop at hrun
    split at hrun
    · simp only at hrun
      split_ifs at hrun with c1
      · split at hrun
        · cases hrun
        · split_ifs at hrun with c2
          · exact ih _ _ _ _ _ _ _ hall hrun
          · exact ih _ _ _ _ _ _ _
              (allCanon_append _ _ hall (allCanon_singleton_canon _ _ _)) hrun
      · exact ih _ _ _ _ _ _ _ hall hrun
    · cases hrun

theorem addMiddles_allCanon (hash : List Nat → Nat) (cleaner c2 : TransitiveCleaner) (k : Nat)
    (start stop : DirNode) (seq : LazyString) (list : HashList) (prefixes : List Nat)
    (hall : AllCanon cleaner.newSequenceOverlaps)
    (h : addMiddles hash cleaner k start stop seq list prefixes = some c2) :
    AllCanon c2.newSequenceOverlaps := by
  unfold addMiddles at h
  split at h
  · simp only at h
    split_ifs at h with c1
    split at h
    · cases h
    · rename_i path old oldpos overlaps hloop
      have hov : AllCanon overlaps :=
        addMiddlesLoop_allCanon _ _ _ _ _ _ _ _ _ _ _ _ _ hall hloop
      split_ifs at h with d1 d2 d3
      · split at h
        · cases h
        · split at h
          · cases h
          · cases h
            exact allCanon_append _ _ hov (allCanon_singleton_canon _ _ _)
      · cases h
        exact hov
  · cases h

theorem getMiddlesEdges_allCanon (hash : List Nat → Nat) (k : Nat) (hashlist : HashList)
    (prefixes : List Nat) (i : Nat) (start : DirNode) (seq : List Nat)
    (edges : List (DirNode × Nat)) :
    ∀ cleaner c2 : TransitiveCleaner, AllCanon cleaner.newSequenceOverlaps →
      getMiddlesEdges hash k hashlist prefixes i start seq cleaner edges = some c2 →
      AllCanon c2.newSequenceOverlaps := by
  induction edges with
  | nil =>
    intro cleaner c2 hall h
    simp only [getMiddlesEdges, Option.some.injEq] at h
    subst h
    exact hall
  | cons pair rest ih =>
    intro cleaner c2 hall h
    unfold getMiddlesEdges at h
    by_cases c1 : pair.1.1 ≥ i
    swap
    · rw [if_pos c1] at h; cases h
    rw [if_neg (not_not.mpr c1)] at h
    generalize (if pair.1.2 = true then hashlist.getHashSequenceRLE pair.1.1
      else hashlist.getRevCompHashSequenceRLE pair.1.1) = sec at h
    cases sec with
    | none => cases h
    | some second =>
      simp only at h
      split at h
      · cases h
      · split at h
        · cases h
        · rename_i c1 hadd
          exact ih _ _ (addMiddles_allCanon _ _ _ _ _ _ _ _ _ hall hadd) h

theorem getMiddlesSide_allCanon (hash : List Nat → Nat)
    (order : List (DirNode × Nat) → List (DirNode × Nat)) (k : Nat) (hashlist : HashList)
    (prefixes : List Nat) (i : Nat) (start : DirNode) (cleaner c2 : TransitiveCleaner)
    (hall : AllCanon cleaner.newSequenceOverlaps)
    (h : getMiddlesSide hash order k hashlist prefixes i start cleaner = some c2) :
    AllCanon c2.newSequenceOverlaps := by
  unfold getMiddlesSide at h
  split at h
  · cases h
  · rename_i m hm
    by_cases c1 : m.length > 0
    · rw [if_pos c1] at h
      generalize (if start.2 = true then hashlist.getHashSequenceRLE i
        else hashlist.getRevCompHashSequenceRLE i) = sq at h
      cases sq with
      | none => cases h
      | some seq => exact getMiddlesEdges_allCanon _ _ _ _ _ _ _ _ _ _ hall h
    · rw [if_neg c1] at h
      cases h
      exact hall

theorem getMiddlesLoop_allCanon (hash : List Nat → Nat)
    (order : List (DirNode × Nat) → List (DirNode × Nat)) (k : Nat) (hashlist : HashList)
    (prefixes : List Nat) (n : Nat) :
    ∀ (i : Nat) (cleaner c2 : TransitiveCleaner), AllCanon cleaner.newSequenceOverlaps →
      getMiddlesLoop hash order k hashlist prefixes n i cleaner = some c2 →
      AllCanon c2.newSequenceOverlaps := by
  induction n with
  | zero =>
    intro i cleaner c2 hall h
    simp only [getMiddlesLoop, Option.some.injEq] at h
    subst h
    exact hall
  | succ n ih =>
    intro i cleaner c2 hall h
    unfold getMiddlesLoop at h
    split at h
    · cases h
    · rename_i c1 h1
      split at h
      · cases h
      · rename_i c3 h3
        exact ih _ _ _ (getMiddlesSide_allCanon _ _ _ _ _ _ _ _ _
          (getMiddlesSide_allCanon _ _ _ _ _ _ _ _ _ hall h1) h3) h

theorem cleanTargets_allCanon (cleaner : TransitiveCleaner) (fuel : Nat) (start : DirNode)
    (targets : List (DirNode × Nat)) :
    ∀ acc acc2 : CleanAcc, AllCanon acc.addEdgeCoverage → AllCanon acc.removeEdgeCoverage →
      cleanTargets cleaner fuel start acc targets = some acc2 →
      AllCanon acc2.addEdgeCoverage ∧ AllCanon acc2.removeEdgeCoverage := by
  induction targets with
  | nil =>
    intro acc acc2 ha hr h
    simp only [cleanTargets, Option.some.injEq] at h
    subst h
    exact ⟨ha, hr⟩
  | cons target rest ih =>
    intro acc acc2 ha hr h
    unfold cleanTargets at h
    split at h
    · cases h
    · rename_i vec hvec
      split_ifs at h with c1
      · exact ih _ _ ha hr h
      · split at h
        · simp only at h
          split at h
          · cases h
          · refine ih _ _ ?_ ?_ h
            · apply allCanon_append _ _ ha
              intro t ht
              obtain ⟨e, _, he⟩ := List.mem_map.mp ht
              rw [← he]
              exact canon_canon e.1 e.2
            · exact allCanon_append _ _ hr (allCanon_singleton_canon _ _ _)
        · cases h

theorem cleanNodesLoop_allCanon (order : List (DirNode × Nat) → List (DirNode × Nat))
    (cleaner : TransitiveCleaner) (fuel : Nat) (edgeCoverage : EdgeMaps) (n : Nat) :
    ∀ (node : Nat) (acc acc2 : CleanAcc),
      AllCanon acc.addEdgeCoverage → AllCanon acc.removeEdgeCoverage →
      cleanNodesLoop order cleaner fuel edgeCoverage n node acc = some acc2 →
      AllCanon acc2.addEdgeCoverage ∧ AllCanon acc2.removeEdgeCoverage := by
  induction n with
  | zero =>
    intro node acc acc2 ha hr h
    simp only [cleanNodesLoop, Option.some.injEq] at h
    subst h
    exact ⟨ha, hr⟩
  | succ n ih =>
    intro node acc acc2 ha hr h
    unfold cleanNodesLoop at h
    split at h
    · split at h
      · cases h
      · rename_i acc1 h1
        obtain ⟨ha1, hr1⟩ := cleanTargets_allCanon _ _ _ _ _ _ ha hr h1
        split at h
        · cases h
        · rename_i acc3 h3
          obtain ⟨ha3, hr3⟩ := cleanTargets_allCanon _ _ _ _ _ _ ha1 hr1 h3
          exact ih _ _ _ ha3 hr3 h
    · cases h

theorem applyOverlaps_canonical (l : List (DirNode × DirNode × Nat)) :
    ∀ maps maps2 : EdgeMaps, maps.Canonical → AllCanon l →
      applyOverlaps maps l = some maps2 → maps2.Canonical := by
  induction l with
  | nil =>
    intro maps maps2 hc _ h
    simp only [applyOverlaps, Option.some.injEq] at h
    subst h
    exact hc
  | cons t rest ih =>
    intro maps maps2 hc hall h
    unfold applyOverlaps at h
    split at h
    · cases h
    · rename_i m2 hassign
      exact ih _ _ (assign_canonical _ _ _ _ _ hc (hall t (List.mem_cons_self _ _)) hassign)
        (fun x hx => hall x (List.mem_cons_of_mem _ hx)) h

theorem applyAdd_canonical (l : List (DirNode × DirNode × Nat)) :
    ∀ maps maps2 : EdgeMaps, maps.Canonical → AllCanon l →
      applyAdd maps l = some maps2 → maps2.Canonical := by
  induction l with
  | nil =>
    intro maps maps2 hc _ h
    simp only [applyAdd, Option.some.injEq] at h
    subst h
    exact hc
  | cons t rest ih =>
    intro maps maps2 hc hall h
    unfold applyAdd at h
    split at h
    · cases h
    · rename_i m2 hinc
      exact ih _ _ (increase_canonical _ _ _ _ _ hc (hall t (List.mem_cons_self _ _)) hinc)
        (fun x hx => hall x (List.mem_cons_of_mem _ hx)) h

theorem applyRemove_canonical (l : List (DirNode × DirNode × Nat)) :
    ∀ maps maps2 : EdgeMaps, maps.Canonical → AllCanon l →
      applyRemove maps l = some maps2 → maps2.Canonical := by
  induction l with
  | nil =>
    intro maps maps2 hc _ h
    simp only [applyRemove, Option.some.injEq] at h
    subst h
    exact hc
  | cons t rest ih =>
    intro maps maps2 hc hall h
    unfold applyRemove at h
    split at h
    · cases h
    · split at h
      · cases h
      · split_ifs at h with c1
        split at h
        · cases h
        · rename_i m2 hassign
          exact ih _ _ (assign_canonical _ _ _ _ _ hc (hall t (List.mem_cons_self _ _)) hassign)
            (fun x hx => hall x (List.mem_cons_of_mem _ hx)) h

theorem cleanTransitiveEdges_canonical (hash : List Nat → Nat)
    (order : List (DirNode × Nat) → List (DirNode × Nat)) (fuel : Nat) (result r2 : HashList)
    (k : Nat) (hso : result.sequenceOverlap.Canonical) (hec : result.edgeCoverage.Canonical)
    (h : cleanTransitiveEdges hash order fuel result k = some r2) :
    r2.sequenceOverlap.Canonical ∧ r2.edgeCoverage.Canonical := by
  unfold cleanTransitiveEdges at h
  split at h
  · cases h
  · rename_i cleaner hmake
    have hnso : AllCanon cleaner.newSequenceOverlaps :=
      getMiddlesLoop_allCanon _ _ _ _ _ _ _ _ _ allCanon_nil hmake
    split at h
    · cases h
    · rename_i acc hacc
      obtain ⟨hadd, hrem⟩ :=
        cleanNodesLoop_allCanon _ _ _ _ _ _ _ _ allCanon_nil allCanon_nil hacc
      split at h
      · cases h
      · rename_i so hso2
        split at h
        · cases h
        · rename_i ec1 hec1
          split at h
          · cases h
          · rename_i ec2 hec2
            cases h
            exact ⟨applyOverlaps_canonical _ _ _ hso hnso hso2,
              applyRemove_canonical _ _ _
                (applyAdd_canonical _ _ _ hec hadd hec1) hrem hec2⟩

/-! ## Claims -/

/-- C1: `canon (f,fo) (t,to)` is `(reverse to, reverse from)` in the case `t < f` and in the
case `t = f` with both orientations reverse; in every other case it is `(from, to)`
unchanged. -/
theorem canon_cases (srcNode dstNode : DirNode) :
    canon srcNode dstNode =
      if dstNode.1 < srcNode.1 ∨ (dstNode.1 = srcNode.1 ∧ dstNode.2 = false ∧ srcNode.2 = false)
      then (reverse dstNode, reverse srcNode) else (srcNode, dstNode) := by
  unfold canon
  by_cases h1 : dstNode.1 < srcNode.1
  · simp [h1]
  · by_cases h2 : dstNode.1 = srcNode.1 ∧ dstNode.2 = false ∧ srcNode.2 = false
    · simp [h1, h2]
    · simp [h1, h2]

/-- C2: both orientations of one bidirected edge have the same canonical form, and `canon`
applied to a pair it returned gives that pair back. -/
theorem canon_reverse_and_idempotent (a b : DirNode) :
    canon (reverse b) (reverse a) = canon a b ∧
      canon (canon a b).1 (canon a b).2 = canon a b :=
  ⟨canon_reverse_swap a b, canon_canon a b⟩

/-- C3: in every hash list produced by ingesting a list of reads and then running
`cleanTransitiveEdges`, every key pair of `sequenceOverlap` and of `edgeCoverage` is in
canonical form; this holds for every content hash and every iteration order of the maps. -/
theorem canonical_edges_after_cleaning (hash : List Nat → Nat)
    (order : List (DirNode × Nat) → List (DirNode × Nat)) (fuel : Nat)
    (reads : List (List Char)) (k w : Nat) (hpc : Bool) (loaded cleaned : HashList)
    (hload : loadReadsAsHashes hash reads k w hpc = some loaded)
    (hclean : cleanTransitiveEdges hash order fuel loaded k = some cleaned) :
    cleaned.sequenceOverlap.Canonical ∧ cleaned.edgeCoverage.Canonical := by
  obtain ⟨h1, h2⟩ := loadReadsAsHashes_canonical hash reads k w hpc loaded hload
  exact cleanTransitiveEdges_canonical hash order fuel loaded cleaned k h1 h2 hclean

/-- C3 (witness): the two reads of the worked example are ingested and cleaned, one transitive
edge is replaced, and the resulting edge maps are canonical. -/
theorem canonical_edges_after_cleaning_witness :
    loadReadsAsHashes exampleHash exampleReads 3 2 false = some exampleLoaded ∧
      cleanTransitiveEdges exampleHash id 50 exampleLoaded 3 = some exampleCleaned ∧
      exampleCleaned.sequenceOverlap.Canonical ∧ exampleCleaned.edgeCoverage.Canonical :=
  ⟨by decide, by decide,
    canonical_edges_after_cleaning exampleHash id 50 exampleReads 3 2 false exampleLoaded
      exampleCleaned (by decide) (by decide)⟩

/-- C4 (counterexample): on the empty read `noRunLengthEncode` stops at its `assert`, so
decoding its result does not give the empty string back. -/
theorem noRunLengthEncode_roundtrip_empty_fails :
    ¬ ((noRunLengthEncode []).bind (fun p => getSequence p.1 p.2) = some []) := by
  decide

/-- C4 (amended): for every non-empty string over `A, C, G, T`, decoding the non-HPC encoding
gives the string back. -/
theorem noRunLengthEncode_roundtrip (s : List Char) (hne : s ≠ [])
    (hs : ∀ c ∈ s, c ∈ ['A', 'C', 'G', 'T']) :
    (noRunLengthEncode s).bind (fun p => getSequence p.1 p.2) = some s := by
  obtain ⟨R, hrun, hlen, hdec⟩ := noRleLoop_spec s [] hs
  have hlen0 : s.length ≠ 0 := fun h => hne (List.length_eq_zero.mp h)
  rw [List.nil_append] at hrun
  have h1 : noRunLengthEncode s = some (R, List.replicate s.length 1) := by
    unfold noRunLengthEncode
    rw [if_neg hlen0, hrun]
    simp [hlen]
  rw [h1, Option.some_bind]
  unfold getSequence
  rw [if_pos (by simp [hlen]), hdec, List.nil_append]

/-- C4 (witness): the amended round trip at the read `ACGT`. -/
theorem noRunLengthEncode_roundtrip_witness :
    (noRunLengthEncode ['A', 'C', 'G', 'T']).bind (fun p => getSequence p.1 p.2)
      = some ['A', 'C', 'G', 'T'] :=
  noRunLengthEncode_roundtrip ['A', 'C', 'G', 'T'] (by simp) (by simp)

/-- C5 (counterexample): a run of `2 ^ 16` equal bases wraps its 16-bit run length to 0, and
decoding the run-length encoding gives the empty string instead of the read; and on the empty
read `runLengthEncode` stops at its `assert`. -/
theorem runLengthEncode_roundtrip_fails :
    ¬ ((runLengthEncode (List.replicate (2 ^ 16) 'A')).bind (fun p => getSequence p.1 p.2)
        = some (List.replicate (2 ^ 16) 'A')) ∧
      ¬ ((runLengthEncode []).bind (fun p => getSequence p.1 p.2) = some []) := by
  refine ⟨?_, by decide⟩
  have h1 : runLengthEncode (List.replicate (2 ^ 16) 'A') = some ([1], [0]) := by
    have h2 : (2 : Nat) ^ 16 = 65535 + 1 := by norm_num
    rw [h2, List.replicate_succ]
    have h3 := rleLoop_replicate 'A' 65535 [1] [] 1 (by norm_num)
    rw [List.nil_append] at h3
    unfold runLengthEncode
    have h4 : charCode 'A' = some 1 := by decide
    simp only [h4]
    rw [h3]
    rfl
  rw [h1]
  intro h
  have h5 : (some ([] : List Char)) = some (List.replicate (2 ^ 16) 'A') := h
  have h6 := congrArg (Option.map List.length) h5
  rw [Option.map_some', Option.map_some', List.length_replicate] at h6
  revert h6
  norm_num

/-- C5 (amended): for every non-empty string over `A, C, G, T` in which no base is repeated
`2 ^ 16` or more times in a row, decoding the run-length encoding gives the string back. -/
theorem runLengthEncode_roundtrip (s : List Char) (hne : s ≠ [])
    (hs : ∀ c ∈ s, c ∈ ['A', 'C', 'G', 'T'])
    (hfit : ∀ c : Char, ¬ List.replicate (2 ^ 16) c <:+: s) :
    (runLengthEncode s).bind (fun p => getSequence p.1 p.2) = some s := by
  cases s with
  | nil => exact absurd rfl hne
  | cons c rest =>
    have hc := hs c (List.mem_cons_self _ _)
    obtain ⟨code, hcode, hb⟩ := charCode_upper c hc
    obtain ⟨R, Ls, hrun, hlen, _, hdec⟩ :=
      rleLoop_spec rest c code [code] [] 1 hc hcode hb
        (fun d hd => hs d (List.mem_cons_of_mem _ hd))
    obtain ⟨_, hout⟩ := hdec hfit (le_refl 1)
    have h1 : runLengthEncode (c :: rest) = some (code :: R, Ls) := by
      unfold runLengthEncode
      simp only [hcode]
      rw [← List.nil_append [1], hrun]
      rfl
    rw [h1, Option.some_bind]
    unfold getSequence
    rw [if_pos (by simp [hlen]), hout]
    rfl

/-- C5 (witness): the amended round trip at the read `AACCCGT`. -/
theorem runLengthEncode_roundtrip_witness :
    (runLengthEncode ['A', 'A', 'C', 'C', 'C', 'G', 'T']).bind (fun p => getSequence p.1 p.2)
      = some ['A', 'A', 'C', 'C', 'C', 'G', 'T'] :=
  runLengthEncode_roundtrip ['A', 'A', 'C', 'C', 'C', 'G', 'T'] (by simp) (by simp)
    (fun c h => by
      have h2 := h.length_le
      rw [List.length_replicate] at h2
      revert h2
      norm_num)

/-- C6 (counterexample): for a run of `2 ^ 16` equal bases `runLengthEncode` returns the run
length 0, which is not at least 1. -/
theorem runLengthEncode_long_run_length_zero :
    ∃ p, runLengthEncode (List.replicate (2 ^ 16) 'A') = some p ∧ ¬ (∀ x ∈ p.2, 1 ≤ x) := by
  refine ⟨([1], [0]), ?_, by simp⟩
  have h2 : (2 : Nat) ^ 16 = 65535 + 1 := by norm_num
  rw [h2, List.replicate_succ]
  have h3 := rleLoop_replicate 'A' 65535 [1] [] 1 (by norm_num)
  rw [List.nil_append] at h3
  unfold runLengthEncode
  have h4 : charCode 'A' = some 1 := by decide
  simp only [h4]
  rw [h3]
  rfl

/-- C6 (amended): for every non-empty string over `A, C, G, T`, `runLengthEncode` returns codes
with no two adjacent equal and as many run lengths as codes; when no base is repeated `2 ^ 16`
or more times in a row, every run length is at least 1. -/
theorem runLengthEncode_shape (s : List Char) (hne : s ≠ [])
    (hs : ∀ c ∈ s, c ∈ ['A', 'C', 'G', 'T']) :
    ∃ p, runLengthEncode s = some p ∧ List.Chain' (fun a b => a ≠ b) p.1 ∧
      p.1.length = p.2.length ∧
      ((∀ c : Char, ¬ List.replicate (2 ^ 16) c <:+: s) → ∀ x ∈ p.2, 1 ≤ x) := by
  cases s with
  | nil => exact absurd rfl hne
  | cons c rest =>
    have hc := hs c (List.mem_cons_self _ _)
    obtain ⟨code, hcode, hb⟩ := charCode_upper c hc
    obtain ⟨R, Ls, hrun, hlen, hchain, hdec⟩ :=
      rleLoop_spec rest c code [code] [] 1 hc hcode hb
        (fun d hd => hs d (List.mem_cons_of_mem _ hd))
    refine ⟨(code :: R, Ls), ?_, hchain, by simp [hlen], fun hfit => (hdec hfit (le_refl 1)).1⟩
    unfold runLengthEncode
    simp only [hcode]
    rw [← List.nil_append [1], hrun]
    rfl

/-- C6 (witness): the shape of the encoding of the read `AACCCGT`. -/
theorem runLengthEncode_shape_witness :
    ∃ p, runLengthEncode ['A', 'A', 'C', 'C', 'C', 'G', 'T'] = some p ∧
      List.Chain' (fun a b => a ≠ b) p.1 ∧ p.1.length = p.2.length ∧
      ((∀ c : Char, ¬ List.replicate (2 ^ 16) c <:+: ['A', 'A', 'C', 'C', 'C', 'G', 'T']) →
        ∀ x ∈ p.2, 1 ≤ x) :=
  runLengthEncode_shape ['A', 'A', 'C', 'C', 'C', 'G', 'T'] (by simp) (by simp)

/-- C7: on base codes `0..4`, `revCompRLE` is an involution, keeps the length, and its element
`i` is the complement (`0` to `0`, `x` to `5 - x`) of element `len - 1 - i` of the input. -/
theorem revCompRLE_involution_and_entries (s : List Nat) (hs : ∀ c ∈ s, c ≤ 4) :
    revCompRLE (revCompRLE s) = s ∧ (revCompRLE s).length = s.length ∧
      ∀ i, i < s.length →
        (revCompRLE s)[i]? = (s[s.length - 1 - i]?).map (fun x => if x = 0 then 0 else 5 - x) := by
  have hcomp : ∀ c, c ≤ 4 → [0, 4, 3, 2, 1].getD c 0 = if c = 0 then 0 else 5 - c := by
    intro c hc
    interval_cases c <;> rfl
  refine ⟨revCompRLE_revCompRLE s hs, revCompRLE_length s, ?_⟩
  · intro i hi
    unfold revCompRLE
    rw [List.getElem?_map, List.getElem?_reverse hi]
    have hj : s.length - 1 - i < s.length := by omega
    rw [List.getElem?_eq_getElem hj]
    simp only [Option.map_some']
    rw [hcomp _ (hs _ (List.getElem_mem _))]

/-- C7 (witness): the involution and entry description at the code sequence `1,1,2,3,0`. -/
theorem revCompRLE_involution_and_entries_witness :
    revCompRLE (revCompRLE [1, 1, 2, 3, 0]) = [1, 1, 2, 3, 0] ∧
      (revCompRLE [1, 1, 2, 3, 0]).length = [1, 1, 2, 3, 0].length ∧
      ∀ i, i < [1, 1, 2, 3, 0].length →
        (revCompRLE [1, 1, 2, 3, 0])[i]?
          = ([1, 1, 2, 3, 0][[1, 1, 2, 3, 0].length - 1 - i]?).map
              (fun x => if x = 0 then 0 else 5 - x) :=
  revCompRLE_involution_and_entries [1, 1, 2, 3, 0] (by decide)

/-- C8: each encoder stops at an `assert` exactly on the empty string and on strings holding a
character outside `A, C, G, T, a, c, g, t`, wherever that character stands. -/
theorem encoders_fail_iff (s : List Char) :
    (runLengthEncode s = none ↔
        (s = [] ∨ ∃ c ∈ s, c ∉ ['A', 'C', 'G', 'T', 'a', 'c', 'g', 't'])) ∧
      (noRunLengthEncode s = none ↔
        (s = [] ∨ ∃ c ∈ s, c ∉ ['A', 'C', 'G', 'T', 'a', 'c', 'g', 't'])) := by
  have hex : (∃ c ∈ s, c ∉ ['A', 'C', 'G', 'T', 'a', 'c', 'g', 't']) ↔
      ∃ c ∈ s, charCode c = none := by
    constructor
    · rintro ⟨c, hc, h⟩
      exact ⟨c, hc, (charCode_eq_none_iff c).mpr h⟩
    · rintro ⟨c, hc, h⟩
      exact ⟨c, hc, (charCode_eq_none_iff c).mp h⟩
  rw [hex]
  constructor
  · cases s with
    | nil => simp [runLengthEncode]
    | cons c rest =>
      unfold runLengthEncode
      cases hc : charCode c with
      | none => simp [hc]
      | some code =>
        have hne : charCode c ≠ none := by rw [hc]; simp
        simp only [hc]
        rw [rleLoop_eq_none_iff rest c _ _ hne]
        simp [hc]
  · cases s with
    | nil => simp [noRunLengthEncode]
    | cons c rest =>
      unfold noRunLengthEncode
      rw [if_neg (by simp)]
      cases hr : noRleLoop (c :: rest) [] with
      | none =>
        simp only [true_iff]
        right
        exact (noRleLoop_eq_none_iff _ _).mp hr
      | some R =>
        have hlen := noRleLoop_length _ _ _ hr
        simp only
        rw [if_pos (by simp at hlen; simp [hlen])]
        constructor
        · intro h; simp at h
        · intro h
          rcases h with h | h
          · simp at h
          · have := (noRleLoop_eq_none_iff (c :: rest) []).mpr h
            rw [hr] at this
            simp at this

/-- C9: for `k % 64 ≠ 0` and a k-mer `x` of base codes `1..4`, the forward hash of a fresh
hasher fed `x` is the backward hash of a fresh hasher fed `revCompRLE x`, and the other way
round; so `hash`, the minimum of both, agrees on `x` and on its reverse complement. -/
theorem hasher_strand_symmetry (k : Nat) (x : List Nat) (hk : k % 64 ≠ 0)
    (hlen : x.length = k) (hx : ∀ c ∈ x, 1 ≤ c ∧ c ≤ 4) :
    ((FastHasher.fresh k).addChars x).getFwHash
        = ((FastHasher.fresh k).addChars (revCompRLE x)).getBwHash ∧
      ((FastHasher.fresh k).addChars x).getBwHash
        = ((FastHasher.fresh k).addChars (revCompRLE x)).getFwHash ∧
      ((FastHasher.fresh k).addChars x).hash
        = ((FastHasher.fresh k).addChars (revCompRLE x)).hash := by
  have hbw := strand_symmetry_bw k hk x hlen
  have hfw : ((FastHasher.fresh k).addChars x).fwHash
      = ((FastHasher.fresh k).addChars (revCompRLE x)).bwHash := by
    have h := strand_symmetry_bw k hk (revCompRLE x) (by rw [revCompRLE_length, hlen])
    rw [revCompRLE_revCompRLE x (fun c hc => (hx c hc).2)] at h
    exact h.symm
  refine ⟨hfw, hbw, ?_⟩
  unfold FastHasher.hash
  rw [hfw, hbw, Nat.min_comm]

/-- C9 (witness): strand symmetry at `k = 5` for the k-mer `A C G T A`. -/
theorem hasher_strand_symmetry_witness :
    ((FastHasher.fresh 5).addChars [1, 2, 3, 4, 1]).getFwHash
        = ((FastHasher.fresh 5).addChars (revCompRLE [1, 2, 3, 4, 1])).getBwHash ∧
      ((FastHasher.fresh 5).addChars [1, 2, 3, 4, 1]).getBwHash
        = ((FastHasher.fresh 5).addChars (revCompRLE [1, 2, 3, 4, 1])).getFwHash ∧
      ((FastHasher.fresh 5).addChars [1, 2, 3, 4, 1]).hash
        = ((FastHasher.fresh 5).addChars (revCompRLE [1, 2, 3, 4, 1])).hash :=
  hasher_strand_symmetry 5 [1, 2, 3, 4, 1] (by decide) (by decide) (by decide)

/-- C10: for `k % 64 ≠ 0` and base codes `c0, mid, ck` with `c0 :: mid` a window of length `k`,
a hasher in the state of that window (fed from scratch, or seeded with the window's captured
hash pair) holds after `addChar ck` and `removeChar c0` exactly the forward and backward hashes
of a fresh hasher fed `mid ++ [ck]`. -/
theorem hasher_rolling_update (k c0 ck : Nat) (mid : List Nat) (hk : k % 64 ≠ 0)
    (hlen : mid.length + 1 = k) (_hcodes : ∀ c ∈ c0 :: (mid ++ [ck]), c ≤ 4) :
    ∀ st : FastHasher,
      (st = (FastHasher.fresh k).addChars (c0 :: mid) ∨
        st = FastHasher.seeded k ((FastHasher.fresh k).addChars (c0 :: mid)).getFwHash
              ((FastHasher.fresh k).addChars (c0 :: mid)).getBwHash) →
      ((st.addChar ck).removeChar c0).getFwHash
          = ((FastHasher.fresh k).addChars (mid ++ [ck])).getFwHash ∧
        ((st.addChar ck).removeChar c0).getBwHash
          = ((FastHasher.fresh k).addChars (mid ++ [ck])).getBwHash := by
  have hseed : FastHasher.seeded k ((FastHasher.fresh k).addChars (c0 :: mid)).getFwHash
      ((FastHasher.fresh k).addChars (c0 :: mid)).getBwHash
      = (FastHasher.fresh k).addChars (c0 :: mid) := by
    obtain ⟨h1, h2, h3, h4, h5⟩ := addChars_tables (c0 :: mid) (FastHasher.fresh k)
    cases hst : (FastHasher.fresh k).addChars (c0 :: mid) with
    | mk fa fr ba br fw bw ks =>
      rw [hst] at h1 h2 h3 h4 h5
      simp only at h1 h2 h3 h4 h5
      subst h1 h2 h3 h4 h5
      rfl
  intro st hst
  have hst2 : st = (FastHasher.fresh k).addChars (c0 :: mid) := by
    rcases hst with h | h
    · exact h
    · rw [h, hseed]
  subst hst2
  have hroll : ((FastHasher.fresh k).addChars (c0 :: mid)).addChar ck
      = (FastHasher.fresh k).addChars (c0 :: (mid ++ [ck])) := by
    unfold FastHasher.addChars
    rw [← List.cons_append, List.foldl_append]
    rfl
  obtain ⟨_, t2, _, t4, _⟩ := addChars_tables (c0 :: (mid ++ [ck])) (FastHasher.fresh k)
  have hH : ∀ c, (fun c => charHashes.getD c 0) c < 2 ^ 64 := fun c => charHash_lt c
  have hB : ∀ c, (fun c => rot64 (k + 63) (charHashes.getD (complement c) 0)) c < 2 ^ 64 :=
    fun c => rot64_lt _ _ (charHash_lt _)
  have hmlen : (mid ++ [ck]).length = k := by
    rw [List.length_append, List.length_singleton, hlen]
  constructor
  · show (((FastHasher.fresh k).addChars (c0 :: mid)).addChar ck).fwHash
        ^^^ (((FastHasher.fresh k).addChars (c0 :: mid)).addChar ck).fwRemove.getD c0 0 = _
    rw [hroll, t2]
    show _ ^^^ (FastHasher.seeded k 0 0).fwRemove.getD c0 0 = _
    rw [seeded_fwRemove, fresh_fwHash, rotFold_cons_zero 1 _ hH, hmlen]
    show _ = ((FastHasher.fresh k).addChars (mid ++ [ck])).fwHash
    rw [fresh_fwHash]
    have e : rot64 (1 * k) (charHashes.getD c0 0) = rot64 k (charHashes.getD c0 0) := by
      rw [Nat.one_mul]
    rw [e, Nat.xor_comm (rot64 k _), Nat.xor_assoc, Nat.xor_self, Nat.xor_zero]
  · show (((FastHasher.fresh k).addChars (c0 :: mid)).addChar ck).bwHash
        ^^^ (((FastHasher.fresh k).addChars (c0 :: mid)).addChar ck).bwRemove.getD c0 0 = _
    rw [hroll, t4]
    show _ ^^^ (FastHasher.seeded k 0 0).bwRemove.getD c0 0 = _
    rw [seeded_bwRemove, fresh_bwHash k hk, rotFold_cons_zero 63 _ hB, hmlen,
      rot64_rot64 _ _ _ (charHash_lt _)]
    show _ = ((FastHasher.fresh k).addChars (mid ++ [ck])).bwHash
    rw [fresh_bwHash k hk]
    have e : rot64 (63 * k + (k + 63)) (charHashes.getD (complement c0) 0)
        = rot64 63 (charHashes.getD (complement c0) 0) := by
      apply rot64_congr
      omega
    rw [e, Nat.xor_comm (rot64 63 _), Nat.xor_assoc, Nat.xor_self, Nat.xor_zero]

/-- C10 (witness): the rolling update at `k = 3` from the window `A C G` to `C G T`, for the
hasher fed from scratch. -/
theorem hasher_rolling_update_witness :
    (((((FastHasher.fresh 3).addChars [1, 2, 3]).addChar 4).removeChar 1).getFwHash
        = ((FastHasher.fresh 3).addChars [2, 3, 4]).getFwHash) ∧
      (((((FastHasher.fresh 3).addChars [1, 2, 3]).addChar 4).removeChar 1).getBwHash
        = ((FastHasher.fresh 3).addChars [2, 3, 4]).getBwHash) :=
  hasher_rolling_update 3 1 4 [2, 3] (by decide) (by decide) (by decide)
    ((FastHasher.fresh 3).addChars [1, 2, 3]) (Or.inl rfl)


/-! ## Adjacent storage lemmas -/

theorem getElem?_dropLast_append_of_lt {α : Type} (l : List α) (x : α) (i : Nat)
    (h : i + 1 < l.length) : (l.dropLast ++ [x])[i]? = l[i]? := by
  have h1 : i < l.dropLast.length := by
    rw [List.length_dropLast]
    omega
  rw [List.getElem?_append_left h1, List.getElem?_eq_getElem h1,
    List.getElem?_eq_getElem (by omega), List.getElem_dropLast]

theorem getElem?_dropLast_append_last {α : Type} (l : List α) (x : α) :
    (l.dropLast ++ [x])[l.length - 1]? = some x := by
  have h1 : l.dropLast.length = l.length - 1 := List.length_dropLast l
  rw [List.getElem?_append_right (by omega), h1, Nat.sub_self]
  rfl

theorem addString_append_eq (l : AdjacentMinimizerList) (str back : List Nat)
    (currentHash previousHash overlap : Nat)
    (hprev : previousHash ≠ 0) (hsame : previousHash = l.lastHash)
    (hov : overlap < str.length) (hback : l.data.getLast? = some back)
    (hfit : overlap ≤ back.length) :
    l.addString str currentHash previousHash overlap
      = some ({ data := l.data.dropLast ++ [back ++ str.drop overlap], lastHash := currentHash },
          (l.data.length - 1, (back ++ str.drop overlap).length - str.length)) := by
  have hne : l.data.length ≠ 0 := by
    intro h0
    rw [List.length_eq_zero.mp h0] at hback
    cases hback
  have hlast : l.lastHash ≠ 0 := by
    rw [← hsame]
    exact hprev
  have hcond : ¬ (l.data.length = 0 ∨ l.lastHash = 0 ∨ previousHash = 0 ∨
      previousHash ≠ l.lastHash) := by
    intro h
    rcases h with h | h | h | h
    · exact hne h
    · exact hlast h
    · exact hprev h
    · exact h hsame
  have hlen : (back ++ str.drop overlap).length ≥ str.length := by
    rw [List.length_append, List.length_drop]
    omega
  unfold AdjacentMinimizerList.addString
  rw [if_neg hcond, if_neg (not_not.mpr hov), hback]
  simp only
  rw [if_neg (not_not.mpr hlen)]

/-! ## Claims on the adjacent storage -/

/-- C11: `addString` opens a new buffer holding exactly the view and returns
`(number of buffers before the call, 0)` if and only if there is no buffer yet, or
`previousHash = 0`, or `previousHash ≠ lastHash`; and whenever the call returns, `lastHash` has
become `currentHash`. -/
theorem addString_new_buffer_iff (l : AdjacentMinimizerList) (str : List Nat)
    (currentHash previousHash overlap : Nat) :
    (l.addString str currentHash previousHash overlap
        = some ({ data := l.data ++ [str], lastHash := currentHash }, (l.data.length, 0)) ↔
      (l.data.length = 0 ∨ previousHash = 0 ∨ previousHash ≠ l.lastHash)) ∧
    ∀ r, l.addString str currentHash previousHash overlap = some r →
      r.1.lastHash = currentHash := by
  by_cases hcond : l.data.length = 0 ∨ l.lastHash = 0 ∨ previousHash = 0 ∨
      previousHash ≠ l.lastHash
  · have hrun : l.addString str currentHash previousHash overlap
        = some ({ data := l.data ++ [str], lastHash := currentHash }, (l.data.length, 0)) := by
      unfold AdjacentMinimizerList.addString
      rw [if_pos hcond]
    refine ⟨⟨fun _ => ?_, fun _ => hrun⟩, ?_⟩
    · rcases hcond with h | h | h | h
      · exact Or.inl h
      · by_cases hp : previousHash = 0
        · exact Or.inr (Or.inl hp)
        · right; right
          rw [h]
          exact hp
      · exact Or.inr (Or.inl h)
      · exact Or.inr (Or.inr h)
    · intro r hr
      rw [hrun] at hr
      cases hr
      rfl
  · have hne : l.data.length ≠ 0 := fun h => hcond (Or.inl h)
    have hprev : previousHash ≠ 0 := fun h => hcond (Or.inr (Or.inr (Or.inl h)))
    have hsame : previousHash = l.lastHash := by
      by_contra h
      exact hcond (Or.inr (Or.inr (Or.inr h)))
    have hshape : ∀ r, l.addString str currentHash previousHash overlap = some r →
        r.1.lastHash = currentHash ∧ r.1.data.length = l.data.length := by
      intro r hr
      unfold AdjacentMinimizerList.addString at hr
      rw [if_neg hcond] at hr
      by_cases hov : overlap < str.length
      · rw [if_neg (not_not.mpr hov)] at hr
        split at hr
        · cases hr
        · simp only at hr
          split_ifs at hr
          cases hr
          refine ⟨rfl, ?_⟩
          simp only [List.length_append, List.length_dropLast, List.length_singleton]
          omega
      · rw [if_pos hov] at hr
        cases hr
    refine ⟨⟨fun hrun => ?_, fun h => ?_⟩, fun r hr => (hshape r hr).1⟩
    · have h2 := (hshape _ hrun).2
      simp only [List.length_append, List.length_singleton] at h2
      omega
    · rcases h with h | h | h
      · exact absurd h hne
      · exact absurd h hprev
      · exact absurd hsame h

/-- C11 (witness): on the empty store a first call opens buffer 0, and a call whose
`previousHash` matches `lastHash` still sets `lastHash` to `currentHash`. -/
theorem addString_new_buffer_iff_witness :
    (AdjacentMinimizerList.addString ⟨[], 0⟩ [1, 2, 3] 7 0 0
        = some (⟨[[1, 2, 3]], 7⟩, (0, 0))) ∧
      (⟨[[1, 2, 3, 4]], 9⟩ : AdjacentMinimizerList).lastHash = 9 :=
  ⟨(addString_new_buffer_iff ⟨[], 0⟩ [1, 2, 3] 7 0 0).1.mpr (Or.inl rfl),
    (addString_new_buffer_iff ⟨[[1, 2, 3]], 7⟩ [2, 3, 4] 9 7 2).2
      (⟨[[1, 2, 3, 4]], 9⟩, (0, 1)) (by decide)⟩

/-- C12 (counterexample): in the append case with `overlap < len(view)`, a last buffer shorter
than `overlap` makes the call stop at `assert(data.back().size() >= str.size())`: the buffer
`[1]`, the view `[1, 2, 3]` and overlap 2 give no result. -/
theorem addString_append_short_buffer_fails :
    (⟨[[1]], 7⟩ : AdjacentMinimizerList).data.length ≠ 0 ∧ (7 : Nat) ≠ 0 ∧
      (7 : Nat) = (⟨[[1]], 7⟩ : AdjacentMinimizerList).lastHash ∧ 2 < [1, 2, 3].length ∧
      AdjacentMinimizerList.addString ⟨[[1]], 7⟩ [1, 2, 3] 9 7 2 = none := by
  decide

/-- C12 (amended): in the append case (a buffer exists, `previousHash ≠ 0`,
`previousHash = lastHash`, `overlap < len(view)`) with a last buffer of at least `overlap`
characters, the last buffer grows by exactly `view[overlap..]`, the result is
`(index of the last buffer, newSize - len(view))`, and if the last `overlap` characters of the
buffer before the call equal `view[0..overlap)`, the view at the result is `view`. -/
theorem addString_append_case (l : AdjacentMinimizerList) (str back : List Nat)
    (currentHash previousHash overlap : Nat)
    (hprev : previousHash ≠ 0) (hsame : previousHash = l.lastHash)
    (hov : overlap < str.length) (hback : l.data.getLast? = some back)
    (hfit : overlap ≤ back.length) :
    ∃ l2, l.addString str currentHash previousHash overlap
        = some (l2, (l.data.length - 1, (back ++ str.drop overlap).length - str.length)) ∧
      l2.data = l.data.dropLast ++ [back ++ str.drop overlap] ∧
      (back.drop (back.length - overlap) = str.take overlap →
        l2.getView (l.data.length - 1) ((back ++ str.drop overlap).length - str.length)
          str.length = some str) := by
  refine ⟨_, addString_append_eq l str back currentHash previousHash overlap hprev hsame hov
    hback hfit, rfl, ?_⟩
  intro htail
  have hoff : (back ++ str.drop overlap).length - str.length = back.length - overlap := by
    rw [List.length_append, List.length_drop]
    omega
  unfold AdjacentMinimizerList.getView
  simp only
  rw [getElem?_dropLast_append_last]
  simp only
  rw [hoff]
  have hle : back.length - overlap + str.length ≤ (back ++ str.drop overlap).length := by
    rw [List.length_append, List.length_drop]
    omega
  rw [if_pos hle]
  have hdrop : (back ++ str.drop overlap).drop (back.length - overlap) = str := by
    rw [List.drop_append_of_le_length (by omega), htail, List.take_append_drop]
  rw [hdrop, List.take_length]

/-- C12 (witness): appending the view `[2, 3, 4]` with overlap 2 onto the buffer `[1, 2, 3]`
gives the buffer `[1, 2, 3, 4]`, the handle `(0, 1)` and the view back. -/
theorem addString_append_case_witness :
    ∃ l2, AdjacentMinimizerList.addString ⟨[[1, 2, 3]], 7⟩ [2, 3, 4] 9 7 2
        = some (l2, (1 - 1, ([1, 2, 3] ++ [2, 3, 4].drop 2).length - [2, 3, 4].length)) ∧
      l2.data = [[1, 2, 3]].dropLast ++ [[1, 2, 3] ++ [2, 3, 4].drop 2] ∧
      ([1, 2, 3].drop ([1, 2, 3].length - 2) = [2, 3, 4].take 2 →
        l2.getView (1 - 1) (([1, 2, 3] ++ [2, 3, 4].drop 2).length - [2, 3, 4].length)
          [2, 3, 4].length = some [2, 3, 4]) :=
  addString_append_case ⟨[[1, 2, 3]], 7⟩ [2, 3, 4] [1, 2, 3] 9 7 2 (by decide) (by decide)
    (by decide) (by decide) (by decide)

/-- C13: a handle `(bufferId, offset, size)` that is in range before a call of `addString`
shows the same content after the call. -/
theorem addString_keeps_views (l l2 : AdjacentMinimizerList) (str : List Nat)
    (currentHash previousHash overlap : Nat) (ptr : Nat × Nat) (b off size : Nat)
    (v : List Nat)
    (hadd : l.addString str currentHash previousHash overlap = some (l2, ptr))
    (hview : l.getView b off size = some v) :
    l2.getView b off size = some v := by
  unfold AdjacentMinimizerList.getView at hview ⊢
  cases hbuf : l.data[b]? with
  | none => rw [hbuf] at hview; cases hview
  | some buf =>
    rw [hbuf] at hview
    simp only at hview
    by_cases hin : off + size ≤ buf.length
    swap
    · rw [if_neg hin] at hview; cases hview
    rw [if_pos hin] at hview
    have hb : b < l.data.length := by
      by_contra hge
      rw [List.getElem?_eq_none (by omega)] at hbuf
      cases hbuf
    unfold AdjacentMinimizerList.addString at hadd
    by_cases hcond : l.data.length = 0 ∨ l.lastHash = 0 ∨ previousHash = 0 ∨
        previousHash ≠ l.lastHash
    · rw [if_pos hcond] at hadd
      cases hadd
      simp only
      rw [List.getElem?_append_left hb, hbuf]
      simp only
      rw [if_pos hin]
      exact hview
    · rw [if_neg hcond] at hadd
      by_cases hov : overlap < str.length
      swap
      · rw [if_pos hov] at hadd; cases hadd
      rw [if_neg (not_not.mpr hov)] at hadd
      cases hlast : l.data.getLast? with
      | none => rw [hlast] at hadd; cases hadd
      | some back =>
        rw [hlast] at hadd
        simp only at hadd
        split_ifs at hadd with hfit
        cases hadd
        simp only
        by_cases hbl : b + 1 < l.data.length
        · rw [getElem?_dropLast_append_of_lt _ _ _ hbl, hbuf]
          simp only
          rw [if_pos hin]
          exact hview
        · have hbe : b = l.data.length - 1 := by omega
          have hbb : buf = back := by
            rw [List.getLast?_eq_getElem?, ← hbe, hbuf] at hlast
            exact Option.some.inj hlast
          subst hbb
          rw [hbe, getElem?_dropLast_append_last]
          simp only
          rw [if_pos (by rw [List.length_append]; omega)]
          rw [List.drop_append_of_le_length (by omega),
            List.take_append_of_le_length (by rw [List.length_drop]; omega)]
          exact hview

/-- C13 (witness): the view `(0, 0, 3)` of the buffer `[1, 2, 3]` is unchanged by a call that
appends onto that buffer. -/
theorem addString_keeps_views_witness :
    AdjacentMinimizerList.getView ⟨[[1, 2, 3, 4]], 9⟩ 0 0 3 = some [1, 2, 3] :=
  addString_keeps_views ⟨[[1, 2, 3]], 7⟩ ⟨[[1, 2, 3, 4]], 9⟩ [2, 3, 4] 9 7 2 (0, 1) 0 0 3
    [1, 2, 3] (by decide) (by decide)

/-- C14: for a handle `(b, off, size)` inside buffer `b`, `getRevCompLocation` gives
`(b, len - size - off)`, and the view of the reverse-complement store there, of the same size,
is `revCompRLE` of the view of the original store. -/
theorem revComp_view (l : AdjacentMinimizerList) (b off size : Nat) (buf : List Nat)
    (hbuf : l.data[b]? = some buf) (hin : off + size ≤ buf.length) :
    l.getRevCompLocation b off size = some (b, buf.length - size - off) ∧
      l.getReverseComplementStorage.getView b (buf.length - size - off) size
        = (l.getView b off size).map revCompRLE := by
  constructor
  · unfold AdjacentMinimizerList.getRevCompLocation
    rw [hbuf]
    simp only
    rw [if_pos hin]
  · unfold AdjacentMinimizerList.getView AdjacentMinimizerList.getReverseComplementStorage
    simp only
    rw [List.getElem?_map, hbuf]
    simp only [Option.map_some']
    have hlen : (revCompRLE buf).length = buf.length := revCompRLE_length buf
    rw [if_pos (by rw [hlen]; omega), if_pos hin]
    simp only [Option.map_some', Option.some.injEq]
    unfold revCompRLE
    rw [← List.map_drop, ← List.map_take]
    congr 1
    rw [List.reverse_take, List.reverse_drop, List.length_drop, List.drop_take]
    have e1 : buf.length - off - (buf.length - off - size) = size := by omega
    have e2 : buf.length - off - size = buf.length - size - off := by omega
    rw [e1, e2]

/-- C14 (witness): the reverse-complement view of `(0, 1, 2)` in the buffer `[1, 2, 3, 4]`. -/
theorem revComp_view_witness :
    AdjacentMinimizerList.getRevCompLocation ⟨[[1, 2, 3, 4]], 9⟩ 0 1 2
        = some (0, [1, 2, 3, 4].length - 2 - 1) ∧
      (AdjacentMinimizerList.getReverseComplementStorage ⟨[[1, 2, 3, 4]], 9⟩).getView 0
          ([1, 2, 3, 4].length - 2 - 1) 2
        = (AdjacentMinimizerList.getView ⟨[[1, 2, 3, 4]], 9⟩ 0 1 2).map revCompRLE :=
  revComp_view ⟨[[1, 2, 3, 4]], 9⟩ 0 1 2 [1, 2, 3, 4] (by decide) (by decide)

/-- C18: for `k` and `w` whose `size_t` sum `k + w` does not wrap (`k + w < 2 ^ 64`), a read
that encodes to at most `k + w` codes is skipped by the per-read step of `loadReadsAsHashes`:
the hash list is returned unchanged in every field. -/
theorem ingestRead_short_read (hash : List Nat → Nat) (k w : Nat) (hpc : Bool)
    (result : HashList) (sequence : List Char) (seq lens : List Nat)
    (hkw : k + w < 2 ^ 64)
    (henc : (if hpc = true then runLengthEncode sequence else noRunLengthEncode sequence)
      = some (seq, lens))
    (hshort : seq.length ≤ k + w) :
    ingestRead hash k w hpc result sequence = some result := by
  unfold ingestRead
  by_cases h0 : sequence.length = 0
  · rw [if_pos h0]
  · rw [if_neg h0, henc]
    simp only
    rw [if_pos (by omega)]

/-- C18 (witness): with `k = 3`, `w = 2` the read `ACGTA` encodes to five codes and leaves the
hash list of the worked example unchanged. -/
theorem ingestRead_short_read_witness :
    ingestRead exampleHash 3 2 false exampleLoaded ['A', 'C', 'G', 'T', 'A']
      = some exampleLoaded :=
  ingestRead_short_read exampleHash 3 2 false exampleLoaded ['A', 'C', 'G', 'T', 'A']
    [1, 2, 3, 4, 1] [1, 1, 1, 1, 1] (by norm_num) (by decide) (by decide)

/-! ## Sliding-window minimum lemmas -/

theorem exists_suffixMin (H : Nat → Nat) (j : Nat) :
    ∀ n q, j - q = n → q ≤ j → ∃ p, q ≤ p ∧ p ≤ j ∧ H p ≤ H q ∧ SuffixMin H j p := by
  intro n
  induction n using Nat.strong_induction_on with
  | _ n ih =>
    intro q hn hq
    by_cases hs : SuffixMin H j q
    · exact ⟨q, le_refl q, hq, le_refl _, hs⟩
    · unfold SuffixMin at hs
      push_neg at hs
      obtain ⟨r, hr1, hr2, hr3⟩ := hs
      obtain ⟨p, hp1, hp2, hp3, hp4⟩ := ih (j - r) (by omega) r rfl hr2
      exact ⟨p, by omega, hp2, by omega, hp4⟩

theorem deque_hash_mono (H : Nat → Nat) (w j : Nat) (ps : List Nat) (hd : DequeInv H w j ps)
    (a b : Nat) (ha : a ∈ ps) (hb : b ∈ ps) (hab : a ≤ b) : H a ≤ H b := by
  rcases Nat.eq_or_lt_of_le hab with h | h
  · rw [h]
  · exact ((hd.2 a).mp ha).2 b h ((hd.2 b).mp hb).1.1

theorem deque_head_le (ps : List Nat) (p0 : Nat) (rest : List Nat)
    (hs : (p0 :: rest).Pairwise (fun a b => a < b)) (hps : ps = p0 :: rest) (p : Nat)
    (hp : p ∈ ps) : p0 ≤ p := by
  subst hps
  rcases List.mem_cons.mp hp with h | h
  · rw [h]
  · exact Nat.le_of_lt ((List.pairwise_cons.mp hs).1 p h)

theorem deque_mem_last (H : Nat → Nat) (w j : Nat) (ps : List Nat) (hw : 1 ≤ w)
    (hd : DequeInv H w j ps) : j ∈ ps := by
  apply (hd.2 j).mpr
  refine ⟨⟨le_refl j, by omega⟩, ?_⟩
  intro q h1 h2
  omega

theorem deque_head_min (H : Nat → Nat) (w j : Nat) (p0 : Nat) (rest : List Nat)
    (hd : DequeInv H w j (p0 :: rest)) : IsWindowMin H w j p0 := by
  have hp0 := (hd.2 p0).mp (List.mem_cons_self _ _)
  refine ⟨hp0.1, ?_⟩
  intro q hq
  obtain ⟨p, hp1, hp2, hp3, hp4⟩ := exists_suffixMin H j (j - q) q rfl hq.1
  have hpin : p ∈ p0 :: rest := (hd.2 p).mpr ⟨⟨hp2, by have := hq.2; omega⟩, hp4⟩
  have hle : p0 ≤ p := deque_head_le _ p0 rest hd.1 rfl p hpin
  exact Nat.le_trans (deque_hash_mono H w j _ hd p0 p (List.mem_cons_self _ _) hpin hle) hp3

theorem windowMin_mem_deque (H : Nat → Nat) (w j : Nat) (ps : List Nat)
    (hd : DequeInv H w j ps) (p : Nat) (hp : IsWindowMin H w j p) : p ∈ ps := by
  apply (hd.2 p).mpr
  refine ⟨hp.1, ?_⟩
  intro q h1 h2
  exact hp.2 q ⟨h2, by have := hp.1.2; omega⟩

theorem windowMin_iff_of_min (H : Nat → Nat) (w t a b : Nat) (ha : IsWindowMin H w t a) :
    IsWindowMin H w t b ↔ InWindow w t b ∧ H b = H a := by
  constructor
  · intro hb
    exact ⟨hb.1, Nat.le_antisymm (hb.2 a ha.1) (ha.2 b hb.1)⟩
  · intro hb
    refine ⟨hb.1, ?_⟩
    intro q hq
    rw [hb.2]
    exact ha.2 q hq

theorem deque_minimizer_is_windowMin (H : Nat → Nat) (w j : Nat) (ps : List Nat)
    (hd : DequeInv H w j ps) (p : Nat) (hp : p ∈ ps) (hm : IsMinimizer H w j p) :
    IsWindowMin H w j p := by
  obtain ⟨hin, hsuf⟩ := (hd.2 p).mp hp
  obtain ⟨t, _, ht2, hwin, hmin⟩ := hm
  refine ⟨hin, ?_⟩
  intro q hq
  rcases Nat.lt_trichotomy q p with h | h | h
  · exact hmin q ⟨by have := hwin.1; omega, by have := hq.2; omega⟩
  · rw [h]
  · exact hsuf q h hq.1

theorem dequeInv_step (H : Nat → Nat) (w j : Nat) (ps : List Nat) (hw : 1 ≤ w)
    (hd : DequeInv H w j ps) : DequeInv H w (j + 1) (dequeKeep H w j ps ++ [j + 1]) := by
  have hmemKeep : ∀ p, p ∈ dequeKeep H w j ps ↔ p ∈ ps ∧ j + 1 < p + w ∧ H p ≤ H (j + 1) := by
    intro p
    unfold dequeKeep
    rw [List.mem_filter]
    simp only [Bool.and_eq_true, decide_eq_true_eq]
  constructor
  · rw [List.pairwise_append]
    refine ⟨List.Pairwise.sublist (List.filter_sublist _) hd.1, List.pairwise_singleton _ _, ?_⟩
    intro a ha b hb
    rw [List.mem_singleton.mp hb]
    have := ((hd.2 a).mp ((hmemKeep a).mp ha).1).1.1
    omega
  · intro p
    rw [List.mem_append, List.mem_singleton, hmemKeep]
    constructor
    · rintro (⟨hp, h1, h2⟩ | hp)
      · obtain ⟨hin, hsuf⟩ := (hd.2 p).mp hp
        refine ⟨⟨by have := hin.1; omega, h1⟩, ?_⟩
        intro q hq1 hq2
        rcases Nat.eq_or_lt_of_le hq2 with h | h
        · rw [h]; exact h2
        · exact hsuf q hq1 (by omega)
      · subst hp
        refine ⟨⟨le_refl _, by omega⟩, ?_⟩
        intro q h1 h2
        omega
    · rintro ⟨hin, hsuf⟩
      rcases Nat.eq_or_lt_of_le hin.1 with h | h
      · right; exact h
      · left
        refine ⟨(hd.2 p).mpr ⟨⟨by omega, by have := hin.2; omega⟩, ?_⟩, hin.2,
          hsuf (j + 1) h (le_refl _)⟩
        intro q h1 h2
        exact hsuf q h1 (by omega)

theorem dequeInv_init (H : Nat → Nat) (w : Nat) (hw : 1 ≤ w) : DequeInv H w 0 [0] := by
  constructor
  · exact List.pairwise_singleton _ _
  · intro p
    rw [List.mem_singleton]
    constructor
    · intro hp
      subst hp
      refine ⟨⟨le_refl _, by omega⟩, ?_⟩
      intro q h1 h2
      omega
    · rintro ⟨hin, _⟩
      have := hin.1
      omega

theorem isMinimizer_succ (H : Nat → Nat) (w j p : Nat) (hj : w ≤ j + 1) :
    IsMinimizer H w (j + 1) p ↔ IsMinimizer H w j p ∨ IsWindowMin H w (j + 1) p := by
  constructor
  · rintro ⟨t, h1, h2, h3⟩
    rcases Nat.eq_or_lt_of_le h2 with h | h
    · right; rw [← h]; exact h3
    · left; exact ⟨t, h1, by omega, h3⟩
  · rintro (⟨t, h1, h2, h3⟩ | h)
    · exact ⟨t, h1, by omega, h3⟩
    · exact ⟨j + 1, by omega, le_refl _, h⟩

theorem minimizer_lt_new (H : Nat → Nat) (w j a b : Nat) (ha : IsMinimizer H w j a)
    (hb : IsWindowMin H w (j + 1) b) (hnb : ¬ IsMinimizer H w j b) : a < b := by
  by_contra hle
  have hne : a ≠ b := by
    intro h
    rw [h] at ha
    exact hnb ha
  obtain ⟨t, ht1, ht2, hwin, hmin⟩ := ha
  have hbInT : InWindow w t b := ⟨by have := hwin.1; omega, by have := hb.1.2; omega⟩
  have haInJ : InWindow w (j + 1) a := ⟨by have := hwin.1; omega, by have := hb.1.2; omega⟩
  have h1 : H a ≤ H b := hmin b hbInT
  have h2 : H b ≤ H a := hb.2 a haInJ
  apply hnb
  refine ⟨t, ht1, ht2, hbInT, ?_⟩
  intro q hq
  exact Nat.le_trans h2 (hmin q hq)

theorem mem_dequeKeep (H : Nat → Nat) (w j : Nat) (ps : List Nat) (p : Nat) :
    p ∈ dequeKeep H w j ps ↔ p ∈ ps ∧ j + 1 < p + w ∧ H p ≤ H (j + 1) := by
  unfold dequeKeep
  rw [List.mem_filter]
  simp only [Bool.and_eq_true, decide_eq_true_eq]

theorem dequeKeep_head_min (H : Nat → Nat) (w j : Nat) (ps : List Nat) (hw : 1 ≤ w)
    (hd : DequeInv H w j ps) (p3 : Nat) (rest3 : List Nat)
    (hk : dequeKeep H w j ps = p3 :: rest3) : IsWindowMin H w (j + 1) p3 := by
  have hd2 := dequeInv_step H w j ps hw hd
  rw [hk] at hd2
  exact deque_head_min H w (j + 1) p3 (rest3 ++ [j + 1]) hd2

theorem dequeKeep_nil_min (H : Nat → Nat) (w j : Nat) (ps : List Nat) (hw : 1 ≤ w)
    (hd : DequeInv H w j ps) (hk : dequeKeep H w j ps = []) :
    IsWindowMin H w (j + 1) (j + 1) := by
  have hd2 := dequeInv_step H w j ps hw hd
  rw [hk] at hd2
  exact deque_head_min H w (j + 1) (j + 1) [] hd2

theorem windowMin_succ_mem (H : Nat → Nat) (w j : Nat) (ps : List Nat)
    (hd : DequeInv H w j ps) (p : Nat) (hp : IsWindowMin H w (j + 1) p) (hne : p ≠ j + 1) :
    p ∈ dequeKeep H w j ps := by
  have hlt : p ≤ j := by have := hp.1.1; omega
  rw [mem_dequeKeep]
  refine ⟨(hd.2 p).mpr ⟨⟨hlt, by have := hp.1.2; omega⟩, ?_⟩, hp.1.2,
    hp.2 (j + 1) ⟨le_refl _, by have := hp.1.2; omega⟩⟩
  intro q h1 h2
  exact hp.2 q ⟨by omega, by have := hp.1.2; omega⟩

theorem mem_stepEmitted (H : Nat → Nat) (w j : Nat) (p0 : Nat) (rest : List Nat) (hw : 1 ≤ w)
    (hj : w ≤ j + 1) (hd : DequeInv H w j (p0 :: rest)) (p : Nat) :
    p ∈ stepEmitted H w j (H p0) (p0 :: rest) ↔
      IsWindowMin H w (j + 1) p ∧ ¬ IsMinimizer H w j p := by
  have hmin0 : IsWindowMin H w j p0 := deque_head_min H w j p0 rest hd
  have hnotNew : ¬ IsMinimizer H w j (j + 1) := by
    rintro ⟨t, _, h2, h3, _⟩
    have := h3.1
    omega
  unfold stepEmitted
  cases hk : dequeKeep H w j (p0 :: rest) with
  | nil =>
    simp only [List.mem_singleton]
    constructor
    · intro hp
      subst hp
      exact ⟨dequeKeep_nil_min H w j _ hw hd hk, hnotNew⟩
    · rintro ⟨hp, _⟩
      by_contra hne
      have := windowMin_succ_mem H w j _ hd p hp hne
      rw [hk] at this
      cases this
  | cons p3 rest3 =>
    have hmin3 : IsWindowMin H w (j + 1) p3 := dequeKeep_head_min H w j _ hw hd p3 rest3 hk
    simp only
    rw [List.mem_append]
    constructor
    · rintro (hp | hp)
      · split_ifs at hp with hm
        · rw [List.mem_filter] at hp
          simp only [decide_eq_true_eq] at hp
          rw [← hk] at hp
          obtain ⟨hpk, hph⟩ := hp
          obtain ⟨hpin, hp1, hp2⟩ := (mem_dequeKeep H w j _ p).mp hpk
          have hinJ := ((hd.2 p).mp hpin).1
          refine ⟨(windowMin_iff_of_min H w (j + 1) p3 p hmin3).mpr
            ⟨⟨by have := hinJ.1; omega, hp1⟩, hph⟩, ?_⟩
          intro hmp
          have hwj := deque_minimizer_is_windowMin H w j _ hd p hpin hmp
          have := ((windowMin_iff_of_min H w j p0 p hmin0).mp hwj).2
          apply hm
          rw [← this, hph]
        · cases hp
      · split_ifs at hp with hm
        · rw [List.mem_singleton] at hp
          subst hp
          exact ⟨(windowMin_iff_of_min H w (j + 1) p3 (j + 1) hmin3).mpr
            ⟨⟨le_refl _, by omega⟩, hm⟩, hnotNew⟩
        · cases hp
    · rintro ⟨hp, hnp⟩
      have hph := ((windowMin_iff_of_min H w (j + 1) p3 p hmin3).mp hp).2
      by_cases hne : p = j + 1
      · right
        subst hne
        rw [if_pos hph]
        exact List.mem_singleton_self _
      · left
        have hpk := windowMin_succ_mem H w j _ hd p hp hne
        have hm : H p0 ≠ H p3 := by
          intro hm
          apply hnp
          refine ⟨j, hj, le_refl _, ?_⟩
          have hpin := ((mem_dequeKeep H w j _ p).mp hpk).1
          exact (windowMin_iff_of_min H w j p0 p hmin0).mpr
            ⟨((hd.2 p).mp hpin).1, by rw [hph, hm]⟩
        rw [if_pos hm, List.mem_filter]
        simp only [decide_eq_true_eq]
        rw [← hk]
        exact ⟨hpk, hph⟩

theorem dequeKeep_sorted (H : Nat → Nat) (w j : Nat) (ps : List Nat)
    (hs : ps.Pairwise (fun a b => a < b)) :
    (dequeKeep H w j ps).Pairwise (fun a b => a < b) :=
  List.Pairwise.sublist (List.filter_sublist _) hs

theorem stepEmitted_sorted (H : Nat → Nat) (w j m : Nat) (ps : List Nat)
    (hs : ps.Pairwise (fun a b => a < b)) (hle : ∀ p ∈ ps, p ≤ j) :
    (stepEmitted H w j m ps).Pairwise (fun a b => a < b) := by
  unfold stepEmitted
  cases hk : dequeKeep H w j ps with
  | nil => exact List.pairwise_singleton _ _
  | cons p3 rest3 =>
    simp only
    have hks := dequeKeep_sorted H w j ps hs
    rw [hk] at hks
    have hkle : ∀ p ∈ p3 :: rest3, p ≤ j := by
      intro p hp
      rw [← hk] at hp
      exact hle p ((mem_dequeKeep H w j ps p).mp hp).1
    rw [List.pairwise_append]
    refine ⟨?_, ?_, ?_⟩
    · split_ifs
      · exact List.Pairwise.sublist (List.filter_sublist _) hks
      · exact List.Pairwise.nil
    · split_ifs
      · exact List.pairwise_singleton _ _
      · exact List.Pairwise.nil
    · intro a ha b hb
      have hb2 : b = j + 1 := by
        split_ifs at hb
        · exact List.mem_singleton.mp hb
        · cases hb
      have ha2 : a ≤ j := by
        split_ifs at ha
        · exact hkle a (List.mem_of_mem_filter ha)
        · cases ha
      omega

theorem emitInv_init (H : Nat → Nat) (w : Nat) (p0 : Nat) (rest : List Nat) (hw : 1 ≤ w)
    (hd : DequeInv H w (w - 1) (p0 :: rest)) :
    EmitInv H w (w - 1) ((p0 :: rest).filter (fun p => decide (H p = H p0))) := by
  have hmin0 := deque_head_min H w (w - 1) p0 rest hd
  constructor
  · exact List.Pairwise.sublist (List.filter_sublist _) hd.1
  · intro p
    rw [List.mem_filter]
    simp only [decide_eq_true_eq]
    constructor
    · rintro ⟨hp, hph⟩
      exact ⟨w - 1, by omega, le_refl _,
        (windowMin_iff_of_min H w (w - 1) p0 p hmin0).mpr ⟨((hd.2 p).mp hp).1, hph⟩⟩
    · rintro ⟨t, h1, h2, h3⟩
      have ht : t = w - 1 := by omega
      subst ht
      exact ⟨windowMin_mem_deque H w (w - 1) _ hd p h3,
        ((windowMin_iff_of_min H w (w - 1) p0 p hmin0).mp h3).2⟩

theorem emitInv_step (H : Nat → Nat) (w j : Nat) (p0 : Nat) (rest es : List Nat) (hw : 1 ≤ w)
    (hj : w ≤ j + 1) (hd : DequeInv H w j (p0 :: rest)) (he : EmitInv H w j es) :
    EmitInv H w (j + 1) (es ++ stepEmitted H w j (H p0) (p0 :: rest)) := by
  constructor
  · rw [List.pairwise_append]
    refine ⟨he.1, stepEmitted_sorted H w j _ _ hd.1 (fun p hp => ((hd.2 p).mp hp).1.1), ?_⟩
    intro a ha b hb
    obtain ⟨hb1, hb2⟩ := (mem_stepEmitted H w j p0 rest hw hj hd b).mp hb
    exact minimizer_lt_new H w j a b ((he.2 a).mp ha) hb1 hb2
  · intro p
    rw [List.mem_append, isMinimizer_succ H w j p hj, he.2 p,
      mem_stepEmitted H w j p0 rest hw hj hd p]
    constructor
    · rintro (h | h)
      · exact Or.inl h
      · exact Or.inr h.1
    · rintro (h | h)
      · exact Or.inl h
      · by_cases hm : IsMinimizer H w j p
        · exact Or.inl hm
        · exact Or.inr ⟨h, hm⟩

/-! ## The deque operations as filters -/

theorem popBack_eq_filter (l : List MinEntry) (h : Nat)
    (hm : l.Pairwise (fun a b => a.2.1 ≤ b.2.1)) :
    popBackWhileGreater l h = l.filter (fun e => decide (e.2.1 ≤ h)) := by
  induction l using List.reverseRecOn with
  | nil => rfl
  | append_singleton init x ih =>
    rw [List.pairwise_append] at hm
    obtain ⟨hinit, _, hcross⟩ := hm
    unfold popBackWhileGreater at ih ⊢
    rw [List.reverse_append, List.reverse_singleton, List.singleton_append, List.filter_append]
    by_cases hx : x.2.1 > h
    · rw [List.dropWhile_cons_of_pos (by simpa using hx), ih hinit]
      have : [x].filter (fun e => decide (e.2.1 ≤ h)) = [] := by
        simp [List.filter, Nat.not_le.mpr hx]
      rw [this, List.append_nil]
    · rw [List.dropWhile_cons_of_neg (by simpa using hx)]
      have hxle : x.2.1 ≤ h := Nat.le_of_not_lt hx
      have h1 : init.filter (fun e => decide (e.2.1 ≤ h)) = init := by
        rw [List.filter_eq_self]
        intro a ha
        have := hcross a ha x (List.mem_singleton_self x)
        simp only [decide_eq_true_eq]
        omega
      have h2 : [x].filter (fun e => decide (e.2.1 ≤ h)) = [x] := by
        simp [List.filter, hxle]
      rw [h1, h2, List.reverse_cons, List.reverse_reverse]

theorem popFront_eq_filter (l : List MinEntry) (b : Nat)
    (hs : l.Pairwise (fun x y => x.1 < y.1)) :
    popFrontWhileStale l b = l.filter (fun e => decide (b < e.1)) := by
  induction l with
  | nil => rfl
  | cons x rest ih =>
    rw [List.pairwise_cons] at hs
    unfold popFrontWhileStale at ih ⊢
    by_cases hx : x.1 ≤ b
    · rw [List.dropWhile_cons_of_pos (by simpa using hx), ih hs.2,
        List.filter_cons_of_neg (by simpa using hx)]
    · rw [List.dropWhile_cons_of_neg (by simpa using hx),
        List.filter_cons_of_pos (by simpa using hx)]
      congr 1
      symm
      rw [List.filter_eq_self]
      intro a ha
      have := hs.1 a ha
      simp only [decide_eq_true_eq]
      omega

theorem takeWhile_eq_filter_of_mono (l : List MinEntry) (v : Nat)
    (hm : l.Pairwise (fun a b => a.2.1 ≤ b.2.1)) (hge : ∀ e ∈ l, v ≤ e.2.1) :
    l.takeWhile (fun e => decide (e.2.1 = v)) = l.filter (fun e => decide (e.2.1 = v)) := by
  induction l with
  | nil => rfl
  | cons x rest ih =>
    rw [List.pairwise_cons] at hm
    by_cases hx : x.2.1 = v
    · rw [List.takeWhile_cons_of_pos (by simpa using hx),
        List.filter_cons_of_pos (by simpa using hx),
        ih hm.2 (fun e he => hge e (List.mem_cons_of_mem _ he))]
    · rw [List.takeWhile_cons_of_neg (by simpa using hx),
        List.filter_cons_of_neg (by simpa using hx)]
      symm
      rw [List.filter_eq_nil_iff]
      intro a ha
      have h1 := hm.1 a ha
      have h2 := hge x (List.mem_cons_self _ _)
      simp only [decide_eq_true_eq]
      omega

theorem entries_mono (seq : List Nat) (k : Nat) (ps : List Nat)
    (hs : ps.Pairwise (fun a b => a < b))
    (hmono : ∀ a ∈ ps, ∀ b ∈ ps, a ≤ b → scanHash seq k a ≤ scanHash seq k b) :
    (ps.map (scanEntry seq k)).Pairwise (fun a b => a.2.1 ≤ b.2.1) := by
  rw [List.pairwise_map]
  refine List.Pairwise.imp_of_mem ?_ hs
  intro a b ha hb hab
  exact hmono a ha b hb (Nat.le_of_lt hab)

theorem entries_sorted (seq : List Nat) (k : Nat) (ps : List Nat)
    (hs : ps.Pairwise (fun a b => a < b)) :
    (ps.map (scanEntry seq k)).Pairwise (fun x y => x.1 < y.1) := by
  rw [List.pairwise_map]
  exact hs

theorem frontTies_entries (seq : List Nat) (k : Nat) (p0 : Nat) (rest : List Nat)
    (hs : (p0 :: rest).Pairwise (fun a b => a < b))
    (hmono : ∀ a ∈ p0 :: rest, ∀ b ∈ p0 :: rest, a ≤ b →
      scanHash seq k a ≤ scanHash seq k b) :
    frontTies ((p0 :: rest).map (scanEntry seq k))
      = ((p0 :: rest).filter (fun p => decide (scanHash seq k p = scanHash seq k p0))).map
          (scanEmission seq k) := by
  have hm := entries_mono seq k _ hs hmono
  have hge : ∀ e ∈ (p0 :: rest).map (scanEntry seq k), (scanEntry seq k p0).2.1 ≤ e.2.1 := by
    intro e he
    obtain ⟨p, hp, hpe⟩ := List.mem_map.mp he
    rw [← hpe]
    exact hmono p0 (List.mem_cons_self _ _) p hp (deque_head_le _ p0 rest hs rfl p hp)
  have htw := takeWhile_eq_filter_of_mono _ _ hm hge
  show (List.takeWhile (fun e => decide (e.2.1 = (scanEntry seq k p0).2.1))
    ((p0 :: rest).map (scanEntry seq k))).map (fun e => (e.1, e.2.2.1, e.2.2.2)) = _
  rw [htw, List.filter_map, List.map_map]
  rfl

theorem keep_entries (seq : List Nat) (k w j b : Nat) (ps : List Nat)
    (hd : DequeInv (scanHash seq k) w j ps)
    (hb : ∀ p ∈ ps, (b < p ↔ j + 1 < p + w)) :
    popBackWhileGreater (popFrontWhileStale (ps.map (scanEntry seq k)) b)
        (scanHash seq k (j + 1))
      = (dequeKeep (scanHash seq k) w j ps).map (scanEntry seq k) := by
  have hmono : ∀ a ∈ ps, ∀ b ∈ ps, a ≤ b → scanHash seq k a ≤ scanHash seq k b :=
    fun a ha b hb hab => deque_hash_mono (scanHash seq k) w j ps hd a b ha hb hab
  rw [popFront_eq_filter _ _ (entries_sorted seq k ps hd.1), List.filter_map]
  have hsub : (ps.filter ((fun e : MinEntry => decide (b < e.1)) ∘ scanEntry seq k)).Sublist ps :=
    List.filter_sublist _
  rw [popBack_eq_filter _ _ (entries_mono seq k _ (List.Pairwise.sublist hsub hd.1)
    (fun a ha b hb hab => hmono a (hsub.subset ha) b (hsub.subset hb) hab)),
    List.filter_map, List.filter_filter]
  unfold dequeKeep
  congr 1
  apply List.filter_congr
  intro p hp
  have := hb p hp
  show (decide (scanHash seq k p ≤ scanHash seq k (j + 1)) && decide (b < p))
    = (decide (j + 1 < p + w) && decide (scanHash seq k p ≤ scanHash seq k (j + 1)))
  rw [Bool.and_comm]
  congr 1
  exact decide_eq_decide.mpr this

theorem keep_entries_first (seq : List Nat) (k w j : Nat) (ps : List Nat)
    (hd : DequeInv (scanHash seq k) w j ps) (hj : j + 1 < w) :
    popBackWhileGreater (ps.map (scanEntry seq k)) (scanHash seq k (j + 1))
      = (dequeKeep (scanHash seq k) w j ps).map (scanEntry seq k) := by
  have hmono : ∀ a ∈ ps, ∀ b ∈ ps, a ≤ b → scanHash seq k a ≤ scanHash seq k b :=
    fun a ha b hb hab => deque_hash_mono (scanHash seq k) w j ps hd a b ha hb hab
  rw [popBack_eq_filter _ _ (entries_mono seq k _ hd.1 hmono), List.filter_map]
  unfold dequeKeep
  congr 1
  apply List.filter_congr
  intro p _
  show decide (scanHash seq k p ≤ scanHash seq k (j + 1))
    = (decide (j + 1 < p + w) && decide (scanHash seq k p ≤ scanHash seq k (j + 1)))
  have : decide (j + 1 < p + w) = true := decide_eq_true (by omega)
  rw [this, Bool.true_and]

/-! ## The scanner loops -/

theorem strAt_of_lt (seq : List Nat) (i : Nat) (h : i < seq.length) :
    strAt seq i = some (seq.getD i 0) := by
  unfold strAt
  rw [if_pos h, List.getD_eq_getElem?_getD, List.getElem?_eq_getElem h]
  rfl

theorem feedFirstKmer_eq (seq : List Nat) (n : Nat) :
    ∀ (i : Nat) (h : FastHasher), i + n ≤ seq.length →
      feedFirstKmer seq n i h = some (h.addChars ((seq.drop i).take n)) := by
  induction n with
  | zero =>
    intro i h _
    simp [feedFirstKmer, FastHasher.addChars]
  | succ n ih =>
    intro i h hlen
    have hi : i < seq.length := by omega
    unfold feedFirstKmer
    rw [strAt_of_lt seq i hi]
    simp only
    rw [ih (i + 1) _ (by omega), List.drop_eq_getElem_cons hi, List.take_succ_cons,
      List.getD_eq_getElem?_getD, List.getElem?_eq_getElem hi]
    rfl

theorem firstWindowLoop_step (seq : List Nat) (k n j : Nat) (h : FastHasher)
    (order : List MinEntry) (cAdd cRemove : Nat) (h1 : strAt seq (k + j) = some cAdd)
    (h2 : strAt seq (k + j - k) = some cRemove) :
    firstWindowLoop seq k (n + 1) j h order
      = firstWindowLoop seq k n (j + 1) ((h.addChar cAdd).removeChar cRemove)
          (popBackWhileGreater order ((h.addChar cAdd).removeChar cRemove).hash ++
            [(j + 1, ((h.addChar cAdd).removeChar cRemove).hash,
              ((h.addChar cAdd).removeChar cRemove).getFwHash,
              ((h.addChar cAdd).removeChar cRemove).getBwHash)]) := by
  rw [firstWindowLoop]
  simp only [h1, h2]

theorem slideLoop_step (seq : List Nat) (k w n j : Nat) (h : FastHasher)
    (order : List MinEntry) (emitted : List (Nat × Nat × Nat)) (cAdd cRemove : Nat)
    (front : MinEntry) (h1 : strAt seq (k + j) = some cAdd)
    (h2 : strAt seq (k + j - k) = some cRemove) (h3 : order.head? = some front) :
    slideLoop seq k w (n + 1) j h order emitted
      = slideLoop seq k w n (j + 1) ((h.addChar cAdd).removeChar cRemove)
          (popBackWhileGreater (popFrontWhileStale order (subSize (j + 1) w))
              ((h.addChar cAdd).removeChar cRemove).hash ++
            [(j + 1, ((h.addChar cAdd).removeChar cRemove).hash,
              ((h.addChar cAdd).removeChar cRemove).getFwHash,
              ((h.addChar cAdd).removeChar cRemove).getBwHash)])
          (match (popBackWhileGreater (popFrontWhileStale order (subSize (j + 1) w))
              ((h.addChar cAdd).removeChar cRemove).hash).head? with
            | some front3 =>
              if ((h.addChar cAdd).removeChar cRemove).hash = front3.2.1 then
                (match (popBackWhileGreater (popFrontWhileStale order (subSize (j + 1) w))
                    ((h.addChar cAdd).removeChar cRemove).hash).head? with
                  | some front3 =>
                    if front.2.1 ≠ front3.2.1 then
                      emitted ++ frontTies (popBackWhileGreater
                        (popFrontWhileStale order (subSize (j + 1) w))
                        ((h.addChar cAdd).removeChar cRemove).hash)
                    else emitted
                  | none => emitted) ++
                  [(j + 1, ((h.addChar cAdd).removeChar cRemove).getFwHash,
                    ((h.addChar cAdd).removeChar cRemove).getBwHash)]
              else
                (match (popBackWhileGreater (popFrontWhileStale order (subSize (j + 1) w))
                    ((h.addChar cAdd).removeChar cRemove).hash).head? with
                  | some front3 =>
                    if front.2.1 ≠ front3.2.1 then
                      emitted ++ frontTies (popBackWhileGreater
                        (popFrontWhileStale order (subSize (j + 1) w))
                        ((h.addChar cAdd).removeChar cRemove).hash)
                    else emitted
                  | none => emitted)
            | none =>
              (match (popBackWhileGreater (popFrontWhileStale order (subSize (j + 1) w))
                  ((h.addChar cAdd).removeChar cRemove).hash).head? with
                | some front3 =>
                  if front.2.1 ≠ front3.2.1 then
                    emitted ++ frontTies (popBackWhileGreater
                      (popFrontWhileStale order (subSize (j + 1) w))
                      ((h.addChar cAdd).removeChar cRemove).hash)
                  else emitted
                | none => emitted) ++
                [(j + 1, ((h.addChar cAdd).removeChar cRemove).getFwHash,
                  ((h.addChar cAdd).removeChar cRemove).getBwHash)]) := by
  rw [slideLoop]
  simp only [h1, h2, h3]

theorem firstWindowLoop_spec (seq : List Nat) (k w : Nat) (hw : 1 ≤ w) (n : Nat) :
    ∀ (j : Nat) (ps : List Nat), DequeInv (scanHash seq k) w j ps → j + n < w →
      k + j + n ≤ seq.length →
      ∃ ps2, firstWindowLoop seq k n j (scanHasher seq k j) (ps.map (scanEntry seq k))
          = some (scanHasher seq k (j + n), ps2.map (scanEntry seq k)) ∧
        DequeInv (scanHash seq k) w (j + n) ps2 := by
  induction n with
  | zero =>
    intro j ps hd _ _
    exact ⟨ps, rfl, hd⟩
  | succ n ih =>
    intro j ps hd hjn hlen
    have h1 := strAt_of_lt seq (k + j) (by omega)
    have h2 : strAt seq (k + j - k) = some (seq.getD j 0) := by
      rw [Nat.add_sub_cancel_left]
      exact strAt_of_lt seq j (by omega)
    have hkeep := keep_entries_first seq k w j ps hd (by omega)
    have hd2 := dequeInv_step (scanHash seq k) w j ps hw hd
    obtain ⟨ps2, hrun, hinv⟩ := ih (j + 1) _ hd2 (by omega) (by omega)
    refine ⟨ps2, ?_, ?_⟩
    · rw [firstWindowLoop_step seq k n j _ _ _ _ h1 h2]
      have e : j + (n + 1) = j + 1 + n := by omega
      rw [e, ← hrun]
      show firstWindowLoop seq k n (j + 1) (scanHasher seq k (j + 1))
        (popBackWhileGreater (ps.map (scanEntry seq k)) (scanHash seq k (j + 1)) ++
          [scanEntry seq k (j + 1)]) = _
      rw [hkeep, List.map_append]
      rfl
    · have e : j + (n + 1) = j + 1 + n := by omega
      rw [e]
      exact hinv

theorem slideLoop_scan_step (seq : List Nat) (k w n j : Nat) (p0 : Nat) (rest es : List Nat)
    (hw : 1 ≤ w) (hj : w ≤ j + 1) (hd : DequeInv (scanHash seq k) w j (p0 :: rest))
    (hlen : k + j < seq.length) (hsize : seq.length < 2 ^ 64) :
    slideLoop seq k w (n + 1) j (scanHasher seq k j) ((p0 :: rest).map (scanEntry seq k))
        (es.map (scanEmission seq k))
      = slideLoop seq k w n (j + 1) (scanHasher seq k (j + 1))
          ((dequeKeep (scanHash seq k) w j (p0 :: rest) ++ [j + 1]).map (scanEntry seq k))
          ((es ++ stepEmitted (scanHash seq k) w j (scanHash seq k p0) (p0 :: rest)).map
            (scanEmission seq k)) := by
  have h1 := strAt_of_lt seq (k + j) hlen
  have h2 : strAt seq (k + j - k) = some (seq.getD j 0) := by
    rw [Nat.add_sub_cancel_left]
    exact strAt_of_lt seq j (by omega)
  have h3 : ((p0 :: rest).map (scanEntry seq k)).head? = some (scanEntry seq k p0) := rfl
  have hsub : subSize (j + 1) w = j + 1 - w := by
    unfold subSize
    omega
  have hkeep := keep_entries seq k w j (j + 1 - w) (p0 :: rest) hd (by
    intro p _
    constructor <;> intro _ <;> omega)
  rw [slideLoop_step seq k w n j _ _ _ _ _ _ h1 h2 h3, hsub]
  have hst : ((scanHasher seq k j).addChar (seq.getD (k + j) 0)).removeChar (seq.getD j 0)
      = scanHasher seq k (j + 1) := rfl
  rw [hst]
  have hh : (scanHasher seq k (j + 1)).hash = scanHash seq k (j + 1) := rfl
  rw [hh, hkeep]
  have hent : (j + 1, scanHash seq k (j + 1), (scanHasher seq k (j + 1)).getFwHash,
      (scanHasher seq k (j + 1)).getBwHash) = scanEntry seq k (j + 1) := rfl
  have hem : (j + 1, (scanHasher seq k (j + 1)).getFwHash,
      (scanHasher seq k (j + 1)).getBwHash) = scanEmission seq k (j + 1) := rfl
  rw [hent, hem, List.map_append]
  congr 1
  have hsorted := dequeKeep_sorted (scanHash seq k) w j _ hd.1
  have hmono : ∀ a ∈ dequeKeep (scanHash seq k) w j (p0 :: rest),
      ∀ b ∈ dequeKeep (scanHash seq k) w j (p0 :: rest), a ≤ b →
        scanHash seq k a ≤ scanHash seq k b := by
    intro a ha b hb hab
    exact deque_hash_mono (scanHash seq k) w j _ hd a b
      ((mem_dequeKeep _ w j _ a).mp ha).1 ((mem_dequeKeep _ w j _ b).mp hb).1 hab
  unfold stepEmitted
  cases hk : dequeKeep (scanHash seq k) w j (p0 :: rest) with
  | nil =>
    simp only [List.map_nil, List.head?_nil, List.map_append, List.map_cons]
  | cons p3 rest3 =>
    rw [hk] at hsorted hmono
    have hft := frontTies_entries seq k p3 rest3 hsorted hmono
    have hhead : ((p3 :: rest3).map (scanEntry seq k)).head? = some (scanEntry seq k p3) := rfl
    rw [hhead]
    simp only
    rw [hft]
    have e1 : (scanEntry seq k p0).2.1 = scanHash seq k p0 := rfl
    have e2 : (scanEntry seq k p3).2.1 = scanHash seq k p3 := rfl
    rw [e1, e2]
    by_cases c1 : scanHash seq k (j + 1) = scanHash seq k p3
    · by_cases c2 : scanHash seq k p0 ≠ scanHash seq k p3
      · rw [if_pos c1, if_pos c2, if_pos c2, if_pos c1]
        simp only [List.map_append, List.map_cons, List.map_nil, List.append_assoc]
      · rw [if_pos c1, if_neg c2, if_neg c2, if_pos c1]
        simp only [List.map_append, List.map_cons, List.map_nil, List.append_assoc,
          List.nil_append]
    · by_cases c2 : scanHash seq k p0 ≠ scanHash seq k p3
      · rw [if_neg c1, if_pos c2, if_pos c2, if_neg c1]
        simp only [List.map_append, List.map_cons, List.map_nil, List.append_assoc,
          List.append_nil]
      · rw [if_neg c1, if_neg c2, if_neg c2, if_neg c1]
        simp only [List.map_append, List.map_cons, List.map_nil, List.append_assoc,
          List.append_nil]

theorem slideLoop_spec (seq : List Nat) (k w : Nat) (hw : 1 ≤ w)
    (hsize : seq.length < 2 ^ 64) (n : Nat) :
    ∀ (j : Nat) (ps es : List Nat), DequeInv (scanHash seq k) w j ps →
      EmitInv (scanHash seq k) w j es → w ≤ j + 1 → k + j + n ≤ seq.length →
      ∃ es2, slideLoop seq k w n j (scanHasher seq k j) (ps.map (scanEntry seq k))
          (es.map (scanEmission seq k)) = some (es2.map (scanEmission seq k)) ∧
        EmitInv (scanHash seq k) w (j + n) es2 := by
  induction n with
  | zero =>
    intro j ps es _ he _ _
    exact ⟨es, rfl, he⟩
  | succ n ih =>
    intro j ps es hd he hj hlen
    have hlast := deque_mem_last (scanHash seq k) w j ps hw hd
    cases ps with
    | nil => cases hlast
    | cons p0 rest =>
      have hd2 := dequeInv_step (scanHash seq k) w j _ hw hd
      have he2 := emitInv_step (scanHash seq k) w j p0 rest es hw hj hd he
      obtain ⟨es2, hrun, hinv⟩ := ih (j + 1) _ _ hd2 he2 (by omega) (by omega)
      refine ⟨es2, ?_, ?_⟩
      · rw [slideLoop_scan_step seq k w n j p0 rest es hw hj hd (by omega) hsize]
        exact hrun
      · have e : j + (n + 1) = j + 1 + n := by omega
        rw [e]
        exact hinv

theorem findMinimizerPositions_spec (seq : List Nat) (k w : Nat) (hw : 1 ≤ w)
    (hlen : k + w ≤ seq.length) (hsize : seq.length < 2 ^ 64) :
    ∃ es, findMinimizerPositions seq k w = some (es.map (scanEmission seq k)) ∧
      EmitInv (scanHash seq k) w (seq.length - k) es := by
  have hfeed : feedFirstKmer seq k 0 (FastHasher.fresh k) = some (scanHasher seq k 0) := by
    rw [feedFirstKmer_eq seq k 0 _ (by omega)]
    rfl
  have hsub : subSize w 1 = w - 1 := by
    unfold subSize
    omega
  obtain ⟨ps, hfirst, hd⟩ := firstWindowLoop_spec seq k w hw (w - 1) 0 [0]
    (dequeInv_init (scanHash seq k) w hw) (by omega) (by omega)
  rw [Nat.zero_add] at hfirst hd
  have hlast := deque_mem_last (scanHash seq k) w (w - 1) ps hw hd
  cases ps with
  | nil => cases hlast
  | cons p0 rest =>
    have hmono : ∀ a ∈ p0 :: rest, ∀ b ∈ p0 :: rest, a ≤ b →
        scanHash seq k a ≤ scanHash seq k b :=
      fun a ha b hb hab => deque_hash_mono (scanHash seq k) w (w - 1) _ hd a b ha hb hab
    have hft := frontTies_entries seq k p0 rest hd.1 hmono
    have he := emitInv_init (scanHash seq k) w p0 rest hw hd
    obtain ⟨es, hrun, hinv⟩ := slideLoop_spec seq k w hw hsize (seq.length - (k + (w - 1)))
      (w - 1) _ _ hd he (by omega) (by omega)
    refine ⟨es, ?_, ?_⟩
    · unfold findMinimizerPositions
      rw [hsub, if_neg (by omega), hfeed]
      simp only
      have hinit : [((0 : Nat), (scanHasher seq k 0).hash, (scanHasher seq k 0).getFwHash,
          (scanHasher seq k 0).getBwHash)] = [0].map (scanEntry seq k) := rfl
      rw [hinit, hfirst]
      simp only
      rw [hft]
      exact hrun
    · have e : w - 1 + (seq.length - (k + (w - 1))) = seq.length - k := by omega
      rw [e] at hinv
      exact hinv

theorem findMinimizerPositions_short (seq : List Nat) (k w : Nat) (hkw : k + w < 2 ^ 64)
    (hlen : seq.length < k + w) : findMinimizerPositions seq k w = some [] := by
  unfold findMinimizerPositions
  rw [if_pos (by omega)]

theorem emission_positions (seq : List Nat) (k : Nat) (es : List Nat) :
    (es.map (scanEmission seq k)).map (fun e => e.1) = es := by
  rw [List.map_map]
  conv_rhs => rw [← List.map_id es]
  rfl

theorem exists_min_on_range (H : Nat → Nat) (lo : Nat) :
    ∀ n, ∃ p, lo ≤ p ∧ p ≤ lo + n ∧ ∀ q, lo ≤ q → q ≤ lo + n → H p ≤ H q := by
  intro n
  induction n with
  | zero =>
    refine ⟨lo, le_refl _, le_refl _, ?_⟩
    intro q h1 h2
    have : q = lo := by omega
    rw [this]
  | succ n ih =>
    obtain ⟨p, hp1, hp2, hp3⟩ := ih
    by_cases h : H p ≤ H (lo + (n + 1))
    · refine ⟨p, hp1, by omega, ?_⟩
      intro q h1 h2
      rcases Nat.eq_or_lt_of_le h2 with e | e
      · rw [e]; exact h
      · exact hp3 q h1 (by omega)
    · refine ⟨lo + (n + 1), by omega, le_refl _, ?_⟩
      intro q h1 h2
      rcases Nat.eq_or_lt_of_le h2 with e | e
      · rw [e]
      · have := hp3 q h1 (by omega)
        omega

theorem exists_windowMin (H : Nat → Nat) (w t : Nat) (hw : 1 ≤ w) (ht : w ≤ t + 1) :
    ∃ p, IsWindowMin H w t p := by
  obtain ⟨p, hp1, hp2, hp3⟩ := exists_min_on_range H (t + 1 - w) (w - 1)
  refine ⟨p, ⟨by omega, by omega⟩, ?_⟩
  intro q hq
  exact hp3 q (by have := hq.2; omega) (by have := hq.1; omega)

theorem chain_of_sorted_gap (G : Nat → Nat → Prop) (es : List Nat)
    (hs : es.Pairwise (fun a b => a < b))
    (hgap : ∀ a ∈ es, ∀ b ∈ es, a < b → (∀ c ∈ es, ¬ (a < c ∧ c < b)) → G a b) :
    es.Chain' (fun a b => a < b ∧ G a b) := by
  induction es with
  | nil => exact List.chain'_nil
  | cons a rest ih =>
    rw [List.pairwise_cons] at hs
    have hrest : rest.Chain' (fun a b => a < b ∧ G a b) := by
      apply ih hs.2
      intro x hx y hy hxy hno
      apply hgap x (List.mem_cons_of_mem _ hx) y (List.mem_cons_of_mem _ hy) hxy
      intro c hc hcc
      rcases List.mem_cons.mp hc with e | e
      · have := hs.1 x hx
        omega
      · exact hno c e hcc
    cases rest with
    | nil => exact List.chain'_singleton _
    | cons b rest2 =>
      rw [List.chain'_cons]
      refine ⟨?_, hrest⟩
      have hab : a < b := hs.1 b (List.mem_cons_self _ _)
      refine ⟨hab, ?_⟩
      apply hgap a (List.mem_cons_self _ _) b (List.mem_cons_of_mem _ (List.mem_cons_self _ _))
        hab
      intro c hc hcc
      rcases List.mem_cons.mp hc with e | e
      · omega
      · rcases List.mem_cons.mp e with e2 | e2
        · omega
        · have := (List.pairwise_cons.mp hs.2).1 c e2
          omega

theorem emit_gap (H : Nat → Nat) (w last : Nat) (es : List Nat) (hw : 1 ≤ w)
    (hlast : last < 2 ^ 64) (he : EmitInv H w last es) :
    es.Chain' (fun a b => a < b ∧ b - a ≤ w ∧ subSize b a ≤ w) := by
  apply chain_of_sorted_gap (fun a b => b - a ≤ w ∧ subSize b a ≤ w) es he.1
  intro a _ b hb hab hno
  obtain ⟨t, _, ht2, hbwin, _⟩ := (he.2 b).mp hb
  have hle : b ≤ a + w := by
    by_contra hgt
    obtain ⟨p, hp⟩ := exists_windowMin H w (a + w) hw (by omega)
    have hpm : IsMinimizer H w last p := ⟨a + w, by omega, by have := hbwin.1; omega, hp⟩
    have hpin := (he.2 p).mpr hpm
    apply hno p hpin
    have h1 := hp.1.1
    have h2 := hp.1.2
    omega
  have hbt : b ≤ t := hbwin.1
  have hb64 : b < 2 ^ 64 := Nat.lt_of_le_of_lt (Nat.le_trans hbt ht2) hlast
  have ha64 : a < 2 ^ 64 := Nat.lt_trans hab hb64
  have hsub : b - a ≤ w := by omega
  refine ⟨hsub, ?_⟩
  have e : b + 2 ^ 64 - a = (b - a) + 2 ^ 64 := by omega
  unfold subSize
  rw [Nat.mod_eq_of_lt ha64, e, Nat.add_mod_right,
    Nat.mod_eq_of_lt (Nat.lt_of_le_of_lt (Nat.sub_le b a) hb64)]
  exact hsub

theorem sorted_length_le (es : List Nat) (n : Nat) (hs : es.Pairwise (fun a b => a < b))
    (hlt : ∀ p ∈ es, p < n) : es.length ≤ n := by
  have hnodup : es.Nodup := List.Pairwise.imp (fun h => Nat.ne_of_lt h) hs
  have hsub : es ⊆ List.range n := fun p hp => List.mem_range.mpr (hlt p hp)
  have := (List.Nodup.subperm hnodup hsub).length_le
  rw [List.length_range] at this
  exact this

/-! ## The rolled hasher and the fresh hasher -/

theorem roll_state_eq (k c0 ck : Nat) (mid : List Nat) (hlen : mid.length + 1 = k) :
    (((FastHasher.fresh k).addChars (c0 :: mid)).addChar ck).removeChar c0
      = (FastHasher.fresh k).addChars (mid ++ [ck]) := by
  have hroll : ((FastHasher.fresh k).addChars (c0 :: mid)).addChar ck
      = (FastHasher.fresh k).addChars (c0 :: (mid ++ [ck])) := by
    unfold FastHasher.addChars
    rw [← List.cons_append, List.foldl_append]
    rfl
  obtain ⟨t1, t2, t3, t4, t5⟩ := addChars_tables (c0 :: (mid ++ [ck])) (FastHasher.fresh k)
  obtain ⟨u1, u2, u3, u4, u5⟩ := addChars_tables (mid ++ [ck]) (FastHasher.fresh k)
  have hH : ∀ c, (fun c => charHashes.getD c 0) c < 2 ^ 64 := fun c => charHash_lt c
  have hB : ∀ c, (fun c => rot64 (k + 63) (charHashes.getD (complement c) 0)) c < 2 ^ 64 :=
    fun c => rot64_lt _ _ (charHash_lt _)
  have hmlen : (mid ++ [ck]).length = k := by
    rw [List.length_append, List.length_singleton, hlen]
  have hfw : (((FastHasher.fresh k).addChars (c0 :: mid)).addChar ck).fwHash
      ^^^ (((FastHasher.fresh k).addChars (c0 :: mid)).addChar ck).fwRemove.getD c0 0
      = ((FastHasher.fresh k).addChars (mid ++ [ck])).fwHash := by
    rw [hroll, t2]
    show _ ^^^ (FastHasher.seeded k 0 0).fwRemove.getD c0 0 = _
    rw [seeded_fwRemove, fresh_fwHash, rotFold_cons_zero 1 _ hH, hmlen, fresh_fwHash]
    have e : rot64 (1 * k) (charHashes.getD c0 0) = rot64 k (charHashes.getD c0 0) := by
      rw [Nat.one_mul]
    rw [e, Nat.xor_comm (rot64 k _), Nat.xor_assoc, Nat.xor_self, Nat.xor_zero]
  have hbw : (((FastHasher.fresh k).addChars (c0 :: mid)).addChar ck).bwHash
      ^^^ (((FastHasher.fresh k).addChars (c0 :: mid)).addChar ck).bwRemove.getD c0 0
      = ((FastHasher.fresh k).addChars (mid ++ [ck])).bwHash := by
    rw [hroll, t4]
    show _ ^^^ (FastHasher.seeded k 0 0).bwRemove.getD c0 0 = _
    rw [seeded_bwRemove, fresh_bwHash_rot k, rotFold_cons_zero 63 _ hB, hmlen,
      rot64_rot64 _ _ _ (charHash_lt _), fresh_bwHash_rot k]
    have e : rot64 (63 * k + (k + 63)) (charHashes.getD (complement c0) 0)
        = rot64 63 (charHashes.getD (complement c0) 0) := by
      apply rot64_congr
      omega
    rw [e, Nat.xor_comm (rot64 63 _), Nat.xor_assoc, Nat.xor_self, Nat.xor_zero]
  have hshape : (((FastHasher.fresh k).addChars (c0 :: mid)).addChar ck).removeChar c0
      = { fwAdd := ((FastHasher.fresh k).addChars (c0 :: (mid ++ [ck]))).fwAdd
          fwRemove := ((FastHasher.fresh k).addChars (c0 :: (mid ++ [ck]))).fwRemove
          bwAdd := ((FastHasher.fresh k).addChars (c0 :: (mid ++ [ck]))).bwAdd
          bwRemove := ((FastHasher.fresh k).addChars (c0 :: (mid ++ [ck]))).bwRemove
          fwHash := (((FastHasher.fresh k).addChars (c0 :: mid)).addChar ck).fwHash
            ^^^ (((FastHasher.fresh k).addChars (c0 :: mid)).addChar ck).fwRemove.getD c0 0
          bwHash := (((FastHasher.fresh k).addChars (c0 :: mid)).addChar ck).bwHash
            ^^^ (((FastHasher.fresh k).addChars (c0 :: mid)).addChar ck).bwRemove.getD c0 0
          kmerSize := ((FastHasher.fresh k).addChars (c0 :: (mid ++ [ck]))).kmerSize } := by
    rw [← hroll]
    rfl
  rw [hshape, hfw, hbw, t1, t2, t3, t4, t5, ← u1, ← u2, ← u3, ← u4, ← u5]

/-- For `k = 0` the hasher adds and removes the same character and stays as it was. -/
theorem roll_state_zero (c : Nat) :
    ((FastHasher.fresh 0).addChar c).removeChar c = FastHasher.fresh 0 := by
  have hfw : (rotlone 0 ^^^ (FastHasher.fresh 0).fwAdd.getD c 0)
      ^^^ (FastHasher.fresh 0).fwRemove.getD c 0 = 0 := by
    rw [rotlone_eq, rot64_zero_right, Nat.zero_xor]
    show (FastHasher.seeded 0 0 0).fwAdd.getD c 0 ^^^ (FastHasher.seeded 0 0 0).fwRemove.getD c 0
      = 0
    rw [seeded_fwAdd, seeded_fwRemove, rot64_zero_left _ (charHash_lt c), Nat.xor_self]
  have hbw : (rotrone 0 ^^^ (FastHasher.fresh 0).bwAdd.getD c 0)
      ^^^ (FastHasher.fresh 0).bwRemove.getD c 0 = 0 := by
    rw [rotrone_eq, rot64_zero_right, Nat.zero_xor]
    show (FastHasher.seeded 0 0 0).bwAdd.getD c 0 ^^^ (FastHasher.seeded 0 0 0).bwRemove.getD c 0
      = 0
    rw [seeded_bwAdd_rot, seeded_bwRemove, Nat.zero_add, Nat.xor_self]
  have hshape : ((FastHasher.fresh 0).addChar c).removeChar c
      = { FastHasher.fresh 0 with
          fwHash := (rotlone 0 ^^^ (FastHasher.fresh 0).fwAdd.getD c 0)
            ^^^ (FastHasher.fresh 0).fwRemove.getD c 0
          bwHash := (rotrone 0 ^^^ (FastHasher.fresh 0).bwAdd.getD c 0)
            ^^^ (FastHasher.fresh 0).bwRemove.getD c 0 } := rfl
  rw [hshape, hfw, hbw]
  rfl

/-- The hasher the scanner holds at position `p`, after `p` rolling updates, is the hasher
fed the k-mer at `p` from scratch; this holds for every `k`, also when `k % 64 = 0`. -/
theorem scanHasher_eq_fresh (seq : List Nat) (k : Nat) :
    ∀ p, p + k ≤ seq.length →
      scanHasher seq k p = (FastHasher.fresh k).addChars ((seq.drop p).take k) := by
  intro p
  induction p with
  | zero =>
    intro _
    rfl
  | succ p ih =>
    intro hlen
    by_cases hk0 : k = 0
    · subst hk0
      show ((scanHasher seq 0 p).addChar (seq.getD (0 + p) 0)).removeChar (seq.getD p 0) = _
      rw [ih (by omega), Nat.zero_add]
      exact roll_state_zero _
    have hp : p < seq.length := by omega
    have hkp : k + p < seq.length := by omega
    obtain ⟨m, hm⟩ : ∃ m, k = m + 1 := ⟨k - 1, by omega⟩
    have hwin : (seq.drop p).take k = seq.getD p 0 :: (seq.drop (p + 1)).take m := by
      rw [List.drop_eq_getElem_cons hp, hm, List.take_succ_cons, List.getD_eq_getElem?_getD,
        List.getElem?_eq_getElem hp]
      rfl
    have hnext : (seq.drop (p + 1)).take k
        = (seq.drop (p + 1)).take m ++ [seq.getD (k + p) 0] := by
      have hlt : m < (seq.drop (p + 1)).length := by
        rw [List.length_drop]
        omega
      rw [hm, List.take_succ, List.getElem?_eq_getElem hlt, List.getElem_drop]
      have e : p + 1 + m = m + 1 + p := by omega
      simp only [Option.toList, e]
      rw [List.getD_eq_getElem?_getD, List.getElem?_eq_getElem (by omega)]
      rfl
    show ((scanHasher seq k p).addChar (seq.getD (k + p) 0)).removeChar (seq.getD p 0) = _
    rw [ih (by omega), hwin, hnext]
    apply roll_state_eq k _ _ _
    rw [List.length_take, List.length_drop]
    omega

/-- The scanner at `k = 64`, where the hasher stores the size 0 and `rotlkmin1` rotates by
63: on `exampleLongRead` with `w = 2` the callback is called at the positions 1, 3, 5 and 6
with these forward and backward hashes. -/
theorem scanner_at_stored_size_zero :
    exampleLongRead.length = 70 ∧
      findMinimizerPositions exampleLongRead 64 2
        = some [(1, 5928771047208839955, 15783979577312296923),
            (3, 6616360837439906473, 17691533511220495416),
            (5, 9145082223363523277, 3869088326228534586),
            (6, 16721027513211504056, 1168605530158600844)] := by
  set_option maxRecDepth 100000 in decide

/-! ## Claims on the minimizer scanner -/

/-- The minimizers of two hash functions that agree on `[0, last]` are the same. -/
theorem isMinimizer_congr (H G : Nat → Nat) (w last p : Nat)
    (hHG : ∀ q, q ≤ last → H q = G q) (h : IsMinimizer H w last p) :
    IsMinimizer G w last p := by
  obtain ⟨t, ht1, ht2, ⟨hp1, hp2⟩, hmin⟩ := h
  refine ⟨t, ht1, ht2, ⟨hp1, hp2⟩, ?_⟩
  intro q hq
  obtain ⟨hq1, hq2⟩ := hq
  rw [← hHG p (by omega), ← hHG q (by omega)]
  exact hmin q ⟨hq1, hq2⟩

/-- C15: for a sequence of length `L ≥ k + w` with `w ≥ 1`, `findMinimizerPositions` passes
position `p` to the callback if and only if some window of `w` consecutive k-mer positions
inside `[0, L - k]` contains `p` and the canonical hash `min(fw, bw)` of the k-mer at `p` is
the minimum of the canonical hashes in that window, ties included.  This holds for every `k`,
also when `k % 64 = 0`. -/
theorem minimizer_positions_iff (seq : List Nat) (k w : Nat) (hw : 1 ≤ w)
    (hlen : k + w ≤ seq.length) (hsize : seq.length < 2 ^ 64) :
    ∃ ems, findMinimizerPositions seq k w = some ems ∧
      ∀ p, p ∈ ems.map (fun e => e.1) ↔
        IsMinimizer (kmerHash seq k) w (seq.length - k) p := by
  obtain ⟨es, hrun, hinv⟩ := findMinimizerPositions_spec seq k w hw hlen hsize
  have hHG : ∀ q, q ≤ seq.length - k → scanHash seq k q = kmerHash seq k q := by
    intro q hq
    unfold scanHash kmerHash
    rw [scanHasher_eq_fresh seq k q (by omega)]
  refine ⟨_, hrun, ?_⟩
  intro p
  rw [emission_positions]
  constructor
  · intro h
    exact isMinimizer_congr _ _ w _ p hHG ((hinv.2 p).mp h)
  · intro h
    exact (hinv.2 p).mpr (isMinimizer_congr _ _ w _ p (fun q hq => (hHG q hq).symm) h)

/-- C15 (witness): the read `ACGTACGTACGT` with `k = 5`, `w = 3`. -/
theorem minimizer_positions_iff_witness :
    ∃ ems, findMinimizerPositions [1, 2, 3, 4, 1, 2, 3, 4, 1, 2, 3, 4] 5 3 = some ems ∧
      ∀ p, p ∈ ems.map (fun e => e.1) ↔
        IsMinimizer (kmerHash [1, 2, 3, 4, 1, 2, 3, 4, 1, 2, 3, 4] 5) 3
          ([1, 2, 3, 4, 1, 2, 3, 4, 1, 2, 3, 4].length - 5) p :=
  minimizer_positions_iff [1, 2, 3, 4, 1, 2, 3, 4, 1, 2, 3, 4] 5 3 (by decide) (by decide)
    (by norm_num)

/-- C16: for every sequence, every `k` and every `w ≥ 1` whose `size_t` sum `k + w` does not
wrap (`k + w < 2 ^ 64`), each position passed to the callback is larger than the one before it
by at most `w`, also in the wrapping `size_t` subtraction of the callback's assertion
`pos - lastMinimizerPosition <= windowSize`. -/
theorem emission_gap_le_window (seq : List Nat) (k w : Nat) (hw : 1 ≤ w)
    (hkw : k + w < 2 ^ 64) (hsize : seq.length < 2 ^ 64) :
    ∃ ems, findMinimizerPositions seq k w = some ems ∧
      List.Chain' (fun a b => a < b ∧ b - a ≤ w ∧ subSize b a ≤ w)
        (ems.map (fun e => e.1)) := by
  by_cases hlen : seq.length < k + w
  · exact ⟨[], findMinimizerPositions_short seq k w hkw hlen, List.chain'_nil⟩
  · obtain ⟨es, hrun, hinv⟩ :=
      findMinimizerPositions_spec seq k w hw (Nat.le_of_not_lt hlen) hsize
    refine ⟨_, hrun, ?_⟩
    rw [emission_positions]
    exact emit_gap (scanHash seq k) w _ es hw (by omega) hinv

/-- C16 (witness): the read `ACGTACGTACGT` with `k = 3`, `w = 2`. -/
theorem emission_gap_le_window_witness :
    ∃ ems, findMinimizerPositions [1, 2, 3, 4, 1, 2, 3, 4, 1, 2, 3, 4] 3 2 = some ems ∧
      List.Chain' (fun a b => a < b ∧ b - a ≤ 2 ∧ subSize b a ≤ 2)
        (ems.map (fun e => e.1)) :=
  emission_gap_le_window [1, 2, 3, 4, 1, 2, 3, 4, 1, 2, 3, 4] 3 2 (by decide) (by norm_num)
    (by norm_num)

/-- C17: for every sequence, every `k` and every `w ≥ 1` whose `size_t` sum `k + w` does not
wrap (`k + w < 2 ^ 64`), the positions passed to the callback are strictly increasing in call
order; no position is passed twice. -/
theorem emission_positions_increasing (seq : List Nat) (k w : Nat) (hw : 1 ≤ w)
    (hkw : k + w < 2 ^ 64) (hsize : seq.length < 2 ^ 64) :
    ∃ ems, findMinimizerPositions seq k w = some ems ∧
      (ems.map (fun e => e.1)).Pairwise (fun a b => a < b) ∧
      (ems.map (fun e => e.1)).Nodup := by
  by_cases hlen : seq.length < k + w
  · exact ⟨[], findMinimizerPositions_short seq k w hkw hlen, List.Pairwise.nil,
      List.nodup_nil⟩
  · obtain ⟨es, hrun, hinv⟩ :=
      findMinimizerPositions_spec seq k w hw (Nat.le_of_not_lt hlen) hsize
    refine ⟨_, hrun, ?_, ?_⟩
    · rw [emission_positions]
      exact hinv.1
    · rw [emission_positions]
      exact List.Pairwise.imp (fun h => Nat.ne_of_lt h) hinv.1

/-- C17 (witness): the read `ACGTACGTACGT` with `k = 3`, `w = 2`. -/
theorem emission_positions_increasing_witness :
    ∃ ems, findMinimizerPositions [1, 2, 3, 4, 1, 2, 3, 4, 1, 2, 3, 4] 3 2 = some ems ∧
      (ems.map (fun e => e.1)).Pairwise (fun a b => a < b) ∧
      (ems.map (fun e => e.1)).Nodup :=
  emission_positions_increasing [1, 2, 3, 4, 1, 2, 3, 4, 1, 2, 3, 4] 3 2 (by decide)
    (by norm_num) (by norm_num)

/-- C19 (counterexample): with `k = 3`, `w = 1` the encoded read `A C G T A` has length
`k + w + 1 = 5` and the scanner makes three emissions, at positions 0, 1 and 2. -/
theorem scanner_three_emissions :
    [1, 2, 3, 4, 1].length = 3 + 1 + 1 ∧
      ∃ ems, findMinimizerPositions [1, 2, 3, 4, 1] 3 1 = some ems ∧
        ems.map (fun e => e.1) = [0, 1, 2] ∧ ems.length = 3 := by
  refine ⟨rfl, _, rfl, ?_, ?_⟩ <;> decide

/-- C19 (amended): for `w ≥ 1` and an encoded read of length exactly `k + w + 1`, the scanner
makes at least one and at most `w + 2` emissions (one per k-mer position at most). -/
theorem scanner_emission_count (seq : List Nat) (k w : Nat) (hw : 1 ≤ w)
    (hlen : seq.length = k + w + 1) (hsize : seq.length < 2 ^ 64) :
    ∃ ems, findMinimizerPositions seq k w = some ems ∧ 1 ≤ ems.length ∧
      ems.length ≤ w + 2 := by
  obtain ⟨es, hrun, hinv⟩ := findMinimizerPositions_spec seq k w hw (by omega) hsize
  refine ⟨_, hrun, ?_, ?_⟩
  · rw [List.length_map]
    obtain ⟨p, hp⟩ := exists_windowMin (scanHash seq k) w (w - 1) hw (by omega)
    have hpin : p ∈ es := (hinv.2 p).mpr ⟨w - 1, by omega, by omega, hp⟩
    exact List.length_pos_of_mem hpin
  · rw [List.length_map]
    apply sorted_length_le es (w + 2) hinv.1
    intro p hp
    obtain ⟨t, _, ht, hwin, _⟩ := (hinv.2 p).mp hp
    have := hwin.1
    omega

/-- C19 (witness): with `k = 3`, `w = 2` and the encoded read `A C G T A C`. -/
theorem scanner_emission_count_witness :
    ∃ ems, findMinimizerPositions [1, 2, 3, 4, 1, 2] 3 2 = some ems ∧ 1 ≤ ems.length ∧
      ems.length ≤ 2 + 2 :=
  scanner_emission_count [1, 2, 3, 4, 1, 2] 3 2 (by decide) (by decide) (by norm_num)

/-! ## The overlap bound through ingestion -/

theorem mem_mapSet_value {κ ν : Type} [DecidableEq κ] (m : List (κ × ν)) (key : κ) (value : ν)
    (e : κ × ν) (h : e ∈ mapSet m key value) : e ∈ m ∨ e = (key, value) := by
  induction m with
  | nil =>
    simp only [mapSet, List.mem_singleton] at h
    right
    exact h
  | cons x rest ih =>
    unfold mapSet at h
    split_ifs at h with hx
    · rcases List.mem_cons.mp h with h1 | h1
      · right; exact h1
      · left; exact List.mem_cons_of_mem _ h1
    · rcases List.mem_cons.mp h with h1 | h1
      · left; rw [h1]; exact List.mem_cons_self _ _
      · rcases ih h1 with h2 | h2
        · left; exact List.mem_cons_of_mem _ h2
        · right; exact h2

theorem get?_emplace_back_nil (maps : EdgeMaps) (a : DirNode) (m : List (DirNode × Nat))
    (e : DirNode × Nat) (hget : (maps.emplace_back []).get? a = some m) (hmem : e ∈ m) :
    maps.get? a = some m := by
  obtain ⟨i, o⟩ := a
  have key : ∀ (l : List (List (DirNode × Nat))), (l ++ [[]])[i]? = some m → l[i]? = some m := by
    intro l hl
    by_cases hi : i < l.length
    · rw [List.getElem?_append_left hi] at hl
      exact hl
    · rw [List.getElem?_append_right (by omega)] at hl
      by_cases h0 : i - l.length = 0
      · rw [h0] at hl
        simp only [List.getElem?_cons_zero, Option.some.injEq] at hl
        subst hl
        cases hmem
      · obtain ⟨n, hn⟩ := Nat.exists_eq_succ_of_ne_zero h0
        rw [hn] at hl
        simp at hl
  unfold VectorWithDirection.get? VectorWithDirection.emplace_back at *
  cases o <;> simp only [Bool.false_eq_true, if_false, if_true] at hget ⊢
  · exact key _ hget
  · exact key _ hget

theorem assign_valuesBelow (maps maps2 : EdgeMaps) (a b : DirNode) (value k : Nat)
    (hc : maps.ValuesBelow k) (hv : value < k)
    (h : maps.assign a b value = some maps2) : maps2.ValuesBelow k := by
  unfold EdgeMaps.assign at h
  cases hm : maps.get? a with
  | none => rw [hm] at h; cases h
  | some m =>
    rw [hm] at h
    simp only at h
    intro a2 m2 b2 v2 hget hmem
    rcases get?_of_set? maps maps2 a a2 _ m2 h hget with ⟨ha, hm2⟩ | hold
    · subst ha hm2
      rcases mem_mapSet_value m b value (b2, v2) hmem with h1 | h1
      · exact hc a2 m b2 v2 hm h1
      · cases h1
        exact hv
    · exact hc a2 m2 b2 v2 hold hmem

theorem emplace_back_valuesBelow (maps : EdgeMaps) (k : Nat) (hc : maps.ValuesBelow k) :
    EdgeMaps.ValuesBelow (maps.emplace_back []) k := by
  intro a m b v hget hmem
  exact hc a m b v (get?_emplace_back_nil maps a m (b, v) hget hmem) hmem

theorem addHashSequenceRLE_kmerSize (list l2 : HashList) (seq : List Nat) (c p o : Nat)
    (h : list.addHashSequenceRLE seq c p o = some l2) : l2.kmerSize = list.kmerSize := by
  unfold HashList.addHashSequenceRLE at h
  split at h
  · cases h
  · cases h
    rfl

theorem addHashCharacterLength_kmerSize (list l2 : HashList) (data : List Nat)
    (s e c p o : Nat) (h : list.addHashCharacterLength data s e c p o = some l2) :
    l2.kmerSize = list.kmerSize := by
  unfold HashList.addHashCharacterLength at h
  split at h
  · cases h
  · cases h
    rfl

theorem getNode_below (hash : List Nat → Nat) (list l2 : HashList) (sequence rev : List Nat)
    (lens : List Nat) (s e p o f b : Nat) (node : DirNode) (fwHash k : Nat)
    (hso : list.sequenceOverlap.ValuesBelow k)
    (h : getNode hash list sequence rev lens s e p o f b = some (l2, node, fwHash)) :
    l2.sequenceOverlap.ValuesBelow k ∧ l2.kmerSize = list.kmerSize := by
  unfold getNode at h
  simp only at h
  split at h
  · cases h
    exact ⟨hso, rfl⟩
  · split at h
    · cases h
    · split at h
      · cases h
      · rename_i l2a h2
        split at h
        · cases h
        · rename_i l3 h3
          split at h
          · cases h
            obtain ⟨e1, _⟩ := addHashSequenceRLE_edges _ _ _ _ _ _ h2
            obtain ⟨e3, _⟩ := addHashCharacterLength_edges _ _ _ _ _ _ _ _ h3
            have k1 := addHashSequenceRLE_kmerSize _ _ _ _ _ _ h2
            have k3 := addHashCharacterLength_kmerSize _ _ _ _ _ _ _ _ h3
            simp only at e1 k1
            constructor
            · show EdgeMaps.ValuesBelow (l3.sequenceOverlap.emplace_back []) k
              apply emplace_back_valuesBelow
              rw [e3, e1]
              exact hso
            · show l3.kmerSize = list.kmerSize
              rw [k3, k1]
          · cases h

theorem addSequenceOverlap_below (list l2 : HashList) (a b : DirNode) (overlap k : Nat)
    (hso : list.sequenceOverlap.ValuesBelow k) (hov : overlap < k)
    (h : list.addSequenceOverlap a b overlap = some l2) :
    l2.sequenceOverlap.ValuesBelow k ∧ l2.kmerSize = list.kmerSize := by
  unfold HashList.addSequenceOverlap at h
  simp only at h
  split at h
  · cases h
  · split at h
    · cases h
      exact ⟨hso, rfl⟩
    · split at h
      · cases h
      · rename_i so hassign
        cases h
        exact ⟨assign_valuesBelow _ _ _ _ _ _ hso hov hassign, rfl⟩

theorem ingest_overlap_lt (k pos lastpos len : Nat) (hk : k < 2 ^ 64) (hlen : len < 2 ^ 64)
    (c1 : lastpos = sizeMax ∨ pos > lastpos) (c4 : pos + k ≤ len)
    (d1 : subSize pos lastpos < k) (d2 : lastpos + k ≥ pos) :
    subSize (lastpos + k) pos < k := by
  unfold subSize sizeMax at *
  rcases c1 with c | c
  · subst c
    omega
  · omega

theorem ingestEmission_below (hash : List Nat → Nat) (k w : Nat) (seq revSeq lens : List Nat)
    (st st2 : ReadState) (em : Nat × Nat × Nat) (hk : k < 2 ^ 64)
    (hseq : seq.length < 2 ^ 64)
    (hso : st.result.sequenceOverlap.ValuesBelow k)
    (h : ingestEmission hash k w seq revSeq lens st em = some st2) :
    st2.result.sequenceOverlap.ValuesBelow k ∧ st2.result.kmerSize = st.result.kmerSize := by
  unfold ingestEmission at h
  simp only at h
  by_cases c1 : st.lastMinimizerPosition = sizeMax ∨ em.1 > st.lastMinimizerPosition
  swap
  · rw [if_pos c1] at h; cases h
  rw [if_neg (not_not.mpr c1)] at h
  by_cases c2 : st.lastMinimizerPosition = sizeMax ∨ subSize em.1 st.lastMinimizerPosition ≤ w
  swap
  · rw [if_pos c2] at h; cases h
  rw [if_neg (not_not.mpr c2)] at h
  by_cases c3 : st.last.1 = sizeMax ∨ subSize em.1 st.lastMinimizerPosition ≤ k
  swap
  · rw [if_pos c3] at h; cases h
  rw [if_neg (not_not.mpr c3)] at h
  by_cases c4 : em.1 + k ≤ seq.length
  swap
  · rw [if_pos c4] at h; cases h
  rw [if_neg (not_not.mpr c4)] at h
  split at h
  · cases h
  · rename_i r1 current newHash hnode
    obtain ⟨hso1, hk1⟩ := getNode_below _ _ _ _ _ _ _ _ _ _ _ _ _ _ k hso hnode
    split at h
    · cases h
    · rename_i r3 hlinked
      have hr3 : r3.sequenceOverlap.ValuesBelow k ∧ r3.kmerSize = st.result.kmerSize := by
        by_cases d1 : st.last.1 ≠ sizeMax ∧ subSize em.1 st.lastMinimizerPosition < k
        · rw [if_pos d1] at hlinked
          by_cases d2 : st.lastMinimizerPosition + k ≥ em.1
          · rw [if_neg (not_not.mpr d2)] at hlinked
            split at hlinked
            · cases hlinked
            · rename_i r2 hadd
              obtain ⟨hso2, hk2⟩ := addSequenceOverlap_below _ _ _ _ _ k hso1
                (ingest_overlap_lt k em.1 st.lastMinimizerPosition seq.length hk hseq c1 c4
                  d1.2 d2) hadd
              split at hlinked
              · cases hlinked
              · rename_i ec hinc
                cases hlinked
                exact ⟨hso2, by rw [← hk1, ← hk2]⟩
          · rw [if_pos d2] at hlinked
            cases hlinked
        · rw [if_neg d1] at hlinked
          cases hlinked
          exact ⟨hso1, hk1⟩
      split at h
      · cases h
      · cases h
        exact hr3

theorem ingestEmissions_below (hash : List Nat → Nat) (k w : Nat) (seq revSeq lens : List Nat)
    (hk : k < 2 ^ 64) (hseq : seq.length < 2 ^ 64) (ems : List (Nat × Nat × Nat)) :
    ∀ st st2 : ReadState, st.result.sequenceOverlap.ValuesBelow k →
      ingestEmissions hash k w seq revSeq lens st ems = some st2 →
      st2.result.sequenceOverlap.ValuesBelow k ∧ st2.result.kmerSize = st.result.kmerSize := by
  induction ems with
  | nil =>
    intro st st2 hso h
    simp only [ingestEmissions, Option.some.injEq] at h
    subst h
    exact ⟨hso, rfl⟩
  | cons em rest ih =>
    intro st st2 hso h
    unfold ingestEmissions at h
    split at h
    · cases h
    · rename_i st1 hstep
      obtain ⟨h1, h2⟩ := ingestEmission_below _ _ _ _ _ _ _ _ _ hk hseq hso hstep
      obtain ⟨h3, h4⟩ := ih st1 st2 h1 h
      exact ⟨h3, by rw [h4, h2]⟩

theorem rleLoop_length_le (s : List Char) :
    ∀ (prev : Char) (res lens r ls : List Nat), rleLoop prev s res lens = some (r, ls) →
      r.length ≤ res.length + s.length := by
  induction s with
  | nil =>
    intro prev res lens r ls h
    simp only [rleLoop, Option.some.injEq, Prod.mk.injEq] at h
    rw [← h.1]
    omega
  | cons c rest ih =>
    intro prev res lens r ls h
    rw [rleLoop] at h
    by_cases hc : c = prev
    · rw [if_pos hc] at h
      have := ih _ _ _ _ _ h
      rw [List.length_cons]
      omega
    · rw [if_neg hc] at h
      split at h
      · cases h
      · have := ih _ _ _ _ _ h
        rw [List.length_append, List.length_singleton] at this
        rw [List.length_cons]
        omega

theorem encode_length_le (hpc : Bool) (sequence : List Char) (seq lens : List Nat)
    (h : (if hpc = true then runLengthEncode sequence else noRunLengthEncode sequence)
      = some (seq, lens)) : seq.length ≤ sequence.length := by
  cases hpc with
  | true =>
    simp only [if_true] at h
    unfold runLengthEncode at h
    cases sequence with
    | nil => cases h
    | cons c rest =>
      simp only at h
      split at h
      · cases h
      · have := rleLoop_length_le _ _ _ _ _ _ h
        simpa [Nat.add_comm] using this
  | false =>
    simp only [Bool.false_eq_true, if_false] at h
    unfold noRunLengthEncode at h
    split_ifs at h with h0
    split at h
    · cases h
    · rename_i res hres
      have hl := noRleLoop_length _ _ _ hres
      simp only at h
      split_ifs at h with h1
      cases h
      simpa using Nat.le_of_eq hl

theorem ingestRead_below (hash : List Nat → Nat) (k w : Nat) (hpc : Bool)
    (result r2 : HashList) (sequence : List Char) (hk : k < 2 ^ 64)
    (hlen : sequence.length < 2 ^ 64) (hso : result.sequenceOverlap.ValuesBelow k)
    (h : ingestRead hash k w hpc result sequence = some r2) :
    r2.sequenceOverlap.ValuesBelow k ∧ r2.kmerSize = result.kmerSize := by
  unfold ingestRead at h
  by_cases c1 : sequence.length = 0
  · rw [if_pos c1] at h
    cases h
    exact ⟨hso, rfl⟩
  · rw [if_neg c1] at h
    cases henc : (if hpc = true then runLengthEncode sequence
        else noRunLengthEncode sequence) with
    | none => rw [henc] at h; cases h
    | some p =>
      obtain ⟨seq, lens⟩ := p
      have hle := encode_length_le hpc sequence seq lens henc
      rw [henc] at h
      simp only at h
      by_cases c2 : seq.length ≤ (k + w) % 2 ^ 64
      · rw [if_pos c2] at h
        cases h
        exact ⟨hso, rfl⟩
      · rw [if_neg c2] at h
        split at h
        · cases h
        · split at h
          · cases h
          · rename_i st hems
            cases h
            exact ingestEmissions_below _ _ _ _ _ _ hk (by omega) _ _ _ hso hems

theorem ingestReads_below (hash : List Nat → Nat) (k w : Nat) (hpc : Bool) (hk : k < 2 ^ 64)
    (reads : List (List Char)) :
    ∀ result r2 : HashList, (∀ r ∈ reads, r.length < 2 ^ 64) →
      result.sequenceOverlap.ValuesBelow k →
      ingestReads hash k w hpc result reads = some r2 →
      r2.sequenceOverlap.ValuesBelow k ∧ r2.kmerSize = result.kmerSize := by
  induction reads with
  | nil =>
    intro result r2 _ hso h
    simp only [ingestReads, Option.some.injEq] at h
    subst h
    exact ⟨hso, rfl⟩
  | cons read rest ih =>
    intro result r2 hlen hso h
    unfold ingestReads at h
    split at h
    · cases h
    · rename_i r1 hstep
      obtain ⟨h1, h2⟩ := ingestRead_below _ _ _ _ _ _ _ hk
        (hlen read (List.mem_cons_self _ _)) hso hstep
      obtain ⟨h3, h4⟩ := ih r1 r2 (fun r hr => hlen r (List.mem_cons_of_mem _ hr)) h1 h
      exact ⟨h3, by rw [h4, h2]⟩

theorem empty_valuesBelow (k : Nat) : EdgeMaps.ValuesBelow (⟨[], []⟩ : EdgeMaps) k := by
  intro a m b v hget _
  unfold VectorWithDirection.get? at hget
  split_ifs at hget <;> simp at hget

theorem loadReadsAsHashes_below (hash : List Nat → Nat) (reads : List (List Char))
    (k w : Nat) (hpc : Bool) (result : HashList) (hk : k < 2 ^ 64)
    (hlen : ∀ r ∈ reads, r.length < 2 ^ 64)
    (h : loadReadsAsHashes hash reads k w hpc = some result) :
    result.sequenceOverlap.ValuesBelow k ∧ result.kmerSize = k := by
  unfold loadReadsAsHashes at h
  split at h
  · cases h
  · rename_i r hr
    have hinv := ingestReads_below _ _ _ _ hk _ _ _ hlen (empty_valuesBelow k) hr
    cases h
    exact hinv

/-! ## The overlap bound through the transitive cleaner -/

theorem allBelow_nil (k : Nat) : AllBelow k [] := by
  intro t ht
  cases ht

theorem allBelow_append (k : Nat) (l1 l2 : List (DirNode × DirNode × Nat))
    (h1 : AllBelow k l1) (h2 : AllBelow k l2) : AllBelow k (l1 ++ l2) := by
  intro t ht
  rcases List.mem_append.mp ht with h | h
  · exact h1 t h
  · exact h2 t h

theorem allBelow_singleton (k : Nat) (a b : DirNode) (v : Nat) (hv : v < k) :
    AllBelow k [(a, b, v)] := by
  intro t ht
  rw [List.mem_singleton.mp ht]
  exact hv

theorem getView_length (l : AdjacentMinimizerList) (c1 c2 size : Nat) (v : List Nat)
    (h : l.getView c1 c2 size = some v) : v.length = size := by
  unfold AdjacentMinimizerList.getView at h
  split at h
  · cases h
  · split_ifs at h with hin
    cases h
    rw [List.length_take, List.length_drop]
    omega

theorem getHashSequenceRLE_length (list : HashList) (i : Nat) (v : List Nat)
    (h : list.getHashSequenceRLE i = some v) : v.length = list.kmerSize := by
  unfold HashList.getHashSequenceRLE at h
  split at h
  · cases h
  · exact getView_length _ _ _ _ _ h

theorem getRevCompHashSequenceRLE_length (list : HashList) (i : Nat) (v : List Nat)
    (h : list.getRevCompHashSequenceRLE i = some v) : v.length = list.kmerSize := by
  unfold HashList.getRevCompHashSequenceRLE at h
  split at h
  · cases h
  · split at h
    · cases h
    · exact getView_length _ _ _ _ _ h

theorem addMiddlesLoop_below (hash : List Nat → Nat) (k : Nat) (seq : LazyString)
    (list : HashList) (prefixes : List Nat) (hk : k < 2 ^ 64) (n : Nat) :
    ∀ (i : Nat) (h : FastHasher) (path : List DirNode) (old : DirNode) (oldpos : Nat)
      (overlaps : List (DirNode × DirNode × Nat))
      (res : List DirNode × DirNode × Nat × List (DirNode × DirNode × Nat)),
      AllBelow k overlaps → oldpos < i → i + n ≤ k →
      addMiddlesLoop hash k seq list prefixes n i h path old oldpos overlaps = some res →
      AllBelow k res.2.2.2 ∧ res.2.2.1 < i + n := by
  induction n with
  | zero =>
    intro i h path old oldpos overlaps res hall hold _ hrun
    simp only [addMiddlesLoop, Option.some.injEq] at hrun
    subst hrun
    exact ⟨hall, hold⟩
  | succ n ih =>
    intro i h path old oldpos overlaps res hall hold hin hrun
    have e : i + (n + 1) = i + 1 + n := by omega
    rw [e]
    unfold addMiddlesLoop at hrun
    split at hrun
    · simp only at hrun
      split_ifs at hrun with c1
      · split at hrun
        · cases hrun
        · split_ifs at hrun with c2
          · exact ih _ _ _ _ _ _ _ hall (by omega) (by omega) hrun
          · refine ih _ _ _ _ _ _ _ (allBelow_append _ _ _ hall
              (allBelow_singleton _ _ _ _ ?_)) (by omega) (by omega) hrun
            unfold subSize
            omega
      · exact ih _ _ _ _ _ _ _ hall (by omega) (by omega) hrun
    · cases hrun

theorem addMiddles_below (hash : List Nat → Nat) (cleaner c2 : TransitiveCleaner) (k : Nat)
    (start stop : DirNode) (seq : LazyString) (list : HashList) (prefixes : List Nat)
    (hk : k < 2 ^ 64) (hfirst : seq.first.length = k) (hsecond : seq.second.length = k)
    (hov : seq.overlap < k) (hall : AllBelow k cleaner.newSequenceOverlaps)
    (h : addMiddles hash cleaner k start stop seq list prefixes = some c2) :
    AllBelow k c2.newSequenceOverlaps := by
  have hB : subSize seq.size k = k - seq.overlap := by
    unfold LazyString.size subSize
    rw [hfirst, hsecond]
    omega
  unfold addMiddles at h
  split at h
  · simp only at h
    split_ifs at h with c1
    split at h
    · cases h
    · rename_i path old oldpos overlaps hloop
      rw [hB] at hloop
      obtain ⟨hbelow, hpos⟩ :=
        addMiddlesLoop_below _ _ _ _ _ hk _ _ _ _ _ _ _ _ hall (by omega) (by omega) hloop
      simp only at hbelow hpos
      split_ifs at h with d1 d2 d3
      · split at h
        · cases h
        · split at h
          · cases h
          · cases h
            refine allBelow_append _ _ _ hbelow (allBelow_singleton _ _ _ _ ?_)
            rw [hB]
            unfold subSize
            omega
      · cases h
        exact hbelow
  · cases h

theorem getMiddlesEdges_below (hash : List Nat → Nat) (k : Nat) (hashlist : HashList)
    (prefixes : List Nat) (i : Nat) (start : DirNode) (seq : List Nat) (hk : k < 2 ^ 64)
    (hks : hashlist.kmerSize = k) (hseq : seq.length = k) (edges : List (DirNode × Nat)) :
    ∀ cleaner c2 : TransitiveCleaner, AllBelow k cleaner.newSequenceOverlaps →
      getMiddlesEdges hash k hashlist prefixes i start seq cleaner edges = some c2 →
      AllBelow k c2.newSequenceOverlaps := by
  induction edges with
  | nil =>
    intro cleaner c2 hall h
    simp only [getMiddlesEdges, Option.some.injEq] at h
    subst h
    exact hall
  | cons pair rest ih =>
    intro cleaner c2 hall h
    unfold getMiddlesEdges at h
    by_cases c1 : pair.1.1 ≥ i
    swap
    · rw [if_pos c1] at h; cases h
    rw [if_neg (not_not.mpr c1)] at h
    cases hsec : (if pair.1.2 = true then hashlist.getHashSequenceRLE pair.1.1
        else hashlist.getRevCompHashSequenceRLE pair.1.1) with
    | none => rw [hsec] at h; cases h
    | some second =>
      have hsl : second.length = k := by
        rw [← hks]
        by_cases hb : pair.1.2 = true
        · rw [if_pos hb] at hsec
          exact getHashSequenceRLE_length _ _ _ hsec
        · rw [if_neg hb] at hsec
          exact getRevCompHashSequenceRLE_length _ _ _ hsec
      rw [hsec] at h
      simp only at h
      cases hlazy : LazyString.make seq second pair.2 with
      | none => rw [hlazy] at h; cases h
      | some lazy =>
        rw [hlazy] at h
        simp only at h
        unfold LazyString.make at hlazy
        split_ifs at hlazy with hc
        cases hlazy
        split at h
        · cases h
        · rename_i c3 hadd
          exact ih _ _ (addMiddles_below _ _ _ _ _ _ _ _ _ hk hseq hsl
            (by rw [← hseq]; exact hc.1) hall hadd) h

theorem getMiddlesSide_below (hash : List Nat → Nat)
    (order : List (DirNode × Nat) → List (DirNode × Nat)) (k : Nat) (hashlist : HashList)
    (prefixes : List Nat) (i : Nat) (start : DirNode) (cleaner c2 : TransitiveCleaner)
    (hk : k < 2 ^ 64) (hks : hashlist.kmerSize = k)
    (hall : AllBelow k cleaner.newSequenceOverlaps)
    (h : getMiddlesSide hash order k hashlist prefixes i start cleaner = some c2) :
    AllBelow k c2.newSequenceOverlaps := by
  unfold getMiddlesSide at h
  split at h
  · cases h
  · rename_i m hm
    by_cases c1 : m.length > 0
    · rw [if_pos c1] at h
      cases hsq : (if start.2 = true then hashlist.getHashSequenceRLE i
          else hashlist.getRevCompHashSequenceRLE i) with
      | none => rw [hsq] at h; cases h
      | some seq =>
        have hsl : seq.length = k := by
          rw [← hks]
          by_cases hb : start.2 = true
          · rw [if_pos hb] at hsq
            exact getHashSequenceRLE_length _ _ _ hsq
          · rw [if_neg hb] at hsq
            exact getRevCompHashSequenceRLE_length _ _ _ hsq
        rw [hsq] at h
        exact getMiddlesEdges_below _ _ _ _ _ _ _ hk hks hsl _ _ _ hall h
    · rw [if_neg c1] at h
      cases h
      exact hall

theorem getMiddlesLoop_below (hash : List Nat → Nat)
    (order : List (DirNode × Nat) → List (DirNode × Nat)) (k : Nat) (hashlist : HashList)
    (prefixes : List Nat) (hk : k < 2 ^ 64) (hks : hashlist.kmerSize = k) (n : Nat) :
    ∀ (i : Nat) (cleaner c2 : TransitiveCleaner), AllBelow k cleaner.newSequenceOverlaps →
      getMiddlesLoop hash order k hashlist prefixes n i cleaner = some c2 →
      AllBelow k c2.newSequenceOverlaps := by
  induction n with
  | zero =>
    intro i cleaner c2 hall h
    simp only [getMiddlesLoop, Option.some.injEq] at h
    subst h
    exact hall
  | succ n ih =>
    intro i cleaner c2 hall h
    unfold getMiddlesLoop at h
    split at h
    · cases h
    · rename_i c1 h1
      split at h
      · cases h
      · rename_i c3 h3
        exact ih _ _ _ (getMiddlesSide_below _ _ _ _ _ _ _ _ _ hk hks
          (getMiddlesSide_below _ _ _ _ _ _ _ _ _ hk hks hall h1) h3) h

theorem applyOverlaps_below (k : Nat) (l : List (DirNode × DirNode × Nat)) :
    ∀ maps maps2 : EdgeMaps, maps.ValuesBelow k → AllBelow k l →
      applyOverlaps maps l = some maps2 → maps2.ValuesBelow k := by
  induction l with
  | nil =>
    intro maps maps2 hc _ h
    simp only [applyOverlaps, Option.some.injEq] at h
    subst h
    exact hc
  | cons t rest ih =>
    intro maps maps2 hc hall h
    unfold applyOverlaps at h
    split at h
    · cases h
    · rename_i m2 hassign
      exact ih _ _ (assign_valuesBelow _ _ _ _ _ _ hc (hall t (List.mem_cons_self _ _)) hassign)
        (fun x hx => hall x (List.mem_cons_of_mem _ hx)) h

theorem cleanTransitiveEdges_below (hash : List Nat → Nat)
    (order : List (DirNode × Nat) → List (DirNode × Nat)) (fuel : Nat) (result r2 : HashList)
    (k : Nat) (hk : k < 2 ^ 64) (hks : result.kmerSize = k)
    (hso : result.sequenceOverlap.ValuesBelow k)
    (h : cleanTransitiveEdges hash order fuel result k = some r2) :
    r2.sequenceOverlap.ValuesBelow k := by
  unfold cleanTransitiveEdges at h
  split at h
  · cases h
  · rename_i cleaner hmake
    have hnso : AllBelow k cleaner.newSequenceOverlaps :=
      getMiddlesLoop_below _ _ _ _ _ hk hks _ _ _ _ (allBelow_nil k) hmake
    split at h
    · cases h
    · split at h
      · cases h
      · rename_i so hso2
        split at h
        · cases h
        · split at h
          · cases h
          · cases h
            exact applyOverlaps_below _ _ _ _ hso hnso hso2

/-! ## Claim on the overlap bound -/

/-- C20: after ingestion, and after `cleanTransitiveEdges`, every value stored in
`sequenceOverlap` is below `k`: the overlaps `lastPos + k - pos` recorded at ingestion and the
overlaps `k - (i - oldpos)` and `k - (len - k - oldpos)` recorded by the cleaner.  The k-mer
size and the read lengths are values of `size_t`. -/
theorem overlap_below_kmerSize (hash : List Nat → Nat)
    (order : List (DirNode × Nat) → List (DirNode × Nat)) (fuel : Nat)
    (reads : List (List Char)) (k w : Nat) (hpc : Bool) (loaded cleaned : HashList)
    (hk : k < 2 ^ 64) (hreads : ∀ r ∈ reads, r.length < 2 ^ 64)
    (hload : loadReadsAsHashes hash reads k w hpc = some loaded)
    (hclean : cleanTransitiveEdges hash order fuel loaded k = some cleaned) :
    loaded.sequenceOverlap.ValuesBelow k ∧ cleaned.sequenceOverlap.ValuesBelow k := by
  obtain ⟨h1, h2⟩ := loadReadsAsHashes_below hash reads k w hpc loaded hk hreads hload
  exact ⟨h1, cleanTransitiveEdges_below hash order fuel loaded cleaned k hk h2 h1 hclean⟩

/-- C20 (witness): in the worked example (`k = 3`) the overlaps are 1 and 2 after ingestion,
and the two overlaps recorded by the cleaner are 2. -/
theorem overlap_below_kmerSize_witness :
    loadReadsAsHashes exampleHash exampleReads 3 2 false = some exampleLoaded ∧
      cleanTransitiveEdges exampleHash id 50 exampleLoaded 3 = some exampleCleaned ∧
      exampleLoaded.sequenceOverlap.ValuesBelow 3 ∧
      exampleCleaned.sequenceOverlap.ValuesBelow 3 :=
  ⟨by decide, by decide,
    overlap_below_kmerSize exampleHash id 50 exampleReads 3 2 false exampleLoaded
      exampleCleaned (by norm_num) (by decide) (by decide) (by decide)⟩
/-! ## The written overlap -/

theorem getData_length (l : AdjacentLengthList) (c1 c2 size : Nat) (v : List Nat)
    (h : l.getData c1 c2 size = some v) : v.length = size := by
  unfold AdjacentLengthList.getData at h
  split at h
  · cases h
  · split_ifs at h with hle
    cases h
    rw [List.length_take, List.length_drop]
    omega

theorem overlapFromRLELoop_fw (lens : List Nat) (n offset acc : Nat)
    (hn : offset + n ≤ lens.length)
    (hfit : acc + ((lens.drop offset).take n).sum < 2 ^ 64) :
    overlapFromRLELoop lens true n offset acc = some (acc + ((lens.drop offset).take n).sum) := by
  induction n generalizing offset acc with
  | zero => simp [overlapFromRLELoop]
  | succ n ih =>
    have hlt : offset < lens.length := by omega
    have hdrop : lens.drop offset = lens[offset] :: lens.drop (offset + 1) :=
      List.drop_eq_getElem_cons hlt
    rw [hdrop, List.take_succ_cons, List.sum_cons] at hfit ⊢
    unfold overlapFromRLELoop
    simp only [if_true, List.getElem?_eq_getElem hlt]
    have hsmall : acc + lens[offset] < 2 ^ 64 := by omega
    rw [Nat.mod_eq_of_lt hsmall, ih (offset + 1) (acc + lens[offset]) (by omega) (by omega),
      Nat.add_assoc]

theorem overlapFromRLELoop_bw (lens : List Nat) (n offset acc : Nat)
    (hn : offset + n ≤ lens.length) (hlen : lens.length < 2 ^ 64)
    (hfit : acc + ((lens.reverse.drop offset).take n).sum < 2 ^ 64) :
    overlapFromRLELoop lens false n offset acc
      = some (acc + ((lens.reverse.drop offset).take n).sum) := by
  induction n generalizing offset acc with
  | zero => simp [overlapFromRLELoop]
  | succ n ih =>
    have hlt : offset < lens.reverse.length := by rw [List.length_reverse]; omega
    have hlt2 : offset < lens.length := by omega
    have hdrop : lens.reverse.drop offset = lens.reverse[offset] :: lens.reverse.drop (offset + 1) :=
      List.drop_eq_getElem_cons hlt
    rw [hdrop, List.take_succ_cons, List.sum_cons] at hfit ⊢
    have hidx : subSize (subSize lens.length offset) 1 = lens.length - 1 - offset := by
      unfold subSize
      omega
    have hget : lens[lens.length - 1 - offset]? = some lens.reverse[offset] := by
      rw [List.getElem_reverse, List.getElem?_eq_getElem]
    unfold overlapFromRLELoop
    simp only [Bool.false_eq_true, if_false, hidx, hget]
    have hsmall : acc + lens.reverse[offset] < 2 ^ 64 := by omega
    rw [Nat.mod_eq_of_lt hsmall, ih (offset + 1) (acc + lens.reverse[offset]) (by omega) (by omega),
      Nat.add_assoc]

theorem sum_le_of_bounded (l : List Nat) (b : Nat) (h : ∀ x ∈ l, x < b) :
    l.sum ≤ l.length * b := by
  induction l with
  | nil => simp
  | cons x rest ih =>
    have hx := h x (List.mem_cons_self x rest)
    have hr := ih (fun y hy => h y (List.mem_cons_of_mem x hy))
    rw [List.sum_cons, List.length_cons, Nat.succ_mul]
    omega

theorem sum_of_all_one (l : List Nat) (h : ∀ x ∈ l, x = 1) : l.sum = l.length := by
  induction l with
  | nil => simp
  | cons x rest ih =>
    have hx := h x (List.mem_cons_self x rest)
    have hr := ih (fun y hy => h y (List.mem_cons_of_mem x hy))
    rw [List.sum_cons, List.length_cons, hx, hr]
    omega

/-- C27: for an edge `from -> to` with RLE overlap `o = getOverlap(from, to)` below the
k-mer size, `getOverlapFromRLE` returns the sum of the first `o` run lengths of the k-mer `to`
read in its written orientation: the first `o` entries of the stored run-length list when `to`
is forward, the last `o` entries when `to` is reverse; when all run lengths are 1 the result
is `o`.  Run lengths are `uint16_t` values. -/
theorem getOverlapFromRLE_sum (hashlist : HashList) (src dst : DirNode) (o : Nat)
    (lens : List Nat) (hov : hashlist.getOverlap src dst = some o)
    (hlens : hashlist.getHashCharacterLength dst.1 = some lens)
    (ho : o < hashlist.kmerSize) (hk : hashlist.kmerSize < 2 ^ 48)
    (h16 : ∀ x ∈ lens, x < 2 ^ 16) :
    getOverlapFromRLE hashlist src dst
        = some (((if dst.2 then lens else lens.reverse).take o).sum) ∧
      (dst.2 = true → getOverlapFromRLE hashlist src dst = some (lens.take o).sum) ∧
      (dst.2 = false →
        getOverlapFromRLE hashlist src dst = some (lens.drop (lens.length - o)).sum) ∧
      ((∀ x ∈ lens, x = 1) → getOverlapFromRLE hashlist src dst = some o) := by
  have hlen : lens.length = hashlist.kmerSize := by
    unfold HashList.getHashCharacterLength at hlens
    split at hlens
    · cases hlens
    · exact getData_length _ _ _ _ _ hlens
  have hbound : ∀ l : List Nat, (∀ x ∈ l, x ∈ lens) → (l.take o).sum < 2 ^ 64 := by
    intro l hl
    have h1 : ∀ x ∈ l.take o, x < 2 ^ 16 := fun x hx => h16 x (hl x (List.mem_of_mem_take hx))
    have h2 := sum_le_of_bounded _ _ h1
    have h3 : (l.take o).length ≤ o := List.length_take_le o l
    have h4 : (l.take o).length * 2 ^ 16 ≤ o * 2 ^ 16 := Nat.mul_le_mul_right _ h3
    have h5 : o * 2 ^ 16 < 2 ^ 48 * 2 ^ 16 := by
      apply Nat.mul_lt_mul_of_lt_of_le (by omega) (Nat.le_refl _) (by norm_num)
    have h6 : (2 : Nat) ^ 48 * 2 ^ 16 = 2 ^ 64 := by norm_num
    omega
  have hmain : getOverlapFromRLE hashlist src dst
      = some (((if dst.2 then lens else lens.reverse).take o).sum) := by
    unfold getOverlapFromRLE
    rw [hov]
    simp only [hlens]
    rw [if_pos (by omega)]
    cases hd : dst.2 with
    | true =>
      have := overlapFromRLELoop_fw lens o 0 0 (by omega)
        (by simpa using hbound lens (fun x hx => hx))
      simpa using this
    | false =>
      have := overlapFromRLELoop_bw lens o 0 0 (by omega) (by omega)
        (by simpa using hbound lens.reverse (fun x hx => List.mem_reverse.mp hx))
      simpa using this
  refine ⟨hmain, ?_, ?_, ?_⟩
  · intro hd
    rw [hmain, hd]
    rfl
  · intro hd
    rw [hmain, hd]
    simp only [Bool.false_eq_true, if_false]
    have hrev : lens.reverse.take o = (lens.drop (lens.length - o)).reverse := by
      rw [List.reverse_drop]
      congr 1
      omega
    rw [hrev, List.sum_reverse]
  · intro hall
    rw [hmain]
    have h1 : ∀ x ∈ (if dst.2 then lens else lens.reverse).take o, x = 1 := by
      intro x hx
      have := List.mem_of_mem_take hx
      split_ifs at this
      · exact hall x this
      · exact hall x (List.mem_reverse.mp this)
    rw [sum_of_all_one _ h1, List.length_take]
    congr 1
    split_ifs
    · omega
    · rw [List.length_reverse]; omega

/-- C27 (witness): in the worked example the edge from node 0 forward to node 1 forward has
overlap 1 and all run lengths are 1. -/
theorem getOverlapFromRLE_sum_witness :
    getOverlapFromRLE exampleLoaded (0, true) (1, true)
        = some (((if (1, true).2 then [1, 1, 1] else [1, 1, 1].reverse).take 1).sum) ∧
      (((1 : Nat), true).2 = true →
        getOverlapFromRLE exampleLoaded (0, true) (1, true) = some ([1, 1, 1].take 1).sum) ∧
      (((1 : Nat), true).2 = false →
        getOverlapFromRLE exampleLoaded (0, true) (1, true)
          = some ([1, 1, 1].drop ([1, 1, 1].length - 1)).sum) ∧
      ((∀ x ∈ [1, 1, 1], x = 1) →
        getOverlapFromRLE exampleLoaded (0, true) (1, true) = some 1) :=
  getOverlapFromRLE_sum exampleLoaded (0, true) (1, true) 1 [1, 1, 1] (by decide) (by decide)
    (by decide) (by norm_num [exampleLoaded]) (by decide)
/-! ## Consensus finalisation -/

theorem mapFind_mem {κ ν : Type} [DecidableEq κ] (m : List (κ × ν)) (key : κ) (v : ν)
    (h : mapFind m key = some v) : (key, v) ∈ m := by
  induction m with
  | nil => cases h
  | cons e rest ih =>
    unfold mapFind at h
    by_cases he : e.1 = key
    · rw [if_pos he] at h
      cases h
      rw [← he]
      exact List.mem_cons_self _ _
    · rw [if_neg he] at h
      exact List.mem_cons_of_mem _ (ih h)

theorem mapFind_of_mem_nodup {κ ν : Type} [DecidableEq κ] (m : List (κ × ν)) (key : κ) (v : ν)
    (hnd : (m.map Prod.fst).Nodup) (h : (key, v) ∈ m) : mapFind m key = some v := by
  induction m with
  | nil => cases h
  | cons e rest ih =>
    rw [List.map_cons, List.nodup_cons] at hnd
    unfold mapFind
    rcases List.mem_cons.mp h with h1 | h1
    · rw [← h1, if_pos rfl]
    · have hne : e.1 ≠ key := by
        intro heq
        apply hnd.1
        rw [heq]
        exact List.mem_map_of_mem Prod.fst h1
      rw [if_neg hne]
      exact ih hnd.2 h1

theorem mapFind_none_of_not_mem {κ ν : Type} [DecidableEq κ] (m : List (κ × ν)) (key : κ)
    (h : ∀ v, (key, v) ∉ m) : mapFind m key = none := by
  cases hf : mapFind m key with
  | none => rfl
  | some v => exact absurd (mapFind_mem m key v hf) (h v)

/-- The count the `while` loop compares for an entry: the `uint32_t` sum with the simple
cell's count when the indexes agree. -/
theorem popPosition_spec (simple : Nat × Nat) (j : Nat) (stack : List (Nat × Nat × Nat))
    (maxIndex maxCount : Nat) (hs : stack.Pairwise (fun a b => a.1 ≤ b.1))
    (hge : ∀ e ∈ stack, j ≤ e.1) :
    ∃ ri rc, popPosition simple j stack maxIndex maxCount
        = (stack.filter (fun e => decide (j < e.1)), ri, rc) ∧ maxCount ≤ rc ∧
      (∀ e ∈ stack, e.1 = j →
        (if e.2.1 = simple.1 then (e.2.2 + simple.2) % 2 ^ 32 else e.2.2) ≤ rc) ∧
      ((ri = maxIndex ∧ rc = maxCount) ∨
        ∃ e ∈ stack, e.1 = j ∧ ri = e.2.1 ∧
          rc = (if e.2.1 = simple.1 then (e.2.2 + simple.2) % 2 ^ 32 else e.2.2) ∧
          maxCount < rc) := by
  induction stack generalizing maxIndex maxCount with
  | nil => exact ⟨maxIndex, maxCount, rfl, Nat.le_refl _, by simp, Or.inl ⟨rfl, rfl⟩⟩
  | cons e rest ih =>
    rw [List.pairwise_cons] at hs
    have hrest : ∀ x ∈ rest, j ≤ x.1 := fun x hx => hge x (List.mem_cons_of_mem _ hx)
    by_cases he : e.1 = j
    · have hfil : (e :: rest).filter (fun x => decide (j < x.1))
          = rest.filter (fun x => decide (j < x.1)) := by
        rw [List.filter_cons_of_neg (by simp [he])]
      generalize hc : (if e.2.1 = simple.1 then (e.2.2 + simple.2) % 2 ^ 32 else e.2.2) = c
      by_cases hle : c ≤ maxCount
      · obtain ⟨ri, rc, hrun, hmc, hall, hor⟩ := ih maxIndex maxCount hs.2 hrest
        refine ⟨ri, rc, ?_, hmc, ?_, ?_⟩
        · rw [popPosition, if_pos he]
          simp only [hc]
          rw [if_pos hle, hrun, hfil]
        · intro x hx hxj
          rcases List.mem_cons.mp hx with h1 | h1
          · rw [h1, hc]
            omega
          · exact hall x h1 hxj
        · rcases hor with h1 | ⟨x, hx, h2⟩
          · exact Or.inl h1
          · exact Or.inr ⟨x, List.mem_cons_of_mem _ hx, h2⟩
      · obtain ⟨ri, rc, hrun, hmc, hall, hor⟩ := ih e.2.1 c hs.2 hrest
        refine ⟨ri, rc, ?_, by omega, ?_, ?_⟩
        · rw [popPosition, if_pos he]
          simp only [hc]
          rw [if_neg hle, hrun, hfil]
        · intro x hx hxj
          rcases List.mem_cons.mp hx with h1 | h1
          · rw [h1, hc]
            exact hmc
          · exact hall x h1 hxj
        · rcases hor with ⟨h1, h2⟩ | ⟨x, hx, h2, h3, h4, h5⟩
          · exact Or.inr ⟨e, List.mem_cons_self _ _, he, h1, by rw [hc]; exact h2, by omega⟩
          · exact Or.inr ⟨x, List.mem_cons_of_mem _ hx, h2, h3, h4, by omega⟩
    · have hgt : j < e.1 := by
        have := hge e (List.mem_cons_self _ _)
        omega
      have hfil : (e :: rest).filter (fun x => decide (j < x.1)) = e :: rest := by
        rw [List.filter_eq_self]
        intro x hx
        rcases List.mem_cons.mp hx with h1 | h1
        · rw [h1]
          simpa using hgt
        · have := hs.1 x h1
          simp only [decide_eq_true_eq]
          omega
      refine ⟨maxIndex, maxCount, ?_, Nat.le_refl _, ?_, Or.inl ⟨rfl, rfl⟩⟩
      · rw [popPosition, if_neg he, hfil]
      · intro x hx hxj
        rcases List.mem_cons.mp hx with h1 | h1
        · rw [h1] at hxj
          exact absurd hxj he
        · have := hs.1 x h1
          omega

theorem mem_countTriple (complexCounts : List ((Nat × Nat) × Nat)) (j index c : Nat) :
    (j, index, c) ∈ complexCounts.map countTriple ↔ ((j, index), c) ∈ complexCounts := by
  rw [List.mem_map]
  constructor
  · rintro ⟨⟨⟨a, b⟩, d⟩, hmem, heq⟩
    unfold countTriple at heq
    simp only [Prod.mk.injEq] at heq
    obtain ⟨h1, h2, h3⟩ := heq
    subst h1 h2 h3
    exact hmem
  · intro h
    exact ⟨((j, index), c), h, rfl⟩

theorem mergedCount_of_mem (simple : Nat × Nat) (complexCounts : List ((Nat × Nat) × Nat))
    (hkeys : (complexCounts.map Prod.fst).Nodup) (j index c : Nat)
    (h : ((j, index), c) ∈ complexCounts) :
    mergedCount simple complexCounts j index = c + (if index = simple.1 then simple.2 else 0) := by
  unfold mergedCount
  rw [mapFind_of_mem_nodup complexCounts (j, index) c hkeys h]
  rfl

theorem mergedCount_of_not_mem (simple : Nat × Nat) (complexCounts : List ((Nat × Nat) × Nat))
    (j index : Nat) (h : ∀ c, ((j, index), c) ∉ complexCounts) :
    mergedCount simple complexCounts j index = (if index = simple.1 then simple.2 else 0) := by
  unfold mergedCount
  rw [mapFind_none_of_not_mem complexCounts (j, index) h]
  simp

/-- The count compared by the loop is the merged count when the `uint32_t` sum does not
wrap. -/
theorem entryCount_eq_merged (simple : Nat × Nat) (complexCounts : List ((Nat × Nat) × Nat))
    (hkeys : (complexCounts.map Prod.fst).Nodup) (j index c : Nat)
    (h : ((j, index), c) ∈ complexCounts) (hfit : c + simple.2 < 2 ^ 32) :
    (if index = simple.1 then (c + simple.2) % 2 ^ 32 else c)
      = mergedCount simple complexCounts j index := by
  rw [mergedCount_of_mem simple complexCounts hkeys j index c h]
  by_cases hi : index = simple.1
  · rw [if_pos hi, if_pos hi, Nat.mod_eq_of_lt hfit]
  · rw [if_neg hi, if_neg hi, Nat.add_zero]

/-- What one position emits: an index whose merged count is the largest; the simple cell's
index unless a complex entry has a strictly larger merged count, and then the index of such
an entry. -/
theorem popPosition_emits (simple : Nat × Nat) (complexCounts : List ((Nat × Nat) × Nat))
    (j : Nat) (stack : List (Nat × Nat × Nat))
    (hkeys : (complexCounts.map Prod.fst).Nodup)
    (hfit : ∀ e ∈ complexCounts, e.1.1 = j → e.2 + simple.2 < 2 ^ 32)
    (hs : stack.Pairwise (fun a b => a.1 ≤ b.1))
    (hmem : ∀ e, e ∈ stack ↔ e ∈ complexCounts.map countTriple ∧ j ≤ e.1) :
    ∃ ri rc, popPosition simple j stack simple.1 simple.2
        = (stack.filter (fun e => decide (j < e.1)), ri, rc) ∧
      rc = mergedCount simple complexCounts j ri ∧
      (∀ index, mergedCount simple complexCounts j index ≤ rc) ∧
      ((ri = simple.1 ∧ ∀ index c, ((j, index), c) ∈ complexCounts →
          mergedCount simple complexCounts j index ≤ simple.2) ∨
        (simple.2 < rc ∧ ∃ c, ((j, ri), c) ∈ complexCounts)) := by
  obtain ⟨ri, rc, hrun, hmc, hall, hor⟩ :=
    popPosition_spec simple j stack simple.1 simple.2 hs (fun e he => ((hmem e).mp he).2)
  have hentry : ∀ index c, ((j, index), c) ∈ complexCounts →
      mergedCount simple complexCounts j index ≤ rc := by
    intro index c hc
    have h1 : (j, index, c) ∈ stack :=
      (hmem _).mpr ⟨(mem_countTriple complexCounts j index c).mpr hc, Nat.le_refl _⟩
    have h2 := hall _ h1 rfl
    rw [entryCount_eq_merged simple complexCounts hkeys j index c hc (hfit _ hc rfl)] at h2
    exact h2
  have hallidx : ∀ index, mergedCount simple complexCounts j index ≤ rc := by
    intro index
    by_cases hex : ∃ c, ((j, index), c) ∈ complexCounts
    · obtain ⟨c, hc⟩ := hex
      exact hentry index c hc
    · rw [mergedCount_of_not_mem simple complexCounts j index
        (fun c hc => hex ⟨c, hc⟩)]
      split_ifs
      · exact hmc
      · exact Nat.zero_le _
  rcases hor with ⟨h1, h2⟩ | ⟨e, he, hej, h3, h4, h5⟩
  · refine ⟨ri, rc, hrun, ?_, hallidx, Or.inl ⟨h1, ?_⟩⟩
    · apply Nat.le_antisymm _ (hallidx ri)
      rw [h1, h2]
      unfold mergedCount
      rw [if_pos rfl]
      exact Nat.le_add_left _ _
    · intro index c hc
      rw [← h2]
      exact hentry index c hc
  · obtain ⟨ej, ei, ec⟩ := e
    simp only at hej h3 h4
    subst hej
    have hc : ((ej, ei), ec) ∈ complexCounts :=
      (mem_countTriple complexCounts ej ei ec).mp ((hmem _).mp he).1
    rw [entryCount_eq_merged simple complexCounts hkeys ej ei ec hc (hfit _ hc rfl)] at h4
    refine ⟨ri, rc, hrun, ?_, hallidx, Or.inr ⟨h5, ec, ?_⟩⟩
    · rw [h4, h3]
    · rw [h3]
      exact hc

/-- The property of an emitted list up to position `j`. -/
theorem consensusLoop_spec (validString : Nat → Nat → Bool) (codes : List Nat)
    (simpleCounts : List (Nat × Nat)) (complexCounts : List ((Nat × Nat) × Nat))
    (P : Nat → Nat × Nat → Nat → Prop)
    (hkeys : (complexCounts.map Prod.fst).Nodup)
    (hfit : ∀ e ∈ complexCounts, ∀ s ∈ simpleCounts, e.2 + s.2 < 2 ^ 32)
    (hsize : simpleCounts.length = codes.length)
    (hobs : ∀ j s, simpleCounts[j]? = some s →
      ∃ index, 0 < mergedCount s complexCounts j index)
    (hvalid : ∀ code index, validString code index = true)
    (hP : ∀ j s ri, simpleCounts[j]? = some s →
      (∀ index, mergedCount s complexCounts j index ≤ mergedCount s complexCounts j ri) →
      ((ri = s.1 ∧ ∀ index c, ((j, index), c) ∈ complexCounts →
          mergedCount s complexCounts j index ≤ s.2) ∨
        (s.2 < mergedCount s complexCounts j ri ∧ ∃ c, ((j, ri), c) ∈ complexCounts)) →
      P j s ri)
    (n j : Nat) (stack : List (Nat × Nat × Nat)) (expanded : List Nat)
    (hn : j + n = codes.length) (hlen : expanded.length = j)
    (hs : stack.Pairwise (fun a b => a.1 ≤ b.1))
    (hmem : ∀ e, e ∈ stack ↔ e ∈ complexCounts.map countTriple ∧ j ≤ e.1)
    (hprev : ∀ i s e, simpleCounts[i]? = some s → expanded[i]? = some e → P i s e) :
    ∃ out, consensusLoop validString codes simpleCounts n j stack expanded = some out ∧
      out.length = codes.length ∧
      ∀ i s e, simpleCounts[i]? = some s → out[i]? = some e → P i s e := by
  induction n generalizing j stack expanded with
  | zero => exact ⟨expanded, rfl, by omega, hprev⟩
  | succ n ih =>
    have hj1 : j < codes.length := by omega
    have hj2 : j < simpleCounts.length := by omega
    have hsimple : simpleCounts[j]? = some simpleCounts[j] := List.getElem?_eq_getElem hj2
    obtain ⟨ri, rc, hrun, hrc, hmax, hor⟩ := popPosition_emits simpleCounts[j] complexCounts j
      stack hkeys (fun e he _ => hfit e he _ (List.getElem_mem hj2)) hs hmem
    have hback : backNotBefore stack j = true := by
      unfold backNotBefore
      split
      · rfl
      · rename_i e rest
        have := ((hmem e).mp (List.mem_cons_self _ _)).2
        simpa using this
    have hpos : 0 < rc := by
      obtain ⟨index, hidx⟩ := hobs j _ hsimple
      exact Nat.lt_of_lt_of_le hidx (hmax index)
    have hPj : P j simpleCounts[j] ri := by
      apply hP j _ ri hsimple
      · intro index
        rw [← hrc]
        exact hmax index
      · rw [← hrc]
        exact hor
    obtain ⟨out, hout, hol, hall⟩ := ih (j + 1) (stack.filter (fun e => decide (j < e.1)))
      (expanded ++ [ri]) (by omega) (by rw [List.length_append, hlen]; rfl)
      (List.Pairwise.sublist (List.filter_sublist _) hs)
      (by
        intro e
        rw [List.mem_filter, hmem e]
        simp only [decide_eq_true_eq]
        constructor
        · rintro ⟨⟨h1, _⟩, h3⟩
          exact ⟨h1, h3⟩
        · rintro ⟨h1, h2⟩
          exact ⟨⟨h1, by omega⟩, h2⟩)
      (by
        intro i s e hs2 he
        by_cases hi : i < expanded.length
        · rw [List.getElem?_append_left hi] at he
          exact hprev i s e hs2 he
        · rw [List.getElem?_append_right (by omega)] at he
          have hi2 : i = j := by
            by_contra hne
            have : 1 ≤ i - expanded.length := by omega
            rw [List.getElem?_eq_none (by simpa using this)] at he
            cases he
          subst hi2
          rw [hlen, Nat.sub_self] at he
          rw [hsimple] at hs2
          cases hs2
          simp only [List.getElem?_cons_zero, Option.some.injEq] at he
          rw [← he]
          exact hPj)
    refine ⟨out, ?_, hol, hall⟩
    rw [consensusLoop, List.getElem?_eq_getElem hj1, hsimple]
    simp only [hback, hrun, hvalid, not_true_eq_false, if_false]
    rw [if_neg (by omega)]
    exact hout

theorem getSequencesUnitig_spec (arrange : List ((Nat × Nat) × Nat) → List (Nat × Nat × Nat))
    (validString : Nat → Nat → Bool) (codes : List Nat)
    (simpleCounts : List (Nat × Nat)) (complexCounts : List ((Nat × Nat) × Nat))
    (P : Nat → Nat × Nat → Nat → Prop)
    (harr : ArrangesByPosition arrange complexCounts)
    (hkeys : (complexCounts.map Prod.fst).Nodup)
    (hfit : ∀ e ∈ complexCounts, ∀ s ∈ simpleCounts, e.2 + s.2 < 2 ^ 32)
    (hsize : simpleCounts.length = codes.length) (hne : 1 ≤ codes.length)
    (hobs : ∀ j s, simpleCounts[j]? = some s →
      ∃ index, 0 < mergedCount s complexCounts j index)
    (hvalid : ∀ code index, validString code index = true)
    (hP : ∀ j s ri, simpleCounts[j]? = some s →
      (∀ index, mergedCount s complexCounts j index ≤ mergedCount s complexCounts j ri) →
      ((ri = s.1 ∧ ∀ index c, ((j, index), c) ∈ complexCounts →
          mergedCount s complexCounts j index ≤ s.2) ∨
        (s.2 < mergedCount s complexCounts j ri ∧ ∃ c, ((j, ri), c) ∈ complexCounts)) →
      P j s ri) :
    ∃ expanded, getSequencesUnitig arrange validString codes simpleCounts complexCounts
        = some (codes, expanded) ∧ expanded.length = codes.length ∧
      ∀ i s e, simpleCounts[i]? = some s → expanded[i]? = some e → P i s e := by
  obtain ⟨out, hout, hol, hall⟩ := consensusLoop_spec validString codes simpleCounts
    complexCounts P hkeys hfit hsize hobs hvalid hP codes.length 0
    (arrange complexCounts).reverse [] (by omega) rfl
    (by
      rw [List.pairwise_reverse]
      exact harr.2)
    (by
      intro e
      rw [List.mem_reverse, harr.1.mem_iff]
      simp)
    (by
      intro i s e _ he
      simp at he)
  refine ⟨out, ?_, hol, hall⟩
  unfold getSequencesUnitig
  simp only [hout]
  rw [if_pos ⟨hne, hol.symm⟩]

/-- One unitig in which every position has at least one observation: the loop body of
`getSequences` returns the code vector with one index per position, and the index at each
position `j` has the largest merged count at `j`. -/
theorem getSequencesUnitig_largest
    (arrange : List ((Nat × Nat) × Nat) → List (Nat × Nat × Nat))
    (validString : Nat → Nat → Bool) (codes : List Nat)
    (simpleCounts : List (Nat × Nat)) (complexCounts : List ((Nat × Nat) × Nat))
    (harr : ArrangesByPosition arrange complexCounts)
    (hkeys : (complexCounts.map Prod.fst).Nodup)
    (hfit : ∀ e ∈ complexCounts, ∀ s ∈ simpleCounts, e.2 + s.2 < 2 ^ 32)
    (hsize : simpleCounts.length = codes.length) (hne : 1 ≤ codes.length)
    (hobs : ∀ j s, simpleCounts[j]? = some s →
      ∃ index, 0 < mergedCount s complexCounts j index)
    (hvalid : ∀ code index, validString code index = true) :
    ∃ expanded, getSequencesUnitig arrange validString codes simpleCounts complexCounts
        = some (codes, expanded) ∧ expanded.length = codes.length ∧
      ∀ j s e, simpleCounts[j]? = some s → expanded[j]? = some e →
        ∀ index, mergedCount s complexCounts j index ≤ mergedCount s complexCounts j e :=
  getSequencesUnitig_spec arrange validString codes simpleCounts complexCounts
    (fun j s e => ∀ index, mergedCount s complexCounts j index ≤ mergedCount s complexCounts j e)
    harr hkeys hfit hsize hne hobs hvalid (fun _ _ _ _ h _ => h)

/-- The loop over the unitigs: when the loop body returns for every unitig with a value that
has the property `Q`, the loop returns one value per unitig, each with `Q`. -/
theorem getSequencesLoop_spec (arrange : List ((Nat × Nat) × Nat) → List (Nat × Nat × Nat))
    (validString : Nat → Nat → Bool) (maker : ConsensusMaker)
    (Q : Nat → List Nat × List Nat → Prop)
    (hbody : ∀ i, i < maker.compressedSequences.length →
      ∃ codes simple complex r, maker.compressedSequences[i]? = some codes ∧
        maker.simpleCounts[i]? = some simple ∧ maker.complexCounts[i]? = some complex ∧
        getSequencesUnitig arrange validString codes simple complex = some r ∧ Q i r)
    (n : Nat) :
    ∀ (i : Nat) (result : List (List Nat × List Nat)),
      i + n = maker.compressedSequences.length → result.length = i →
      (∀ t r, result[t]? = some r → Q t r) →
      ∃ out, getSequencesLoop arrange validString maker n i result = some out ∧
        out.length = maker.compressedSequences.length ∧ ∀ t r, out[t]? = some r → Q t r := by
  induction n with
  | zero =>
    intro i result hi hlen hall
    exact ⟨result, rfl, by omega, hall⟩
  | succ n ih =>
    intro i result hi hlen hall
    obtain ⟨codes, simple, complex, r, h1, h2, h3, hrun, hq⟩ := hbody i (by omega)
    unfold getSequencesLoop
    rw [h1, h2, h3]
    simp only [hrun]
    apply ih (i + 1) (result ++ [r]) (by omega)
      (by rw [List.length_append, List.length_singleton, hlen])
    intro t r2 ht
    by_cases hlt : t < result.length
    · rw [List.getElem?_append_left hlt] at ht
      exact hall t r2 ht
    · have hge : result.length ≤ t := Nat.le_of_not_lt hlt
      rw [List.getElem?_append_right hge] at ht
      have ht0 : t - result.length = 0 := by
        by_contra hne
        rw [List.getElem?_eq_none (by simp; omega)] at ht
        cases ht
      rw [ht0] at ht
      simp only [List.getElem?_cons_zero, Option.some.injEq] at ht
      have hti : t = i := by omega
      rw [hti, ← ht]
      exact hq

/-- C28: for a maker in which every position of every unitig has at least one observation,
`ConsensusMaker::getSequences` returns one sequence per unitig, the code vector of the unitig
with one expanded-string index per position, and the index emitted at each position `j` has
the largest merged count at `j`, where the merged count of an index is its
`complexCounts[(j, index)]` value plus the `simpleCounts[j]` count when the index is the
simple cell's index.  The three vectors of the maker have one entry per unitig and a unitig
has one simple cell per position, as `init` makes them; counts are `uint32_t` values whose
sum with a simple count does not wrap, and the string index knows the emitted strings. -/
theorem consensus_emits_largest_merged_count
    (arrange : List ((Nat × Nat) × Nat) → List (Nat × Nat × Nat))
    (validString : Nat → Nat → Bool) (maker : ConsensusMaker)
    (hsimple : maker.simpleCounts.length = maker.compressedSequences.length)
    (hcomplex : maker.complexCounts.length = maker.compressedSequences.length)
    (hunitig : ∀ (i : Nat) (codes : List Nat) (simple : List (Nat × Nat))
        (complex : List ((Nat × Nat) × Nat)), maker.compressedSequences[i]? = some codes →
      maker.simpleCounts[i]? = some simple → maker.complexCounts[i]? = some complex →
      ArrangesByPosition arrange complex ∧ (complex.map Prod.fst).Nodup ∧
        (∀ e ∈ complex, ∀ s ∈ simple, e.2 + s.2 < 2 ^ 32) ∧
        simple.length = codes.length ∧ 1 ≤ codes.length ∧
        ∀ j s, simple[j]? = some s → ∃ index, 0 < mergedCount s complex j index)
    (hvalid : ∀ code index, validString code index = true) :
    ∃ result, maker.getSequences arrange validString = some result ∧
      result.length = maker.compressedSequences.length ∧
      ∀ (i : Nat) (codes : List Nat) (simple : List (Nat × Nat))
          (complex : List ((Nat × Nat) × Nat)) (r : List Nat × List Nat), maker.compressedSequences[i]? = some codes →
        maker.simpleCounts[i]? = some simple → maker.complexCounts[i]? = some complex →
        result[i]? = some r →
        r.1 = codes ∧ r.2.length = codes.length ∧
          ∀ j s e, simple[j]? = some s → r.2[j]? = some e →
            ∀ index, mergedCount s complex j index ≤ mergedCount s complex j e := by
  obtain ⟨out, hrun, hlen, hall⟩ := getSequencesLoop_spec arrange validString maker
    (fun i r => ∀ (codes : List Nat) (simple : List (Nat × Nat))
        (complex : List ((Nat × Nat) × Nat)), maker.compressedSequences[i]? = some codes →
      maker.simpleCounts[i]? = some simple → maker.complexCounts[i]? = some complex →
      r.1 = codes ∧ r.2.length = codes.length ∧
        ∀ j s e, simple[j]? = some s → r.2[j]? = some e →
          ∀ index, mergedCount s complex j index ≤ mergedCount s complex j e)
    (by
      intro i hi
      have h1 := List.getElem?_eq_getElem hi
      have h2 := List.getElem?_eq_getElem (show i < maker.simpleCounts.length by omega)
      have h3 := List.getElem?_eq_getElem (show i < maker.complexCounts.length by omega)
      obtain ⟨harr, hkeys, hfit, hsize, hne, hobs⟩ := hunitig i _ _ _ h1 h2 h3
      obtain ⟨expanded, hrun, hl, hmax⟩ := getSequencesUnitig_largest arrange validString _ _ _
        harr hkeys hfit hsize hne hobs hvalid
      refine ⟨_, _, _, _, h1, h2, h3, hrun, ?_⟩
      intro codes simple complex g1 g2 g3
      rw [h1] at g1
      rw [h2] at g2
      rw [h3] at g3
      cases g1
      cases g2
      cases g3
      exact ⟨rfl, hl, hmax⟩)
    maker.compressedSequences.length 0 [] (by omega) rfl
    (by
      intro t r h
      simp at h)
  refine ⟨out, hrun, hlen, ?_⟩
  intro i codes simple complex r h1 h2 h3 hr
  exact hall i r hr codes simple complex h1 h2 h3

/-- C28 (witness): a maker with one unitig of two positions; at position 0 the complex entry
of index 5 has count 4 and beats the simple cell `(1, 3)`. -/
theorem consensus_emits_largest_merged_count_witness :
    ∃ result,
      ConsensusMaker.getSequences (fun m => m.map countTriple) (fun _ _ => true)
          { compressedSequences := [[1, 2]], simpleCounts := [[(1, 3), (2, 1)]],
            complexCounts := [[((0, 5), 4)]] } = some result ∧
      result.length
        = ({ compressedSequences := [[1, 2]], simpleCounts := [[(1, 3), (2, 1)]],
             complexCounts := [[((0, 5), 4)]] } : ConsensusMaker).compressedSequences.length ∧
      ∀ (i : Nat) (codes : List Nat) (simple : List (Nat × Nat))
          (complex : List ((Nat × Nat) × Nat)) (r : List Nat × List Nat),
        ({ compressedSequences := [[1, 2]], simpleCounts := [[(1, 3), (2, 1)]],
           complexCounts := [[((0, 5), 4)]] } : ConsensusMaker).compressedSequences[i]?
          = some codes →
        ({ compressedSequences := [[1, 2]], simpleCounts := [[(1, 3), (2, 1)]],
           complexCounts := [[((0, 5), 4)]] } : ConsensusMaker).simpleCounts[i]?
          = some simple →
        ({ compressedSequences := [[1, 2]], simpleCounts := [[(1, 3), (2, 1)]],
           complexCounts := [[((0, 5), 4)]] } : ConsensusMaker).complexCounts[i]?
          = some complex →
        result[i]? = some r →
        r.1 = codes ∧ r.2.length = codes.length ∧
          ∀ j s e, simple[j]? = some s → r.2[j]? = some e →
            ∀ index, mergedCount s complex j index ≤ mergedCount s complex j e :=
  consensus_emits_largest_merged_count (fun m => m.map countTriple) (fun _ _ => true)
    { compressedSequences := [[1, 2]], simpleCounts := [[(1, 3), (2, 1)]],
      complexCounts := [[((0, 5), 4)]] } rfl rfl
    (by
      intro i codes simple complex h1 h2 h3
      match i, h1, h2, h3 with
      | 0, h1, h2, h3 =>
        simp only [List.getElem?_cons_zero, Option.some.injEq] at h1 h2 h3
        subst h1 h2 h3
        refine ⟨⟨List.Perm.refl _, by decide⟩, by decide, by decide, by decide, by decide, ?_⟩
        intro j s h
        refine ⟨s.1, ?_⟩
        have hs : s ∈ [((1 : Nat), (3 : Nat)), (2, 1)] := List.getElem?_mem h
        have hpos : ∀ t ∈ [((1 : Nat), (3 : Nat)), (2, 1)], 0 < t.2 := by decide
        have := hpos s hs
        unfold mergedCount
        rw [if_pos rfl]
        omega
      | i + 1, h1, _, _ => simp at h1)
    (fun _ _ => rfl)

/-- C29 (counterexample): a maker with one unitig of one position that has two complex
entries with the same count 5, above the simple cell's count 1.  Both arrangements hold the
same entries with positions in descending order; with one `getSequences` emits index 3, with
the other index 2. -/
theorem consensus_tie_depends_on_order :
    ArrangesByPosition (fun m => m.map countTriple) [((0, 2), 5), ((0, 3), 5)] ∧
      ArrangesByPosition (fun m => (m.map countTriple).reverse) [((0, 2), 5), ((0, 3), 5)] ∧
      ConsensusMaker.getSequences (fun m => m.map countTriple) (fun _ _ => true)
          { compressedSequences := [[1]], simpleCounts := [[(1, 1)]],
            complexCounts := [[((0, 2), 5), ((0, 3), 5)]] } = some [([1], [3])] ∧
      ConsensusMaker.getSequences (fun m => (m.map countTriple).reverse) (fun _ _ => true)
          { compressedSequences := [[1]], simpleCounts := [[(1, 1)]],
            complexCounts := [[((0, 2), 5), ((0, 3), 5)]] } = some [([1], [2])] :=
  ⟨⟨List.Perm.refl _, by decide⟩, ⟨List.reverse_perm _, by decide⟩, by decide, by decide⟩

/-- C29 (amended): `ConsensusMaker::getSequences` run with two arrangements of the
`complexCounts` entries (two iteration orders of the map) returns for both one sequence per
unitig, and at every position `j`: when no complex entry of `j` has a merged count above the
simple cell's count (in particular when the largest one equals it), both emit the simple
cell's index; and when no two complex entries of `j` share the largest merged count above the
simple cell's count, both emit the same index. -/
theorem consensus_simple_wins_and_order_free
    (arrange1 arrange2 : List ((Nat × Nat) × Nat) → List (Nat × Nat × Nat))
    (validString : Nat → Nat → Bool) (maker : ConsensusMaker)
    (hsimple : maker.simpleCounts.length = maker.compressedSequences.length)
    (hcomplex : maker.complexCounts.length = maker.compressedSequences.length)
    (hunitig : ∀ (i : Nat) (codes : List Nat) (simple : List (Nat × Nat))
        (complex : List ((Nat × Nat) × Nat)), maker.compressedSequences[i]? = some codes →
      maker.simpleCounts[i]? = some simple → maker.complexCounts[i]? = some complex →
      ArrangesByPosition arrange1 complex ∧ ArrangesByPosition arrange2 complex ∧
        (complex.map Prod.fst).Nodup ∧
        (∀ e ∈ complex, ∀ s ∈ simple, e.2 + s.2 < 2 ^ 32) ∧
        simple.length = codes.length ∧ 1 ≤ codes.length ∧
        ∀ j s, simple[j]? = some s → ∃ index, 0 < mergedCount s complex j index)
    (hvalid : ∀ code index, validString code index = true) :
    ∃ result1 result2, maker.getSequences arrange1 validString = some result1 ∧
      maker.getSequences arrange2 validString = some result2 ∧
      result1.length = maker.compressedSequences.length ∧
      result2.length = maker.compressedSequences.length ∧
      ∀ (i : Nat) (codes : List Nat) (simple : List (Nat × Nat))
          (complex : List ((Nat × Nat) × Nat)) (r1 r2 : List Nat × List Nat),
        maker.compressedSequences[i]? = some codes →
        maker.simpleCounts[i]? = some simple → maker.complexCounts[i]? = some complex →
        result1[i]? = some r1 → result2[i]? = some r2 →
        r1.1 = codes ∧ r2.1 = codes ∧ r1.2.length = codes.length ∧
          r2.2.length = codes.length ∧
          ∀ j s, simple[j]? = some s → j < codes.length →
            ((∀ index c, ((j, index), c) ∈ complex →
                mergedCount s complex j index ≤ s.2) →
              r1.2[j]? = some s.1 ∧ r2.2[j]? = some s.1) ∧
            ((∀ i1 i2 c1 c2, ((j, i1), c1) ∈ complex → ((j, i2), c2) ∈ complex →
                s.2 < mergedCount s complex j i1 →
                mergedCount s complex j i1 = mergedCount s complex j i2 →
                (∀ index, mergedCount s complex j index ≤ mergedCount s complex j i1) →
                i1 = i2) →
              r1.2[j]? = r2.2[j]?) := by
  -- what one run gives for every unitig, for an arrangement that sorts by position
  have hrun : ∀ arrange : List ((Nat × Nat) × Nat) → List (Nat × Nat × Nat),
      (∀ (i : Nat) (codes : List Nat) (simple : List (Nat × Nat))
          (complex : List ((Nat × Nat) × Nat)), maker.compressedSequences[i]? = some codes →
        maker.simpleCounts[i]? = some simple → maker.complexCounts[i]? = some complex →
        ArrangesByPosition arrange complex) →
      ∃ out, maker.getSequences arrange validString = some out ∧
        out.length = maker.compressedSequences.length ∧
        ∀ (i : Nat) (codes : List Nat) (simple : List (Nat × Nat))
            (complex : List ((Nat × Nat) × Nat)) (r : List Nat × List Nat),
          maker.compressedSequences[i]? = some codes →
          maker.simpleCounts[i]? = some simple → maker.complexCounts[i]? = some complex →
          out[i]? = some r →
          r.1 = codes ∧ r.2.length = codes.length ∧
            ∀ j s e, simple[j]? = some s → r.2[j]? = some e →
              (∀ index, mergedCount s complex j index ≤ mergedCount s complex j e) ∧
              ((e = s.1 ∧ ∀ index c, ((j, index), c) ∈ complex →
                  mergedCount s complex j index ≤ s.2) ∨
                (s.2 < mergedCount s complex j e ∧ ∃ c, ((j, e), c) ∈ complex)) := by
    intro arrange harrAll
    obtain ⟨out, hout, hlen, hall⟩ := getSequencesLoop_spec arrange validString maker
      (fun i r => ∀ (codes : List Nat) (simple : List (Nat × Nat))
          (complex : List ((Nat × Nat) × Nat)), maker.compressedSequences[i]? = some codes →
        maker.simpleCounts[i]? = some simple → maker.complexCounts[i]? = some complex →
        r.1 = codes ∧ r.2.length = codes.length ∧
          ∀ j s e, simple[j]? = some s → r.2[j]? = some e →
            (∀ index, mergedCount s complex j index ≤ mergedCount s complex j e) ∧
            ((e = s.1 ∧ ∀ index c, ((j, index), c) ∈ complex →
                mergedCount s complex j index ≤ s.2) ∨
              (s.2 < mergedCount s complex j e ∧ ∃ c, ((j, e), c) ∈ complex)))
      (by
        intro i hi
        have h1 := List.getElem?_eq_getElem hi
        have h2 := List.getElem?_eq_getElem (show i < maker.simpleCounts.length by omega)
        have h3 := List.getElem?_eq_getElem (show i < maker.complexCounts.length by omega)
        obtain ⟨_, _, hkeys, hfit, hsize, hne, hobs⟩ := hunitig i _ _ _ h1 h2 h3
        obtain ⟨expanded, hex, hl, hprop⟩ := getSequencesUnitig_spec arrange validString
          maker.compressedSequences[i] maker.simpleCounts[i] maker.complexCounts[i]
          (fun j s ri =>
            (∀ index, mergedCount s maker.complexCounts[i] j index
                ≤ mergedCount s maker.complexCounts[i] j ri) ∧
            ((ri = s.1 ∧ ∀ index c, ((j, index), c) ∈ maker.complexCounts[i] →
                mergedCount s maker.complexCounts[i] j index ≤ s.2) ∨
              (s.2 < mergedCount s maker.complexCounts[i] j ri ∧
                ∃ c, ((j, ri), c) ∈ maker.complexCounts[i])))
          (harrAll i _ _ _ h1 h2 h3) hkeys hfit hsize hne hobs hvalid
          (fun _ _ _ _ g1 g2 => ⟨g1, g2⟩)
        refine ⟨_, _, _, _, h1, h2, h3, hex, ?_⟩
        intro codes simple complex g1 g2 g3
        rw [h1] at g1
        rw [h2] at g2
        rw [h3] at g3
        cases g1
        cases g2
        cases g3
        exact ⟨rfl, hl, hprop⟩)
      maker.compressedSequences.length 0 [] (by omega) rfl
      (by
        intro t r h
        simp at h)
    refine ⟨out, hout, hlen, ?_⟩
    intro i codes simple complex r h1 h2 h3 hr
    exact hall i r hr codes simple complex h1 h2 h3
  obtain ⟨out1, hout1, hlen1, hall1⟩ := hrun arrange1
    (fun i codes simple complex h1 h2 h3 => (hunitig i codes simple complex h1 h2 h3).1)
  obtain ⟨out2, hout2, hlen2, hall2⟩ := hrun arrange2
    (fun i codes simple complex h1 h2 h3 => (hunitig i codes simple complex h1 h2 h3).2.1)
  refine ⟨out1, out2, hout1, hout2, hlen1, hlen2, ?_⟩
  intro i codes simple complex r1 r2 h1 h2 h3 hr1 hr2
  obtain ⟨a1, a2, a3⟩ := hall1 i codes simple complex r1 h1 h2 h3 hr1
  obtain ⟨b1, b2, b3⟩ := hall2 i codes simple complex r2 h1 h2 h3 hr2
  refine ⟨a1, b1, a2, b2, ?_⟩
  intro j s hs hj
  have hj1 : j < r1.2.length := by omega
  have hj2 : j < r2.2.length := by omega
  obtain ⟨hm1, ho1⟩ := a3 j s _ hs (List.getElem?_eq_getElem hj1)
  obtain ⟨hm2, ho2⟩ := b3 j s _ hs (List.getElem?_eq_getElem hj2)
  rw [List.getElem?_eq_getElem hj1, List.getElem?_eq_getElem hj2]
  constructor
  · intro hle
    constructor
    · congr 1
      rcases ho1 with ⟨ha, _⟩ | ⟨ha, c, hb⟩
      · exact ha
      · have := hle _ c hb
        omega
    · congr 1
      rcases ho2 with ⟨ha, _⟩ | ⟨ha, c, hb⟩
      · exact ha
      · have := hle _ c hb
        omega
  · intro hnotie
    congr 1
    rcases ho1 with ⟨ha1, hb1⟩ | ⟨ha1, c1, hb1⟩
    · rcases ho2 with ⟨ha2, _⟩ | ⟨ha2, c2, hb2⟩
      · rw [ha1, ha2]
      · have := hb1 _ c2 hb2
        omega
    · rcases ho2 with ⟨_, hb2⟩ | ⟨_, c2, hb2⟩
      · have := hb2 _ c1 hb1
        omega
      · exact hnotie _ _ c1 c2 hb1 hb2 ha1 (Nat.le_antisymm (hm2 _) (hm1 _)) hm1

/-- C29 (witness): a maker with one unitig of one position, a simple cell `(1, 5)` and complex
entries of counts 5 and 3; the simple cell's index is emitted in both arrangements. -/
theorem consensus_simple_wins_and_order_free_witness :
    ∃ result1 result2,
      ConsensusMaker.getSequences (fun m => m.map countTriple) (fun _ _ => true)
          { compressedSequences := [[1]], simpleCounts := [[(1, 5)]],
            complexCounts := [[((0, 2), 5), ((0, 3), 3)]] } = some result1 ∧
      ConsensusMaker.getSequences (fun m => (m.map countTriple).reverse) (fun _ _ => true)
          { compressedSequences := [[1]], simpleCounts := [[(1, 5)]],
            complexCounts := [[((0, 2), 5), ((0, 3), 3)]] } = some result2 ∧
      result1.length
        = ({ compressedSequences := [[1]], simpleCounts := [[(1, 5)]],
             complexCounts := [[((0, 2), 5), ((0, 3), 3)]] } :
            ConsensusMaker).compressedSequences.length ∧
      result2.length
        = ({ compressedSequences := [[1]], simpleCounts := [[(1, 5)]],
             complexCounts := [[((0, 2), 5), ((0, 3), 3)]] } :
            ConsensusMaker).compressedSequences.length ∧
      ∀ (i : Nat) (codes : List Nat) (simple : List (Nat × Nat))
          (complex : List ((Nat × Nat) × Nat)) (r1 r2 : List Nat × List Nat),
        ({ compressedSequences := [[1]], simpleCounts := [[(1, 5)]],
           complexCounts := [[((0, 2), 5), ((0, 3), 3)]] } :
            ConsensusMaker).compressedSequences[i]? = some codes →
        ({ compressedSequences := [[1]], simpleCounts := [[(1, 5)]],
           complexCounts := [[((0, 2), 5), ((0, 3), 3)]] } :
            ConsensusMaker).simpleCounts[i]? = some simple →
        ({ compressedSequences := [[1]], simpleCounts := [[(1, 5)]],
           complexCounts := [[((0, 2), 5), ((0, 3), 3)]] } :
            ConsensusMaker).complexCounts[i]? = some complex →
        result1[i]? = some r1 → result2[i]? = some r2 →
        r1.1 = codes ∧ r2.1 = codes ∧ r1.2.length = codes.length ∧
          r2.2.length = codes.length ∧
          ∀ j s, simple[j]? = some s → j < codes.length →
            ((∀ index c, ((j, index), c) ∈ complex →
                mergedCount s complex j index ≤ s.2) →
              r1.2[j]? = some s.1 ∧ r2.2[j]? = some s.1) ∧
            ((∀ i1 i2 c1 c2, ((j, i1), c1) ∈ complex → ((j, i2), c2) ∈ complex →
                s.2 < mergedCount s complex j i1 →
                mergedCount s complex j i1 = mergedCount s complex j i2 →
                (∀ index, mergedCount s complex j index ≤ mergedCount s complex j i1) →
                i1 = i2) →
              r1.2[j]? = r2.2[j]?) :=
  consensus_simple_wins_and_order_free (fun m => m.map countTriple)
    (fun m => (m.map countTriple).reverse) (fun _ _ => true)
    { compressedSequences := [[1]], simpleCounts := [[(1, 5)]],
      complexCounts := [[((0, 2), 5), ((0, 3), 3)]] } rfl rfl
    (by
      intro i codes simple complex h1 h2 h3
      match i, h1, h2, h3 with
      | 0, h1, h2, h3 =>
        simp only [List.getElem?_cons_zero, Option.some.injEq] at h1 h2 h3
        subst h1 h2 h3
        refine ⟨⟨List.Perm.refl _, by decide⟩, ⟨List.reverse_perm _, by decide⟩, by decide,
          by decide, by decide, by decide, ?_⟩
        intro j s h
        refine ⟨s.1, ?_⟩
        have hs : s ∈ [((1 : Nat), (5 : Nat))] := List.getElem?_mem h
        have hpos : ∀ t ∈ [((1 : Nat), (5 : Nat))], 0 < t.2 := by decide
        have := hpos s hs
        unfold mergedCount
        rw [if_pos rfl]
        omega
      | i + 1, h1, _, _ => simp at h1)
    (fun _ _ => rfl)

/-! ## Totals through the transitive cleaner -/

theorem mapFind_le_mapSum (m : List (DirNode × Nat)) (key : DirNode) :
    (mapFind m key).getD 0 ≤ mapSum m := by
  induction m with
  | nil => simp [mapFind]
  | cons e rest ih =>
    unfold mapFind mapSum
    rw [List.map_cons, List.sum_cons]
    split_ifs
    · simp
    · unfold mapSum at ih
      omega

theorem mapSum_mapSet (m : List (DirNode × Nat)) (key : DirNode) (value : Nat) :
    mapSum (mapSet m key value) + (mapFind m key).getD 0 = mapSum m + value := by
  induction m with
  | nil => simp [mapSet, mapFind, mapSum]
  | cons e rest ih =>
    unfold mapSet mapFind
    split_ifs with he
    · simp only [mapSum, List.map_cons, List.sum_cons, Option.getD_some]
      omega
    · simp only [mapSum, List.map_cons, List.sum_cons] at ih ⊢
      omega

theorem sum_set_add (l : List Nat) (i x : Nat) (old : Nat) (h : l[i]? = some old) :
    (l.set i x).sum + old = l.sum + x := by
  induction l generalizing i with
  | nil => simp at h
  | cons y rest ih =>
    cases i with
    | zero =>
      simp only [List.getElem?_cons_zero, Option.some.injEq] at h
      subst h
      simp only [List.set_cons_zero, List.sum_cons]
      omega
    | succ i =>
      simp only [List.getElem?_cons_succ] at h
      have := ih i h
      simp only [List.set_cons_succ, List.sum_cons]
      omega

theorem sum_map_set_add (l : List (List (DirNode × Nat))) (i : Nat)
    (x old : List (DirNode × Nat)) (h : l[i]? = some old) :
    ((l.set i x).map mapSum).sum + mapSum old = (l.map mapSum).sum + mapSum x := by
  rw [List.map_set]
  apply sum_set_add
  rw [List.getElem?_map, h]
  rfl

theorem total_set? (maps maps2 : EdgeMaps) (a : DirNode) (x old : List (DirNode × Nat))
    (hget : maps.get? a = some old) (hset : maps.set? a x = some maps2) :
    maps2.total + mapSum old = maps.total + mapSum x := by
  obtain ⟨i, o⟩ := a
  unfold VectorWithDirection.get? at hget
  unfold VectorWithDirection.set? at hset
  cases o <;> simp only [Bool.false_eq_true, if_false, if_true] at hset hget <;>
    split_ifs at hset <;> cases hset <;> unfold EdgeMaps.total <;> simp only
  · have := sum_map_set_add maps.backward i x old hget
    omega
  · have := sum_map_set_add maps.forward i x old hget
    omega

theorem mapSum_le_total (maps : EdgeMaps) (a : DirNode) (m : List (DirNode × Nat))
    (hget : maps.get? a = some m) : mapSum m ≤ maps.total := by
  obtain ⟨i, o⟩ := a
  unfold VectorWithDirection.get? at hget
  have key : ∀ l : List (List (DirNode × Nat)), l[i]? = some m → mapSum m ≤ (l.map mapSum).sum := by
    intro l hl
    apply List.single_le_sum (by simp)
    exact List.mem_map_of_mem mapSum (List.getElem?_mem hl)
  unfold EdgeMaps.total
  cases o <;> simp only [Bool.false_eq_true, if_false, if_true] at hget
  · have := key _ hget
    omega
  · have := key _ hget
    omega

/-- Writing `value` at a key changes the total by the difference to the old value. -/
theorem total_assign (maps maps2 : EdgeMaps) (a b : DirNode) (value : Nat)
    (m : List (DirNode × Nat)) (hget : maps.get? a = some m)
    (h : maps.assign a b value = some maps2) :
    maps2.total + (mapFind m b).getD 0 = maps.total + value := by
  unfold EdgeMaps.assign at h
  rw [hget] at h
  simp only at h
  have h1 := total_set? maps maps2 a _ m hget h
  have h2 := mapSum_mapSet m b value
  omega

theorem total_increase (maps maps2 : EdgeMaps) (a b : DirNode) (amount : Nat)
    (hfit : maps.total + amount < 2 ^ 64)
    (h : maps.increase a b amount = some maps2) : maps2.total = maps.total + amount := by
  unfold EdgeMaps.increase at h
  unfold EdgeMaps.valueOrZero at h
  cases hget : maps.get? a with
  | none => rw [hget] at h; cases h
  | some m =>
    rw [hget] at h
    simp only at h
    have hold := mapFind_le_mapSum m b
    have hm := mapSum_le_total maps a m hget
    rw [Nat.mod_eq_of_lt (by omega)] at h
    have := total_assign maps maps2 a b _ m hget h
    omega

theorem amountSum_nil : amountSum [] = 0 := rfl

theorem amountSum_cons (t : DirNode × DirNode × Nat) (l : List (DirNode × DirNode × Nat)) :
    amountSum (t :: l) = t.2.2 + amountSum l := by
  unfold amountSum
  rw [List.map_cons, List.sum_cons]

theorem amountSum_append (l1 l2 : List (DirNode × DirNode × Nat)) :
    amountSum (l1 ++ l2) = amountSum l1 + amountSum l2 := by
  unfold amountSum
  rw [List.map_append, List.sum_append]

theorem total_applyAdd (l : List (DirNode × DirNode × Nat)) :
    ∀ maps maps2 : EdgeMaps, maps.total + amountSum l < 2 ^ 64 →
      applyAdd maps l = some maps2 → maps2.total = maps.total + amountSum l := by
  induction l with
  | nil =>
    intro maps maps2 _ h
    simp only [applyAdd, Option.some.injEq] at h
    subst h
    rfl
  | cons t rest ih =>
    intro maps maps2 hfit h
    rw [amountSum_cons] at hfit ⊢
    unfold applyAdd at h
    split at h
    · cases h
    · rename_i m2 hm2
      have h1 := total_increase maps m2 t.1 t.2.1 t.2.2 (by omega) hm2
      have h2 := ih m2 maps2 (by omega) h
      omega

theorem total_applyRemove (l : List (DirNode × DirNode × Nat)) :
    ∀ maps maps2 : EdgeMaps, applyRemove maps l = some maps2 →
      maps2.total + amountSum l = maps.total := by
  induction l with
  | nil =>
    intro maps maps2 h
    simp only [applyRemove, Option.some.injEq] at h
    subst h
    rfl
  | cons t rest ih =>
    intro maps maps2 h
    rw [amountSum_cons]
    unfold applyRemove at h
    split at h
    · cases h
    · rename_i m hm
      split at h
      · cases h
      · rename_i old hold
        split_ifs at h with hge
        split at h
        · cases h
        · rename_i m2 hm2
          have h1 := total_assign maps m2 t.1 t.2.1 _ m hm hm2
          rw [hold] at h1
          simp only [Option.getD_some] at h1
          have h2 := ih m2 maps2 h
          omega

/-- Source: `coverage[index] += amount` leaves the other counters alone and adds `amount` to
the sum when the sum stays in range. -/
theorem addCoverage_spec (coverage cov2 : List Nat) (index amount : Nat)
    (hfit : coverage.sum + amount < 2 ^ 64)
    (h : addCoverage coverage index amount = some cov2) :
    cov2.sum = coverage.sum + amount ∧ cov2.length = coverage.length ∧
      ∀ (n c : Nat), coverage[n]? = some c → ∃ c2, cov2[n]? = some c2 ∧ c ≤ c2 := by
  unfold addCoverage at h
  split at h
  · cases h
  · rename_i old hold
    cases h
    have hle : old ≤ coverage.sum := List.single_le_sum (by simp) _ (List.getElem?_mem hold)
    rw [Nat.mod_eq_of_lt (by omega)]
    refine ⟨?_, List.length_set _ _ _, ?_⟩
    · have := sum_set_add coverage index (old + amount) old hold
      omega
    · intro n c hn
      by_cases hni : index = n
      · subst hni
        rw [hold] at hn
        cases hn
        have hlt : index < coverage.length := by
          rcases List.getElem?_eq_some_iff.mp hold with ⟨hlt, _⟩
          exact hlt
        exact ⟨_, List.getElem?_set_self hlt, Nat.le_add_right _ _⟩
      · exact ⟨c, by rw [List.getElem?_set_ne hni]; exact hn, Nat.le_refl _⟩

theorem addCoverageAll_spec (amount : Nat) (nodes : List DirNode) :
    ∀ coverage cov2 : List Nat, coverage.sum + amount * nodes.length < 2 ^ 64 →
      addCoverageAll amount coverage nodes = some cov2 →
      cov2.sum = coverage.sum + amount * nodes.length ∧ cov2.length = coverage.length ∧
        ∀ (n c : Nat), coverage[n]? = some c → ∃ c2, cov2[n]? = some c2 ∧ c ≤ c2 := by
  induction nodes with
  | nil =>
    intro coverage cov2 _ h
    simp only [addCoverageAll, Option.some.injEq] at h
    subst h
    exact ⟨by simp, rfl, fun n c hn => ⟨c, hn, Nat.le_refl _⟩⟩
  | cons node rest ih =>
    intro coverage cov2 hfit h
    rw [List.length_cons, Nat.mul_succ] at hfit ⊢
    unfold addCoverageAll at h
    split at h
    · cases h
    · rename_i c2 hc2
      obtain ⟨h1, h2, h3⟩ := addCoverage_spec coverage c2 node.1 amount (by omega) hc2
      obtain ⟨h4, h5, h6⟩ := ih c2 cov2 (by omega) h
      refine ⟨by omega, by omega, ?_⟩
      intro n c hn
      obtain ⟨x, hx, hcx⟩ := h3 n c hn
      obtain ⟨y, hy, hxy⟩ := h6 n x hx
      exact ⟨y, hy, Nat.le_trans hcx hxy⟩

theorem insertMiddlesLoop_length
    (tm : VectorWithDirection (List (DirNode × List DirNode))) (fuel : Nat) :
    ∀ raw result out : List DirNode, insertMiddlesLoop tm fuel raw result = some out →
      raw.length + result.length ≤ out.length := by
  induction fuel with
  | zero =>
    intro raw result out h
    simp [insertMiddlesLoop] at h
  | succ fuel ih =>
    intro raw result out h
    have hlen : raw.reverse.length = raw.length := List.length_reverse raw
    unfold insertMiddlesLoop at h
    split at h
    · cases h
    · rename_i last hrev
      cases h
      rw [hrev] at hlen
      simp only [List.length_singleton] at hlen
      rw [List.length_reverse, List.length_append, List.length_singleton]
      omega
    · rename_i dst src rest hrev
      rw [hrev] at hlen
      simp only [List.length_cons] at hlen
      split at h
      · cases h
      · split at h
        · have := ih _ _ _ h
          rw [List.length_dropLast, List.length_append, List.length_singleton] at this
          omega
        · split_ifs at h with hm
          have := ih _ _ _ h
          rw [List.length_append, List.length_append, List.length_dropLast,
            List.length_singleton] at this
          omega

theorem amountSum_map_const {α : Type} (l : List α) (f g : α → DirNode) (c : Nat) :
    amountSum (l.map (fun e => (f e, g e, c))) = c * l.length := by
  induction l with
  | nil => rfl
  | cons x rest ih =>
    rw [List.map_cons, amountSum_cons, ih, List.length_cons, Nat.mul_succ]
    simp only
    omega

theorem cleanTargets_add_mono (cleaner : TransitiveCleaner) (fuel : Nat) (start : DirNode)
    (targets : List (DirNode × Nat)) :
    ∀ acc acc2 : CleanAcc, cleanTargets cleaner fuel start acc targets = some acc2 →
      amountSum acc.addEdgeCoverage ≤ amountSum acc2.addEdgeCoverage ∧
        amountSum acc.removeEdgeCoverage ≤ amountSum acc2.removeEdgeCoverage := by
  induction targets with
  | nil =>
    intro acc acc2 h
    simp only [cleanTargets, Option.some.injEq] at h
    subst h
    exact ⟨Nat.le_refl _, Nat.le_refl _⟩
  | cons target rest ih =>
    intro acc acc2 h
    unfold cleanTargets at h
    split at h
    · cases h
    · split_ifs at h with c1
      · exact ih _ _ h
      · split at h
        · simp only at h
          split at h
          · cases h
          · have := ih _ _ h
            simp only [amountSum_append] at this
            exact ⟨by omega, by omega⟩
        · cases h

/-- One orientation of one node in the first phase of `cleanTransitiveEdges`: what is added
to the node coverage is what is added to `addEdgeCoverage` less what is added to
`removeEdgeCoverage`. -/
theorem cleanTargets_totals (cleaner : TransitiveCleaner) (fuel : Nat) (start : DirNode)
    (targets : List (DirNode × Nat)) :
    ∀ acc acc2 : CleanAcc, cleanTargets cleaner fuel start acc targets = some acc2 →
      acc.coverage.sum + amountSum acc2.addEdgeCoverage
        < 2 ^ 64 + amountSum acc.addEdgeCoverage →
      acc2.coverage.sum + amountSum acc2.removeEdgeCoverage + amountSum acc.addEdgeCoverage
          = acc.coverage.sum + amountSum acc.removeEdgeCoverage
            + amountSum acc2.addEdgeCoverage ∧
        acc.coverage.sum ≤ acc2.coverage.sum ∧
        acc2.coverage.length = acc.coverage.length ∧
        ∀ (n c : Nat), acc.coverage[n]? = some c →
          ∃ c2, acc2.coverage[n]? = some c2 ∧ c ≤ c2 := by
  induction targets with
  | nil =>
    intro acc acc2 h _
    simp only [cleanTargets, Option.some.injEq] at h
    subst h
    exact ⟨by omega, Nat.le_refl _, rfl, fun n c hn => ⟨c, hn, Nat.le_refl _⟩⟩
  | cons target rest ih =>
    intro acc acc2 h hfit
    unfold cleanTargets at h
    split at h
    · cases h
    · rename_i vec hvec
      have hvlen : 2 ≤ vec.length := by
        have := insertMiddlesLoop_length _ _ _ _ _ hvec
        simpa using this
      split_ifs at h with c1
      · exact ih _ _ h hfit
      · split at h
        · simp only at h
          split at h
          · cases h
          · rename_i cov hcov
            have hmono := (cleanTargets_add_mono _ _ _ _ _ _ h).1
            simp only [amountSum_append] at hmono
            have hadd : amountSum ((vec.zip vec.tail).map
                (fun e => ((canon e.1 e.2).1, (canon e.1 e.2).2, target.2)))
                = target.2 * (vec.length - 1) := by
              rw [amountSum_map_const, List.length_zip, List.length_tail]
              congr 1
              omega
            rw [hadd] at hmono
            have hmid : vec.tail.dropLast.length = vec.length - 2 := by
              rw [List.length_dropLast, List.length_tail]
              omega
            have hle : target.2 * (vec.length - 2) ≤ target.2 * (vec.length - 1) :=
              Nat.mul_le_mul_left _ (by omega)
            have hsplit : target.2 * (vec.length - 1)
                = target.2 * (vec.length - 2) + target.2 := by
              have : vec.length - 1 = (vec.length - 2) + 1 := by omega
              rw [this, Nat.mul_succ]
            obtain ⟨h1, h2, h3⟩ := addCoverageAll_spec target.2 vec.tail.dropLast acc.coverage
              cov (by rw [hmid]; omega) hcov
            rw [hmid] at h1
            obtain ⟨h4, h5, h6, h7⟩ := ih _ _ h (by
              simp only [amountSum_append]
              rw [hadd]
              omega)
            dsimp only at h4 h5 h6 h7
            simp only [amountSum_append, amountSum_cons, amountSum_nil, Nat.add_zero] at h4
            rw [hadd] at h4
            refine ⟨by omega, by omega, by omega, ?_⟩
            intro n c hn
            obtain ⟨x, hx, hcx⟩ := h3 n c hn
            obtain ⟨y, hy, hxy⟩ := h7 n x hx
            exact ⟨y, hy, Nat.le_trans hcx hxy⟩
        · cases h

theorem cleanNodesLoop_add_mono (order : List (DirNode × Nat) → List (DirNode × Nat))
    (cleaner : TransitiveCleaner) (fuel : Nat) (edgeCoverage : EdgeMaps) (n : Nat) :
    ∀ (node : Nat) (acc acc2 : CleanAcc),
      cleanNodesLoop order cleaner fuel edgeCoverage n node acc = some acc2 →
      amountSum acc.addEdgeCoverage ≤ amountSum acc2.addEdgeCoverage ∧
        amountSum acc.removeEdgeCoverage ≤ amountSum acc2.removeEdgeCoverage := by
  induction n with
  | zero =>
    intro node acc acc2 h
    simp only [cleanNodesLoop, Option.some.injEq] at h
    subst h
    exact ⟨Nat.le_refl _, Nat.le_refl _⟩
  | succ n ih =>
    intro node acc acc2 h
    unfold cleanNodesLoop at h
    split at h
    · split at h
      · cases h
      · rename_i acc1 h1
        split at h
        · cases h
        · rename_i acc3 h3
          have a1 := cleanTargets_add_mono _ _ _ _ _ _ h1
          have a2 := cleanTargets_add_mono _ _ _ _ _ _ h3
          have a3 := ih _ _ _ h
          exact ⟨by omega, by omega⟩
    · cases h

theorem cleanNodesLoop_totals (order : List (DirNode × Nat) → List (DirNode × Nat))
    (cleaner : TransitiveCleaner) (fuel : Nat) (edgeCoverage : EdgeMaps) (n : Nat) :
    ∀ (node : Nat) (acc acc2 : CleanAcc),
      cleanNodesLoop order cleaner fuel edgeCoverage n node acc = some acc2 →
      acc.coverage.sum + amountSum acc2.addEdgeCoverage
        < 2 ^ 64 + amountSum acc.addEdgeCoverage →
      acc2.coverage.sum + amountSum acc2.removeEdgeCoverage + amountSum acc.addEdgeCoverage
          = acc.coverage.sum + amountSum acc.removeEdgeCoverage
            + amountSum acc2.addEdgeCoverage ∧
        acc.coverage.sum ≤ acc2.coverage.sum ∧
        acc2.coverage.length = acc.coverage.length ∧
        ∀ (i c : Nat), acc.coverage[i]? = some c →
          ∃ c2, acc2.coverage[i]? = some c2 ∧ c ≤ c2 := by
  induction n with
  | zero =>
    intro node acc acc2 h _
    simp only [cleanNodesLoop, Option.some.injEq] at h
    subst h
    exact ⟨by omega, Nat.le_refl _, rfl, fun n c hn => ⟨c, hn, Nat.le_refl _⟩⟩
  | succ n ih =>
    intro node acc acc2 h hfit
    unfold cleanNodesLoop at h
    split at h
    · split at h
      · cases h
      · rename_i acc1 h1
        split at h
        · cases h
        · rename_i acc3 h3
          have a1 := cleanTargets_add_mono _ _ _ _ _ _ h1
          have a2 := cleanTargets_add_mono _ _ _ _ _ _ h3
          have a3 := cleanNodesLoop_add_mono _ _ _ _ _ _ _ _ h
          obtain ⟨p1, p2, p3, p4⟩ := cleanTargets_totals _ _ _ _ _ _ h1 (by omega)
          obtain ⟨q1, q2, q3, q4⟩ := cleanTargets_totals _ _ _ _ _ _ h3 (by omega)
          obtain ⟨r1, r2, r3, r4⟩ := ih _ _ _ h (by omega)
          refine ⟨by omega, by omega, by omega, ?_⟩
          intro i c hi
          obtain ⟨x, hx, hcx⟩ := p4 i c hi
          obtain ⟨y, hy, hxy⟩ := q4 i x hx
          obtain ⟨z, hz, hyz⟩ := r4 i y hy
          exact ⟨z, hz, by omega⟩
    · cases h

theorem reroutedCoverage_eq (hash : List Nat → Nat)
    (order : List (DirNode × Nat) → List (DirNode × Nat)) (fuel : Nat) (result : HashList)
    (k : Nat) (cleaner : TransitiveCleaner) (acc : CleanAcc)
    (hmake : TransitiveCleaner.make hash order k result = some cleaner)
    (hacc : cleanNodesLoop order cleaner fuel result.edgeCoverage result.edgeCoverage.size 0
        { coverage := result.coverage, addEdgeCoverage := [], removeEdgeCoverage := [] }
      = some acc) :
    reroutedCoverage hash order fuel result k = amountSum acc.addEdgeCoverage := by
  unfold reroutedCoverage
  rw [hmake]
  simp only
  rw [hacc]

/-- The counters after `cleanTransitiveEdges`, when the re-routed coverage fits the
`size_t` counters. -/
theorem cleanTransitiveEdges_totals (hash : List Nat → Nat)
    (order : List (DirNode × Nat) → List (DirNode × Nat)) (fuel : Nat) (result r2 : HashList)
    (k : Nat) (h : cleanTransitiveEdges hash order fuel result k = some r2)
    (hcov : result.coverage.sum + reroutedCoverage hash order fuel result k < 2 ^ 64) :
    (∀ (n c : Nat), result.coverage[n]? = some c →
        ∃ c2, r2.coverage[n]? = some c2 ∧ c ≤ c2) ∧
      r2.coverage.length = result.coverage.length ∧
      result.coverage.sum ≤ r2.coverage.sum ∧
      (result.edgeCoverage.total + reroutedCoverage hash order fuel result k < 2 ^ 64 →
        r2.edgeCoverage.total + result.coverage.sum
          = result.edgeCoverage.total + r2.coverage.sum) := by
  unfold cleanTransitiveEdges at h
  split at h
  · cases h
  · rename_i cleaner hmake
    split at h
    · cases h
    · rename_i acc hacc
      rw [reroutedCoverage_eq hash order fuel result k cleaner acc hmake hacc] at hcov ⊢
      split at h
      · cases h
      · split at h
        · cases h
        · rename_i ec1 hec1
          split at h
          · cases h
          · rename_i ec2 hec2
            cases h
            obtain ⟨p1, p2, p3, p4⟩ := cleanNodesLoop_totals _ _ _ _ _ _ _ _ hacc
              (by simpa [amountSum_nil] using hcov)
            simp only [amountSum_nil, Nat.add_zero] at p1
            refine ⟨p4, p3, p2, ?_⟩
            intro hec
            have e1 := total_applyAdd _ _ _ hec hec1
            have e2 := total_applyRemove _ _ _ hec2
            simp only
            omega

/-- C22: for every hash list and every node `n`, `coverage[n]` after `cleanTransitiveEdges`
is at least `coverage[n]` before it, and no node is lost.  The counters are `size_t` values:
the sum of the node coverage and of the coverage put on chain edges stays below `2 ^ 64`. -/
theorem coverage_not_decreased_by_cleaning (hash : List Nat → Nat)
    (order : List (DirNode × Nat) → List (DirNode × Nat)) (fuel : Nat)
    (list cleaned : HashList) (k : Nat)
    (hclean : cleanTransitiveEdges hash order fuel list k = some cleaned)
    (hfit : list.coverage.sum + reroutedCoverage hash order fuel list k < 2 ^ 64) :
    cleaned.coverage.length = list.coverage.length ∧
      ∀ (n c : Nat), list.coverage[n]? = some c →
        ∃ c2, cleaned.coverage[n]? = some c2 ∧ c ≤ c2 := by
  obtain ⟨h1, h2, _, _⟩ := cleanTransitiveEdges_totals hash order fuel list cleaned k hclean hfit
  exact ⟨h2, h1⟩

/-- C22 (witness): in the worked example the coverage goes from `[1, 4, 1]` to
`[1, 4, 2]`. -/
theorem coverage_not_decreased_by_cleaning_witness :
    exampleCleaned.coverage.length = exampleLoaded.coverage.length ∧
      ∀ (n c : Nat), exampleLoaded.coverage[n]? = some c →
        ∃ c2, exampleCleaned.coverage[n]? = some c2 ∧ c ≤ c2 :=
  coverage_not_decreased_by_cleaning exampleHash id 50 exampleLoaded exampleCleaned 3
    (by decide) (by decide)

/-- C23 (counterexample): the two reads of the worked example give edge coverages that sum
to 4; after `cleanTransitiveEdges` they sum to 5, because the coverage 1 of the re-routed
edge is put on both edges of its chain. -/
theorem edge_coverage_total_grows :
    loadReadsAsHashes exampleHash exampleReads 3 2 false = some exampleLoaded ∧
      cleanTransitiveEdges exampleHash id 50 exampleLoaded 3 = some exampleCleaned ∧
      exampleLoaded.edgeCoverage.total = 4 ∧ exampleCleaned.edgeCoverage.total = 5 := by
  decide

/-- C23 (amended): under `cleanTransitiveEdges` the sum of `edgeCoverage` over all stored
edges grows by exactly as much as the sum of the node coverage, and so never decreases.  The
counters are `size_t` values that stay below `2 ^ 64`. -/
theorem edge_coverage_total_follows_coverage (hash : List Nat → Nat)
    (order : List (DirNode × Nat) → List (DirNode × Nat)) (fuel : Nat)
    (list cleaned : HashList) (k : Nat)
    (hclean : cleanTransitiveEdges hash order fuel list k = some cleaned)
    (hcov : list.coverage.sum + reroutedCoverage hash order fuel list k < 2 ^ 64)
    (hec : list.edgeCoverage.total + reroutedCoverage hash order fuel list k < 2 ^ 64) :
    cleaned.edgeCoverage.total + list.coverage.sum
        = list.edgeCoverage.total + cleaned.coverage.sum ∧
      list.edgeCoverage.total ≤ cleaned.edgeCoverage.total := by
  obtain ⟨_, _, h3, h4⟩ := cleanTransitiveEdges_totals hash order fuel list cleaned k hclean hcov
  have := h4 hec
  exact ⟨this, by omega⟩

/-- C23 (witness): in the worked example both sums grow by 1. -/
theorem edge_coverage_total_follows_coverage_witness :
    exampleCleaned.edgeCoverage.total + exampleLoaded.coverage.sum
        = exampleLoaded.edgeCoverage.total + exampleCleaned.coverage.sum ∧
      exampleLoaded.edgeCoverage.total ≤ exampleCleaned.edgeCoverage.total :=
  edge_coverage_total_follows_coverage exampleHash id 50 exampleLoaded exampleCleaned 3
    (by decide) (by decide) (by decide)

/-! ## A cleaner without chains -/

theorem get?_set?_self {α : Type} (v v2 : VectorWithDirection α) (a : DirNode) (x : α)
    (hset : v.set? a x = some v2) : v2.get? a = some x := by
  obtain ⟨i, o⟩ := a
  unfold VectorWithDirection.set? at hset
  unfold VectorWithDirection.get?
  cases o <;> simp only [Bool.false_eq_true, if_false, if_true] at hset ⊢ <;>
    split_ifs at hset with hlt <;> cases hset <;> simp only
  · exact List.getElem?_set_self hlt
  · exact List.getElem?_set_self hlt

theorem get?_set?_of_ne {α : Type} (v v2 : VectorWithDirection α) (a a2 : DirNode) (x : α)
    (hset : v.set? a x = some v2) (hne : a2 ≠ a) : v2.get? a2 = v.get? a2 := by
  obtain ⟨i, o⟩ := a
  obtain ⟨j, o2⟩ := a2
  unfold VectorWithDirection.set? at hset
  unfold VectorWithDirection.get?
  cases o <;> cases o2 <;> simp only [Bool.false_eq_true, if_false, if_true] at hset ⊢ <;>
    split_ifs at hset with hlt <;> cases hset <;> simp only
  · have hij : i ≠ j := by
      intro h
      apply hne
      rw [h]
    exact List.getElem?_set_ne hij
  · have hij : i ≠ j := by
      intro h
      apply hne
      rw [h]
    exact List.getElem?_set_ne hij

theorem set?_lengths {α : Type} (v v2 : VectorWithDirection α) (a : DirNode) (x : α)
    (hset : v.set? a x = some v2) :
    v2.forward.length = v.forward.length ∧ v2.backward.length = v.backward.length := by
  obtain ⟨i, o⟩ := a
  unfold VectorWithDirection.set? at hset
  cases o <;> simp only [Bool.false_eq_true, if_false, if_true] at hset <;>
    split_ifs at hset with hlt <;> cases hset <;> simp

theorem mapSet_ne_nil {κ ν : Type} [DecidableEq κ] (m : List (κ × ν)) (key : κ) (value : ν) :
    mapSet m key value ≠ [] := by
  cases m with
  | nil => simp [mapSet]
  | cons e rest =>
    unfold mapSet
    split_ifs <;> simp

/-- The loop of `addMiddles` appends one overlap for every node it appends to the path. -/
theorem addMiddlesLoop_grows (hash : List Nat → Nat) (k : Nat) (seq : LazyString)
    (list : HashList) (prefixes : List Nat) (n : Nat) :
    ∀ (i : Nat) (h : FastHasher) (path : List DirNode) (old : DirNode) (oldpos : Nat)
      (overlaps : List (DirNode × DirNode × Nat))
      (res : List DirNode × DirNode × Nat × List (DirNode × DirNode × Nat)),
      addMiddlesLoop hash k seq list prefixes n i h path old oldpos overlaps = some res →
      ∃ pe oe, res.1 = path ++ pe ∧ res.2.2.2 = overlaps ++ oe ∧ pe.length = oe.length := by
  induction n with
  | zero =>
    intro i h path old oldpos overlaps res hrun
    simp only [addMiddlesLoop, Option.some.injEq] at hrun
    subst hrun
    exact ⟨[], [], by simp, by simp, rfl⟩
  | succ n ih =>
    intro i h path old oldpos overlaps res hrun
    unfold addMiddlesLoop at hrun
    split at hrun
    · simp only at hrun
      split_ifs at hrun with c1
      · split at hrun
        · cases hrun
        · split_ifs at hrun with c2
          · exact ih _ _ _ _ _ _ _ hrun
          · obtain ⟨pe, oe, h1, h2, h3⟩ := ih _ _ _ _ _ _ _ hrun
            rw [List.append_assoc] at h1 h2
            exact ⟨_, _, h1, h2, by simp [h3]⟩
      · exact ih _ _ _ _ _ _ _ hrun
    · cases hrun

/-- What `addMiddles` keeps: the sizes of `transitiveMiddle`, and that new overlaps come with
a non-empty chain. -/
theorem addMiddles_keeps (hash : List Nat → Nat) (cleaner c2 : TransitiveCleaner) (k : Nat)
    (start stop : DirNode) (seq : LazyString) (list : HashList) (prefixes : List Nat)
    (h : addMiddles hash cleaner k start stop seq list prefixes = some c2) :
    (c2.transitiveMiddle.forward.length = cleaner.transitiveMiddle.forward.length ∧
      c2.transitiveMiddle.backward.length = cleaner.transitiveMiddle.backward.length) ∧
    (((∃ a m, cleaner.transitiveMiddle.get? a = some m ∧ m ≠ []) ∨
        cleaner.newSequenceOverlaps = []) →
      ((∃ a m, c2.transitiveMiddle.get? a = some m ∧ m ≠ []) ∨
        c2.newSequenceOverlaps = [])) := by
  unfold addMiddles at h
  split at h
  · simp only at h
    split_ifs at h with c1
    split at h
    · cases h
    · rename_i path old oldpos overlaps hloop
      obtain ⟨pe, oe, h1, h2, h3⟩ := addMiddlesLoop_grows _ _ _ _ _ _ _ _ _ _ _ _ _ hloop
      simp only at h1 h2
      split_ifs at h with d1 d2 d3
      · split at h
        · cases h
        · rename_i m hm
          split at h
          · cases h
          · rename_i tm htm
            cases h
            exact ⟨set?_lengths _ _ _ _ htm, fun _ => Or.inl ⟨start, mapSet m stop path,
              get?_set?_self _ _ _ _ htm, mapSet_ne_nil _ _ _⟩⟩
      · cases h
        refine ⟨⟨rfl, rfl⟩, ?_⟩
        rintro (hex | hnil)
        · exact Or.inl hex
        · right
          simp only
          rw [h2, hnil]
          have hpe : pe = [] := by
            have : path.length = 0 := by omega
            rw [h1] at this
            simpa using this
          rw [hpe] at h3
          have : oe = [] := List.length_eq_zero.mp h3.symm
          rw [this]
          rfl
  · cases h

theorem getMiddlesEdges_keeps (hash : List Nat → Nat) (k : Nat) (hashlist : HashList)
    (prefixes : List Nat) (i : Nat) (start : DirNode) (seq : List Nat)
    (edges : List (DirNode × Nat)) :
    ∀ cleaner c2 : TransitiveCleaner,
      getMiddlesEdges hash k hashlist prefixes i start seq cleaner edges = some c2 →
      (c2.transitiveMiddle.forward.length = cleaner.transitiveMiddle.forward.length ∧
        c2.transitiveMiddle.backward.length = cleaner.transitiveMiddle.backward.length) ∧
      (((∃ a m, cleaner.transitiveMiddle.get? a = some m ∧ m ≠ []) ∨
          cleaner.newSequenceOverlaps = []) →
        ((∃ a m, c2.transitiveMiddle.get? a = some m ∧ m ≠ []) ∨
          c2.newSequenceOverlaps = [])) := by
  induction edges with
  | nil =>
    intro cleaner c2 h
    simp only [getMiddlesEdges, Option.some.injEq] at h
    subst h
    exact ⟨⟨rfl, rfl⟩, fun h => h⟩
  | cons pair rest ih =>
    intro cleaner c2 h
    unfold getMiddlesEdges at h
    by_cases c1 : pair.1.1 ≥ i
    swap
    · rw [if_pos c1] at h; cases h
    rw [if_neg (not_not.mpr c1)] at h
    cases hsec : (if pair.1.2 = true then hashlist.getHashSequenceRLE pair.1.1
        else hashlist.getRevCompHashSequenceRLE pair.1.1) with
    | none => rw [hsec] at h; cases h
    | some second =>
      rw [hsec] at h
      simp only at h
      split at h
      · cases h
      · split at h
        · cases h
        · rename_i c3 hc3
          obtain ⟨⟨a1, a2⟩, a3⟩ := addMiddles_keeps _ _ _ _ _ _ _ _ _ hc3
          obtain ⟨⟨b1, b2⟩, b3⟩ := ih _ _ h
          exact ⟨⟨by omega, by omega⟩, fun hq => b3 (a3 hq)⟩

theorem getMiddlesSide_keeps (hash : List Nat → Nat)
    (order : List (DirNode × Nat) → List (DirNode × Nat)) (k : Nat) (hashlist : HashList)
    (prefixes : List Nat) (i : Nat) (start : DirNode) (cleaner c2 : TransitiveCleaner)
    (h : getMiddlesSide hash order k hashlist prefixes i start cleaner = some c2) :
    (c2.transitiveMiddle.forward.length = cleaner.transitiveMiddle.forward.length ∧
      c2.transitiveMiddle.backward.length = cleaner.transitiveMiddle.backward.length) ∧
    (((∃ a m, cleaner.transitiveMiddle.get? a = some m ∧ m ≠ []) ∨
        cleaner.newSequenceOverlaps = []) →
      ((∃ a m, c2.transitiveMiddle.get? a = some m ∧ m ≠ []) ∨
        c2.newSequenceOverlaps = [])) := by
  unfold getMiddlesSide at h
  split at h
  · cases h
  · rename_i m hm
    by_cases c1 : m.length > 0
    · rw [if_pos c1] at h
      cases hseq : (if start.2 = true then hashlist.getHashSequenceRLE i
          else hashlist.getRevCompHashSequenceRLE i) with
      | none => rw [hseq] at h; cases h
      | some seq =>
        rw [hseq] at h
        exact getMiddlesEdges_keeps _ _ _ _ _ _ _ _ _ _ h
    · rw [if_neg c1] at h
      cases h
      exact ⟨⟨rfl, rfl⟩, fun h => h⟩

theorem getMiddlesLoop_keeps (hash : List Nat → Nat)
    (order : List (DirNode × Nat) → List (DirNode × Nat)) (k : Nat) (hashlist : HashList)
    (prefixes : List Nat) (n : Nat) :
    ∀ (i : Nat) (cleaner c2 : TransitiveCleaner),
      getMiddlesLoop hash order k hashlist prefixes n i cleaner = some c2 →
      (c2.transitiveMiddle.forward.length = cleaner.transitiveMiddle.forward.length ∧
        c2.transitiveMiddle.backward.length = cleaner.transitiveMiddle.backward.length) ∧
      (((∃ a m, cleaner.transitiveMiddle.get? a = some m ∧ m ≠ []) ∨
          cleaner.newSequenceOverlaps = []) →
        ((∃ a m, c2.transitiveMiddle.get? a = some m ∧ m ≠ []) ∨
          c2.newSequenceOverlaps = [])) := by
  induction n with
  | zero =>
    intro i cleaner c2 h
    simp only [getMiddlesLoop, Option.some.injEq] at h
    subst h
    exact ⟨⟨rfl, rfl⟩, fun h => h⟩
  | succ n ih =>
    intro i cleaner c2 h
    unfold getMiddlesLoop at h
    split at h
    · cases h
    · rename_i c3 hc3
      split at h
      · cases h
      · rename_i c4 hc4
        obtain ⟨⟨a1, a2⟩, a3⟩ := getMiddlesSide_keeps _ _ _ _ _ _ _ _ _ hc3
        obtain ⟨⟨b1, b2⟩, b3⟩ := getMiddlesSide_keeps _ _ _ _ _ _ _ _ _ hc4
        obtain ⟨⟨d1, d2⟩, d3⟩ := ih _ _ _ h
        exact ⟨⟨by omega, by omega⟩, fun hq => d3 (b3 (a3 hq))⟩

/-- The cleaner built for a hash list: `transitiveMiddle` has one map per directed node, and
new overlaps are recorded only together with a chain. -/
theorem make_keeps (hash : List Nat → Nat)
    (order : List (DirNode × Nat) → List (DirNode × Nat)) (k : Nat) (hashlist : HashList)
    (cleaner : TransitiveCleaner)
    (h : TransitiveCleaner.make hash order k hashlist = some cleaner) :
    (cleaner.transitiveMiddle.forward.length = hashlist.size ∧
      cleaner.transitiveMiddle.backward.length = hashlist.size) ∧
    ((∃ a m, cleaner.transitiveMiddle.get? a = some m ∧ m ≠ []) ∨
      cleaner.newSequenceOverlaps = []) := by
  unfold TransitiveCleaner.make at h
  obtain ⟨⟨a1, a2⟩, a3⟩ := getMiddlesLoop_keeps _ _ _ _ _ _ _ _ _ h
  simp only [VectorWithDirection.filled, List.length_replicate] at a1 a2
  exact ⟨⟨a1, a2⟩, a3 (Or.inr rfl)⟩

theorem insertMiddles_no_chain (cleaner : TransitiveCleaner) (fuel : Nat) (start dst : DirNode)
    (m : List (DirNode × List DirNode)) (hget : cleaner.transitiveMiddle.get? start = some m)
    (hfind : mapFind m dst = none) :
    cleaner.insertMiddles (fuel + 2) [start, dst] = some [start, dst] := by
  unfold TransitiveCleaner.insertMiddles
  rw [insertMiddlesLoop]
  simp only [List.reverse_cons, List.reverse_nil, List.nil_append, List.singleton_append, hget,
    hfind]
  rw [insertMiddlesLoop]
  rfl

theorem cleanTargets_no_chain (cleaner : TransitiveCleaner) (fuel : Nat) (start : DirNode)
    (acc : CleanAcc) (hget : cleaner.transitiveMiddle.get? start = some [])
    (targets : List (DirNode × Nat)) :
    cleanTargets cleaner (fuel + 2) start acc targets = some acc := by
  induction targets with
  | nil => rfl
  | cons target rest ih =>
    unfold cleanTargets
    rw [insertMiddles_no_chain cleaner fuel start target.1 [] hget rfl]
    simp only [List.length_cons, List.length_nil, Nat.zero_add, Nat.reduceAdd, if_true]
    exact ih

theorem cleanNodesLoop_no_chain (order : List (DirNode × Nat) → List (DirNode × Nat))
    (cleaner : TransitiveCleaner) (fuel : Nat) (edgeCoverage : EdgeMaps) (acc : CleanAcc)
    (hnone : ∀ a m, cleaner.transitiveMiddle.get? a = some m → m = [])
    (n : Nat) :
    ∀ node : Nat, node + n ≤ edgeCoverage.forward.length →
      node + n ≤ edgeCoverage.backward.length →
      node + n ≤ cleaner.transitiveMiddle.forward.length →
      node + n ≤ cleaner.transitiveMiddle.backward.length →
      cleanNodesLoop order cleaner (fuel + 2) edgeCoverage n node acc = some acc := by
  induction n with
  | zero =>
    intro node _ _ _ _
    rfl
  | succ n ih =>
    intro node h1 h2 h3 h4
    have g1 : edgeCoverage.get? (node, true) = some edgeCoverage.forward[node] := by
      unfold VectorWithDirection.get?
      simp only [if_true]
      exact List.getElem?_eq_getElem (by omega)
    have g2 : edgeCoverage.get? (node, false) = some edgeCoverage.backward[node] := by
      unfold VectorWithDirection.get?
      simp only [Bool.false_eq_true, if_false]
      exact List.getElem?_eq_getElem (by omega)
    have t1 : cleaner.transitiveMiddle.get? (node, true) = some [] := by
      have : cleaner.transitiveMiddle.get? (node, true)
          = some cleaner.transitiveMiddle.forward[node] := by
        unfold VectorWithDirection.get?
        simp only [if_true]
        exact List.getElem?_eq_getElem (by omega)
      rw [this, hnone _ _ this]
    have t2 : cleaner.transitiveMiddle.get? (node, false) = some [] := by
      have : cleaner.transitiveMiddle.get? (node, false)
          = some cleaner.transitiveMiddle.backward[node] := by
        unfold VectorWithDirection.get?
        simp only [Bool.false_eq_true, if_false]
        exact List.getElem?_eq_getElem (by omega)
      rw [this, hnone _ _ this]
    unfold cleanNodesLoop
    rw [g1, g2]
    simp only
    rw [cleanTargets_no_chain cleaner fuel (node, true) acc t1]
    simp only
    rw [cleanTargets_no_chain cleaner fuel (node, false) acc t2]
    simp only
    exact ih (node + 1) (by omega) (by omega) (by omega) (by omega)

/-- C24: if the cleaner finds no intermediate chain for any edge of the hash list (every
`transitiveMiddle` map is empty, so every chain has length 2), `cleanTransitiveEdges` returns
the hash list unchanged: coverage, `edgeCoverage` and `sequenceOverlap` are as before.  The
hash list has one pair of edge maps per node. -/
theorem cleaning_without_chains_changes_nothing (hash : List Nat → Nat)
    (order : List (DirNode × Nat) → List (DirNode × Nat)) (fuel : Nat) (list : HashList)
    (k : Nat) (cleaner : TransitiveCleaner)
    (hmake : TransitiveCleaner.make hash order k list = some cleaner)
    (hnone : ∀ a m, cleaner.transitiveMiddle.get? a = some m → m = [])
    (hfuel : 2 ≤ fuel)
    (hshape : list.edgeCoverage.backward.length = list.edgeCoverage.forward.length)
    (hsize : list.edgeCoverage.size ≤ list.size) :
    cleanTransitiveEdges hash order fuel list k = some list := by
  obtain ⟨⟨s1, s2⟩, hq⟩ := make_keeps hash order k list cleaner hmake
  have hnso : cleaner.newSequenceOverlaps = [] := by
    rcases hq with ⟨a, m, h1, h2⟩ | h
    · exact absurd (hnone a m h1) h2
    · exact h
  obtain ⟨f, rfl⟩ : ∃ f, fuel = f + 2 := ⟨fuel - 2, by omega⟩
  unfold VectorWithDirection.size at hsize
  have hloop := cleanNodesLoop_no_chain order cleaner f list.edgeCoverage
    { coverage := list.coverage, addEdgeCoverage := [], removeEdgeCoverage := [] } hnone
    list.edgeCoverage.forward.length 0 (by omega) (by omega) (by omega) (by omega)
  unfold cleanTransitiveEdges
  rw [hmake]
  simp only [VectorWithDirection.size]
  rw [hloop]
  simp only [hnso, applyOverlaps, applyAdd, applyRemove]

/-- C24 (witness): the hash list of the single read `AGAAAA` (`k = 3`) has two edges and no
chain; cleaning returns it unchanged. -/
theorem cleaning_without_chains_changes_nothing_witness :
    loadReadsAsHashes exampleHash [['A', 'G', 'A', 'A', 'A', 'A']] 3 2 false
        = some exampleSingle ∧
      cleanTransitiveEdges exampleHash id 2 exampleSingle 3 = some exampleSingle :=
  ⟨by decide,
    cleaning_without_chains_changes_nothing exampleHash id 2 exampleSingle 3
      { newSequenceOverlaps := []
        transitiveMiddle := { forward := [[], []], backward := [[], []] } }
      (by decide)
      (by
        intro a m h
        obtain ⟨i, o⟩ := a
        unfold VectorWithDirection.get? at h
        cases o <;> simp only [Bool.false_eq_true, if_false, if_true] at h <;>
          have := List.getElem?_mem h <;> simp at this <;> exact this)
      (by decide) (by decide) (by decide)⟩

/-! ## The steps of the ingestion callback -/

theorem addHashSequenceRLE_coverage (list l2 : HashList) (seq : List Nat) (c p o : Nat)
    (h : list.addHashSequenceRLE seq c p o = some l2) :
    l2.coverage = list.coverage ∧ l2.hashToNode = list.hashToNode ∧
      l2.fakeFwHashes = list.fakeFwHashes ∧ l2.fakeBwHashes = list.fakeBwHashes ∧
      l2.size = list.size + 1 := by
  unfold HashList.addHashSequenceRLE at h
  split at h
  · cases h
  · cases h
    exact ⟨rfl, rfl, rfl, rfl, by simp [HashList.size]⟩

theorem addHashCharacterLength_coverage (list l2 : HashList) (data : List Nat)
    (s e c p o : Nat) (h : list.addHashCharacterLength data s e c p o = some l2) :
    l2.coverage = list.coverage ∧ l2.hashToNode = list.hashToNode ∧
      l2.fakeFwHashes = list.fakeFwHashes ∧ l2.fakeBwHashes = list.fakeBwHashes ∧
      l2.size = list.size := by
  unfold HashList.addHashCharacterLength at h
  split at h
  · cases h
  · cases h
    exact ⟨rfl, rfl, rfl, rfl, rfl⟩

/-- What `getNode` returns: a node found under the forward hash with the list unchanged, or a
new forward node at the end of every per-node vector. -/
theorem getNode_inv (hash : List Nat → Nat) (list l2 : HashList) (sequence rev : List Nat)
    (lens : List Nat) (s e p o f b : Nat) (node : DirNode) (fwHash : Nat)
    (h : getNode hash list sequence rev lens s e p o f b = some (l2, node, fwHash)) :
    fwHash = hash sequence ∧
      ((mapFind list.hashToNode (hash sequence) = some node ∧ l2 = list) ∨
        (mapFind list.hashToNode (hash sequence) = none ∧
          mapFind list.hashToNode (hash rev) = none ∧ node = (list.size, true) ∧
          l2.coverage = list.coverage ++ [0] ∧
          l2.edgeCoverage = list.edgeCoverage.emplace_back [] ∧
          l2.sequenceOverlap = list.sequenceOverlap.emplace_back [] ∧
          l2.hashToNode = mapSet (mapSet list.hashToNode (hash sequence) (list.size, true))
            (hash rev) (list.size, false) ∧
          list.coverage.length = list.size ∧ list.edgeCoverage.size = list.size ∧
          list.sequenceOverlap.size = list.size)) := by
  unfold getNode at h
  simp only at h
  split at h
  · rename_i found hfound
    cases h
    exact ⟨rfl, Or.inl ⟨hfound, rfl⟩⟩
  · rename_i hnone
    split at h
    · cases h
    · rename_i hbw
      split at h
      · cases h
      · rename_i l2a h2
        split at h
        · cases h
        · rename_i l3 h3
          split at h
          · rename_i hsizes
            cases h
            obtain ⟨e1, e2⟩ := addHashSequenceRLE_edges _ _ _ _ _ _ h2
            obtain ⟨e3, e4⟩ := addHashCharacterLength_edges _ _ _ _ _ _ _ _ h3
            obtain ⟨g1, g2, _, _, _⟩ := addHashSequenceRLE_coverage _ _ _ _ _ _ h2
            obtain ⟨g3, g4, _, _, _⟩ := addHashCharacterLength_coverage _ _ _ _ _ _ _ _ h3
            simp only at e1 e2 g1 g2
            have hbw2 : mapFind list.hashToNode (hash rev) = none := by
              cases hx : mapFind list.hashToNode (hash rev) with
              | none => rfl
              | some x =>
                rw [hx] at hbw
                simp at hbw
            have hsz : (list.size : Nat) = list.hashSeqPtr.length := rfl
            refine ⟨rfl, Or.inr ⟨hnone, hbw2, rfl, ?_, ?_, ?_, ?_, ?_, ?_, ?_⟩⟩
            · simp only
              rw [g3, g1]
            · simp only
              rw [e4, e2]
            · simp only
              rw [e3, e1]
            · simp only
              rw [g4, g2]
            · rw [← g1, ← g3]
              exact hsizes.1
            · rw [← e2, ← e4]
              exact hsizes.2.1
            · rw [← e1, ← e3]
              exact hsizes.2.2.1
          · cases h

theorem addSequenceOverlap_inv (list l2 : HashList) (a b : DirNode) (overlap : Nat)
    (h : list.addSequenceOverlap a b overlap = some l2) :
    l2.coverage = list.coverage ∧ l2.edgeCoverage = list.edgeCoverage ∧
      l2.hashToNode = list.hashToNode ∧ l2.size = list.size := by
  unfold HashList.addSequenceOverlap at h
  simp only at h
  split at h
  · cases h
  · split at h
    · cases h
      exact ⟨rfl, rfl, rfl, rfl⟩
    · split at h
      · cases h
      · cases h
        exact ⟨rfl, rfl, rfl, rfl⟩

/-- The steps of the ingestion callback on one emission. -/
theorem ingestEmission_inv (hash : List Nat → Nat) (k w : Nat) (seq revSeq lens : List Nat)
    (st st2 : ReadState) (em : Nat × Nat × Nat)
    (h : ingestEmission hash k w seq revSeq lens st em = some st2) :
    (st.lastMinimizerPosition = sizeMax ∨ em.1 > st.lastMinimizerPosition) ∧
      em.1 + k ≤ seq.length ∧
      ∃ r1 current newHash r3 cov,
        getNode hash st.result ((seq.drop em.1).take k)
            ((revSeq.drop (seq.length - (em.1 + k))).take k) lens em.1 (em.1 + k) st.lastHash
            (subSize (st.lastMinimizerPosition + k) em.1) em.2.1 em.2.2
          = some (r1, current, newHash) ∧
        ((st.last.1 ≠ sizeMax ∧ subSize em.1 st.lastMinimizerPosition < k ∧
            st.lastMinimizerPosition + k ≥ em.1 ∧
            ∃ r2 ec, r1.addSequenceOverlap st.last current
                (subSize (st.lastMinimizerPosition + k) em.1) = some r2 ∧
              r2.edgeCoverage.increase (canon st.last current).1 (canon st.last current).2 1
                = some ec ∧
              r3 = { r2 with edgeCoverage := ec }) ∨
          (¬ (st.last.1 ≠ sizeMax ∧ subSize em.1 st.lastMinimizerPosition < k) ∧ r3 = r1)) ∧
        addCoverage r3.coverage current.1 1 = some cov ∧
        st2 = { result := { r3 with coverage := cov }, lastMinimizerPosition := em.1,
                last := current, lastHash := newHash } := by
  unfold ingestEmission at h
  simp only at h
  by_cases c1 : st.lastMinimizerPosition = sizeMax ∨ em.1 > st.lastMinimizerPosition
  swap
  · rw [if_pos c1] at h; cases h
  rw [if_neg (not_not.mpr c1)] at h
  by_cases c2 : st.lastMinimizerPosition = sizeMax ∨ subSize em.1 st.lastMinimizerPosition ≤ w
  swap
  · rw [if_pos c2] at h; cases h
  rw [if_neg (not_not.mpr c2)] at h
  by_cases c3 : st.last.1 = sizeMax ∨ subSize em.1 st.lastMinimizerPosition ≤ k
  swap
  · rw [if_pos c3] at h; cases h
  rw [if_neg (not_not.mpr c3)] at h
  by_cases c4 : em.1 + k ≤ seq.length
  swap
  · rw [if_pos c4] at h; cases h
  rw [if_neg (not_not.mpr c4)] at h
  refine ⟨c1, c4, ?_⟩
  split at h
  · cases h
  · rename_i r1 current newHash hnode
    split at h
    · cases h
    · rename_i r3 hlinked
      split at h
      · cases h
      · rename_i cov hcov
        cases h
        refine ⟨r1, current, newHash, r3, cov, hnode, ?_, hcov, rfl⟩
        by_cases d1 : st.last.1 ≠ sizeMax ∧ subSize em.1 st.lastMinimizerPosition < k
        · rw [if_pos d1] at hlinked
          by_cases d2 : st.lastMinimizerPosition + k ≥ em.1
          · rw [if_neg (not_not.mpr d2)] at hlinked
            split at hlinked
            · cases hlinked
            · rename_i r2 hadd
              split at hlinked
              · cases hlinked
              · rename_i ec hinc
                cases hlinked
                exact Or.inl ⟨d1.1, d1.2, d2, r2, ec, hadd, hinc, rfl⟩
          · rw [if_pos d2] at hlinked
            cases hlinked
        · rw [if_neg d1] at hlinked
          cases hlinked
          exact Or.inr ⟨d1, rfl⟩

/-! ## Edge coverage against node coverage -/

theorem canon_eq_or (a b : DirNode) :
    canon a b = (a, b) ∨ canon a b = (reverse b, reverse a) := by
  unfold canon
  split_ifs
  · exact Or.inr rfl
  · exact Or.inr rfl
  · exact Or.inl rfl

theorem reverse_ne_self (a : DirNode) : reverse a ≠ a := by
  obtain ⟨i, o⟩ := a
  unfold reverse
  cases o <;> simp

theorem reverse_reverse (a : DirNode) : reverse (reverse a) = a := by
  obtain ⟨i, o⟩ := a
  unfold reverse
  cases o <;> rfl

theorem reverse_fst (a : DirNode) : (reverse a).1 = a.1 := rfl

theorem indicator_le (P Q : Prop) [Decidable P] [Decidable Q] (h : P → Q) :
    (if P then 1 else 0) ≤ (if Q then (1 : Nat) else 0) := by
  split_ifs with hp hq
  · exact Nat.le_refl _
  · exact absurd (h hp) hq
  · exact Nat.zero_le _
  · exact Nat.le_refl _

theorem addCoverage_inv (coverage cov2 : List Nat) (index amount : Nat)
    (h : addCoverage coverage index amount = some cov2) :
    ∃ c, coverage[index]? = some c ∧ cov2 = coverage.set index ((c + amount) % 2 ^ 64) := by
  unfold addCoverage at h
  split at h
  · cases h
  · rename_i old hold
    cases h
    exact ⟨old, hold, rfl⟩

theorem coverageInv_weaken (B : Nat) (coverage : List Nat) (ec : EdgeMaps) (last : DirNode)
    (h : CoverageInv B coverage ec last) : CoverageInv B coverage ec (sizeMax, true) := by
  obtain ⟨h1, _, h3⟩ := h
  refine ⟨?_, fun hne => absurd rfl hne, h3⟩
  intro a m b v hget hmem
  obtain ⟨ca, cb, e1, e2, e3, e4⟩ := h1 a m b v hget hmem
  refine ⟨ca, cb, e1, e2, ?_, ?_⟩
  · rw [if_neg (fun hx => hx.2 rfl)]
    omega
  · rw [if_neg (fun hx => hx.2 rfl)]
    omega

theorem coverageInv_emplace (B : Nat) (coverage : List Nat) (ec : EdgeMaps) (last : DirNode)
    (h : CoverageInv B coverage ec last) :
    CoverageInv B (coverage ++ [0]) (ec.emplace_back []) last := by
  obtain ⟨h1, h2, h3⟩ := h
  have hleft : ∀ (i c : Nat), coverage[i]? = some c → (coverage ++ [0])[i]? = some c := by
    intro i c hi
    rw [List.getElem?_append_left (List.getElem?_eq_some_iff.mp hi).1]
    exact hi
  refine ⟨?_, ?_, ?_⟩
  · intro a m b v hget hmem
    obtain ⟨ca, cb, e1, e2, e3, e4⟩ :=
      h1 a m b v (get?_emplace_back_nil ec a m (b, v) hget hmem) hmem
    exact ⟨ca, cb, hleft _ _ e1, hleft _ _ e2, e3, e4⟩
  · intro hne
    obtain ⟨c, e1, e2⟩ := h2 hne
    exact ⟨c, hleft _ _ e1, e2⟩
  · intro i c hi
    by_cases hlt : i < coverage.length
    · rw [List.getElem?_append_left hlt] at hi
      exact h3 i c hi
    · rw [List.getElem?_append_right (by omega)] at hi
      have hc : c = 0 := by
        by_cases h0 : i - coverage.length = 0
        · rw [h0] at hi
          simp at hi
          exact hi.symm
        · rw [List.getElem?_eq_none (by simp; omega)] at hi
          cases hi
      omega

/-- One emission of the ingestion callback keeps the invariant: the edge from `last` to the
emitted node `cur` is counted when the two are linked, and `cur` is counted. -/
theorem coverageInv_step (B : Nat) (coverage cov2 : List Nat) (ec ec2 : EdgeMaps)
    (last cur : DirNode) (hinv : CoverageInv B coverage ec last) (hB : B + 1 < 2 ^ 64)
    (hec : ec2 = ec ∨ (last.1 ≠ sizeMax ∧
      ec.increase (canon last cur).1 (canon last cur).2 1 = some ec2))
    (hcov : addCoverage coverage cur.1 1 = some cov2) :
    CoverageInv (B + 1) cov2 ec2 cur := by
  obtain ⟨h1, h2, h3⟩ := hinv
  obtain ⟨c, hc, hset⟩ := addCoverage_inv coverage cov2 cur.1 1 hcov
  have hcB : c ≤ B := h3 _ _ hc
  rw [Nat.mod_eq_of_lt (by omega)] at hset
  have hcur : cur.1 < coverage.length := (List.getElem?_eq_some_iff.mp hc).1
  have hget2 : ∀ (i x : Nat), coverage[i]? = some x →
      cov2[i]? = some (if i = cur.1 then x + 1 else x) := by
    intro i x hi
    rw [hset]
    by_cases hic : i = cur.1
    · rw [if_pos hic]
      subst hic
      rw [hc] at hi
      cases hi
      exact List.getElem?_set_self hcur
    · rw [if_neg hic, List.getElem?_set_ne (fun hx => hic hx.symm)]
      exact hi
  -- entries that were there before
  have hold : ∀ (a : DirNode) (m : List (DirNode × Nat)) (b : DirNode) (v : Nat),
      ec.get? a = some m → (b, v) ∈ m →
      ∃ ca cb, cov2[a.1]? = some ca ∧ cov2[b.1]? = some cb ∧
        v + (if cur = a ∧ cur.1 ≠ sizeMax then 1 else 0) ≤ ca ∧
        v + (if cur = reverse b ∧ cur.1 ≠ sizeMax then 1 else 0) ≤ cb := by
    intro a m b v hget hmem
    obtain ⟨ca, cb, e1, e2, e3, e4⟩ := h1 a m b v hget hmem
    have e3b : v ≤ ca := by
      split_ifs at e3 <;> omega
    have e4b : v ≤ cb := by
      split_ifs at e4 <;> omega
    have i1 := indicator_le (cur = a ∧ cur.1 ≠ sizeMax) (a.1 = cur.1) (fun hx => by rw [hx.1])
    have i2 := indicator_le (cur = reverse b ∧ cur.1 ≠ sizeMax) (b.1 = cur.1)
      (fun hx => by rw [hx.1]; rfl)
    refine ⟨_, _, hget2 _ _ e1, hget2 _ _ e2, ?_, ?_⟩
    · split_ifs at i1 ⊢ <;> omega
    · split_ifs at i2 ⊢ <;> omega
  have hL : cur.1 ≠ sizeMax → ∃ x, cov2[cur.1]? = some x ∧ 1 ≤ x := by
    intro _
    refine ⟨_, hget2 _ _ hc, ?_⟩
    rw [if_pos rfl]
    omega
  have hBound : ∀ (i x : Nat), cov2[i]? = some x → x ≤ B + 1 := by
    intro i x hi
    have hlen : i < coverage.length := by
      have := (List.getElem?_eq_some_iff.mp hi).1
      rw [hset, List.length_set] at this
      exact this
    have hi0 := hget2 i _ (List.getElem?_eq_getElem hlen)
    rw [hi] at hi0
    cases hi0
    have := h3 i _ (List.getElem?_eq_getElem hlen)
    split_ifs <;> omega
  rcases hec with rfl | ⟨hlast, hinc⟩
  · exact ⟨hold, hL, hBound⟩
  · refine ⟨?_, hL, hBound⟩
    obtain ⟨cl, hcl, hcl1⟩ := h2 hlast
    unfold EdgeMaps.increase EdgeMaps.valueOrZero at hinc
    cases hm : ec.get? (canon last cur).1 with
    | none => rw [hm] at hinc; cases hinc
    | some m =>
      rw [hm] at hinc
      simp only at hinc
      unfold EdgeMaps.assign at hinc
      rw [hm] at hinc
      simp only at hinc
      intro a2 m2 b2 v2 hget hmem
      rcases get?_of_set? ec ec2 _ a2 _ m2 hinc hget with ⟨ha, hm2⟩ | hprev
      swap
      · exact hold a2 m2 b2 v2 hprev hmem
      subst ha hm2
      rcases mem_mapSet_value m _ _ (b2, v2) hmem with hin | hnew
      · exact hold _ m b2 v2 hm hin
      -- the entry that was written
      simp only [Prod.mk.injEq] at hnew
      obtain ⟨hb2, hv2⟩ := hnew
      subst hb2
      -- the old value and its bounds
      have hfacts : ∃ old, (mapFind m (canon last cur).2).getD 0 = old ∧
          (old = 0 ∨ (((canon last cur).2, old) ∈ m)) := by
        cases hf : mapFind m (canon last cur).2 with
        | none => exact ⟨0, rfl, Or.inl rfl⟩
        | some x => exact ⟨x, rfl, Or.inr (mapFind_mem _ _ _ hf)⟩
      obtain ⟨old, hold1, hold2⟩ := hfacts
      rw [hold1] at hv2
      have hbnd : (∃ ca cb, coverage[(canon last cur).1.1]? = some ca ∧
          coverage[(canon last cur).2.1]? = some cb ∧
          old + (if last = (canon last cur).1 ∧ last.1 ≠ sizeMax then 1 else 0) ≤ ca ∧
          old + (if last = reverse (canon last cur).2 ∧ last.1 ≠ sizeMax then 1 else 0)
            ≤ cb) ∨ old = 0 := by
        rcases hold2 with h0 | hin
        · exact Or.inr h0
        · exact Or.inl (h1 _ m _ old hm hin)
      rcases canon_eq_or last cur with hcan | hcan
      · rw [hcan] at hbnd ⊢
        simp only at hbnd ⊢
        have hle1 : old + 1 ≤ cl ∧ old ≤ c := by
          rcases hbnd with ⟨ca, cb, e1, e2, e3, e4⟩ | h0
          · rw [hcl] at e1
            rw [hc] at e2
            cases e1
            cases e2
            rw [if_pos ⟨trivial, hlast⟩] at e3
            constructor
            · omega
            · split_ifs at e4 <;> omega
          · omega
        have hv : v2 = old + 1 := by
          rw [hv2, Nat.mod_eq_of_lt (by omega)]
        have i1 := indicator_le (cur = last ∧ cur.1 ≠ sizeMax) (last.1 = cur.1)
          (fun hx => by rw [hx.1])
        have hz : (if cur = reverse cur ∧ cur.1 ≠ sizeMax then 1 else 0) = 0 :=
          if_neg (fun hx => reverse_ne_self cur hx.1.symm)
        refine ⟨_, _, hget2 _ _ hcl, hget2 _ _ hc, ?_, ?_⟩
        · split_ifs at i1 ⊢ <;> omega
        · rw [hz, if_pos rfl]
          omega
      · rw [hcan] at hbnd ⊢
        simp only [reverse_fst, reverse_reverse] at hbnd ⊢
        have hle1 : old + 1 ≤ cl ∧ old ≤ c := by
          rcases hbnd with ⟨ca, cb, e1, e2, e3, e4⟩ | h0
          · rw [hc] at e1
            rw [hcl] at e2
            cases e1
            cases e2
            rw [if_pos ⟨trivial, hlast⟩] at e4
            constructor
            · omega
            · split_ifs at e3 <;> omega
          · omega
        have hv : v2 = old + 1 := by
          rw [hv2, Nat.mod_eq_of_lt (by omega)]
        have i1 := indicator_le (cur = last ∧ cur.1 ≠ sizeMax) (last.1 = cur.1)
          (fun hx => by rw [hx.1])
        have hz : (if cur = reverse cur ∧ cur.1 ≠ sizeMax then 1 else 0) = 0 :=
          if_neg (fun hx => reverse_ne_self cur hx.1.symm)
        refine ⟨_, _, hget2 _ _ hc, hget2 _ _ hcl, ?_, ?_⟩
        · rw [hz, if_pos rfl]
          omega
        · split_ifs at i1 ⊢ <;> omega

theorem coverageInv_mono (B B2 : Nat) (coverage : List Nat) (ec : EdgeMaps) (last : DirNode)
    (hle : B ≤ B2) (h : CoverageInv B coverage ec last) : CoverageInv B2 coverage ec last :=
  ⟨h.1, h.2.1, fun i c hi => Nat.le_trans (h.2.2 i c hi) hle⟩

theorem ingestEmission_coverageInv (hash : List Nat → Nat) (k w : Nat)
    (seq revSeq lens : List Nat) (st st2 : ReadState) (em : Nat × Nat × Nat) (B : Nat)
    (hinv : CoverageInv B st.result.coverage st.result.edgeCoverage st.last)
    (hB : B + 1 < 2 ^ 64)
    (h : ingestEmission hash k w seq revSeq lens st em = some st2) :
    CoverageInv (B + 1) st2.result.coverage st2.result.edgeCoverage st2.last := by
  obtain ⟨_, _, r1, current, newHash, r3, cov, hnode, hlink, hcov, hst2⟩ :=
    ingestEmission_inv hash k w seq revSeq lens st st2 em h
  have hr1 : CoverageInv B r1.coverage r1.edgeCoverage st.last := by
    obtain ⟨_, hcase⟩ := getNode_inv _ _ _ _ _ _ _ _ _ _ _ _ _ _ hnode
    rcases hcase with ⟨_, rfl⟩ | ⟨_, _, _, e1, e2, _⟩
    · exact hinv
    · rw [e1, e2]
      exact coverageInv_emplace B _ _ _ hinv
  subst hst2
  simp only
  rcases hlink with ⟨hlast, _, _, r2, ec, hadd, hinc, hr3⟩ | ⟨_, hr3⟩
  · obtain ⟨a1, a2, _, _⟩ := addSequenceOverlap_inv _ _ _ _ _ hadd
    subst hr3
    simp only at hcov ⊢
    rw [a1] at hcov
    rw [a2] at hinc
    exact coverageInv_step B r1.coverage cov r1.edgeCoverage ec st.last current hr1 hB
      (Or.inr ⟨hlast, hinc⟩) hcov
  · rw [hr3] at hcov ⊢
    exact coverageInv_step B r1.coverage cov r1.edgeCoverage r1.edgeCoverage st.last current
      hr1 hB (Or.inl rfl) hcov

/-- The emissions a read passes to the callback have strictly increasing positions inside the
read, so there are at most `len + 1` of them. -/
theorem ingestEmissions_count (hash : List Nat → Nat) (k w : Nat) (seq revSeq lens : List Nat)
    (hlen : seq.length < sizeMax) (ems : List (Nat × Nat × Nat)) :
    ∀ st st2 : ReadState, ingestEmissions hash k w seq revSeq lens st ems = some st2 →
      (st.lastMinimizerPosition = sizeMax → ems.length ≤ seq.length + 1) ∧
      (st.lastMinimizerPosition ≠ sizeMax → st.lastMinimizerPosition ≤ seq.length →
        st.lastMinimizerPosition + ems.length ≤ seq.length) := by
  induction ems with
  | nil =>
    intro st st2 _
    exact ⟨fun _ => Nat.zero_le _, fun _ h => h⟩
  | cons em rest ih =>
    intro st st2 h
    unfold ingestEmissions at h
    split at h
    · cases h
    · rename_i st1 hstep
      obtain ⟨hpos, hin, _, _, _, _, _, _, _, _, hst1⟩ :=
        ingestEmission_inv hash k w seq revSeq lens st st1 em hstep
      have hl : st1.lastMinimizerPosition = em.1 := by rw [hst1]
      obtain ⟨_, ih2⟩ := ih st1 st2 h
      have := ih2 (by rw [hl]; omega) (by rw [hl]; omega)
      rw [hl] at this
      rw [List.length_cons]
      constructor
      · intro _
        omega
      · intro hne _
        rcases hpos with hp | hp
        · exact absurd hp hne
        · omega

theorem ingestEmissions_coverageInv (hash : List Nat → Nat) (k w : Nat)
    (seq revSeq lens : List Nat) (ems : List (Nat × Nat × Nat)) :
    ∀ (st st2 : ReadState) (B : Nat),
      CoverageInv B st.result.coverage st.result.edgeCoverage st.last →
      B + ems.length < 2 ^ 64 →
      ingestEmissions hash k w seq revSeq lens st ems = some st2 →
      CoverageInv (B + ems.length) st2.result.coverage st2.result.edgeCoverage st2.last := by
  induction ems with
  | nil =>
    intro st st2 B hinv _ h
    simp only [ingestEmissions, Option.some.injEq] at h
    subst h
    exact hinv
  | cons em rest ih =>
    intro st st2 B hinv hB h
    rw [List.length_cons] at hB ⊢
    unfold ingestEmissions at h
    split at h
    · cases h
    · rename_i st1 hstep
      have h1 := ingestEmission_coverageInv hash k w seq revSeq lens st st1 em B hinv
        (by omega) hstep
      have h2 := ih st1 st2 (B + 1) h1 (by omega) h
      have e : B + 1 + rest.length = B + (rest.length + 1) := by omega
      rw [e] at h2
      exact h2

theorem ingestRead_coverageInv (hash : List Nat → Nat) (k w : Nat) (hpc : Bool)
    (result r2 : HashList) (sequence : List Char) (B : Nat)
    (hinv : CoverageInv B result.coverage result.edgeCoverage (sizeMax, true))
    (hB : B + (sequence.length + 1) < 2 ^ 64)
    (h : ingestRead hash k w hpc result sequence = some r2) :
    CoverageInv (B + (sequence.length + 1)) r2.coverage r2.edgeCoverage (sizeMax, true) := by
  have hmono : CoverageInv (B + (sequence.length + 1)) result.coverage result.edgeCoverage
      (sizeMax, true) := coverageInv_mono B _ _ _ _ (by omega) hinv
  unfold ingestRead at h
  by_cases c1 : sequence.length = 0
  · rw [if_pos c1] at h
    cases h
    exact hmono
  · rw [if_neg c1] at h
    cases henc : (if hpc = true then runLengthEncode sequence else noRunLengthEncode sequence) with
    | none => rw [henc] at h; cases h
    | some p =>
      obtain ⟨seq, lens⟩ := p
      have hle := encode_length_le hpc sequence seq lens henc
      rw [henc] at h
      simp only at h
      by_cases c2 : seq.length ≤ (k + w) % 2 ^ 64
      · rw [if_pos c2] at h
        cases h
        exact hmono
      · rw [if_neg c2] at h
        split at h
        · cases h
        · rename_i ems hems
          split at h
          · cases h
          · rename_i st hrun
            cases h
            have hcount := (ingestEmissions_count hash k w seq (revCompRLE seq) lens
              (by unfold sizeMax; omega) ems _ _ hrun).1 rfl
            have hres := ingestEmissions_coverageInv hash k w seq (revCompRLE seq) lens ems _ _ B
              hinv (by omega) hrun
            exact coverageInv_weaken _ _ _ _
              (coverageInv_mono _ _ _ _ _ (by omega) hres)

theorem ingestReads_coverageInv (hash : List Nat → Nat) (k w : Nat) (hpc : Bool)
    (reads : List (List Char)) :
    ∀ (result r2 : HashList) (B : Nat),
      CoverageInv B result.coverage result.edgeCoverage (sizeMax, true) →
      B + (reads.map (fun r => r.length + 1)).sum < 2 ^ 64 →
      ingestReads hash k w hpc result reads = some r2 →
      CoverageInv (B + (reads.map (fun r => r.length + 1)).sum) r2.coverage r2.edgeCoverage
        (sizeMax, true) := by
  induction reads with
  | nil =>
    intro result r2 B hinv _ h
    simp only [ingestReads, Option.some.injEq] at h
    subst h
    exact hinv
  | cons read rest ih =>
    intro result r2 B hinv hB h
    rw [List.map_cons, List.sum_cons] at hB ⊢
    unfold ingestReads at h
    split at h
    · cases h
    · rename_i r1 hstep
      have h1 := ingestRead_coverageInv hash k w hpc result r1 read B hinv (by omega) hstep
      have h2 := ih r1 r2 _ h1 (by omega) h
      rw [Nat.add_assoc] at h2
      exact h2

/-- The hash list after ingestion: every edge coverage is at most the coverage of both end
nodes, when the reads are short enough for the `size_t` counters. -/
theorem loadReadsAsHashes_within (hash : List Nat → Nat) (reads : List (List Char))
    (k w : Nat) (hpc : Bool) (result : HashList)
    (hsize : (reads.map (fun r => r.length + 1)).sum < 2 ^ 64)
    (h : loadReadsAsHashes hash reads k w hpc = some result) :
    result.EdgesWithinCoverage := by
  unfold loadReadsAsHashes at h
  split at h
  · cases h
  · rename_i r hr
    cases h
    have h0 : CoverageInv 0 (HashList.empty k).coverage (HashList.empty k).edgeCoverage
        (sizeMax, true) := by
      refine ⟨?_, fun hne => absurd rfl hne, ?_⟩
      · intro a m b v hget _
        unfold HashList.empty VectorWithDirection.get? at hget
        split_ifs at hget <;> simp at hget
      · intro i c hi
        simp [HashList.empty] at hi
    have hinv := ingestReads_coverageInv hash k w hpc reads _ _ 0 h0 (by omega) hr
    intro a m b v hget hmem
    obtain ⟨ca, cb, e1, e2, e3, e4⟩ := hinv.1 a m b v hget hmem
    refine ⟨ca, cb, e1, e2, ?_⟩
    rw [Nat.le_min]
    constructor
    · split_ifs at e3 <;> omega
    · split_ifs at e4 <;> omega

/-- C21: in the hash list produced by ingesting any list of reads, every stored (canonical)
edge `(a, b)` satisfies `edgeCoverage[a][b] ≤ min(coverage[a.id], coverage[b.id])`.  The
counters are `size_t` values: the reads hold fewer than `2 ^ 64` characters in all. -/
theorem edge_coverage_within_node_coverage (hash : List Nat → Nat)
    (reads : List (List Char)) (k w : Nat) (hpc : Bool) (result : HashList)
    (hsize : (reads.map (fun r => r.length + 1)).sum < 2 ^ 64)
    (hload : loadReadsAsHashes hash reads k w hpc = some result) :
    result.edgeCoverage.Canonical ∧
      ∀ (a : DirNode) (m : List (DirNode × Nat)) (b : DirNode) (v : Nat),
        result.edgeCoverage.get? a = some m → (b, v) ∈ m →
        ∃ ca cb, result.coverage[a.1]? = some ca ∧ result.coverage[b.1]? = some cb ∧
          v ≤ min ca cb :=
  ⟨(loadReadsAsHashes_canonical hash reads k w hpc result hload).2,
    loadReadsAsHashes_within hash reads k w hpc result hsize hload⟩

/-- C21 (witness): the two reads of the worked example. -/
theorem edge_coverage_within_node_coverage_witness :
    loadReadsAsHashes exampleHash exampleReads 3 2 false = some exampleLoaded ∧
      exampleLoaded.edgeCoverage.Canonical ∧
      ∀ (a : DirNode) (m : List (DirNode × Nat)) (b : DirNode) (v : Nat),
        exampleLoaded.edgeCoverage.get? a = some m → (b, v) ∈ m →
        ∃ ca cb, exampleLoaded.coverage[a.1]? = some ca ∧
          exampleLoaded.coverage[b.1]? = some cb ∧ v ≤ min ca cb :=
  ⟨by decide,
    edge_coverage_within_node_coverage exampleHash exampleReads 3 2 false exampleLoaded
      (by decide) (by decide)⟩

/-! ## The unitig builder on a walk through two hairpins -/

/-- C26 (failing input): the read `GATCGCG` with `k = 3`, `w = 2` gives a well-formed hash
list (canonical keys, edge coverage within node coverage, unchanged by the cleaner) in which
every directed node has exactly one outgoing edge, through the hairpin edges of both nodes.
The first loop of `getUnitigGraph` starts no unitig; the second loop starts one at node 0
forward, which stops at the hairpin with the single node `(0, +)`, and the assertion
`result.unitigs.back().back() == reverse(bwEdges[0])` compares it with `(1, -)`:
`getUnitigGraph` stops there for every `fuel`. -/
theorem getUnitigGraph_stops_on_hairpin_cycle :
    loadReadsAsHashes exampleHash [['G', 'A', 'T', 'C', 'G', 'C', 'G']] 3 2 false
        = some exampleHairpin ∧
      cleanTransitiveEdges exampleHash id 50 exampleHairpin 3 = some exampleHairpin ∧
      exampleHairpin.edgeCoverage.Canonical ∧ exampleHairpin.EdgesWithinCoverage ∧
      getCoveredEdges id exampleHairpin 1 = some exampleHairpinEdges ∧
      branchLoop 10 exampleHairpinEdges exampleHairpin 1 2 0
          { result := UnitigGraph.empty, belongsToUnitig := [false, false], unitigTip := [] }
        = some { result := UnitigGraph.empty, belongsToUnitig := [false, false],
                 unitigTip := [] } ∧
      (startUnitigAndTips 10 exampleHairpinEdges exampleHairpin
          { result := UnitigGraph.empty, belongsToUnitig := [false, false], unitigTip := [] }
          (0, true)).map (fun st => st.result.unitigs) = some [[(0, true)]] ∧
      (exampleHairpinEdges.getEdges (0, false)).map (fun l => l.map reverse)
        = some [(1, false)] ∧
      ∀ fuel, getUnitigGraph id id fuel exampleHairpin 1 = none := by
  have hload : loadReadsAsHashes exampleHash [['G', 'A', 'T', 'C', 'G', 'C', 'G']] 3 2 false
      = some exampleHairpin := by decide
  refine ⟨hload, by decide,
    (loadReadsAsHashes_canonical _ _ _ _ _ _ hload).2,
    loadReadsAsHashes_within _ _ _ _ _ _ (by decide) hload,
    by decide, by decide, by decide, by decide, ?_⟩
  intro fuel
  cases fuel with
  | zero => decide
  | succ f => rfl

/-! ## Single counters through the transitive cleaner -/

theorem mapFind_mapSet {κ ν : Type} [DecidableEq κ] (m : List (κ × ν)) (key key2 : κ)
    (value : ν) :
    mapFind (mapSet m key value) key2 = if key2 = key then some value else mapFind m key2 := by
  induction m with
  | nil =>
    unfold mapSet mapFind
    by_cases h : key2 = key
    · rw [if_pos h.symm, if_pos h]
    · rw [if_neg (fun hx => h hx.symm), if_neg h]
      rfl
  | cons e rest ih =>
    unfold mapSet
    by_cases he : e.1 = key
    · rw [if_pos he]
      unfold mapFind
      by_cases h : key2 = key
      · rw [if_pos h.symm, if_pos h]
      · rw [if_neg (fun hx => h hx.symm), if_neg h, if_neg (fun hx => h (by rw [← hx, he]))]
    · rw [if_neg he]
      unfold mapFind
      by_cases h2 : e.1 = key2
      · rw [if_pos h2, if_pos h2, if_neg (fun hx => he (by rw [h2, hx]))]
      · rw [if_neg h2, if_neg h2]
        exact ih

theorem valueAt_assign (maps maps2 : EdgeMaps) (a b x y : DirNode) (value : Nat)
    (h : maps.assign a b value = some maps2) :
    maps2.valueAt x y = if x = a ∧ y = b then value else maps.valueAt x y := by
  unfold EdgeMaps.assign at h
  cases hm : maps.get? a with
  | none => rw [hm] at h; cases h
  | some m =>
    rw [hm] at h
    simp only at h
    unfold EdgeMaps.valueAt
    by_cases hx : x = a
    · subst hx
      rw [get?_set?_self _ _ _ _ h, hm]
      simp only
      rw [mapFind_mapSet]
      by_cases hy : y = b
      · rw [if_pos hy, if_pos ⟨trivial, hy⟩]
        rfl
      · rw [if_neg hy, if_neg (fun hxy => hy hxy.2)]
    · rw [get?_set?_of_ne _ _ _ _ _ h hx, if_neg (fun hxy => hx hxy.1)]

theorem valueAt_le_total (maps : EdgeMaps) (x y : DirNode) : maps.valueAt x y ≤ maps.total := by
  unfold EdgeMaps.valueAt
  cases hm : maps.get? x with
  | none => exact Nat.zero_le _
  | some m =>
    simp only
    exact Nat.le_trans (mapFind_le_mapSum m y) (mapSum_le_total maps x m hm)

theorem valueAt_increase (maps maps2 : EdgeMaps) (a b x y : DirNode) (amount : Nat)
    (hfit : maps.total + amount < 2 ^ 64)
    (h : maps.increase a b amount = some maps2) :
    maps2.valueAt x y = maps.valueAt x y + (if x = a ∧ y = b then amount else 0) := by
  unfold EdgeMaps.increase at h
  unfold EdgeMaps.valueOrZero at h
  cases hget : maps.get? a with
  | none => rw [hget] at h; cases h
  | some m =>
    rw [hget] at h
    simp only at h
    have hv : maps.valueAt a b = (mapFind m b).getD 0 := by
      unfold EdgeMaps.valueAt
      rw [hget]
    have hle := valueAt_le_total maps a b
    rw [← hv, Nat.mod_eq_of_lt (by omega)] at h
    rw [valueAt_assign maps maps2 a b x y _ h]
    by_cases hxy : x = a ∧ y = b
    · rw [if_pos hxy, if_pos hxy, hxy.1, hxy.2]
    · rw [if_neg hxy, if_neg hxy, Nat.add_zero]

theorem valueAt_applyAdd (x y : DirNode) (l : List (DirNode × DirNode × Nat)) :
    ∀ maps maps2 : EdgeMaps, maps.total + amountSum l < 2 ^ 64 →
      applyAdd maps l = some maps2 →
      maps2.valueAt x y = maps.valueAt x y
        + amountSum (l.filter (fun t => decide (t.1 = x ∧ t.2.1 = y))) := by
  induction l with
  | nil =>
    intro maps maps2 _ h
    simp only [applyAdd, Option.some.injEq] at h
    subst h
    rfl
  | cons t rest ih =>
    intro maps maps2 hfit h
    rw [amountSum_cons] at hfit
    unfold applyAdd at h
    split at h
    · cases h
    · rename_i m2 hm2
      have h1 := valueAt_increase maps m2 t.1 t.2.1 x y t.2.2 (by omega) hm2
      have h0 := total_increase maps m2 t.1 t.2.1 t.2.2 (by omega) hm2
      have h2 := ih m2 maps2 (by omega) h
      rw [h2, h1]
      by_cases hxy : t.1 = x ∧ t.2.1 = y
      · rw [List.filter_cons_of_pos (by simpa using hxy), amountSum_cons,
          if_pos ⟨hxy.1.symm, hxy.2.symm⟩]
        omega
      · rw [List.filter_cons_of_neg (by simpa using hxy),
          if_neg (fun hx => hxy ⟨hx.1.symm, hx.2.symm⟩)]
        omega

theorem valueAt_applyRemove (x y : DirNode) (l : List (DirNode × DirNode × Nat)) :
    ∀ maps maps2 : EdgeMaps, applyRemove maps l = some maps2 →
      maps2.valueAt x y + amountSum (l.filter (fun t => decide (t.1 = x ∧ t.2.1 = y)))
        = maps.valueAt x y := by
  induction l with
  | nil =>
    intro maps maps2 h
    simp only [applyRemove, Option.some.injEq] at h
    subst h
    rfl
  | cons t rest ih =>
    intro maps maps2 h
    unfold applyRemove at h
    split at h
    · cases h
    · rename_i m hm
      split at h
      · cases h
      · rename_i old hold
        split_ifs at h with hge
        split at h
        · cases h
        · rename_i m2 hm2
          have h1 := valueAt_assign maps m2 t.1 t.2.1 x y _ hm2
          have h2 := ih m2 maps2 h
          have hv : maps.valueAt t.1 t.2.1 = old := by
            unfold EdgeMaps.valueAt
            rw [hm]
            simp only [hold, Option.getD_some]
          by_cases hxy : t.1 = x ∧ t.2.1 = y
          · rw [List.filter_cons_of_pos (by simpa using hxy), amountSum_cons]
            rw [if_pos ⟨hxy.1.symm, hxy.2.symm⟩] at h1
            rw [← hxy.1, ← hxy.2, hv]
            rw [← hxy.1, ← hxy.2] at h2 h1
            omega
          · rw [List.filter_cons_of_neg (by simpa using hxy)]
            rw [if_neg (fun hx => hxy ⟨hx.1.symm, hx.2.symm⟩)] at h1
            omega

theorem addCoverage_at (coverage cov2 : List Nat) (index amount : Nat)
    (hfit : coverage.sum + amount < 2 ^ 64)
    (h : addCoverage coverage index amount = some cov2) (n c : Nat)
    (hn : coverage[n]? = some c) :
    cov2[n]? = some (c + (if n = index then amount else 0)) := by
  obtain ⟨old, hold, hset⟩ := addCoverage_inv coverage cov2 index amount h
  have hle : old ≤ coverage.sum := List.single_le_sum (by simp) _ (List.getElem?_mem hold)
  rw [Nat.mod_eq_of_lt (by omega)] at hset
  rw [hset]
  by_cases hni : n = index
  · subst hni
    rw [hold] at hn
    cases hn
    rw [if_pos rfl, List.getElem?_set_self (List.getElem?_eq_some_iff.mp hold).1]
  · rw [if_neg hni, List.getElem?_set_ne (fun hx => hni hx.symm), Nat.add_zero]
    exact hn

theorem addCoverageAll_at (amount : Nat) (nodes : List DirNode) :
    ∀ coverage cov2 : List Nat, coverage.sum + amount * nodes.length < 2 ^ 64 →
      addCoverageAll amount coverage nodes = some cov2 →
      ∀ (n c : Nat), coverage[n]? = some c →
        cov2[n]? = some (c + amount * (nodes.filter (fun x => decide (x.1 = n))).length) := by
  induction nodes with
  | nil =>
    intro coverage cov2 _ h n c hn
    simp only [addCoverageAll, Option.some.injEq] at h
    subst h
    simpa using hn
  | cons node rest ih =>
    intro coverage cov2 hfit h n c hn
    rw [List.length_cons, Nat.mul_succ] at hfit
    unfold addCoverageAll at h
    split at h
    · cases h
    · rename_i c2 hc2
      obtain ⟨h1, _, _⟩ := addCoverage_spec coverage c2 node.1 amount (by omega) hc2
      have hat := addCoverage_at coverage c2 node.1 amount (by omega) hc2 n c hn
      have := ih c2 cov2 (by omega) h n _ hat
      rw [this]
      congr 1
      by_cases hx : node.1 = n
      · rw [List.filter_cons_of_pos (by simpa using hx), List.length_cons, if_pos hx.symm,
          Nat.mul_succ]
        omega
      · rw [List.filter_cons_of_neg (by simpa using hx), if_neg (fun hy => hx hy.symm)]
        omega

/-! ## One re-routed edge -/

theorem mem_zip_tail_iff {α : Type} (l : List α) (e : α × α) :
    e ∈ l.zip l.tail ↔ ∃ i, l[i]? = some e.1 ∧ l[i + 1]? = some e.2 := by
  rw [List.mem_iff_getElem?]
  constructor
  · rintro ⟨i, hi⟩
    rw [List.getElem?_zip_eq_some, List.getElem?_tail] at hi
    exact ⟨i, hi⟩
  · rintro ⟨i, hi⟩
    refine ⟨i, ?_⟩
    rw [List.getElem?_zip_eq_some, List.getElem?_tail]
    exact hi

theorem mem_zip_tail_concat {α : Type} (l : List α) (x : α) (e : α × α)
    (h : e ∈ l.zip l.tail) : e ∈ (l ++ [x]).zip (l ++ [x]).tail := by
  rw [mem_zip_tail_iff] at h ⊢
  obtain ⟨i, h1, h2⟩ := h
  have hlt : i + 1 < l.length := (List.getElem?_eq_some_iff.mp h2).1
  refine ⟨i, ?_, ?_⟩
  · rw [List.getElem?_append_left (by omega)]
    exact h1
  · rw [List.getElem?_append_left hlt]
    exact h2

theorem mem_zip_tail_last {α : Type} (l : List α) (x y : α) :
    (x, y) ∈ (l ++ [x] ++ [y]).zip (l ++ [x] ++ [y]).tail := by
  rw [mem_zip_tail_iff]
  refine ⟨l.length, ?_, ?_⟩
  · rw [List.append_assoc, List.getElem?_append_right (Nat.le_refl _), Nat.sub_self]
    rfl
  · have e : l.length + 1 - l.length = 1 := by omega
    rw [List.append_assoc, List.getElem?_append_right (by omega), e]
    rfl

/-- A chain without an entry in `transitiveMiddle` for any of its steps comes back as it
is. -/
theorem insertMiddlesLoop_plain
    (tm : VectorWithDirection (List (DirNode × List DirNode))) (fuel : Nat) :
    ∀ raw result out : List DirNode,
      (∀ e ∈ raw.zip raw.tail, ∀ m, tm.get? e.1 = some m → mapFind m e.2 = none) →
      insertMiddlesLoop tm fuel raw result = some out → out = raw ++ result.reverse := by
  induction fuel with
  | zero =>
    intro raw result out _ h
    simp [insertMiddlesLoop] at h
  | succ fuel ih =>
    intro raw result out hno h
    unfold insertMiddlesLoop at h
    split at h
    · cases h
    · rename_i last hrev
      cases h
      have hraw : raw = [last] := by
        rw [List.reverse_eq_iff] at hrev
        rw [hrev]
        rfl
      rw [hraw, List.reverse_append]
      rfl
    · rename_i dst src rest hrev
      have hraw : raw = rest.reverse ++ [src] ++ [dst] := by
        rw [List.reverse_eq_iff] at hrev
        rw [hrev, List.reverse_cons, List.reverse_cons]
      split at h
      · cases h
      · rename_i m hm
        have hnone : mapFind m dst = none := by
          apply hno (src, dst) _ m hm
          rw [hraw]
          exact mem_zip_tail_last _ _ _
        rw [hnone] at h
        simp only at h
        have hdrop : raw.dropLast = rest.reverse ++ [src] := by
          rw [hraw, List.dropLast_concat]
        rw [hdrop] at h
        have := ih _ _ _ (by
          intro e he m2 hm2
          apply hno e _ m2 hm2
          rw [hraw]
          exact mem_zip_tail_concat _ _ _ he) h
        rw [this, hraw, List.reverse_append]
        simp

/-- The chain of the edge `(u, v)` that has the middle `ws`, when no step of the chain has a
middle of its own. -/
theorem insertMiddles_chain (cleaner : TransitiveCleaner) (fuel : Nat) (u v : DirNode)
    (mu : List (DirNode × List DirNode)) (ws out : List DirNode)
    (hget : cleaner.transitiveMiddle.get? u = some mu) (hfind : mapFind mu v = some ws)
    (hplain : ∀ e ∈ ([u] ++ ws ++ [v]).zip ([u] ++ ws ++ [v]).tail,
      ∀ m, cleaner.transitiveMiddle.get? e.1 = some m → mapFind m e.2 = none)
    (h : cleaner.insertMiddles fuel [u, v] = some out) :
    out = [u] ++ ws ++ [v] ∧ 0 < ws.length := by
  unfold TransitiveCleaner.insertMiddles at h
  cases fuel with
  | zero => simp [insertMiddlesLoop] at h
  | succ f =>
    rw [insertMiddlesLoop] at h
    simp only [List.reverse_cons, List.reverse_nil, List.nil_append, List.singleton_append,
      hget, hfind] at h
    split_ifs at h with hlen
    have := insertMiddlesLoop_plain cleaner.transitiveMiddle f _ _ _ (by
      intro e he m hm
      exact hplain e (by simpa using he) m hm) h
    simp only [List.reverse_nil, List.append_nil] at this
    refine ⟨?_, hlen⟩
    rw [this]
    simp

theorem insertMiddles_direct (cleaner : TransitiveCleaner) (fuel : Nat) (a t : DirNode)
    (out : List DirNode)
    (hplain : ∀ m, cleaner.transitiveMiddle.get? a = some m → mapFind m t = none)
    (h : cleaner.insertMiddles fuel [a, t] = some out) : out = [a, t] := by
  unfold TransitiveCleaner.insertMiddles at h
  have := insertMiddlesLoop_plain cleaner.transitiveMiddle fuel [a, t] [] out (by
    intro e he m hm
    simp only [List.tail_cons, List.zip_cons_cons, List.zip_nil_right, List.mem_singleton] at he
    subst he
    exact hplain m hm) h
  simpa using this

theorem cleanTargets_direct (cleaner : TransitiveCleaner) (fuel : Nat) (start : DirNode)
    (targets : List (DirNode × Nat))
    (hplain : ∀ t ∈ targets, ∀ m, cleaner.transitiveMiddle.get? start = some m →
      mapFind m t.1 = none) :
    ∀ acc acc2 : CleanAcc, cleanTargets cleaner fuel start acc targets = some acc2 →
      acc2 = acc := by
  induction targets with
  | nil =>
    intro acc acc2 h
    simp only [cleanTargets, Option.some.injEq] at h
    exact h.symm
  | cons target rest ih =>
    intro acc acc2 h
    unfold cleanTargets at h
    split at h
    · cases h
    · rename_i vec hvec
      have hv := insertMiddles_direct cleaner fuel start target.1 vec
        (hplain target (List.mem_cons_self _ _)) hvec
      rw [hv] at h
      simp only [List.length_cons, List.length_nil, Nat.zero_add, Nat.reduceAdd, if_true] at h
      exact ih (fun t ht => hplain t (List.mem_cons_of_mem _ ht)) _ _ h

/-- The targets of `u` when exactly one of them, `(v, c)`, has a chain. -/
theorem cleanTargets_single (cleaner : TransitiveCleaner) (fuel : Nat) (u v : DirNode)
    (mu : List (DirNode × List DirNode)) (ws : List DirNode) (c : Nat)
    (l1 l2 : List (DirNode × Nat))
    (hget : cleaner.transitiveMiddle.get? u = some mu) (hfind : mapFind mu v = some ws)
    (hplain : ∀ e ∈ ([u] ++ ws ++ [v]).zip ([u] ++ ws ++ [v]).tail,
      ∀ m, cleaner.transitiveMiddle.get? e.1 = some m → mapFind m e.2 = none)
    (h1 : ∀ t ∈ l1, mapFind mu t.1 = none) (h2 : ∀ t ∈ l2, mapFind mu t.1 = none)
    (acc acc2 : CleanAcc)
    (h : cleanTargets cleaner fuel u acc (l1 ++ (v, c) :: l2) = some acc2) :
    ∃ cov, addCoverageAll c acc.coverage ws = some cov ∧
      acc2 = { coverage := cov
               addEdgeCoverage := acc.addEdgeCoverage ++ chainEdges ([u] ++ ws ++ [v]) c
               removeEdgeCoverage :=
                 acc.removeEdgeCoverage ++ [((canon u v).1, (canon u v).2, c)] } := by
  induction l1 generalizing acc with
  | nil =>
    rw [List.nil_append] at h
    unfold cleanTargets at h
    split at h
    · cases h
    · rename_i vec hvec
      obtain ⟨hv, hlen⟩ := insertMiddles_chain cleaner fuel u v mu ws vec hget hfind hplain hvec
      have hne : ¬ vec.length = 2 := by
        rw [hv]
        simp only [List.length_append, List.length_singleton]
        omega
      rw [if_neg hne] at h
      have hhead : vec.head? = some u := by rw [hv]; rfl
      have hlast : vec.getLast? = some v := by
        rw [hv, List.getLast?_concat]
      have htail : vec.tail.dropLast = ws := by
        rw [hv]
        simp
      rw [hhead, hlast] at h
      simp only at h
      rw [htail] at h
      split at h
      · cases h
      · rename_i cov hcov
        have := cleanTargets_direct cleaner fuel u l2 (by
          intro t ht m hm
          rw [hget] at hm
          cases hm
          exact h2 t ht) _ _ h
        refine ⟨cov, hcov, ?_⟩
        rw [this, hv]
        rfl
  | cons t rest ih =>
    rw [List.cons_append] at h
    unfold cleanTargets at h
    split at h
    · cases h
    · rename_i vec hvec
      have hv := insertMiddles_direct cleaner fuel u t.1 vec (by
        intro m hm
        rw [hget] at hm
        cases hm
        exact h1 t (List.mem_cons_self _ _)) hvec
      rw [hv] at h
      simp only [List.length_cons, List.length_nil, Nat.zero_add, Nat.reduceAdd, if_true] at h
      exact ih (fun x hx => h1 x (List.mem_cons_of_mem _ hx)) acc h

theorem cleanNodesLoop_single (order : List (DirNode × Nat) → List (DirNode × Nat))
    (cleaner : TransitiveCleaner) (fuel : Nat) (ec : EdgeMaps) (u v : DirNode)
    (ws : List DirNode) (c : Nat) (mu l1 l2 : List (DirNode × Nat))
    (hget : cleaner.transitiveMiddle.get? u = some [(v, ws)])
    (hothers : ∀ a m, a ≠ u → cleaner.transitiveMiddle.get? a = some m → m = [])
    (hplain : ∀ e ∈ ([u] ++ ws ++ [v]).zip ([u] ++ ws ++ [v]).tail, e ≠ (u, v))
    (hedge : ec.get? u = some mu) (hdecomp : order mu = l1 ++ (v, c) :: l2)
    (hl1 : ∀ t ∈ l1, t.1 ≠ v) (hl2 : ∀ t ∈ l2, t.1 ≠ v) (n : Nat) :
    ∀ (node : Nat) (acc acc2 : CleanAcc),
      cleanNodesLoop order cleaner fuel ec n node acc = some acc2 →
      (node ≤ u.1 ∧ u.1 < node + n →
        ∃ cov, addCoverageAll c acc.coverage ws = some cov ∧
          acc2 = { coverage := cov
                   addEdgeCoverage := acc.addEdgeCoverage ++ chainEdges ([u] ++ ws ++ [v]) c
                   removeEdgeCoverage :=
                     acc.removeEdgeCoverage ++ [((canon u v).1, (canon u v).2, c)] }) ∧
      (¬ (node ≤ u.1 ∧ u.1 < node + n) → acc2 = acc) := by
  have hfindv : mapFind [(v, ws)] v = some ws := by
    unfold mapFind
    rw [if_pos rfl]
  have hfindne : ∀ t : DirNode, t ≠ v → mapFind [(v, ws)] t = none := by
    intro t ht
    unfold mapFind
    rw [if_neg (fun hx => ht hx.symm)]
    rfl
  have hchain : ∀ e ∈ ([u] ++ ws ++ [v]).zip ([u] ++ ws ++ [v]).tail,
      ∀ m, cleaner.transitiveMiddle.get? e.1 = some m → mapFind m e.2 = none := by
    intro e he m hm
    by_cases h1 : e.1 = u
    · rw [h1, hget] at hm
      cases hm
      apply hfindne
      intro h2
      exact hplain e he (Prod.ext h1 h2)
    · rw [hothers e.1 m h1 hm]
      rfl
  have hside : ∀ (s : DirNode) (T : List (DirNode × Nat)) (acc acc1 : CleanAcc),
      ec.get? s = some T → cleanTargets cleaner fuel s acc (order T) = some acc1 →
      (s = u → ∃ cov, addCoverageAll c acc.coverage ws = some cov ∧
          acc1 = { coverage := cov
                   addEdgeCoverage := acc.addEdgeCoverage ++ chainEdges ([u] ++ ws ++ [v]) c
                   removeEdgeCoverage :=
                     acc.removeEdgeCoverage ++ [((canon u v).1, (canon u v).2, c)] }) ∧
      (s ≠ u → acc1 = acc) := by
    intro s T acc acc1 hT hrun
    constructor
    · intro hs
      subst hs
      rw [hedge] at hT
      cases hT
      rw [hdecomp] at hrun
      exact cleanTargets_single cleaner fuel s v [(v, ws)] ws c l1 l2 hget hfindv hchain
        (fun t ht => hfindne _ (hl1 t ht)) (fun t ht => hfindne _ (hl2 t ht)) acc acc1 hrun
    · intro hs
      exact cleanTargets_direct cleaner fuel s (order T) (by
        intro t _ m hm
        rw [hothers s m hs hm]
        rfl) acc acc1 hrun
  induction n with
  | zero =>
    intro node acc acc2 h
    simp only [cleanNodesLoop, Option.some.injEq] at h
    exact ⟨fun hx => by omega, fun _ => h.symm⟩
  | succ n ih =>
    intro node acc acc2 h
    unfold cleanNodesLoop at h
    split at h
    · rename_i fwT bwT hfw hbw
      split at h
      · cases h
      · rename_i acc1 hrun1
        split at h
        · cases h
        · rename_i acc3 hrun3
          obtain ⟨a1, a2⟩ := hside (node, true) fwT acc acc1 hfw hrun1
          obtain ⟨b1, b2⟩ := hside (node, false) bwT acc1 acc3 hbw hrun3
          obtain ⟨c1, c2⟩ := ih (node + 1) acc3 acc2 h
          by_cases hu : u.1 = node
          · -- the node of `u`
            have hrest : acc2 = acc3 := c2 (by omega)
            constructor
            · intro _
              by_cases ho : u.2 = true
              · have hs : (node, true) = u := by
                  rw [← hu, ← ho]
                have hs2 : (node, false) ≠ u := by
                  intro hx
                  rw [← hx] at ho
                  cases ho
                obtain ⟨cov, h1, h2⟩ := a1 hs
                rw [hrest, b2 hs2, h2]
                exact ⟨cov, h1, rfl⟩
              · have ho2 : u.2 = false := by
                  cases hx : u.2 with
                  | true => exact absurd hx ho
                  | false => rfl
                have hs : (node, false) = u := by
                  rw [← hu, ← ho2]
                have hs2 : (node, true) ≠ u := by
                  intro hx
                  rw [← hx] at ho2
                  cases ho2
                obtain ⟨cov, h1, h2⟩ := b1 hs
                rw [a2 hs2] at h1 h2
                rw [hrest, h2]
                exact ⟨cov, h1, rfl⟩
            · intro hx
              omega
          · have hs1 : (node, true) ≠ u := by
              intro hx
              rw [← hx] at hu
              exact hu rfl
            have hs2 : (node, false) ≠ u := by
              intro hx
              rw [← hx] at hu
              exact hu rfl
            have e13 : acc3 = acc := by rw [b2 hs2, a2 hs1]
            rw [e13] at c1 c2
            constructor
            · intro hx
              exact c1 (by omega)
            · intro hx
              exact c2 (by omega)
    · cases h

theorem amountSum_filter_chainEdges (vec : List DirNode) (c : Nat) (a b : DirNode) :
    amountSum ((chainEdges vec c).filter (fun t => decide (t.1 = a ∧ t.2.1 = b)))
      = c * ((vec.zip vec.tail).filter (fun e => decide (canon e.1 e.2 = (a, b)))).length := by
  unfold chainEdges
  induction vec.zip vec.tail with
  | nil => rfl
  | cons e rest ih =>
    rw [List.map_cons]
    by_cases h : canon e.1 e.2 = (a, b)
    · have h1 : (canon e.1 e.2).1 = a ∧ (canon e.1 e.2).2 = b := by
        rw [h]
        exact ⟨rfl, rfl⟩
      rw [List.filter_cons_of_pos (by simpa using h1), List.filter_cons_of_pos (by simpa using h),
        amountSum_cons, ih, List.length_cons, Nat.mul_succ]
      simp only
      omega
    · have h1 : ¬ ((canon e.1 e.2).1 = a ∧ (canon e.1 e.2).2 = b) := by
        intro hx
        exact h (Prod.ext hx.1 hx.2)
      rw [List.filter_cons_of_neg (by simpa using h1), List.filter_cons_of_neg (by simpa using h),
        ih]

theorem amountSum_chainEdges (vec : List DirNode) (c : Nat) :
    amountSum (chainEdges vec c) = c * (vec.length - 1) := by
  unfold chainEdges
  rw [amountSum_map_const, List.length_zip, List.length_tail]
  congr 1
  omega

/-- A run of `cleanTransitiveEdges` that returned, on a hash list in which exactly one edge
`u -> v`, of coverage `c`, has a chain `[u, w1..wm, v]` (no step of the chain has a chain of
its own): `c` was added to the coverage of a node once for every occurrence of the node among
the `w_i`, `c` was added to the edge coverage of every canonical chain edge once for every
step of the chain that is this edge, and `c` was taken from that of `canon(u, v)`. -/
theorem single_chain_result (hash : List Nat → Nat)
    (order : List (DirNode × Nat) → List (DirNode × Nat)) (fuel : Nat)
    (list cleaned : HashList) (k : Nat) (cleaner : TransitiveCleaner) (u v : DirNode)
    (ws : List DirNode) (c : Nat) (mu : List (DirNode × Nat))
    (hclean : cleanTransitiveEdges hash order fuel list k = some cleaned)
    (hmake : TransitiveCleaner.make hash order k list = some cleaner)
    (hchain : cleaner.transitiveMiddle.get? u = some [(v, ws)])
    (hothers : ∀ a m, a ≠ u → cleaner.transitiveMiddle.get? a = some m → m = [])
    (hplain : ∀ e ∈ ([u] ++ ws ++ [v]).zip ([u] ++ ws ++ [v]).tail, e ≠ (u, v))
    (hedge : list.edgeCoverage.get? u = some mu) (hmem : (v, c) ∈ mu)
    (hkeys : (mu.map Prod.fst).Nodup) (horder : (order mu).Perm mu)
    (hshape : list.edgeCoverage.backward.length = list.edgeCoverage.forward.length)
    (hcov : list.coverage.sum + c * (ws.length + 1) < 2 ^ 64)
    (hec : list.edgeCoverage.total + c * (ws.length + 1) < 2 ^ 64) :
    1 ≤ ws.length ∧
      (∀ (n c0 : Nat), list.coverage[n]? = some c0 →
        cleaned.coverage[n]?
          = some (c0 + c * (ws.filter (fun x => decide (x.1 = n))).length)) ∧
      ((∀ x ∈ ws, x.1 ≠ u.1) → cleaned.coverage[u.1]? = list.coverage[u.1]?) ∧
      ((∀ x ∈ ws, x.1 ≠ v.1) → cleaned.coverage[v.1]? = list.coverage[v.1]?) ∧
      ∀ a b : DirNode,
        cleaned.edgeCoverage.valueAt a b + (if (a, b) = canon u v then c else 0)
          = list.edgeCoverage.valueAt a b
            + c * ((([u] ++ ws ++ [v]).zip ([u] ++ ws ++ [v]).tail).filter
                (fun e => decide (canon e.1 e.2 = (a, b)))).length := by
  -- the order of the targets of `u`
  have hin : (v, c) ∈ order mu := horder.mem_iff.mpr hmem
  obtain ⟨l1, l2, hdecomp⟩ := List.append_of_mem hin
  have hnd : ((order mu).map Prod.fst).Nodup := (horder.map Prod.fst).nodup_iff.mpr hkeys
  rw [hdecomp, List.map_append, List.map_cons, List.nodup_append] at hnd
  obtain ⟨_, hnd2, hdisj⟩ := hnd
  rw [List.nodup_cons] at hnd2
  have hl1 : ∀ t ∈ l1, t.1 ≠ v := by
    intro t ht hx
    exact hdisj (List.mem_map.mpr ⟨t, ht, rfl⟩) (by rw [hx]; exact List.mem_cons_self _ _)
  have hl2 : ∀ t ∈ l2, t.1 ≠ v := by
    intro t ht hx
    exact hnd2.1 (List.mem_map.mpr ⟨t, ht, hx⟩)
  have hu : u.1 < list.edgeCoverage.size := by
    unfold VectorWithDirection.size
    unfold VectorWithDirection.get? at hedge
    split_ifs at hedge
    · exact (List.getElem?_eq_some_iff.mp hedge).1
    · have := (List.getElem?_eq_some_iff.mp hedge).1
      omega
  unfold cleanTransitiveEdges at hclean
  rw [hmake] at hclean
  simp only at hclean
  split at hclean
  · cases hclean
  · rename_i acc hacc
    obtain ⟨cov, hcov2, hacc2⟩ := (cleanNodesLoop_single order cleaner fuel list.edgeCoverage u v
      ws c mu l1 l2 hchain hothers hplain hedge hdecomp hl1 hl2 _ _ _ _ hacc).1
      ⟨Nat.zero_le _, by omega⟩
    simp only [List.nil_append] at hacc2 hcov2
    subst hacc2
    -- the chain is longer than the edge
    have hlen : 1 ≤ ws.length := by
      by_contra hx
      have hws : ws = [] := List.length_eq_zero.mp (by omega)
      subst hws
      exact hplain (u, v) (by simp) rfl
    split at hclean
    · cases hclean
    · split at hclean
      · cases hclean
      · rename_i ec1 hec1
        split at hclean
        · cases hclean
        · rename_i ec2 hec2
          cases hclean
          simp only at hec1 hec2 ⊢
          have hvl : ([u] ++ ws ++ [v]).length - 1 = ws.length + 1 := by
            simp only [List.length_append, List.length_singleton]
            omega
          have hsum : amountSum (chainEdges ([u] ++ ws ++ [v]) c) = c * (ws.length + 1) := by
            rw [amountSum_chainEdges, hvl]
          have hmul : c * ws.length ≤ c * (ws.length + 1) := Nat.mul_le_mul_left _ (by omega)
          have hat := addCoverageAll_at c ws list.coverage cov (by omega) hcov2
          refine ⟨hlen, hat, ?_, ?_, ?_⟩
          · intro hne
            cases hcu : list.coverage[u.1]? with
            | none =>
              have hl := (addCoverageAll_spec c ws list.coverage cov (by omega) hcov2).2.1
              rw [List.getElem?_eq_none_iff] at hcu ⊢
              omega
            | some c0 =>
              rw [hat _ _ hcu, List.filter_eq_nil_iff.mpr (by
                intro x hx
                simpa using hne x hx), List.length_nil, Nat.mul_zero, Nat.add_zero]
          · intro hne
            cases hcv : list.coverage[v.1]? with
            | none =>
              have hl := (addCoverageAll_spec c ws list.coverage cov (by omega) hcov2).2.1
              rw [List.getElem?_eq_none_iff] at hcv ⊢
              omega
            | some c0 =>
              rw [hat _ _ hcv, List.filter_eq_nil_iff.mpr (by
                intro x hx
                simpa using hne x hx), List.length_nil, Nat.mul_zero, Nat.add_zero]
          · intro a b
            have e1 := valueAt_applyAdd a b _ _ _ (by rw [hsum]; exact hec) hec1
            have e2 := valueAt_applyRemove a b _ _ _ hec2
            rw [amountSum_filter_chainEdges] at e1
            have e3 : amountSum ([((canon u v).1, (canon u v).2, c)].filter
                (fun t => decide (t.1 = a ∧ t.2.1 = b)))
                = (if (a, b) = canon u v then c else 0) := by
              by_cases hab : (a, b) = canon u v
              · rw [if_pos hab, List.filter_cons_of_pos (by rw [← hab]; simp)]
                rfl
              · rw [if_neg hab, List.filter_cons_of_neg (by
                  simp only [decide_eq_true_eq]
                  intro hx
                  exact hab (Prod.ext hx.1.symm hx.2.symm))]
                rfl
            rw [e3] at e2
            omega

theorem exampleCleaner_others (a : DirNode) (m : List (DirNode × List DirNode))
    (ha : a ≠ (0, true)) (h : exampleCleaner.transitiveMiddle.get? a = some m) : m = [] := by
  obtain ⟨i, o⟩ := a
  cases o with
  | true =>
    match i with
    | 0 => exact absurd rfl ha
    | 1 => cases h; rfl
    | 2 => cases h; rfl
    | (n + 3) => cases h
  | false =>
    match i with
    | 0 => cases h; rfl
    | 1 => cases h; rfl
    | 2 => cases h; rfl
    | (n + 3) => cases h

/-! ## Reverse complement of k-mers -/

theorem adjacentPairs_singleton (a : Nat) : adjacentPairs [a] = [] := rfl

theorem valueAt_eq_findAt (maps : EdgeMaps) (a b : DirNode) :
    maps.valueAt a b = (maps.findAt a b).getD 0 := by
  unfold EdgeMaps.valueAt EdgeMaps.findAt
  cases maps.get? a <;> rfl

theorem findAt_assign (maps maps2 : EdgeMaps) (a b x y : DirNode) (value : Nat)
    (h : maps.assign a b value = some maps2) :
    maps2.findAt x y = if x = a ∧ y = b then some value else maps.findAt x y := by
  unfold EdgeMaps.assign at h
  cases hm : maps.get? a with
  | none => rw [hm] at h; cases h
  | some m =>
    rw [hm] at h
    simp only at h
    unfold EdgeMaps.findAt
    by_cases hx : x = a
    · subst hx
      rw [get?_set?_self _ _ _ _ h, hm]
      simp only
      rw [mapFind_mapSet]
      by_cases hy : y = b
      · rw [if_pos hy, if_pos ⟨trivial, hy⟩]
      · rw [if_neg hy, if_neg (fun hxy => hy hxy.2)]
    · rw [get?_set?_of_ne _ _ _ _ _ h hx, if_neg (fun hxy => hx hxy.1)]

theorem findAt_increase (maps maps2 : EdgeMaps) (a b x y : DirNode) (amount : Nat)
    (hfit : maps.total + amount < 2 ^ 64)
    (h : maps.increase a b amount = some maps2) :
    maps2.findAt x y
      = if x = a ∧ y = b then some (maps.valueAt a b + amount) else maps.findAt x y := by
  unfold EdgeMaps.increase at h
  unfold EdgeMaps.valueOrZero at h
  cases hget : maps.get? a with
  | none => rw [hget] at h; cases h
  | some m =>
    rw [hget] at h
    simp only at h
    have hv : maps.valueAt a b = (mapFind m b).getD 0 := by
      unfold EdgeMaps.valueAt
      rw [hget]
    have hle := valueAt_le_total maps a b
    rw [← hv, Nat.mod_eq_of_lt (by omega)] at h
    exact findAt_assign maps maps2 a b x y _ h

theorem assign_lengths (maps maps2 : EdgeMaps) (a b : DirNode) (value : Nat)
    (h : maps.assign a b value = some maps2) :
    maps2.forward.length = maps.forward.length ∧
      maps2.backward.length = maps.backward.length := by
  unfold EdgeMaps.assign at h
  split at h
  · cases h
  · exact set?_lengths _ _ _ _ h

theorem increase_lengths (maps maps2 : EdgeMaps) (a b : DirNode) (amount : Nat)
    (h : maps.increase a b amount = some maps2) :
    maps2.forward.length = maps.forward.length ∧
      maps2.backward.length = maps.backward.length := by
  unfold EdgeMaps.increase at h
  split at h
  · cases h
  · exact assign_lengths _ _ _ _ _ h

theorem get?_isSome {α : Type} (v : VectorWithDirection α) (a : DirNode)
    (h1 : a.1 < v.forward.length) (h2 : a.1 < v.backward.length) : ∃ m, v.get? a = some m := by
  unfold VectorWithDirection.get?
  split_ifs
  · exact ⟨_, List.getElem?_eq_getElem h1⟩
  · exact ⟨_, List.getElem?_eq_getElem h2⟩

theorem assign_isSome (maps : EdgeMaps) (a b : DirNode) (value : Nat)
    (h1 : a.1 < maps.forward.length) (h2 : a.1 < maps.backward.length) :
    ∃ maps2, maps.assign a b value = some maps2 := by
  obtain ⟨m, hm⟩ := get?_isSome maps a h1 h2
  unfold EdgeMaps.assign
  rw [hm]
  simp only
  unfold VectorWithDirection.set?
  split_ifs
  · exact ⟨_, rfl⟩
  · exact ⟨_, rfl⟩

theorem increase_isSome (maps : EdgeMaps) (a b : DirNode) (amount : Nat)
    (h1 : a.1 < maps.forward.length) (h2 : a.1 < maps.backward.length) :
    ∃ maps2, maps.increase a b amount = some maps2 := by
  obtain ⟨m, hm⟩ := get?_isSome maps a h1 h2
  unfold EdgeMaps.increase EdgeMaps.valueOrZero
  rw [hm]
  exact assign_isSome maps a b _ h1 h2

theorem canon_fst_lt (a b : DirNode) (n : Nat) (ha : a.1 < n) (hb : b.1 < n) :
    (canon a b).1.1 < n ∧ (canon a b).2.1 < n := by
  rcases canon_eq_or a b with h | h
  · rw [h]
    exact ⟨ha, hb⟩
  · rw [h]
    exact ⟨hb, ha⟩

theorem edgeCount_first (hash : List Nat → Nat) (htn : List (Nat × DirNode))
    (seq : List Nat) (k : Nat) (pos : Nat) (a b : DirNode) :
    edgeCount hash htn seq k ([] ++ [pos]) a b = edgeCount hash htn seq k [] a b := rfl

theorem get?_filled {α : Type} (size : Nat) (item : α) (a : DirNode) (h : a.1 < size) :
    (VectorWithDirection.filled size item).get? a = some item := by
  unfold VectorWithDirection.get? VectorWithDirection.filled
  by_cases hb : a.2 = true
  · simp [hb, h]
  · simp [hb, h]

theorem sparseInv_make (size : Nat) : SparseInv size (SparseEdgeContainer.make size) [] := by
  refine ⟨by simp [SparseEdgeContainer.make, VectorWithDirection.filled],
    by simp [SparseEdgeContainer.make, VectorWithDirection.filled], ?_⟩
  intro src hsrc
  refine ⟨(sizeMax, false), get?_filled size _ src hsrc, ?_, ?_⟩
  · intro _
    exact ⟨rfl, fun t ht => by cases ht⟩
  · intro h
    exact absurd rfl h

theorem sparseInv_addEdge (size : Nat) (c : SparseEdgeContainer)
    (calls : List (DirNode × DirNode)) (src dst : DirNode) (hinv : SparseInv size c calls)
    (hsrc : src.1 < size) (hdst : dst.1 ≠ sizeMax) :
    ∃ c2, c.addEdge src dst = some c2 ∧ SparseInv size c2 (calls ++ [(src, dst)]) := by
  obtain ⟨f, hf, hunset, hset⟩ := hinv.first src hsrc
  unfold SparseEdgeContainer.addEdge
  rw [hf]
  by_cases hfs : f.1 = sizeMax
  · simp only [hfs, if_true]
    obtain ⟨hnone, hno⟩ := hunset hfs
    have hlt : ∃ fe, c.firstEdge.set? src dst = some fe := by
      unfold VectorWithDirection.set?
      by_cases hb : src.2 = true
      · rw [if_pos hb, if_pos (by rw [hinv.forwardLength]; exact hsrc)]; exact ⟨_, rfl⟩
      · rw [if_neg hb, if_pos (by rw [hinv.backwardLength]; exact hsrc)]; exact ⟨_, rfl⟩
    obtain ⟨fe, hfe⟩ := hlt
    rw [hfe]
    refine ⟨_, rfl, ?_⟩
    have hlen := set?_lengths _ _ _ _ hfe
    refine ⟨by simpa [hinv.forwardLength] using hlen.1,
      by simpa [hinv.backwardLength] using hlen.2, ?_⟩
    intro s hs
    by_cases hss : s = src
    · subst hss
      refine ⟨dst, get?_set?_self _ _ _ _ hfe, fun h => absurd h hdst, fun _ => ?_⟩
      refine ⟨by simp, ?_, ?_⟩
      · intro _ t ht
        rcases List.mem_append.mp ht with h | h
        · exact absurd h (hno t)
        · simpa using h
      · intro extra hex
        simp only at hex
        rw [hnone] at hex
        cases hex
    · obtain ⟨g, hg, hgu, hgs⟩ := hinv.first s hs
      refine ⟨g, by rw [get?_set?_of_ne _ _ _ _ _ hfe hss]; exact hg, ?_, ?_⟩
      · intro h
        refine ⟨(hgu h).1, fun t ht => ?_⟩
        rcases List.mem_append.mp ht with h2 | h2
        · exact (hgu h).2 t h2
        · simp only [List.mem_singleton, Prod.mk.injEq] at h2
          exact hss h2.1
      · intro h
        obtain ⟨h1, h2, h3⟩ := hgs h
        refine ⟨List.mem_append_left _ h1, ?_, ?_⟩
        · intro hn t ht
          rcases List.mem_append.mp ht with h4 | h4
          · exact h2 hn t h4
          · simp only [List.mem_singleton, Prod.mk.injEq] at h4
            exact absurd h4.1 hss
        · intro extra hex
          obtain ⟨h5, h6⟩ := h3 extra hex
          refine ⟨h5, fun t => ?_⟩
          rw [h6 t]
          constructor
          · rintro ⟨h7, h8⟩
            exact ⟨List.mem_append_left _ h7, h8⟩
          · rintro ⟨h7, h8⟩
            rcases List.mem_append.mp h7 with h9 | h9
            · exact ⟨h9, h8⟩
            · simp only [List.mem_singleton, Prod.mk.injEq] at h9
              exact absurd h9.1 hss
  · simp only [hfs, if_false]
    obtain ⟨hmem, hnone, hsome⟩ := hset hfs
    by_cases hfd : f = dst
    · rw [if_pos hfd]
      refine ⟨c, rfl, hinv.forwardLength, hinv.backwardLength, ?_⟩
      subst hfd
      intro s hs
      obtain ⟨g, hg, hgu, hgs⟩ := hinv.first s hs
      refine ⟨g, hg, ?_, ?_⟩
      · intro h
        refine ⟨(hgu h).1, fun t ht => ?_⟩
        rcases List.mem_append.mp ht with h2 | h2
        · exact (hgu h).2 t h2
        · simp only [List.mem_singleton, Prod.mk.injEq] at h2
          obtain ⟨h3, _⟩ := h2
          subst h3
          rw [hf] at hg
          cases hg
          exact hfs h
      · intro h
        obtain ⟨h1, h2, h3⟩ := hgs h
        refine ⟨List.mem_append_left _ h1, ?_, ?_⟩
        · intro hn t ht
          rcases List.mem_append.mp ht with h4 | h4
          · exact h2 hn t h4
          · simp only [List.mem_singleton, Prod.mk.injEq] at h4
            obtain ⟨h5, h6⟩ := h4
            subst h5
            rw [hf] at hg
            cases hg
            exact h6
        · intro extra hex
          obtain ⟨h5, h6⟩ := h3 extra hex
          refine ⟨h5, fun t => ?_⟩
          rw [h6 t]
          constructor
          · rintro ⟨h7, h8⟩
            exact ⟨List.mem_append_left _ h7, h8⟩
          · rintro ⟨h7, h8⟩
            rcases List.mem_append.mp h7 with h9 | h9
            · exact ⟨h9, h8⟩
            · simp only [List.mem_singleton, Prod.mk.injEq] at h9
              obtain ⟨h10, h11⟩ := h9
              subst h10
              rw [hf] at hg
              cases hg
              exact absurd h11 h8
    · rw [if_neg hfd]
      refine ⟨_, rfl, hinv.forwardLength, hinv.backwardLength, ?_⟩
      intro s hs
      by_cases hss : s = src
      · subst hss
        refine ⟨f, hf, fun h => absurd h hfs, fun _ => ?_⟩
        refine ⟨List.mem_append_left _ hmem, ?_, ?_⟩
        · intro hn
          simp only [mapFind_mapSet, if_true] at hn
          cases hn
        · intro extra hex
          simp only [mapFind_mapSet, if_true, Option.some.injEq] at hex
          subst hex
          refine ⟨by simp, fun t => ?_⟩
          cases hold : mapFind c.extraEdges s with
          | none =>
            simp only [Option.getD_none, List.nil_append, List.mem_singleton, List.mem_append,
              Prod.mk.injEq, true_and]
            constructor
            · intro h
              subst h
              exact ⟨Or.inr rfl, fun h2 => hfd h2.symm⟩
            · rintro ⟨h1 | h1, h2⟩
              · exact absurd (hnone hold t h1) h2
              · exact h1
          | some old =>
            obtain ⟨_, h6⟩ := hsome old hold
            simp only [Option.getD_some, List.mem_append, List.mem_singleton, Prod.mk.injEq,
              true_and]
            rw [h6 t]
            constructor
            · rintro (⟨h1, h2⟩ | h1)
              · exact ⟨Or.inl h1, h2⟩
              · subst h1
                exact ⟨Or.inr rfl, fun h2 => hfd h2.symm⟩
            · rintro ⟨h1 | h1, h2⟩
              · exact Or.inl ⟨h1, h2⟩
              · exact Or.inr h1
      · obtain ⟨g, hg, hgu, hgs⟩ := hinv.first s hs
        have hfind : mapFind (mapSet c.extraEdges src
            ((mapFind c.extraEdges src).getD [] ++ [dst])) s = mapFind c.extraEdges s := by
          rw [mapFind_mapSet, if_neg hss]
        refine ⟨g, hg, ?_, ?_⟩
        · intro h
          simp only
          rw [hfind]
          refine ⟨(hgu h).1, fun t ht => ?_⟩
          rcases List.mem_append.mp ht with h2 | h2
          · exact (hgu h).2 t h2
          · simp only [List.mem_singleton, Prod.mk.injEq] at h2
            exact hss h2.1
        · intro h
          simp only
          rw [hfind]
          obtain ⟨h1, h2, h3⟩ := hgs h
          refine ⟨List.mem_append_left _ h1, ?_, ?_⟩
          · intro hn t ht
            rcases List.mem_append.mp ht with h4 | h4
            · exact h2 hn t h4
            · simp only [List.mem_singleton, Prod.mk.injEq] at h4
              exact absurd h4.1 hss
          · intro extra hex
            obtain ⟨h5, h6⟩ := h3 extra hex
            refine ⟨h5, fun t => ?_⟩
            rw [h6 t]
            constructor
            · rintro ⟨h7, h8⟩
              exact ⟨List.mem_append_left _ h7, h8⟩
            · rintro ⟨h7, h8⟩
              rcases List.mem_append.mp h7 with h9 | h9
              · exact ⟨h9, h8⟩
              · simp only [List.mem_singleton, Prod.mk.injEq] at h9
                exact absurd h9.1 hss

theorem sparseInv_calls (size : Nat) :
    ∀ (calls seen : List (DirNode × DirNode)) (c : SparseEdgeContainer),
      SparseInv size c seen → (∀ e ∈ calls, e.1.1 < size) → (∀ e ∈ calls, e.2.1 ≠ sizeMax) →
      ∃ c2, addEdgeCalls c calls = some c2 ∧ SparseInv size c2 (seen ++ calls) := by
  intro calls
  induction calls with
  | nil =>
    intro seen c hinv _ _
    exact ⟨c, rfl, by simpa using hinv⟩
  | cons call rest ih =>
    intro seen c hinv hsrc hdst
    obtain ⟨c1, hc1, hinv1⟩ := sparseInv_addEdge size c seen call.1 call.2 hinv
      (hsrc call (List.mem_cons_self _ _)) (hdst call (List.mem_cons_self _ _))
    obtain ⟨c2, hc2, hinv2⟩ := ih (seen ++ [call]) c1 hinv1
      (fun e he => hsrc e (List.mem_cons_of_mem _ he))
      (fun e he => hdst e (List.mem_cons_of_mem _ he))
    refine ⟨c2, ?_, by simpa using hinv2⟩
    unfold addEdgeCalls
    rw [hc1]
    exact hc2

/-- What `getEdges` returns under `SparseInv`. -/
theorem sparseInv_getEdges (size : Nat) (c : SparseEdgeContainer)
    (calls : List (DirNode × DirNode)) (hinv : SparseInv size c calls) (src : DirNode)
    (hsrc : src.1 < size) :
    ∃ out, c.getEdges src = some out ∧
      (∀ dst, dst ∈ out ↔ (src, dst) ∈ calls) ∧
      (out.length = 1 ↔ ∃ dst, (src, dst) ∈ calls ∧ ∀ t, (src, t) ∈ calls → t = dst) ∧
      (∀ first rest, out = first :: rest → first ∉ rest) := by
  obtain ⟨f, hf, hunset, hset⟩ := hinv.first src hsrc
  unfold SparseEdgeContainer.getEdges
  rw [hf]
  by_cases hfs : f.1 = sizeMax
  · simp only [hfs, if_true]
    obtain ⟨_, hno⟩ := hunset hfs
    refine ⟨[], rfl, fun dst => ⟨(fun h => by cases h), fun h => absurd h (hno dst)⟩, ?_, ?_⟩
    · constructor
      · intro h
        cases h
      · rintro ⟨dst, h, _⟩
        exact absurd h (hno dst)
    · intro first rest h
      cases h
  · simp only [hfs, if_false]
    obtain ⟨hmem, hnone, hsome⟩ := hset hfs
    cases hex : mapFind c.extraEdges src with
    | none =>
      refine ⟨[f], rfl, fun dst => ?_, ?_, ?_⟩
      · simp only [List.mem_singleton]
        constructor
        · intro h
          subst h
          exact hmem
        · intro h
          exact hnone hex dst h
      · constructor
        · intro _
          exact ⟨f, hmem, hnone hex⟩
        · intro _
          rfl
      · intro first rest h
        simp only [List.cons.injEq] at h
        rw [← h.2]
        exact List.not_mem_nil _
    | some extra =>
      obtain ⟨hne, hiff⟩ := hsome extra hex
      refine ⟨f :: extra, rfl, fun dst => ?_, ?_, ?_⟩
      · simp only [List.mem_cons]
        constructor
        · rintro (h | h)
          · subst h
            exact hmem
          · exact ((hiff dst).mp h).1
        · intro h
          by_cases hd : dst = f
          · exact Or.inl hd
          · exact Or.inr ((hiff dst).mpr ⟨h, hd⟩)
      · constructor
        · intro h
          have h0 : extra = [] := by
            cases extra with
            | nil => rfl
            | cons a b => simp at h
          exact absurd h0 hne
        · rintro ⟨dst, _, huniq⟩
          exfalso
          cases extra with
          | nil => exact hne rfl
          | cons t rest =>
            obtain ⟨h1, h2⟩ := (hiff t).mp (List.mem_cons_self _ _)
            exact h2 ((huniq t h1).trans (huniq f hmem).symm)
      · intro first rest h
        simp only [List.cons.injEq] at h
        obtain ⟨h1, h2⟩ := h
        subst h1 h2
        intro hin
        exact ((hiff f).mp hin).2 rfl

/-- C38: after any sequence of `addEdge` calls on a `SparseEdgeContainer` whose sources are
nodes of the container and whose targets are node ids (not the no-edge sentinel `2^64 - 1`),
every call succeeds, and for every source `src` of the container `getEdges src` holds `dst`
if and only if `addEdge src dst` was called, has size exactly 1 if and only if exactly one
distinct target was added for `src`, and never repeats its first entry. -/
theorem sparse_edges_record_calls (size : Nat) (calls : List (DirNode × DirNode))
    (hsrc : ∀ e ∈ calls, e.1.1 < size) (hdst : ∀ e ∈ calls, e.2.1 ≠ sizeMax) :
    ∃ c, addEdgeCalls (SparseEdgeContainer.make size) calls = some c ∧
      ∀ src : DirNode, src.1 < size → ∃ out, c.getEdges src = some out ∧
        (∀ dst, dst ∈ out ↔ (src, dst) ∈ calls) ∧
        (out.length = 1 ↔ ∃ dst, (src, dst) ∈ calls ∧ ∀ t, (src, t) ∈ calls → t = dst) ∧
        (∀ first rest, out = first :: rest → first ∉ rest) := by
  obtain ⟨c, hc, hinv⟩ := sparseInv_calls size calls [] (SparseEdgeContainer.make size)
    (sparseInv_make size) hsrc hdst
  refine ⟨c, hc, fun src hs => ?_⟩
  exact sparseInv_getEdges size c calls (by simpa using hinv) src hs

/-- C38 at a container of two nodes with three calls from `(0, true)`, the last two to the
same target: the later target is listed twice, the first one once. -/
theorem sparse_edges_record_calls_witness :
    (∃ c, addEdgeCalls (SparseEdgeContainer.make 2)
        [((0, true), (1, true)), ((0, true), (1, false)), ((0, true), (1, false))] = some c ∧
      c.getEdges (0, true) = some [(1, true), (1, false), (1, false)]) ∧
    ∃ c, addEdgeCalls (SparseEdgeContainer.make 2)
        [((0, true), (1, true)), ((0, true), (1, false)), ((0, true), (1, false))] = some c ∧
      ∀ src : DirNode, src.1 < 2 → ∃ out, c.getEdges src = some out ∧
        (∀ dst, dst ∈ out ↔ (src, dst) ∈
          [((0, true), (1, true)), ((0, true), (1, false)), ((0, true), (1, false))]) ∧
        (out.length = 1 ↔ ∃ dst, (src, dst) ∈
            [((0, true), (1, true)), ((0, true), (1, false)), ((0, true), (1, false))] ∧
          ∀ t, (src, t) ∈
            [((0, true), (1, true)), ((0, true), (1, false)), ((0, true), (1, false))] →
            t = dst) ∧
        (∀ first rest, out = first :: rest → first ∉ rest) :=
  ⟨⟨_, rfl, rfl⟩, sparse_edges_record_calls 2
    [((0, true), (1, true)), ((0, true), (1, false)), ((0, true), (1, false))]
    (by decide) (by decide)⟩

/-! ## The covered edges -/

theorem addEdgeCalls_cons (c : SparseEdgeContainer) (call : DirNode × DirNode)
    (rest : List (DirNode × DirNode)) :
    addEdgeCalls c (call :: rest)
      = (c.addEdge call.1 call.2).bind (fun c2 => addEdgeCalls c2 rest) := by
  cases h : c.addEdge call.1 call.2 <;> simp [addEdgeCalls, h]

theorem addEdgeCalls_append (l1 l2 : List (DirNode × DirNode)) :
    ∀ c : SparseEdgeContainer,
      addEdgeCalls c (l1 ++ l2) = (addEdgeCalls c l1).bind (fun c1 => addEdgeCalls c1 l2) := by
  induction l1 with
  | nil =>
    intro c
    rfl
  | cons call rest ih =>
    intro c
    rw [List.cons_append, addEdgeCalls_cons, addEdgeCalls_cons]
    cases c.addEdge call.1 call.2 with
    | none => rfl
    | some c2 =>
      simp only [Option.some_bind]
      exact ih c2

theorem coveredEdgesFrom_calls (minCoverage : Nat) (src : DirNode) (l : List (DirNode × Nat)) :
    ∀ c : SparseEdgeContainer,
      coveredEdgesFrom minCoverage src c l = addEdgeCalls c (callsFrom minCoverage src l) := by
  induction l with
  | nil =>
    intro c
    rfl
  | cons edge rest ih =>
    intro c
    unfold coveredEdgesFrom callsFrom
    rw [List.flatMap_cons]
    by_cases hlow : edge.2 < minCoverage
    · rw [if_pos hlow, if_pos hlow, List.nil_append]
      exact ih c
    · rw [if_neg hlow, if_neg hlow]
      simp only [List.cons_append, List.nil_append]
      unfold addEdgeCalls
      cases c.addEdge src edge.1 with
      | none => rfl
      | some c1 =>
        simp only
        unfold addEdgeCalls
        cases c1.addEdge (reverse edge.1) (reverse src) with
        | none => rfl
        | some c2 => exact ih c2

theorem coveredEdgesLoop_calls (order : List (DirNode × Nat) → List (DirNode × Nat))
    (hashlist : HashList) (minCoverage : Nat) :
    ∀ (n i : Nat) (c : SparseEdgeContainer),
      i + n ≤ hashlist.edgeCoverage.forward.length →
      i + n ≤ hashlist.edgeCoverage.backward.length →
      coveredEdgesLoop order hashlist minCoverage n i c
        = addEdgeCalls c (loopCalls order hashlist minCoverage n i) := by
  intro n
  induction n with
  | zero =>
    intro i c _ _
    rfl
  | succ n ih =>
    intro i c hf hb
    obtain ⟨mf, hmf⟩ : ∃ m, hashlist.edgeCoverage.get? (i, true) = some m := by
      unfold VectorWithDirection.get?
      simp only [if_true]
      exact ⟨_, List.getElem?_eq_getElem (by omega)⟩
    obtain ⟨mb, hmb⟩ : ∃ m, hashlist.edgeCoverage.get? (i, false) = some m := by
      unfold VectorWithDirection.get?
      simp only [Bool.false_eq_true, if_false]
      exact ⟨_, List.getElem?_eq_getElem (by omega)⟩
    unfold coveredEdgesLoop loopCalls
    rw [hmf, hmb]
    simp only [Option.getD_some]
    rw [addEdgeCalls_append, ← coveredEdgesFrom_calls]
    cases coveredEdgesFrom minCoverage (i, true) c (order mf) with
    | none => rfl
    | some c1 =>
      simp only [Option.some_bind]
      rw [addEdgeCalls_append, ← coveredEdgesFrom_calls]
      cases coveredEdgesFrom minCoverage (i, false) c1 (order mb) with
      | none => rfl
      | some c2 =>
        simp only [Option.some_bind]
        exact ih (i + 1) c2 (by omega) (by omega)

theorem mem_callsFrom (minCoverage : Nat) (src : DirNode) (l : List (DirNode × Nat))
    (p : DirNode × DirNode) :
    p ∈ callsFrom minCoverage src l ↔
      ∃ e ∈ l, minCoverage ≤ e.2 ∧ (p = (src, e.1) ∨ p = (reverse e.1, reverse src)) := by
  unfold callsFrom
  rw [List.mem_flatMap]
  constructor
  · rintro ⟨e, he, hp⟩
    by_cases hlow : e.2 < minCoverage
    · rw [if_pos hlow] at hp
      cases hp
    · rw [if_neg hlow] at hp
      refine ⟨e, he, by omega, ?_⟩
      simpa using hp
  · rintro ⟨e, he, hv, hp⟩
    refine ⟨e, he, ?_⟩
    rw [if_neg (by omega)]
    simpa using hp

theorem mem_loopCalls (order : List (DirNode × Nat) → List (DirNode × Nat))
    (hashlist : HashList) (minCoverage : Nat) (horder : ∀ l, (order l).Perm l)
    (p : DirNode × DirNode) :
    ∀ (n i : Nat),
      p ∈ loopCalls order hashlist minCoverage n i ↔
        ∃ a : DirNode, i ≤ a.1 ∧ a.1 < i + n ∧
          ∃ e ∈ (hashlist.edgeCoverage.get? a).getD [], minCoverage ≤ e.2 ∧
            (p = (a, e.1) ∨ p = (reverse e.1, reverse a)) := by
  intro n
  induction n with
  | zero =>
    intro i
    unfold loopCalls
    constructor
    · intro h
      cases h
    · rintro ⟨a, h1, h2, _⟩
      omega
  | succ n ih =>
    intro i
    unfold loopCalls
    rw [List.mem_append, List.mem_append, mem_callsFrom, mem_callsFrom, ih (i + 1)]
    constructor
    · rintro (⟨e, he, h⟩ | ⟨e, he, h⟩ | ⟨a, h1, h2, h⟩)
      · exact ⟨(i, true), Nat.le_refl _, by simp, e, (horder _).mem_iff.mp he, h⟩
      · exact ⟨(i, false), Nat.le_refl _, by simp, e, (horder _).mem_iff.mp he, h⟩
      · exact ⟨a, by omega, by omega, h⟩
    · rintro ⟨a, h1, h2, e, he, h⟩
      by_cases hai : a.1 = i
      · obtain ⟨a1, a2⟩ := a
        simp only at hai
        subst hai
        cases a2 with
        | true => exact Or.inl ⟨e, (horder _).mem_iff.mpr he, h⟩
        | false => exact Or.inr (Or.inl ⟨e, (horder _).mem_iff.mpr he, h⟩)
      · exact Or.inr (Or.inr ⟨a, by omega, by omega, e, he, h⟩)

theorem get?_lt {α : Type} (v : VectorWithDirection α) (a : DirNode) (x : α)
    (h : v.get? a = some x) (hf : v.forward.length = v.backward.length) :
    a.1 < v.forward.length := by
  unfold VectorWithDirection.get? at h
  by_cases hb : a.2 = true
  · rw [if_pos hb] at h
    exact (List.getElem?_eq_some_iff.mp h).1
  · rw [if_neg hb] at h
    rw [hf]
    exact (List.getElem?_eq_some_iff.mp h).1

/-- The calls of `getCoveredEdges` are the stored edges with enough coverage, read in both
directions. -/
theorem mem_loopCalls_covered (order : List (DirNode × Nat) → List (DirNode × Nat))
    (hashlist : HashList) (minCoverage : Nat) (horder : ∀ l, (order l).Perm l)
    (hcanon : hashlist.edgeCoverage.Canonical) (hin : hashlist.EdgesInside)
    (src dst : DirNode) :
    (src, dst) ∈ loopCalls order hashlist minCoverage hashlist.coverage.length 0 ↔
      hashlist.Covered minCoverage (canon src dst).1 (canon src dst).2 := by
  rw [mem_loopCalls order hashlist minCoverage horder]
  constructor
  · rintro ⟨a, _, _, e, he, hv, hp⟩
    cases hget : hashlist.edgeCoverage.get? a with
    | none =>
      rw [hget] at he
      cases he
    | some m =>
      rw [hget] at he
      simp only [Option.getD_some] at he
      have hc := hcanon a m e.1 e.2 hget he
      have hcov : hashlist.Covered minCoverage a e.1 := ⟨m, e.2, hget, he, hv⟩
      rcases hp with hp | hp
      · simp only [Prod.mk.injEq] at hp
        rw [hp.1, hp.2, hc]
        exact hcov
      · simp only [Prod.mk.injEq] at hp
        rw [hp.1, hp.2, canon_reverse_swap, hc]
        exact hcov
  · rintro ⟨m, v, hget, hmem, hv⟩
    have hlt : (canon src dst).1.1 < hashlist.coverage.length := by
      have := get?_lt _ _ _ hget (by rw [hin.forwardLength, hin.backwardLength])
      rw [hin.forwardLength] at this
      exact this
    refine ⟨(canon src dst).1, Nat.zero_le _, by omega, ((canon src dst).2, v), ?_, hv, ?_⟩
    · rw [hget]
      exact hmem
    · rcases canon_eq_or src dst with h | h
      · left
        rw [h]
      · right
        rw [h]
        simp only [reverse_reverse]

theorem loopCalls_inside (order : List (DirNode × Nat) → List (DirNode × Nat))
    (hashlist : HashList) (minCoverage : Nat) (horder : ∀ l, (order l).Perm l)
    (hin : hashlist.EdgesInside) :
    ∀ p ∈ loopCalls order hashlist minCoverage hashlist.coverage.length 0,
      p.1.1 < hashlist.coverage.length ∧ p.2.1 < hashlist.coverage.length := by
  intro p hp
  rw [mem_loopCalls order hashlist minCoverage horder] at hp
  obtain ⟨a, _, ha, e, he, _, hp⟩ := hp
  cases hget : hashlist.edgeCoverage.get? a with
  | none =>
    rw [hget] at he
    cases he
  | some m =>
    rw [hget] at he
    simp only [Option.getD_some] at he
    have hb := hin.inside a m e.1 e.2 hget he
    rcases hp with hp | hp
    · rw [hp]
      exact ⟨by simpa using ha, hb⟩
    · rw [hp]
      exact ⟨hb, by simpa [reverse] using ha⟩

/-- The result of `getCoveredEdges` on a hash list with canonical keys. -/
theorem getCoveredEdges_spec (order : List (DirNode × Nat) → List (DirNode × Nat))
    (hashlist : HashList) (minCoverage : Nat) (horder : ∀ l, (order l).Perm l)
    (hcanon : hashlist.edgeCoverage.Canonical) (hin : hashlist.EdgesInside) :
    ∃ edges, getCoveredEdges order hashlist minCoverage = some edges ∧
      ∀ src : DirNode, src.1 < hashlist.coverage.length →
        ∃ out, edges.getEdges src = some out ∧
          (∀ dst, dst ∈ out ↔
            hashlist.Covered minCoverage (canon src dst).1 (canon src dst).2) ∧
          (∀ dst ∈ out, dst.1 < hashlist.coverage.length) ∧
          (out.length = 1 → ∀ a ∈ out, ∀ b ∈ out, a = b) := by
  have hcalls := loopCalls_inside order hashlist minCoverage horder hin
  obtain ⟨edges, he, hinv⟩ := sparseInv_calls hashlist.coverage.length
    (loopCalls order hashlist minCoverage hashlist.coverage.length 0) []
    (SparseEdgeContainer.make hashlist.coverage.length) (sparseInv_make _)
    (fun e h => (hcalls e h).1)
    (fun e h => by
      have := (hcalls e h).2
      have := hin.sizeBound
      omega)
  refine ⟨edges, ?_, ?_⟩
  · unfold getCoveredEdges
    rw [coveredEdgesLoop_calls order hashlist minCoverage _ _ _
      (by rw [hin.forwardLength]; omega) (by rw [hin.backwardLength]; omega)]
    exact he
  · intro src hsrc
    rw [List.nil_append] at hinv
    obtain ⟨out, hout, hmem, hone, _⟩ := sparseInv_getEdges _ edges _ hinv src hsrc
    refine ⟨out, hout, fun dst => ?_, fun dst hd => ?_, fun h1 a ha b hb => ?_⟩
    · rw [hmem dst]
      exact mem_loopCalls_covered order hashlist minCoverage horder hcanon hin src dst
    · exact (hcalls _ ((hmem dst).mp hd)).2
    · obtain ⟨d, _, hd⟩ := hone.mp h1
      rw [hd a ((hmem a).mp ha), hd b ((hmem b).mp hb)]

theorem getEdges_lt (c : SparseEdgeContainer) (src : DirNode) (out : List DirNode)
    (h : c.getEdges src = some out)
    (hf : c.firstEdge.forward.length = c.firstEdge.backward.length) :
    src.1 < c.firstEdge.forward.length := by
  unfold SparseEdgeContainer.getEdges at h
  split at h
  · cases h
  · rename_i first hfirst
    exact get?_lt _ _ _ hfirst hf

/-- The adjacency `getCoveredEdges` builds is symmetric. -/
theorem getCoveredEdges_symmetric (order : List (DirNode × Nat) → List (DirNode × Nat))
    (hashlist : HashList) (minCoverage : Nat) (horder : ∀ l, (order l).Perm l)
    (hcanon : hashlist.edgeCoverage.Canonical) (hin : hashlist.EdgesInside)
    (edges : SparseEdgeContainer)
    (h : getCoveredEdges order hashlist minCoverage = some edges) :
    edges.Symmetric ∧
      ∀ (src : DirNode) (out : List DirNode), edges.getEdges src = some out →
        src.1 < hashlist.coverage.length := by
  obtain ⟨e2, he2, hspec⟩ := getCoveredEdges_spec order hashlist minCoverage horder hcanon hin
  rw [h] at he2
  cases he2
  have hlt : ∀ (src : DirNode) (out : List DirNode), edges.getEdges src = some out →
      src.1 < hashlist.coverage.length := by
    intro src out hout
    by_contra hge
    have hcalls := loopCalls_inside order hashlist minCoverage horder hin
    obtain ⟨e3, he3, hinv⟩ := sparseInv_calls hashlist.coverage.length
      (loopCalls order hashlist minCoverage hashlist.coverage.length 0) []
      (SparseEdgeContainer.make hashlist.coverage.length) (sparseInv_make _)
      (fun e h => (hcalls e h).1)
      (fun e h => by
        have := (hcalls e h).2
        have := hin.sizeBound
        omega)
    have heq : getCoveredEdges order hashlist minCoverage = some e3 := by
      unfold getCoveredEdges
      rw [coveredEdgesLoop_calls order hashlist minCoverage _ _ _
        (by rw [hin.forwardLength]; omega) (by rw [hin.backwardLength]; omega)]
      exact he3
    rw [h] at heq
    cases heq
    have := getEdges_lt edges src out hout (by rw [hinv.forwardLength, hinv.backwardLength])
    rw [hinv.forwardLength] at this
    exact hge this
  refine ⟨?_, hlt⟩
  intro src dst out hout hd
  have hsrc := hlt src out hout
  obtain ⟨out2, hout2, hmem, hinside, _⟩ := hspec src hsrc
  rw [hout] at hout2
  cases hout2
  have hdst := hinside dst hd
  obtain ⟨back, hback, hmemb, _, _⟩ := hspec (reverse dst) (by simpa [reverse] using hdst)
  refine ⟨back, hback, ?_⟩
  rw [hmemb (reverse src), canon_reverse_swap]
  exact (hmem dst).mp hd

/-- C36: for a hash list with canonical edge keys (an edge map for every node, every edge
leading to a node) and every `minCoverage`, `getCoveredEdges` returns an adjacency in which
`dst` is in the out-list of `src` if and only if the canonical edge `canon(src, dst)` is
stored in `edgeCoverage` with a value of at least `minCoverage`; the adjacency is symmetric
(`dst` in `edges[src]` iff `reverse(src)` in `edges[reverse(dst)]`); and when every edge
coverage is at most the coverage of both end nodes, both end nodes of every edge of the
adjacency have coverage at least `minCoverage`.  `order` is the iteration order of the edge
maps, which visits every entry once. -/
theorem covered_edges_are_the_covered_canonical_edges
    (order : List (DirNode × Nat) → List (DirNode × Nat)) (hashlist : HashList)
    (minCoverage : Nat) (horder : ∀ l, (order l).Perm l)
    (hcanon : hashlist.edgeCoverage.Canonical) (hin : hashlist.EdgesInside) :
    ∃ edges, getCoveredEdges order hashlist minCoverage = some edges ∧
      (∀ src : DirNode, src.1 < hashlist.coverage.length →
        ∃ out, edges.getEdges src = some out ∧
          ∀ dst, dst ∈ out ↔
            ∃ m v, hashlist.edgeCoverage.get? (canon src dst).1 = some m ∧
              ((canon src dst).2, v) ∈ m ∧ minCoverage ≤ v) ∧
      (∀ src dst : DirNode, src.1 < hashlist.coverage.length →
        dst.1 < hashlist.coverage.length →
        ∃ out back, edges.getEdges src = some out ∧
          edges.getEdges (reverse dst) = some back ∧ (dst ∈ out ↔ reverse src ∈ back)) ∧
      (hashlist.EdgesWithinCoverage →
        ∀ (src dst : DirNode) (out : List DirNode), edges.getEdges src = some out →
          dst ∈ out →
          ∃ cs cd, hashlist.coverage[src.1]? = some cs ∧ hashlist.coverage[dst.1]? = some cd ∧
            minCoverage ≤ cs ∧ minCoverage ≤ cd) := by
  obtain ⟨edges, he, hspec⟩ := getCoveredEdges_spec order hashlist minCoverage horder hcanon hin
  obtain ⟨_, hlt⟩ := getCoveredEdges_symmetric order hashlist minCoverage horder hcanon hin
    edges he
  refine ⟨edges, he, ?_, ?_, ?_⟩
  · intro src hsrc
    obtain ⟨out, hout, hmem, _, _⟩ := hspec src hsrc
    exact ⟨out, hout, hmem⟩
  · intro src dst hsrc hdst
    obtain ⟨out, hout, hmem, _, _⟩ := hspec src hsrc
    obtain ⟨back, hback, hmemb, _, _⟩ := hspec (reverse dst) (by simpa [reverse] using hdst)
    refine ⟨out, back, hout, hback, ?_⟩
    rw [hmem dst, hmemb (reverse src), canon_reverse_swap]
  · intro hwithin src dst out hout hd
    obtain ⟨out2, hout2, hmem, _, _⟩ := hspec src (hlt src out hout)
    rw [hout] at hout2
    cases hout2
    obtain ⟨m, v, hget, hv, hmin⟩ := (hmem dst).mp hd
    obtain ⟨ca, cb, hca, hcb, hle⟩ := hwithin _ m _ v hget hv
    rw [Nat.le_min] at hle
    rcases canon_eq_or src dst with h | h
    · rw [h] at hca hcb
      exact ⟨ca, cb, hca, hcb, by omega, by omega⟩
    · rw [h] at hca hcb
      simp only [reverse_fst] at hca hcb
      exact ⟨cb, ca, hcb, hca, by omega, by omega⟩

/-! ## Unitigs have no internal branch -/

theorem edgesInside_of_within (list : HashList)
    (hf : list.edgeCoverage.forward.length = list.coverage.length)
    (hb : list.edgeCoverage.backward.length = list.coverage.length)
    (hw : list.EdgesWithinCoverage) (hs : list.coverage.length ≤ sizeMax) :
    list.EdgesInside := by
  refine ⟨hf, hb, ?_, hs⟩
  intro a m b v hget hmem
  obtain ⟨ca, cb, _, hcb, _⟩ := hw a m b v hget hmem
  exact (List.getElem?_eq_some_iff.mp hcb).1

theorem eq_singleton_of_mem {α : Type} (l : List α) (x : α) (hl : l.length = 1) (hx : x ∈ l) :
    l = [x] := by
  cases l with
  | nil => cases hx
  | cons a t =>
    cases t with
    | nil =>
      simp only [List.mem_singleton] at hx
      rw [hx]
    | cons b t2 => simp at hl

theorem mem_zip_tail_append {α : Type} (x : α) :
    ∀ (l : List α) (last : α), l.getLast? = some last → ∀ p : α × α,
      p ∈ (l ++ [x]).zip (l ++ [x]).tail → p ∈ l.zip l.tail ∨ p = (last, x) := by
  intro l
  induction l with
  | nil =>
    intro last h
    cases h
  | cons a t ih =>
    intro last h p hp
    cases t with
    | nil =>
      simp only [List.getLast?_singleton, Option.some.injEq] at h
      subst h
      right
      simpa using hp
    | cons b t2 =>
      rw [List.getLast?_cons_cons] at h
      simp only [List.cons_append, List.tail_cons, List.zip_cons_cons, List.mem_cons] at hp
      rcases hp with hp | hp
      · left
        rw [hp]
        simp
      · have := ih last h p (by simpa using hp)
        rcases this with h1 | h1
        · left
          simp only [List.tail_cons, List.zip_cons_cons, List.mem_cons]
          right
          simpa using h1
        · right
          exact h1

theorem getLast?_append_one {α : Type} (l : List α) (x : α) : (l ++ [x]).getLast? = some x := by
  simp

theorem startUnitigLoop_noBranch (edges : SparseEdgeContainer) (hashlist : HashList)
    (start : DirNode) (hsym : edges.Symmetric) :
    ∀ (fuel : Nat) (pos : DirNode) (b : List Bool) (unitig : List DirNode) (cov : List Nat)
      (b2 : List Bool) (u2 : List DirNode) (c2 : List Nat),
      startUnitigLoop edges hashlist start fuel pos b unitig cov = some (b2, u2, c2) →
      unitig.getLast? = some pos → NoBranch edges unitig → NoBranch edges u2 := by
  intro fuel
  induction fuel with
  | zero =>
    intro pos b unitig cov b2 u2 c2 h _ _
    simp [startUnitigLoop] at h
  | succ f ih =>
    intro pos b unitig cov b2 u2 c2 h hlast hnb
    unfold startUnitigLoop at h
    split at h
    · cases h
    · rename_i out hout
      by_cases h1 : out.length ≠ 1
      · rw [if_pos h1] at h
        simp only [Option.some.injEq, Prod.mk.injEq] at h
        rw [← h.2.1]
        exact hnb
      · rw [if_neg h1] at h
        split at h
        · cases h
        · rename_i newPos hnew
          split at h
          · cases h
          · rename_i back hback
            by_cases h2 : back.length ≠ 1
            · rw [if_pos h2] at h
              simp only [Option.some.injEq, Prod.mk.injEq] at h
              rw [← h.2.1]
              exact hnb
            · rw [if_neg h2] at h
              by_cases h3 : newPos = start
              · rw [if_pos h3] at h
                simp only [Option.some.injEq, Prod.mk.injEq] at h
                rw [← h.2.1]
                exact hnb
              · rw [if_neg h3] at h
                split at h
                · cases h
                · by_cases h4 : newPos.1 = pos.1 ∧ newPos.2 ≠ pos.2
                  · rw [if_pos h4] at h
                    simp only [Option.some.injEq, Prod.mk.injEq] at h
                    rw [← h.2.1]
                    exact hnb
                  · rw [if_neg h4] at h
                    cases h
                · split at h
                  · cases h
                  · rename_i c hc
                    refine ih _ _ _ _ _ _ _ h (getLast?_append_one _ _) ?_
                    have hmem : newPos ∈ out := List.mem_iff_getElem?.mpr ⟨0, hnew⟩
                    have hout1 : out = [newPos] :=
                      eq_singleton_of_mem out newPos (by omega) hmem
                    obtain ⟨back2, hback2, hrev⟩ := hsym pos newPos out hout hmem
                    have hb2 : back2 = back := by
                      have : edges.getEdges (reverse newPos) = some back := hback
                      rw [this] at hback2
                      cases hback2
                      rfl
                    subst hb2
                    have hback1 : back2 = [reverse pos] :=
                      eq_singleton_of_mem back2 (reverse pos) (by omega) hrev
                    intro p hp
                    rcases mem_zip_tail_append newPos unitig pos hlast p hp with hp1 | hp1
                    · exact hnb p hp1
                    · rw [hp1]
                      refine ⟨by rw [hout, hout1], ?_⟩
                      have : edges.getEdges (reverse newPos) = some back2 := hback
                      rw [this, hback1]

theorem startUnitig_noBranch (fuel : Nat) (result r2 : UnitigGraph) (start : DirNode)
    (edges : SparseEdgeContainer) (b b2 : List Bool) (hashlist : HashList)
    (hsym : edges.Symmetric)
    (h : startUnitig fuel result start edges b hashlist = some (r2, b2))
    (hnb : ∀ u ∈ result.unitigs, NoBranch edges u) :
    ∀ u ∈ r2.unitigs, NoBranch edges u := by
  unfold startUnitig at h
  split at h
  · rename_i belongs c hb hc
    by_cases hbel : belongs = true
    · rw [if_pos hbel] at h
      cases h
    · rw [if_neg hbel] at h
      split at h
      · cases h
      · rename_i b3 unitig coverage hloop
        simp only [Option.some.injEq, Prod.mk.injEq] at h
        obtain ⟨h1, _⟩ := h
        subst h1
        intro u hu
        simp only [List.mem_append, List.mem_singleton] at hu
        rcases hu with hu | hu
        · exact hnb u hu
        · subst hu
          refine startUnitigLoop_noBranch edges hashlist start hsym fuel start _ [start] [c]
            b3 u coverage hloop rfl ?_
          intro p hp
          simp at hp
  · cases h

theorem startUnitigAndTips_noBranch (fuel : Nat) (edges : SparseEdgeContainer)
    (hashlist : HashList) (st st2 : UnitigState) (start : DirNode) (hsym : edges.Symmetric)
    (h : startUnitigAndTips fuel edges hashlist st start = some st2)
    (hnb : ∀ u ∈ st.result.unitigs, NoBranch edges u) :
    ∀ u ∈ st2.result.unitigs, NoBranch edges u := by
  unfold startUnitigAndTips at h
  split at h
  · cases h
  · rename_i r2 b2 hstart
    have hr2 := startUnitig_noBranch fuel st.result r2 start edges st.belongsToUnitig b2
      hashlist hsym hstart hnb
    split at h
    · cases h
    · split at h
      · simp only [Option.some.injEq] at h
        subst h
        exact hr2
      · cases h

theorem startNeighbours_noBranch (fuel : Nat) (edges : SparseEdgeContainer)
    (hashlist : HashList) (minCoverage : Nat) (hsym : edges.Symmetric) :
    ∀ (l : List DirNode) (st st2 : UnitigState),
      startNeighbours fuel edges hashlist minCoverage st l = some st2 →
      (∀ u ∈ st.result.unitigs, NoBranch edges u) →
      ∀ u ∈ st2.result.unitigs, NoBranch edges u := by
  intro l
  induction l with
  | nil =>
    intro st st2 h hnb
    simp only [startNeighbours, Option.some.injEq] at h
    subst h
    exact hnb
  | cons edge rest ih =>
    intro st st2 h hnb
    unfold startNeighbours at h
    split at h
    · cases h
    · exact ih st st2 h hnb
    · split at h
      · cases h
      · rename_i c hc
        by_cases hlow : ¬ c ≥ minCoverage
        · rw [if_pos hlow] at h
          cases h
        · rw [if_neg hlow] at h
          split at h
          · cases h
          · rename_i st1 hst1
            exact ih st1 st2 h
              (startUnitigAndTips_noBranch fuel edges hashlist st st1 edge hsym hst1 hnb)

theorem startSide_noBranch (fuel : Nat) (edges : SparseEdgeContainer) (hashlist : HashList)
    (minCoverage : Nat) (i : Nat) (own : DirNode) (sideEdges : List DirNode)
    (st st2 : UnitigState) (hsym : edges.Symmetric)
    (h : startSide fuel edges hashlist minCoverage i own sideEdges st = some st2)
    (hnb : ∀ u ∈ st.result.unitigs, NoBranch edges u) :
    ∀ u ∈ st2.result.unitigs, NoBranch edges u := by
  unfold startSide at h
  by_cases h1 : sideEdges.length ≠ 1
  · rw [if_pos h1] at h
    split at h
    · cases h
    · rename_i belongs hb
      split at h
      · cases h
      · rename_i st1 hst1
        refine startNeighbours_noBranch fuel edges hashlist minCoverage hsym sideEdges st1 st2
          h ?_
        by_cases hbel : belongs = true
        · rw [if_pos hbel] at hst1
          cases hst1
          exact hnb
        · rw [if_neg hbel] at hst1
          exact startUnitigAndTips_noBranch fuel edges hashlist st st1 own hsym hst1 hnb
  · rw [if_neg h1] at h
    cases h
    exact hnb

theorem branchLoop_noBranch (fuel : Nat) (edges : SparseEdgeContainer) (hashlist : HashList)
    (minCoverage : Nat) (hsym : edges.Symmetric) :
    ∀ (n i : Nat) (st st2 : UnitigState),
      branchLoop fuel edges hashlist minCoverage n i st = some st2 →
      (∀ u ∈ st.result.unitigs, NoBranch edges u) →
      ∀ u ∈ st2.result.unitigs, NoBranch edges u := by
  intro n
  induction n with
  | zero =>
    intro i st st2 h hnb
    simp only [branchLoop, Option.some.injEq] at h
    subst h
    exact hnb
  | succ n ih =>
    intro i st st2 h hnb
    unfold branchLoop at h
    split at h
    · cases h
    · rename_i c hc
      by_cases hlow : c < minCoverage
      · rw [if_pos hlow] at h
        exact ih _ st st2 h hnb
      · rw [if_neg hlow] at h
        split at h
        · rename_i fwEdges bwEdges hfw hbw
          split at h
          · cases h
          · rename_i st1 hst1
            split at h
            · cases h
            · rename_i st3 hst3
              refine ih _ st3 st2 h ?_
              exact startSide_noBranch fuel edges hashlist minCoverage i (i, false) fwEdges
                st1 st3 hsym hst3
                (startSide_noBranch fuel edges hashlist minCoverage i (i, true) bwEdges
                  st st1 hsym hst1 hnb)
        · cases h

theorem cycleLoop_noBranch (fuel : Nat) (edges : SparseEdgeContainer) (hashlist : HashList)
    (minCoverage : Nat) (hsym : edges.Symmetric) :
    ∀ (n i : Nat) (st st2 : UnitigState),
      cycleLoop fuel edges hashlist minCoverage n i st = some st2 →
      (∀ u ∈ st.result.unitigs, NoBranch edges u) →
      ∀ u ∈ st2.result.unitigs, NoBranch edges u := by
  intro n
  induction n with
  | zero =>
    intro i st st2 h hnb
    simp only [cycleLoop, Option.some.injEq] at h
    subst h
    exact hnb
  | succ n ih =>
    intro i st st2 h hnb
    unfold cycleLoop at h
    split at h
    · rename_i belongs c hb hc
      by_cases hbel : belongs = true
      · rw [if_pos hbel] at h
        exact ih _ st st2 h hnb
      · rw [if_neg hbel] at h
        by_cases hlow : c < minCoverage
        · rw [if_pos hlow] at h
          exact ih _ st st2 h hnb
        · rw [if_neg hlow] at h
          split at h
          · rename_i fwEdges bwEdges hfw hbw
            by_cases h1 : ¬ fwEdges.length = 1
            · rw [if_pos h1] at h
              cases h
            · rw [if_neg h1] at h
              by_cases h2 : ¬ bwEdges.length = 1
              · rw [if_pos h2] at h
                cases h
              · rw [if_neg h2] at h
                split at h
                · rename_i st1 bwFirst hst1 hbf
                  split at h
                  · cases h
                  · rename_i unitig hu
                    by_cases h3 : unitig.getLast? = some (reverse bwFirst)
                    · rw [if_pos h3] at h
                      exact ih _ st1 st2 h
                        (startUnitigAndTips_noBranch fuel edges hashlist st st1 (i, true) hsym
                          hst1 hnb)
                    · rw [if_neg h3] at h
                      cases h
                · cases h
          · cases h
    · cases h

theorem linkTip_unitigs (hashlist : HashList) (minCoverage : Nat)
    (unitigTip : List (DirNode × DirNode)) (fromNode fromUnitig : DirNode) :
    ∀ (l : List DirNode) (result r2 : UnitigGraph),
      linkTip hashlist minCoverage unitigTip fromNode fromUnitig result l = some r2 →
      r2.unitigs = result.unitigs := by
  intro l
  induction l with
  | nil =>
    intro result r2 h
    simp only [linkTip, Option.some.injEq] at h
    rw [h]
  | cons edge rest ih =>
    intro result r2 h
    unfold linkTip at h
    by_cases h1 : ¬ mapCount unitigTip (reverse edge) = 1
    · rw [if_pos h1] at h
      cases h
    · rw [if_neg h1] at h
      split at h
      · rename_i tip cFrom cTo ec _ _ _ _
        simp only at h
        by_cases h2 : ¬ cFrom ≥ minCoverage
        · rw [if_pos h2] at h
          cases h
        · rw [if_neg h2] at h
          by_cases h3 : ¬ cTo ≥ minCoverage
          · rw [if_pos h3] at h
            cases h
          · rw [if_neg h3] at h
            split at h
            · cases h
            · split at h
              · cases h
              · split at h
                · cases h
                · have hrec := ih _ r2 h
                  exact hrec
      · cases h

theorem linkTips_unitigs (edges : SparseEdgeContainer) (hashlist : HashList)
    (minCoverage : Nat) (unitigTip : List (DirNode × DirNode)) :
    ∀ (l : List (DirNode × DirNode)) (result r2 : UnitigGraph),
      linkTips edges hashlist minCoverage unitigTip result l = some r2 →
      r2.unitigs = result.unitigs := by
  intro l
  induction l with
  | nil =>
    intro result r2 h
    simp only [linkTips, Option.some.injEq] at h
    rw [h]
  | cons tip rest ih =>
    intro result r2 h
    unfold linkTips at h
    split at h
    · cases h
    · rename_i out hout
      split at h
      · cases h
      · rename_i r1 hr1
        rw [ih r1 r2 h]
        exact linkTip_unitigs hashlist minCoverage unitigTip tip.1 tip.2 out result r1 hr1

/-- Every unitig of the graph `getUnitigGraph` returns is free of internal branches, for a
symmetric adjacency. -/
theorem getUnitigGraph_noBranch (order : List (DirNode × Nat) → List (DirNode × Nat))
    (tipOrder : List (DirNode × DirNode) → List (DirNode × DirNode)) (fuel : Nat)
    (hashlist : HashList) (minCoverage : Nat) (edges : SparseEdgeContainer) (g : UnitigGraph)
    (hedges : getCoveredEdges order hashlist minCoverage = some edges)
    (hsym : edges.Symmetric)
    (hg : getUnitigGraph order tipOrder fuel hashlist minCoverage = some g) :
    ∀ u ∈ g.unitigs, NoBranch edges u := by
  unfold getUnitigGraph at hg
  rw [hedges] at hg
  simp only at hg
  split at hg
  · cases hg
  · rename_i st1 hst1
    split at hg
    · cases hg
    · rename_i st2 hst2
      by_cases hall : ¬ allCoveredBelong hashlist minCoverage st2.belongsToUnitig = true
      · rw [if_pos hall] at hg
        cases hg
      · rw [if_neg hall] at hg
        rw [linkTips_unitigs edges hashlist minCoverage st2.unitigTip _ st2.result g hg]
        refine cycleLoop_noBranch fuel edges hashlist minCoverage hsym _ _ st1 st2 hst2 ?_
        refine branchLoop_noBranch fuel edges hashlist minCoverage hsym _ _ _ st1 hst1 ?_
        intro u hu
        simp [UnitigGraph.empty] at hu

/-! ### The adjacency is symmetric whenever it is built -/

theorem coveredEdgesLoop_calls_of_some (order : List (DirNode × Nat) → List (DirNode × Nat))
    (hashlist : HashList) (minCoverage : Nat) :
    ∀ (n i : Nat) (c c2 : SparseEdgeContainer),
      coveredEdgesLoop order hashlist minCoverage n i c = some c2 →
      addEdgeCalls c (loopCalls order hashlist minCoverage n i) = some c2 := by
  intro n
  induction n with
  | zero =>
    intro i c c2 h
    exact h
  | succ n ih =>
    intro i c c2 h
    unfold coveredEdgesLoop at h
    split at h
    · rename_i mf mb hmf hmb
      unfold loopCalls
      rw [hmf, hmb]
      simp only [Option.getD_some]
      rw [addEdgeCalls_append, ← coveredEdgesFrom_calls]
      split at h
      · cases h
      · rename_i c1 hc1
        rw [hc1]
        simp only [Option.some_bind]
        rw [addEdgeCalls_append, ← coveredEdgesFrom_calls]
        split at h
        · cases h
        · rename_i c3 hc3
          rw [hc3]
          simp only [Option.some_bind]
          exact ih _ _ _ h
    · cases h

theorem addEdge_lengths (c c2 : SparseEdgeContainer) (src dst : DirNode)
    (h : c.addEdge src dst = some c2) :
    c2.firstEdge.forward.length = c.firstEdge.forward.length ∧
      c2.firstEdge.backward.length = c.firstEdge.backward.length ∧
      ∃ first, c.firstEdge.get? src = some first := by
  unfold SparseEdgeContainer.addEdge at h
  split at h
  · cases h
  · rename_i first hfirst
    by_cases h1 : first.1 = sizeMax
    · rw [if_pos h1] at h
      split at h
      · cases h
      · rename_i fe hfe
        cases h
        have := set?_lengths _ _ _ _ hfe
        exact ⟨this.1, this.2, first, hfirst⟩
    · rw [if_neg h1] at h
      by_cases h2 : first = dst
      · rw [if_pos h2] at h
        cases h
        exact ⟨rfl, rfl, first, hfirst⟩
      · rw [if_neg h2] at h
        cases h
        exact ⟨rfl, rfl, first, hfirst⟩

theorem addEdgeCalls_sources (size : Nat) :
    ∀ (calls : List (DirNode × DirNode)) (c c2 : SparseEdgeContainer),
      addEdgeCalls c calls = some c2 → c.firstEdge.forward.length = size →
      c.firstEdge.backward.length = size → ∀ e ∈ calls, e.1.1 < size := by
  intro calls
  induction calls with
  | nil =>
    intro c c2 _ _ _ e he
    cases he
  | cons call rest ih =>
    intro c c2 h hf hb e he
    rw [addEdgeCalls_cons] at h
    cases hadd : c.addEdge call.1 call.2 with
    | none =>
      rw [hadd] at h
      cases h
    | some c1 =>
      rw [hadd] at h
      simp only [Option.some_bind] at h
      obtain ⟨h1, h2, first, hfirst⟩ := addEdge_lengths c c1 call.1 call.2 hadd
      rcases List.mem_cons.mp he with h3 | h3
      · rw [h3]
        have := get?_lt _ _ _ hfirst (by rw [hf, hb])
        omega
      · exact ih c1 c2 h (by omega) (by omega) e h3

theorem callsFrom_paired (minCoverage : Nat) (src : DirNode) (l : List (DirNode × Nat)) :
    ∀ p ∈ callsFrom minCoverage src l,
      (reverse p.2, reverse p.1) ∈ callsFrom minCoverage src l := by
  intro p hp
  rw [mem_callsFrom] at hp ⊢
  obtain ⟨e, he, hv, hp⟩ := hp
  refine ⟨e, he, hv, ?_⟩
  rcases hp with hp | hp
  · right
    rw [hp]
  · left
    rw [hp]
    simp only [reverse_reverse]

theorem loopCalls_paired (order : List (DirNode × Nat) → List (DirNode × Nat))
    (hashlist : HashList) (minCoverage : Nat) :
    ∀ (n i : Nat), ∀ p ∈ loopCalls order hashlist minCoverage n i,
      (reverse p.2, reverse p.1) ∈ loopCalls order hashlist minCoverage n i := by
  intro n
  induction n with
  | zero =>
    intro i p hp
    cases hp
  | succ n ih =>
    intro i p hp
    unfold loopCalls at hp ⊢
    rw [List.mem_append, List.mem_append] at hp ⊢
    rcases hp with hp | hp | hp
    · exact Or.inl (callsFrom_paired _ _ _ p hp)
    · exact Or.inr (Or.inl (callsFrom_paired _ _ _ p hp))
    · exact Or.inr (Or.inr (ih _ p hp))

/-- Whenever `getCoveredEdges` returns, the adjacency is symmetric: every edge is entered
together with its mirror image. -/
theorem getCoveredEdges_symmetric_of_some
    (order : List (DirNode × Nat) → List (DirNode × Nat)) (hashlist : HashList)
    (minCoverage : Nat) (edges : SparseEdgeContainer)
    (hsize : hashlist.coverage.length ≤ sizeMax)
    (h : getCoveredEdges order hashlist minCoverage = some edges) : edges.Symmetric := by
  unfold getCoveredEdges at h
  have hcalls := coveredEdgesLoop_calls_of_some order hashlist minCoverage _ _ _ _ h
  have hmake := sparseInv_make hashlist.coverage.length
  have hsrc := addEdgeCalls_sources hashlist.coverage.length _ _ _ hcalls
    hmake.forwardLength hmake.backwardLength
  have hpair := loopCalls_paired order hashlist minCoverage hashlist.coverage.length 0
  obtain ⟨c2, hc2, hinv⟩ := sparseInv_calls hashlist.coverage.length
    (loopCalls order hashlist minCoverage hashlist.coverage.length 0) []
    (SparseEdgeContainer.make hashlist.coverage.length) hmake hsrc
    (fun e he => by
      have := hsrc _ (hpair e he)
      simp only [reverse_fst] at this
      omega)
  rw [hcalls] at hc2
  cases hc2
  rw [List.nil_append] at hinv
  intro src dst out hout hd
  have hs : src.1 < hashlist.coverage.length := by
    have := getEdges_lt edges src out hout (by rw [hinv.forwardLength, hinv.backwardLength])
    rw [hinv.forwardLength] at this
    exact this
  obtain ⟨out2, hout2, hmem, _, _⟩ := sparseInv_getEdges _ edges _ hinv src hs
  rw [hout] at hout2
  cases hout2
  have hcall := hpair _ ((hmem dst).mp hd)
  have hd2 := hsrc _ hcall
  obtain ⟨back, hback, hmemb, _, _⟩ := sparseInv_getEdges _ edges _ hinv (reverse dst) hd2
  exact ⟨back, hback, (hmemb (reverse src)).mpr hcall⟩

/-! ## The claims on covered edges and unitigs at worked examples -/

theorem exampleCollapsed_loaded :
    loadReadsAsHashes exampleHash [exampleCollapsedRead] 3 1 true = some exampleCollapsed := by
  decide

theorem exampleCollapsed_inside : exampleCollapsed.EdgesInside :=
  edgesInside_of_within exampleCollapsed rfl rfl
    (loadReadsAsHashes_within _ _ _ _ _ _ (by decide) exampleCollapsed_loaded) (by decide)

/-- C36 at the hash list of the read `AAACCCGGGAAATTT` (`k = 3`, `w = 1`, homopolymer
compression) with `minCoverage = 1`. -/
theorem covered_edges_are_the_covered_canonical_edges_witness :
    ∃ edges, getCoveredEdges id exampleCollapsed 1 = some edges ∧
      (∀ src : DirNode, src.1 < exampleCollapsed.coverage.length →
        ∃ out, edges.getEdges src = some out ∧
          ∀ dst, dst ∈ out ↔
            ∃ m v, exampleCollapsed.edgeCoverage.get? (canon src dst).1 = some m ∧
              ((canon src dst).2, v) ∈ m ∧ 1 ≤ v) ∧
      (∀ src dst : DirNode, src.1 < exampleCollapsed.coverage.length →
        dst.1 < exampleCollapsed.coverage.length →
        ∃ out back, edges.getEdges src = some out ∧
          edges.getEdges (reverse dst) = some back ∧ (dst ∈ out ↔ reverse src ∈ back)) ∧
      (exampleCollapsed.EdgesWithinCoverage →
        ∀ (src dst : DirNode) (out : List DirNode), edges.getEdges src = some out →
          dst ∈ out →
          ∃ cs cd, exampleCollapsed.coverage[src.1]? = some cs ∧
            exampleCollapsed.coverage[dst.1]? = some cd ∧ 1 ≤ cs ∧ 1 ≤ cd) :=
  covered_edges_are_the_covered_canonical_edges id exampleCollapsed 1
    (fun l => List.Perm.refl l)
    (loadReadsAsHashes_canonical _ _ _ _ _ _ exampleCollapsed_loaded).2
    exampleCollapsed_inside

/-- C35: in every unitig of the graph `getUnitigGraph` returns, for every two consecutive
directed nodes `a`, `b` of the unitig list, the covered-edge adjacency (the result of
`getCoveredEdges`) has `b` as the only out-neighbour of `a` and `reverse(a)` as the only
out-neighbour of `reverse(b)`: a unitig has no internal branch.  The number of nodes is a
`size_t` below the sentinel `2^64 - 1`. -/
theorem unitigs_have_no_internal_branch
    (order : List (DirNode × Nat) → List (DirNode × Nat))
    (tipOrder : List (DirNode × DirNode) → List (DirNode × DirNode)) (fuel : Nat)
    (hashlist : HashList) (minCoverage : Nat) (edges : SparseEdgeContainer) (g : UnitigGraph)
    (hsize : hashlist.coverage.length ≤ sizeMax)
    (hedges : getCoveredEdges order hashlist minCoverage = some edges)
    (hg : getUnitigGraph order tipOrder fuel hashlist minCoverage = some g) :
    ∀ unitig ∈ g.unitigs, ∀ a b : DirNode, (a, b) ∈ unitig.zip unitig.tail →
      edges.getEdges a = some [b] ∧ edges.getEdges (reverse b) = some [reverse a] := by
  intro unitig hu a b hab
  exact getUnitigGraph_noBranch order tipOrder fuel hashlist minCoverage edges g hedges
    (getCoveredEdges_symmetric_of_some order hashlist minCoverage edges hsize hedges) hg
    unitig hu (a, b) hab

/-- C35 at the hash list of the read `AAACCCGGGAAATTT` (`k = 3`, `w = 1`, homopolymer
compression), whose unitig graph is one unitig of three nodes. -/
theorem unitigs_have_no_internal_branch_witness :
    getUnitigGraph id id 10 exampleCollapsed 1 = some exampleCollapsedGraph ∧
      ∀ unitig ∈ exampleCollapsedGraph.unitigs, ∀ a b : DirNode,
        (a, b) ∈ unitig.zip unitig.tail →
        exampleCollapsedEdges.getEdges a = some [b] ∧
          exampleCollapsedEdges.getEdges (reverse b) = some [reverse a] :=
  ⟨by decide,
    unitigs_have_no_internal_branch id id 10 exampleCollapsed 1 exampleCollapsedEdges
      exampleCollapsedGraph (by decide) (by decide) (by decide)⟩

/-! ## The shape of an expanded path -/

theorem insertMiddlesLoop_shape
    (tm : VectorWithDirection (List (DirNode × List DirNode))) (fuel : Nat) :
    ∀ raw result out : List DirNode,
      insertMiddlesLoop tm fuel raw result = some out →
      ∃ X, out = X ++ result.reverse ∧ raw.Sublist X ∧ X.head? = raw.head? ∧
        X.getLast? = raw.getLast? := by
  induction fuel with
  | zero =>
    intro raw result out h
    simp [insertMiddlesLoop] at h
  | succ fuel ih =>
    intro raw result out h
    unfold insertMiddlesLoop at h
    split at h
    · cases h
    · rename_i last hrev
      cases h
      have hraw : raw = [last] := by
        rw [List.reverse_eq_iff] at hrev
        rw [hrev]
        rfl
      refine ⟨[last], ?_, ?_, ?_, ?_⟩
      · rw [List.reverse_append]
        rfl
      · rw [hraw]
      · rw [hraw]
      · rw [hraw]
    · rename_i dst src rest hrev
      have hraw : raw = (rest.reverse ++ [src]) ++ [dst] := by
        rw [List.reverse_eq_iff] at hrev
        rw [hrev, List.reverse_cons, List.reverse_cons]
      have hdrop : raw.dropLast = rest.reverse ++ [src] := by
        rw [hraw, List.dropLast_concat]
      have hhead : ∀ tail : List DirNode,
          ((rest.reverse ++ [src]) ++ tail).head? = (rest.reverse ++ [src]).head? := by
        intro tail
        cases hr : rest.reverse ++ [src] with
        | nil => simp at hr
        | cons a t => rfl
      split at h
      · cases h
      · rename_i m hm
        split at h
        · rename_i hnone
          rw [hdrop] at h
          obtain ⟨X, hout, hsub, hh, hl⟩ := ih _ _ _ h
          refine ⟨X ++ [dst], ?_, ?_, ?_, ?_⟩
          · rw [hout, List.reverse_append]
            simp
          · rw [hraw]
            exact List.Sublist.append hsub (List.Sublist.refl _)
          · rw [hraw, hhead]
            cases X with
            | nil =>
              cases hr : rest.reverse ++ [src] with
              | nil => simp at hr
              | cons a t =>
                rw [hr] at hh
                cases hh
            | cons a t => exact hh
          · rw [hraw]
            simp
        · rename_i middle hmid
          by_cases hlen : middle.length > 0
          · rw [if_pos hlen, hdrop] at h
            obtain ⟨X, hout, hsub, hh, hl⟩ := ih _ _ _ h
            refine ⟨X, hout, ?_, ?_, ?_⟩
            · refine List.Sublist.trans ?_ hsub
              rw [hraw, List.append_assoc (rest.reverse ++ [src]) middle [dst]]
              exact List.Sublist.append (List.Sublist.refl _) (List.sublist_append_right _ _)
            · rw [hh, hraw, List.append_assoc (rest.reverse ++ [src]) middle [dst], hhead,
                hhead]
            · rw [hl, hraw, getLast?_append_one, getLast?_append_one]
          · rw [if_neg hlen] at h
            cases h

/-- C40: when `TransitiveCleaner::insertMiddles` returns on a non-empty path `raw`, the result
starts with the first element of `raw` and ends with its last element, contains the elements
of `raw` in order as a subsequence, and equals `raw` when no consecutive pair of `raw` has a
recorded transitive middle. -/
theorem insertMiddles_keeps_the_path (cleaner : TransitiveCleaner) (fuel : Nat)
    (raw out : List DirNode) (_hraw : raw ≠ [])
    (h : cleaner.insertMiddles fuel raw = some out) :
    out.head? = raw.head? ∧ out.getLast? = raw.getLast? ∧ raw.Sublist out ∧
      ((∀ e ∈ raw.zip raw.tail, ∀ m, cleaner.transitiveMiddle.get? e.1 = some m →
          mapFind m e.2 = none) → out = raw) := by
  unfold TransitiveCleaner.insertMiddles at h
  obtain ⟨X, hout, hsub, hh, hl⟩ := insertMiddlesLoop_shape _ _ _ _ _ h
  simp only [List.reverse_nil, List.append_nil] at hout
  subst hout
  refine ⟨hh, hl, hsub, fun hno => ?_⟩
  have := insertMiddlesLoop_plain cleaner.transitiveMiddle fuel raw [] out hno h
  simpa using this

/-- C40 at the cleaner of the worked example: the path from node 0 to node 1 has the middle
node 2, and the expanded path keeps both ends. -/
theorem insertMiddles_keeps_the_path_witness :
    exampleCleaner.insertMiddles 10 [(0, true), (1, true)]
        = some [(0, true), (2, true), (1, true)] ∧
      ([(0, true), (2, true), (1, true)] : List DirNode).head?
        = ([(0, true), (1, true)] : List DirNode).head? ∧
      ([(0, true), (2, true), (1, true)] : List DirNode).getLast?
        = ([(0, true), (1, true)] : List DirNode).getLast? ∧
      ([(0, true), (1, true)] : List DirNode).Sublist [(0, true), (2, true), (1, true)] ∧
      ((∀ e ∈ ([(0, true), (1, true)] : List DirNode).zip
            ([(0, true), (1, true)] : List DirNode).tail,
          ∀ m, exampleCleaner.transitiveMiddle.get? e.1 = some m → mapFind m e.2 = none) →
        ([(0, true), (2, true), (1, true)] : List DirNode) = [(0, true), (1, true)]) :=
  ⟨by decide,
    insertMiddles_keeps_the_path exampleCleaner 10 [(0, true), (1, true)]
      [(0, true), (2, true), (1, true)] (by decide) (by decide)⟩

/-! ## Looking up and allocating nodes -/

/-- C32: `getNode` on a k-mer whose forward content hash is already in `hashToNode` returns
the stored `(node, orientation)` and leaves the whole hash list unchanged.  On an unknown
k-mer (neither hash is in the map) whose forward and reverse-complement hashes differ, when
the per-node vectors all have the length `n` of the node list and the packed storage takes the
k-mer, it allocates node id `n`, maps the forward hash to `(n, true)` and the
reverse-complement hash to `(n, false)`, keeps every other key, and extends `coverage`,
`edgeCoverage`, `sequenceOverlap`, `fakeFwHashes` and `fakeBwHashes` by exactly one entry
each, so that all have length `n + 1`. -/
theorem getNode_returns_stored_or_allocates (hash : List Nat → Nat) (list : HashList)
    (sequence rev lens : List Nat) (s e prev overlap f b : Nat) :
    (∀ found, mapFind list.hashToNode (hash sequence) = some found →
      getNode hash list sequence rev lens s e prev overlap f b
        = some (list, found, hash sequence)) ∧
    (mapFind list.hashToNode (hash sequence) = none →
      mapFind list.hashToNode (hash rev) = none → hash sequence ≠ hash rev →
      list.coverage.length = list.size → list.edgeCoverage.size = list.size →
      list.edgeCoverage.backward.length = list.size →
      list.sequenceOverlap.size = list.size →
      list.sequenceOverlap.backward.length = list.size →
      list.fakeFwHashes.length = list.size → list.fakeBwHashes.length = list.size →
      (list.hashSequences.addString sequence (hash sequence) prev overlap).isSome →
      (list.hashCharacterLengths.addData lens s e (hash sequence) prev overlap).isSome →
      ∃ l2, getNode hash list sequence rev lens s e prev overlap f b
          = some (l2, (list.size, true), hash sequence) ∧
        mapFind l2.hashToNode (hash sequence) = some (list.size, true) ∧
        mapFind l2.hashToNode (hash rev) = some (list.size, false) ∧
        (∀ key, key ≠ hash sequence → key ≠ hash rev →
          mapFind l2.hashToNode key = mapFind list.hashToNode key) ∧
        l2.size = list.size + 1 ∧
        l2.coverage = list.coverage ++ [0] ∧
        l2.edgeCoverage = list.edgeCoverage.emplace_back [] ∧
        l2.sequenceOverlap = list.sequenceOverlap.emplace_back [] ∧
        l2.fakeFwHashes = list.fakeFwHashes ++ [f] ∧
        l2.fakeBwHashes = list.fakeBwHashes ++ [b] ∧
        l2.coverage.length = list.size + 1 ∧
        l2.edgeCoverage.forward.length = list.size + 1 ∧
        l2.edgeCoverage.backward.length = list.size + 1 ∧
        l2.sequenceOverlap.forward.length = list.size + 1 ∧
        l2.sequenceOverlap.backward.length = list.size + 1 ∧
        l2.fakeFwHashes.length = list.size + 1 ∧ l2.fakeBwHashes.length = list.size + 1) := by
  constructor
  · intro found hfound
    unfold getNode
    simp only [hfound]
  · intro hnone hrev hne hcov hec hecb hso hsob hfw hbw hstr hdat
    obtain ⟨⟨store, ptr⟩, hs⟩ := Option.isSome_iff_exists.mp hstr
    obtain ⟨⟨store2, ptr2⟩, hd⟩ := Option.isSome_iff_exists.mp hdat
    have hsize : list.size = list.hashSeqPtr.length := rfl
    refine ⟨HashList.mk (list.coverage ++ [0]) (list.fakeFwHashes ++ [f])
      (list.fakeBwHashes ++ [b]) (list.sequenceOverlap.emplace_back [])
      (list.edgeCoverage.emplace_back [])
      (mapSet (mapSet list.hashToNode (hash sequence) (list.size, true)) (hash rev)
        (list.size, false))
      store2 (list.hashCharacterLengthPtr ++ [ptr2]) store (list.hashSeqPtr ++ [ptr])
      list.hashSequencesRevComp list.kmerSize, ?_, ?_⟩
    · unfold getNode
      simp only [hnone, hrev, Option.isSome_none, Bool.false_eq_true, if_false,
        HashList.addHashSequenceRLE, hs, HashList.addHashCharacterLength, hd]
      rw [if_pos ⟨hcov, hec, hso, hfw, hbw⟩]
    · simp only [mapFind_mapSet, if_true, HashList.size, List.length_append,
        List.length_singleton, VectorWithDirection.emplace_back]
      simp only [hne, if_false, if_true, true_and]
      unfold VectorWithDirection.size at hec hso
      refine ⟨?_, ?_, ?_, ?_, ?_, ?_, ?_, ?_⟩
      · intro key h1 h2
        rw [if_neg h2, if_neg h1]
      all_goals omega

/-- C32 at the hash list of the read `AAACCCGGGAAATTT`: the k-mer `ACG` is node 0 there, and
the k-mer `CAG` with reverse complement `CTG` is unknown and becomes node 3. -/
theorem getNode_returns_stored_or_allocates_witness :
    getNode exampleHash exampleCollapsed [1, 2, 3] [2, 3, 4] [3, 3, 3] 0 3 0 0 7 9
        = some (exampleCollapsed, (0, true), exampleHash [1, 2, 3]) ∧
      ∃ l2, getNode exampleHash exampleCollapsed [2, 1, 3] [2, 4, 3] [1, 1, 1] 0 3 0 0 7 9
          = some (l2, (exampleCollapsed.size, true), exampleHash [2, 1, 3]) ∧
        mapFind l2.hashToNode (exampleHash [2, 1, 3]) = some (exampleCollapsed.size, true) ∧
        mapFind l2.hashToNode (exampleHash [2, 4, 3]) = some (exampleCollapsed.size, false) ∧
        (∀ key, key ≠ exampleHash [2, 1, 3] → key ≠ exampleHash [2, 4, 3] →
          mapFind l2.hashToNode key = mapFind exampleCollapsed.hashToNode key) ∧
        l2.size = exampleCollapsed.size + 1 ∧
        l2.coverage = exampleCollapsed.coverage ++ [0] ∧
        l2.edgeCoverage = exampleCollapsed.edgeCoverage.emplace_back [] ∧
        l2.sequenceOverlap = exampleCollapsed.sequenceOverlap.emplace_back [] ∧
        l2.fakeFwHashes = exampleCollapsed.fakeFwHashes ++ [7] ∧
        l2.fakeBwHashes = exampleCollapsed.fakeBwHashes ++ [9] ∧
        l2.coverage.length = exampleCollapsed.size + 1 ∧
        l2.edgeCoverage.forward.length = exampleCollapsed.size + 1 ∧
        l2.edgeCoverage.backward.length = exampleCollapsed.size + 1 ∧
        l2.sequenceOverlap.forward.length = exampleCollapsed.size + 1 ∧
        l2.sequenceOverlap.backward.length = exampleCollapsed.size + 1 ∧
        l2.fakeFwHashes.length = exampleCollapsed.size + 1 ∧
        l2.fakeBwHashes.length = exampleCollapsed.size + 1 :=
  ⟨(getNode_returns_stored_or_allocates exampleHash exampleCollapsed [1, 2, 3] [2, 3, 4]
      [3, 3, 3] 0 3 0 0 7 9).1 (0, true) (by decide),
    (getNode_returns_stored_or_allocates exampleHash exampleCollapsed [2, 1, 3] [2, 4, 3]
      [1, 1, 1] 0 3 0 0 7 9).2 (by decide) (by decide) (by decide) (by decide) (by decide)
      (by decide) (by decide) (by decide) (by decide) (by decide) (by decide) (by decide)⟩

/-! ## The pipeline at worked examples -/

/-- C31 (counterexample): the pipeline on the single read `AAACCCGGGTTT` with homopolymer
compression, `k = 3`, `w = 1` does not produce exactly one unitig with the expanded sequence
`AAACCCGGGTTT`: it produces no unitig. -/
theorem hpc_collapse_read_gives_no_unitig :
    ¬ ∃ reads unitigs, runMBG exampleHash id id 10 [exampleSkippedRead] 3 1 1 true
          = some (reads, unitigs) ∧
        unitigs.unitigs.length = 1 ∧ writeGraph unitigs reads = some [exampleSkippedRead] := by
  rintro ⟨reads, unitigs, hrun, hlen, _⟩
  have h : runMBG exampleHash id id 10 [exampleSkippedRead] 3 1 1 true
      = some (HashList.empty 3, UnitigGraph.empty) := by decide
  rw [h] at hrun
  cases hrun
  cases hlen

theorem ingestRead_short (hash : List Nat → Nat) (k w : Nat) (result : HashList)
    (read : List Char) (seq lens : List Nat) (hkw : k + w < 2 ^ 64)
    (henc : runLengthEncode read = some (seq, lens))
    (hshort : seq.length ≤ k + w) : ingestRead hash k w true result read = some result := by
  unfold ingestRead
  by_cases h0 : read.length = 0
  · rw [if_pos h0]
  · rw [if_neg h0]
    simp only [if_true, henc]
    rw [if_pos (show seq.length ≤ (k + w) % 2 ^ 64 by omega)]

theorem cleanTransitiveEdges_empty (hash : List Nat → Nat)
    (order : List (DirNode × Nat) → List (DirNode × Nat)) (fuel k : Nat) :
    cleanTransitiveEdges hash order fuel (HashList.empty k) k = some (HashList.empty k) := by
  rfl

theorem getUnitigGraph_empty (order : List (DirNode × Nat) → List (DirNode × Nat))
    (tipOrder : List (DirNode × DirNode) → List (DirNode × DirNode)) (fuel k minCoverage : Nat)
    (htips : tipOrder [] = []) :
    getUnitigGraph order tipOrder fuel (HashList.empty k) minCoverage
      = some UnitigGraph.empty := by
  unfold getUnitigGraph
  have h1 : getCoveredEdges order (HashList.empty k) minCoverage
      = some (SparseEdgeContainer.make 0) := rfl
  rw [h1]
  simp only [HashList.empty, List.length_nil, branchLoop, cycleLoop, List.replicate]
  rw [if_neg (by simp [allCoveredBelong]), htips]
  rfl

/-- C31 (amended): for `k` and `w` whose `size_t` sum `k + w` does not wrap
(`k + w < 2 ^ 64`), a single read whose run-length encoding has at most `k + w` codes is
skipped, and the pipeline produces the empty hash list and no unitig; the read
`AAACCCGGGTTT` with `k = 3`, `w = 1` is such a read (its encoding `ACGT` has four codes).
The read `AAACCCGGGAAATTT`, whose encoding `ACGAT` has five codes, gives with `k = 3`,
`w = 1` exactly one unitig, and the sequence written for it is the read. -/
theorem hpc_collapse_needs_more_than_k_plus_w_codes (hash : List Nat → Nat)
    (order : List (DirNode × Nat) → List (DirNode × Nat))
    (tipOrder : List (DirNode × DirNode) → List (DirNode × DirNode))
    (fuel k w minCoverage : Nat) (read : List Char) (seq lens : List Nat)
    (hkw : k + w < 2 ^ 64) (htips : tipOrder [] = [])
    (henc : runLengthEncode read = some (seq, lens)) (hshort : seq.length ≤ k + w) :
    runMBG hash order tipOrder fuel [read] k w minCoverage true
        = some (HashList.empty k, UnitigGraph.empty) ∧
      runLengthEncode exampleCollapsedRead = some ([1, 2, 3, 1, 4], [3, 3, 3, 3, 3]) ∧
      runMBG exampleHash id id 10 [exampleCollapsedRead] 3 1 1 true
        = some (exampleCollapsed, exampleCollapsedGraph) ∧
      exampleCollapsedGraph.unitigs.length = 1 ∧
      writeGraph exampleCollapsedGraph exampleCollapsed = some [exampleCollapsedRead] := by
  refine ⟨?_, by decide, by decide, by decide, by decide⟩
  have hload : loadReadsAsHashes hash [read] k w true = some (HashList.empty k) := by
    unfold loadReadsAsHashes ingestReads
    rw [ingestRead_short hash k w _ read seq lens hkw henc hshort]
    rfl
  unfold runMBG
  rw [hload]
  simp only [cleanTransitiveEdges_empty, getUnitigGraph_empty order tipOrder fuel k minCoverage
    htips]

/-- C31 (amended) at the read `AAACCCGGGTTT` with `k = 3`, `w = 1`. -/
theorem hpc_collapse_needs_more_than_k_plus_w_codes_witness :
    runMBG exampleHash id id 10 [exampleSkippedRead] 3 1 1 true
        = some (HashList.empty 3, UnitigGraph.empty) ∧
      runLengthEncode exampleCollapsedRead = some ([1, 2, 3, 1, 4], [3, 3, 3, 3, 3]) ∧
      runMBG exampleHash id id 10 [exampleCollapsedRead] 3 1 1 true
        = some (exampleCollapsed, exampleCollapsedGraph) ∧
      exampleCollapsedGraph.unitigs.length = 1 ∧
      writeGraph exampleCollapsedGraph exampleCollapsed = some [exampleCollapsedRead] :=
  hpc_collapse_needs_more_than_k_plus_w_codes exampleHash id id 10 3 1 1 exampleSkippedRead
    [1, 2, 3, 4] [3, 3, 3, 3] (by norm_num) rfl (by decide) (by decide)

/-- C39 (failing input): the read `AACGTA` with homopolymer compression, `k = 3`, `w = 1`,
`minCoverage = 1` gives one unitig, node 1 backwards followed by node 0 forwards.
`writeGraph` tests the orientation of node 0 (forward), reads its stored run lengths 2, 1, 1,
drops the overlap of two codes and writes `TACG`, four characters.  `getSizeAndN50` tests the
node id 0 instead, reads the run lengths backwards as 1, 1, 2, drops two and counts 2 for
the node: it returns 5. -/
theorem assembly_size_differs_from_written_length :
    runMBG exampleHash id id 10 [exampleSizeRead] 3 1 1 true
        = some (exampleSizeList, exampleSizeGraph) ∧
      writeGraph exampleSizeGraph exampleSizeList = some [['T', 'A', 'C', 'G']] ∧
      getSizeAndN50 exampleSizeList exampleSizeGraph = some 5 ∧
      unitigPiece exampleSizeList true (some (1, false)) (0, true) = some ['G'] ∧
      unitigPiece exampleSizeList false (some (1, false)) (0, true) = some ['T', 'T'] := by
  refine ⟨by decide, by decide, by decide, by decide, by decide⟩

/-- C37 (failing input): the reads `ATCCACCC`, `CCATCCGT`, `CCCGGGCC` with `k = 3`, `w = 2`,
`minCoverage = 1` give the unitig graph `exampleBranched`; its unitigs of average coverage at
least 2 form `exampleChain`, whose edges are symmetric.  In `getUnitigs` every side of
`exampleChain` has exactly one edge, so the first loop starts nothing.  The second loop
starts at `0+`, which stops at its hairpin; the walk from `1+` then steps to `0+`, a node of
unitig 0, and the assertion `newPos.first == pos.first` of the unitig-level `startUnitig`
fails: `getUnitigs` does not return, for any `fuel`. -/
theorem getUnitigs_stops_between_two_hairpins :
    (runMBG exampleHash id id 10 exampleChainReads 3 2 1 false).map Prod.snd
        = some exampleBranched ∧
      exampleBranched.filterNodes id id [false, false, true, true, true] = some exampleChain ∧
      exampleChain.SymmetricEdges ∧
      symmetricEdgesLoop id exampleChain 3 0 (VectorWithDirection.filled 3 [])
        = some exampleChain.edges ∧
      (∀ fuel, Unitigs.branchLoop id fuel exampleChain exampleChain.edges 3 0
          (UnitigGraph.empty, List.replicate 3 (sizeMax, true))
        = some (UnitigGraph.empty, List.replicate 3 (sizeMax, true))) ∧
      (Unitigs.startUnitig 10 UnitigGraph.empty exampleChain (0, true) exampleChain.edges
          (List.replicate 3 (sizeMax, true))).map (fun st => (st.1.unitigs, st.2))
        = some ([[(5, true)]], [(0, true), (sizeMax, true), (sizeMax, true)]) ∧
      exampleChain.edges.get? (1, true) = some [(0, true)] ∧
      ∀ fuel, getUnitigs id fuel exampleChain = none := by
  refine ⟨by decide, by decide, ?_, by decide, ?_, by decide, by decide, ?_⟩
  · intro src dst out hout hd
    obtain ⟨s1, s2⟩ := src
    have hs1 : s1 < 3 := get?_lt exampleChain.edges (s1, s2) out hout (by decide)
    have hcases : s1 = 0 ∨ s1 = 1 ∨ s1 = 2 := by omega
    rcases hcases with h | h | h <;> subst h <;> cases s2 <;>
      simp [exampleChain, VectorWithDirection.get?] at hout <;> subst hout <;>
      simp at hd <;> subst hd <;> exact ⟨_, rfl, by decide⟩
  · intro fuel
    rfl
  · intro fuel
    cases fuel with
    | zero => decide
    | succ f => rfl

/-! ## The mutexes of a match block -/

theorem mutexCountLoop_eq (size : Nat) (hsize : size + MutexLength ≤ 2 ^ 64) :
    ∀ (fuel j count : Nat), size ≤ j + fuel → j ≤ size + MutexLength - 1 →
      mutexCountLoop size fuel j count
        = count + (if j < size then (size - j + MutexLength - 1) / MutexLength else 0) := by
  unfold MutexLength at hsize
  intro fuel
  induction fuel with
  | zero =>
    intro j count h1 _
    unfold mutexCountLoop
    rw [if_neg (by omega)]
    rfl
  | succ f ih =>
    intro j count h1 h2
    unfold MutexLength at h2
    unfold mutexCountLoop
    by_cases hj : j < size
    · rw [if_pos hj, if_pos hj]
      have hmod : (j + MutexLength) % 2 ^ 64 = j + 1000000 := by
        unfold MutexLength
        omega
      rw [hmod, ih (j + 1000000) (count + 1) (by omega) (by unfold MutexLength; omega)]
      unfold MutexLength
      by_cases hj2 : j + 1000000 < size
      · rw [if_pos hj2]
        omega
      · rw [if_neg hj2]
        omega
    · rw [if_neg hj, if_neg hj]
      rfl

theorem mutexCount_eq (size : Nat) (hsize : size + MutexLength ≤ 2 ^ 64) :
    mutexCount size = (size + MutexLength - 1) / MutexLength := by
  unfold mutexCount
  rw [mutexCountLoop_eq size hsize size 0 0 (by omega) (by unfold MutexLength; omega)]
  unfold MutexLength
  by_cases h : 0 < size
  · rw [if_pos h]
    omega
  · rw [if_neg h]
    omega

/-- The mutexes locked for the block `[unitigStart, unitigEnd)` of a unitig of `size`
positions that has the mutexes `getHPCUnitigSequences` allocates for it: the list is not
empty, holds only indices of allocated mutexes, is in ascending order, and holds
`j / MutexLength` for every position `j` of `[unitigStart - 64, unitigEnd + 64)` below
`size`. -/
theorem lockedMutexes_cover (size unitigStart unitigEnd : Nat)
    (hstart : unitigStart < unitigEnd) (hend : unitigEnd ≤ size)
    (hsize : size + 64 + MutexLength ≤ 2 ^ 64) :
    lockedMutexes (mutexCount size) unitigStart unitigEnd ≠ [] ∧
      (∀ i ∈ lockedMutexes (mutexCount size) unitigStart unitigEnd, i < mutexCount size) ∧
      (lockedMutexes (mutexCount size) unitigStart unitigEnd).Pairwise (fun a b => a < b) ∧
      ∀ j, unitigStart ≤ j + 64 → j < unitigEnd + 64 → j < size →
        j / MutexLength ∈ lockedMutexes (mutexCount size) unitigStart unitigEnd := by
  have hcount := mutexCount_eq size (by omega)
  unfold MutexLength at hsize hcount
  have hmem : ∀ i, i ∈ lockedMutexes (mutexCount size) unitigStart unitigEnd ↔
      (mutexRange (mutexCount size) unitigStart unitigEnd).1 ≤ i ∧
        i < (mutexRange (mutexCount size) unitigStart unitigEnd).2 := by
    intro i
    unfold lockedMutexes
    rw [List.mem_range'_1]
    omega
  have hlow : (mutexRange (mutexCount size) unitigStart unitigEnd).1
      = if unitigStart > 64 then (unitigStart - 64) / 1000000 else unitigStart / 1000000 := by
    unfold mutexRange MutexLength subSize
    simp only
    by_cases h : unitigStart > 64
    · rw [if_pos h, if_pos h]
      have hs : (unitigStart + 2 ^ 64 - 64 % 2 ^ 64) % 2 ^ 64 = unitigStart - 64 := by omega
      rw [hs]
    · rw [if_neg h, if_neg h]
  have hhigh : (mutexRange (mutexCount size) unitigStart unitigEnd).2
      = if (unitigEnd + 64 + 1000000 - 1) / 1000000 ≥ mutexCount size then mutexCount size
        else (unitigEnd + 64 + 1000000 - 1) / 1000000 := by
    unfold mutexRange MutexLength
    simp only
    have hmod : (unitigEnd + 64 + 1000000 - 1) % 2 ^ 64 = unitigEnd + 64 + 1000000 - 1 := by
      omega
    rw [hmod]
  refine ⟨?_, ?_, ?_, ?_⟩
  · intro hnil
    have hin : unitigStart / 1000000 ∈ lockedMutexes (mutexCount size) unitigStart unitigEnd := by
      rw [hmem, hlow, hhigh]
      constructor
      · split_ifs <;> omega
      · split_ifs <;> omega
    rw [hnil] at hin
    cases hin
  · intro i hi
    rw [hmem, hhigh] at hi
    obtain ⟨_, h2⟩ := hi
    split_ifs at h2 <;> omega
  · unfold lockedMutexes
    exact List.pairwise_lt_range' _ _
  · intro j h1 h2 h3
    unfold MutexLength
    rw [hmem, hlow, hhigh]
    constructor
    · split_ifs <;> omega
    · split_ifs <;> omega

/-! ## One match block of consensus counts -/

theorem countOffset_eq (unitigStart unitigEnd : Nat) (fw : Bool) (i : Nat)
    (hend : unitigEnd < 2 ^ 64) (hi : i < unitigEnd - unitigStart) :
    countOffset unitigStart unitigEnd fw i = blockOffset unitigStart unitigEnd fw i := by
  unfold countOffset blockOffset subSize
  cases fw with
  | true =>
    simp only [if_true]
    omega
  | false =>
    simp only [Bool.false_eq_true, if_false]
    omega

theorem blockOffset_bounds (unitigStart unitigEnd : Nat) (fw : Bool) (i : Nat)
    (hi : i < unitigEnd - unitigStart) :
    unitigStart ≤ blockOffset unitigStart unitigEnd fw i ∧
      blockOffset unitigStart unitigEnd fw i < unitigEnd := by
  unfold blockOffset
  cases fw with
  | true =>
    simp only [if_true]
    omega
  | false =>
    simp only [Bool.false_eq_true, if_false]
    omega

theorem blockOffset_inj (unitigStart unitigEnd : Nat) (fw : Bool) (i j : Nat)
    (hi : i < unitigEnd - unitigStart) (hj : j < unitigEnd - unitigStart)
    (h : blockOffset unitigStart unitigEnd fw i = blockOffset unitigStart unitigEnd fw j) :
    i = j := by
  unfold blockOffset at h
  cases fw with
  | true =>
    simp only [if_true] at h
    omega
  | false =>
    simp only [Bool.false_eq_true, if_false] at h
    omega

theorem countTotal_mapSet (m : List (List Char × Nat)) (key : List Char) (value : Nat) :
    countTotal (mapSet m key value) + (mapFind m key).getD 0 = countTotal m + value := by
  induction m with
  | nil => simp [mapSet, mapFind, countTotal]
  | cons e rest ih =>
    unfold mapSet mapFind
    by_cases he : e.1 = key
    · rw [if_pos he, if_pos he]
      simp only [countTotal, List.map_cons, List.sum_cons, Option.getD_some]
      omega
    · rw [if_neg he, if_neg he]
      simp only [countTotal, List.map_cons, List.sum_cons] at ih ⊢
      omega

/-- One round of the loop of `addCounts` at an unset position. -/
theorem addCountsLoop_round (complement : Nat → Nat) (revCompRaw : List Char → List Char)
    (seq poses : List Nat) (rawSeq : List Char) (seqStart unitigStart unitigEnd : Nat)
    (fw : Bool) (n i off c a b : Nat) (result : CompressedSequenceType)
    (counts : List (List (List Char × Nat))) (m : List (List Char × Nat))
    (hoff : countOffset unitigStart unitigEnd fw i = off)
    (hlt : off < result.compressed.length) (hcode : result.compressed[off]? = some 0)
    (hmod1 : (seqStart + i) % 2 ^ 64 = seqStart + i)
    (hmod2 : (seqStart + i + 1) % 2 ^ 64 = seqStart + i + 1)
    (hc : seq[seqStart + i]? = some c) (hclt : off < counts.length)
    (hplt : seqStart + i + 1 < poses.length) (ha : poses[seqStart + i]? = some a)
    (hb : poses[seqStart + i + 1]? = some b) (hm : counts[off]? = some m) (hab : a < b)
    (har : a ≤ rawSeq.length) :
    addCountsLoop complement revCompRaw seq poses rawSeq seqStart unitigStart unitigEnd fw
        (n + 1) i result counts
      = addCountsLoop complement revCompRaw seq poses rawSeq seqStart unitigStart unitigEnd fw
          n (i + 1) (result.setCompressed off (if fw then c else complement c))
          (counts.set off
            (mapSet m (if fw then (rawSeq.drop a).take (b - a)
                else revCompRaw ((rawSeq.drop a).take (b - a)))
              (((mapFind m (if fw then (rawSeq.drop a).take (b - a)
                else revCompRaw ((rawSeq.drop a).take (b - a)))).getD 0 + 1) % 2 ^ 64))) := by
  rw [addCountsLoop]
  rw [hoff, hmod1, hmod2]
  simp only [CompressedSequenceType.compressedSize, CompressedSequenceType.getCompressed,
    hlt, not_true_eq_false, if_false, hcode, hc, if_true, hclt, hplt, ha, hb, hm, hab,
    gt_iff_lt, Nat.not_lt.mpr har]
  cases fw with
  | true => simp only [if_true]
  | false => simp only [Bool.false_eq_true, if_false]

/-- The loop of `addCounts` over a block of unset positions: it returns, every position of
the block takes the observed code and one more observation, and nothing else changes. -/
theorem addCountsLoop_spec (complement : Nat → Nat) (revCompRaw : List Char → List Char)
    (seq poses : List Nat) (rawSeq : List Char) (seqStart seqEnd unitigStart unitigEnd : Nat)
    (fw : Bool)
    (hlen : unitigEnd - unitigStart = seqEnd - seqStart) (hend : unitigEnd < 2 ^ 64)
    (hseqlen : seqEnd ≤ seq.length) (hposes : seqEnd < poses.length)
    (hplen : poses.length < 2 ^ 64)
    (hinc : ∀ i, seqStart ≤ i → i < seqEnd →
      poses.getD i 0 < poses.getD (i + 1) 0 ∧ poses.getD i 0 ≤ rawSeq.length) :
    ∀ (n i : Nat) (result : CompressedSequenceType) (counts : List (List (List Char × Nat))),
      i + n = seqEnd - seqStart → unitigEnd ≤ result.compressed.length →
      unitigEnd ≤ counts.length →
      (∀ i2, i ≤ i2 → i2 < seqEnd - seqStart →
        result.compressed[blockOffset unitigStart unitigEnd fw i2]? = some 0) →
      (∀ i2, i ≤ i2 → i2 < seqEnd - seqStart →
        ∀ e ∈ counts.getD (blockOffset unitigStart unitigEnd fw i2) [], e.2 + 1 < 2 ^ 64) →
      ∃ r2 c2,
        addCountsLoop complement revCompRaw seq poses rawSeq seqStart unitigStart unitigEnd fw
          n i result counts = some (r2, c2) ∧
        r2.compressed.length = result.compressed.length ∧ c2.length = counts.length ∧
        (∀ i2, i ≤ i2 → i2 < seqEnd - seqStart →
          r2.compressed[blockOffset unitigStart unitigEnd fw i2]?
            = (seq[seqStart + i2]?).map (fun c => if fw then c else complement c)) ∧
        (∀ j, (∀ i2, i ≤ i2 → i2 < seqEnd - seqStart →
            j ≠ blockOffset unitigStart unitigEnd fw i2) →
          r2.compressed[j]? = result.compressed[j]? ∧ c2[j]? = counts[j]?) ∧
        (∀ i2, i ≤ i2 → i2 < seqEnd - seqStart →
          countTotal (c2.getD (blockOffset unitigStart unitigEnd fw i2) [])
            = countTotal (counts.getD (blockOffset unitigStart unitigEnd fw i2) []) + 1) := by
  intro n
  induction n with
  | zero =>
    intro i result counts hin _ _ _ _
    refine ⟨result, counts, rfl, rfl, rfl, ?_, fun j _ => ⟨rfl, rfl⟩, ?_⟩
    · intro i2 h1 h2
      omega
    · intro i2 h1 h2
      omega
  | succ n ih =>
    intro i result counts hin hrl hcl hzero hroom
    have hi : i < unitigEnd - unitigStart := by omega
    have hi2 : i < seqEnd - seqStart := by omega
    obtain ⟨hlo, hhi⟩ := blockOffset_bounds unitigStart unitigEnd fw i hi
    obtain ⟨c, hc⟩ : ∃ c, seq[seqStart + i]? = some c :=
      ⟨_, List.getElem?_eq_getElem (by omega)⟩
    obtain ⟨m, hm⟩ : ∃ m, counts[blockOffset unitigStart unitigEnd fw i]? = some m :=
      ⟨_, List.getElem?_eq_getElem (by omega)⟩
    have ha : poses[seqStart + i]? = some (poses.getD (seqStart + i) 0) := by
      rw [List.getD_eq_getElem?_getD, List.getElem?_eq_getElem (by omega)]
      rfl
    have hb : poses[seqStart + i + 1]? = some (poses.getD (seqStart + i + 1) 0) := by
      rw [List.getD_eq_getElem?_getD, List.getElem?_eq_getElem (by omega)]
      rfl
    obtain ⟨hab, har⟩ := hinc (seqStart + i) (by omega) (by omega)
    have hround := addCountsLoop_round complement revCompRaw seq poses rawSeq seqStart
      unitigStart unitigEnd fw n i (blockOffset unitigStart unitigEnd fw i) c
      (poses.getD (seqStart + i) 0) (poses.getD (seqStart + i + 1) 0) result counts m
      (countOffset_eq unitigStart unitigEnd fw i hend hi) (by omega) (hzero i (Nat.le_refl _) hi2)
      (by omega) (by omega) hc (by omega) (by omega) ha hb hm hab har
    rw [hround]
    generalize hkey : (if fw = true then
        List.take (poses.getD (seqStart + i + 1) 0 - poses.getD (seqStart + i) 0)
          (List.drop (poses.getD (seqStart + i) 0) rawSeq)
      else revCompRaw (List.take (poses.getD (seqStart + i + 1) 0 - poses.getD (seqStart + i) 0)
          (List.drop (poses.getD (seqStart + i) 0) rawSeq))) = key
    have hmget : counts.getD (blockOffset unitigStart unitigEnd fw i) [] = m := by
      rw [List.getD_eq_getElem?_getD, hm]
      rfl
    have hold : ((mapFind m key).getD 0 + 1) % 2 ^ 64 = (mapFind m key).getD 0 + 1 := by
      apply Nat.mod_eq_of_lt
      cases hfind : mapFind m key with
      | none =>
        simp only [Option.getD_none]
        omega
      | some old =>
        have hmem := mapFind_mem m key old hfind
        have := hroom i (Nat.le_refl _) hi2 (key, old) (by rw [hmget]; exact hmem)
        simpa using this
    rw [hold]
    have hne : ∀ i2, i + 1 ≤ i2 → i2 < seqEnd - seqStart →
        blockOffset unitigStart unitigEnd fw i ≠ blockOffset unitigStart unitigEnd fw i2 := by
      intro i2 h1 h2 heq
      have := blockOffset_inj unitigStart unitigEnd fw i i2 hi (by omega) heq
      omega
    obtain ⟨r2, c2, hrun, hr2l, hc2l, hcodes, hout, htot⟩ := ih (i + 1)
      (result.setCompressed (blockOffset unitigStart unitigEnd fw i)
        (if fw = true then c else complement c))
      (counts.set (blockOffset unitigStart unitigEnd fw i)
        (mapSet m key ((mapFind m key).getD 0 + 1)))
      (by omega)
      (by simpa [CompressedSequenceType.setCompressed] using hrl)
      (by simpa using hcl)
      (by
        intro i2 h1 h2
        simp only [CompressedSequenceType.setCompressed]
        rw [List.getElem?_set_ne (hne i2 h1 h2)]
        exact hzero i2 (by omega) h2)
      (by
        intro i2 h1 h2
        rw [List.getD_eq_getElem?_getD, List.getElem?_set_ne (hne i2 h1 h2),
          ← List.getD_eq_getElem?_getD]
        exact hroom i2 (by omega) h2)
    refine ⟨r2, c2, hrun, ?_, ?_, ?_, ?_, ?_⟩
    · rw [hr2l]
      simp [CompressedSequenceType.setCompressed]
    · rw [hc2l]
      simp
    · intro i2 h1 h2
      by_cases hii : i2 = i
      · subst hii
        rw [(hout _ (fun i3 h3 h4 => hne i3 h3 h4)).1, hc]
        simp only [CompressedSequenceType.setCompressed, Option.map_some']
        rw [List.getElem?_set_self (by omega)]
      · exact hcodes i2 (by omega) h2
    · intro j hj
      have hji : j ≠ blockOffset unitigStart unitigEnd fw i := hj i (Nat.le_refl _) hi2
      obtain ⟨h1, h2⟩ := hout j (fun i2 h3 h4 => hj i2 (by omega) h4)
      refine ⟨?_, ?_⟩
      · rw [h1]
        simp only [CompressedSequenceType.setCompressed]
        rw [List.getElem?_set_ne (fun h => hji h.symm)]
      · rw [h2, List.getElem?_set_ne (fun h => hji h.symm)]
    · intro i2 h1 h2
      by_cases hii : i2 = i
      · subst hii
        rw [List.getD_eq_getElem?_getD, (hout _ (fun i3 h3 h4 => hne i3 h3 h4)).2,
          List.getElem?_set_self (by omega), hmget]
        simp only [Option.getD_some]
        have := countTotal_mapSet m key ((mapFind m key).getD 0 + 1)
        omega
      · rw [htot i2 (by omega) h2, List.getD_eq_getElem?_getD,
          List.getElem?_set_ne (hne i2 (by omega) h2), ← List.getD_eq_getElem?_getD]

/-- C33: for a call of `addCounts` that meets the assertions of the function, on a unitig
whose codes in `[unitigStart, unitigEnd)` are all 0, the call returns, and afterwards a
forward match has `code[unitigStart + i] = seq[seqStart + i]` and a reverse match has
`code[unitigEnd - 1 - i] = complement(seq[seqStart + i])` for every `i < seqEnd - seqStart`;
the codes outside `[unitigStart, unitigEnd)` are unchanged, and the total observation count
of every position of the range has grown by exactly 1.  The counts are `size_t` values with
room for one more observation. -/
theorem addCounts_fills_an_unset_block (complement : Nat → Nat)
    (revCompRaw : List Char → List Char) (result : List CompressedSequenceType)
    (expandedCounts : List (List (List (List Char × Nat)))) (seqMutexes : List Nat)
    (seq poses : List Nat) (rawSeq : List Char)
    (seqStart seqEnd unitig unitigStart unitigEnd : Nat) (fw : Bool)
    (sequence : CompressedSequenceType) (counts : List (List (List Char × Nat)))
    (numMutexes : Nat)
    (hres : result[unitig]? = some sequence) (hcnt : expandedCounts[unitig]? = some counts)
    (hmut : seqMutexes[unitig]? = some numMutexes)
    (hstart : unitigStart < unitigEnd) (hseq : seqStart ≤ seqEnd)
    (hlen : unitigEnd - unitigStart = seqEnd - seqStart)
    (hcodes : unitigEnd ≤ sequence.compressed.length) (hcounts : unitigEnd ≤ counts.length)
    (hsize : counts.length < 2 ^ 64) (hseqlen : seqEnd ≤ seq.length)
    (hposes : seqEnd < poses.length) (hplen : poses.length < 2 ^ 64)
    (hinc : ∀ i, seqStart ≤ i → i < seqEnd →
      poses.getD i 0 < poses.getD (i + 1) 0 ∧ poses.getD i 0 ≤ rawSeq.length)
    (hzero : ∀ j, unitigStart ≤ j → j < unitigEnd → sequence.compressed[j]? = some 0)
    (hroom : ∀ j, unitigStart ≤ j → j < unitigEnd →
      ∀ e ∈ counts.getD j [], e.2 + 1 < 2 ^ 64) :
    ∃ locked sequence2 counts2,
      addCounts complement revCompRaw result expandedCounts seqMutexes seq poses rawSeq
          seqStart seqEnd unitig unitigStart unitigEnd fw
        = some (locked, result.set unitig sequence2, expandedCounts.set unitig counts2) ∧
      (∀ i, i < seqEnd - seqStart →
        (fw = true → sequence2.compressed[unitigStart + i]? = seq[seqStart + i]?) ∧
        (fw = false →
          sequence2.compressed[unitigEnd - 1 - i]? = (seq[seqStart + i]?).map complement)) ∧
      (∀ j, j < unitigStart ∨ unitigEnd ≤ j →
        sequence2.compressed[j]? = sequence.compressed[j]?) ∧
      (∀ j, unitigStart ≤ j → j < unitigEnd →
        countTotal (counts2.getD j []) = countTotal (counts.getD j []) + 1) := by
  have hend : unitigEnd < 2 ^ 64 := by omega
  obtain ⟨r2, c2, hrun, _, _, hcode2, hout, htot⟩ := addCountsLoop_spec complement revCompRaw
    seq poses rawSeq seqStart seqEnd unitigStart unitigEnd fw hlen hend hseqlen hposes
    hplen hinc (seqEnd - seqStart) 0 sequence counts (by omega) hcodes hcounts
    (fun i2 _ h2 => by
      obtain ⟨h3, h4⟩ := blockOffset_bounds unitigStart unitigEnd fw i2 (by omega)
      exact hzero _ h3 h4)
    (fun i2 _ h2 => by
      obtain ⟨h3, h4⟩ := blockOffset_bounds unitigStart unitigEnd fw i2 (by omega)
      exact hroom _ h3 h4)
  refine ⟨lockedMutexes numMutexes unitigStart unitigEnd, r2, c2, ?_, ?_, ?_, ?_⟩
  · have hu : unitig < expandedCounts.length := (List.getElem?_eq_some_iff.mp hcnt).1
    have hsub1 : subSize unitigEnd unitigStart = unitigEnd - unitigStart := by
      unfold subSize
      omega
    have hsub2 : subSize seqEnd seqStart = seqEnd - seqStart := by
      unfold subSize
      omega
    unfold addCounts
    rw [hsub1, hsub2, hcnt, hmut, hres]
    simp only [hu, not_true_eq_false, if_false, hlen, gt_iff_lt, hstart, hcounts, hrun]
  · intro i hi
    have h := hcode2 i (Nat.zero_le _) hi
    constructor
    · intro hfw
      subst hfw
      simp only [blockOffset, if_true] at h
      rw [h]
      cases seq[seqStart + i]? <;> rfl
    · intro hfw
      subst hfw
      simp only [blockOffset, Bool.false_eq_true, if_false] at h
      rw [h]
  · intro j hj
    refine (hout j ?_).1
    intro i2 _ h2 heq
    obtain ⟨h3, h4⟩ := blockOffset_bounds unitigStart unitigEnd fw i2 (by omega)
    omega
  · intro j h1 h2
    have hcases : ∃ i2, i2 < seqEnd - seqStart ∧ blockOffset unitigStart unitigEnd fw i2 = j := by
      cases fw with
      | true =>
        refine ⟨j - unitigStart, by omega, ?_⟩
        simp only [blockOffset, if_true]
        omega
      | false =>
        refine ⟨unitigEnd - 1 - j, by omega, ?_⟩
        simp only [blockOffset, Bool.false_eq_true, if_false]
        omega
    obtain ⟨i2, hi2, hoff⟩ := hcases
    have := htot i2 (Nat.zero_le _) hi2
    rw [hoff] at this
    exact this

/-- C33 at a reverse match of the codes `A C G` (runs `AA`, `C`, `GG` of the raw sequence
`AACGG`) on the positions 1 to 3 of a unitig of four unset positions. -/
theorem addCounts_fills_an_unset_block_witness :
    ∃ locked sequence2 counts2,
      addCounts complement List.reverse [{ compressed := [0, 0, 0, 0] }] [[[], [], [], []]] [1]
          [1, 2, 3] [0, 2, 3, 5] ['A', 'A', 'C', 'G', 'G'] 0 3 0 1 4 false
        = some (locked, ([{ compressed := [0, 0, 0, 0] }] : List CompressedSequenceType).set 0
            sequence2,
          ([[[], [], [], []]] : List (List (List (List Char × Nat)))).set 0 counts2) ∧
      (∀ i, i < 3 - 0 →
        (false = true → sequence2.compressed[1 + i]? = ([1, 2, 3] : List Nat)[0 + i]?) ∧
        (false = false →
          sequence2.compressed[4 - 1 - i]?
            = (([1, 2, 3] : List Nat)[0 + i]?).map complement)) ∧
      (∀ j, j < 1 ∨ 4 ≤ j →
        sequence2.compressed[j]?
          = ({ compressed := [0, 0, 0, 0] } : CompressedSequenceType).compressed[j]?) ∧
      (∀ j, 1 ≤ j → j < 4 →
        countTotal (counts2.getD j [])
          = countTotal (([[], [], [], []] : List (List (List Char × Nat))).getD j []) + 1) :=
  addCounts_fills_an_unset_block complement List.reverse [{ compressed := [0, 0, 0, 0] }]
    [[[], [], [], []]] [1] [1, 2, 3] [0, 2, 3, 5] ['A', 'A', 'C', 'G', 'G'] 0 3 0 1 4 false
    { compressed := [0, 0, 0, 0] } [[], [], [], []] 1 rfl rfl rfl (by decide) (by decide)
    (by decide) (by decide) (by decide) (by decide) (by decide) (by decide) (by decide)
    (by decide) (by decide) (by decide)

/-! ## The mutexes `addCounts` locks -/

/-- C34: for every call of `addCounts` with `unitigStart < unitigEnd ≤ L` on a unitig of `L`
positions that has the mutexes `getHPCUnitigSequences` allocates for it (one per
`MutexLength` positions), and with blocks of equal length on the read and on the unitig (the
second assertion of `addCounts`), the function passes its four leading assertions and locks a
list of mutexes that is not empty, holds only indices of allocated mutexes, is in ascending
order, and holds `j / MutexLength` for every position `j` of
`[unitigStart - 64, unitigEnd + 64)` clamped to `[0, L)`; a call that returns has locked
exactly this list.  The sizes are `size_t` values: `L + 64 + MutexLength ≤ 2 ^ 64`. -/
theorem addCounts_locks_cover_the_block (complement : Nat → Nat)
    (revCompRaw : List Char → List Char) (result : List CompressedSequenceType)
    (expandedCounts : List (List (List (List Char × Nat)))) (seqMutexes : List Nat)
    (seq poses : List Nat) (rawSeq : List Char)
    (seqStart seqEnd unitig unitigStart unitigEnd : Nat) (fw : Bool)
    (counts : List (List (List Char × Nat)))
    (hcnt : expandedCounts[unitig]? = some counts)
    (hmut : seqMutexes[unitig]? = some (mutexCount counts.length))
    (hlen : subSize unitigEnd unitigStart = subSize seqEnd seqStart)
    (hstart : unitigStart < unitigEnd) (hend : unitigEnd ≤ counts.length)
    (hsize : counts.length + 64 + MutexLength ≤ 2 ^ 64) :
    ∃ locked,
      addCountsLocked expandedCounts seqMutexes seqStart seqEnd unitig unitigStart unitigEnd
        = some locked ∧
      (∀ l r2 c2,
        addCounts complement revCompRaw result expandedCounts seqMutexes seq poses rawSeq
            seqStart seqEnd unitig unitigStart unitigEnd fw = some (l, r2, c2) →
          l = locked) ∧
      locked ≠ [] ∧ (∀ i ∈ locked, i < mutexCount counts.length) ∧
      locked.Pairwise (fun a b => a < b) ∧
      ∀ j, unitigStart ≤ j + 64 → j < unitigEnd + 64 → j < counts.length →
        j / MutexLength ∈ locked := by
  have hu : unitig < expandedCounts.length := (List.getElem?_eq_some_iff.mp hcnt).1
  obtain ⟨h1, h2, h3, h4⟩ := lockedMutexes_cover counts.length unitigStart unitigEnd hstart hend
    hsize
  refine ⟨lockedMutexes (mutexCount counts.length) unitigStart unitigEnd, ?_, ?_, h1, h2, h3,
    h4⟩
  · unfold addCountsLocked
    rw [hcnt, hmut]
    simp only [hu, hlen, hstart, hend, not_true_eq_false, if_false, gt_iff_lt]
  · intro l r2 c2 h
    unfold addCounts at h
    rw [hcnt, hmut] at h
    simp only [hu, hlen, hstart, not_true_eq_false, if_false, gt_iff_lt] at h
    cases hres : result[unitig]? with
    | none =>
      rw [hres] at h
      cases h
    | some sequence =>
      rw [hres] at h
      simp only [hend, not_true_eq_false, if_false] at h
      split at h
      · cases h
      · cases h
        rfl

/-- C34 at a reverse match on the positions 1 to 3 of a unitig of four positions, which has
one mutex: the call locks mutex 0. -/
theorem addCounts_locks_cover_the_block_witness :
    ∃ locked,
      addCountsLocked [[[], [], [], []]] [1] 0 3 0 1 4 = some locked ∧
      (∀ l r2 c2,
        addCounts complement List.reverse [{ compressed := [0, 0, 0, 0] }] [[[], [], [], []]]
            [1] [1, 2, 3] [0, 2, 3, 5] ['A', 'A', 'C', 'G', 'G'] 0 3 0 1 4 false
          = some (l, r2, c2) → l = locked) ∧
      locked ≠ [] ∧
      (∀ i ∈ locked, i < mutexCount ([[], [], [], []] : List (List (List Char × Nat))).length) ∧
      locked.Pairwise (fun a b => a < b) ∧
      ∀ j, 1 ≤ j + 64 → j < 4 + 64 →
        j < ([[], [], [], []] : List (List (List Char × Nat))).length →
        j / MutexLength ∈ locked :=
  addCounts_locks_cover_the_block complement List.reverse [{ compressed := [0, 0, 0, 0] }]
    [[[], [], [], []]] [1] [1, 2, 3] [0, 2, 3, 5] ['A', 'A', 'C', 'G', 'G'] 0 3 0 1 4 false
    [[], [], [], []] rfl (by decide) (by decide) (by decide) (by decide) (by decide)

/-! ## One re-routed edge: the run returns -/

theorem insertMiddlesLoop_plain_some
    (tm : VectorWithDirection (List (DirNode × List DirNode))) (fuel : Nat) :
    ∀ raw result : List DirNode, raw ≠ [] → raw.length ≤ fuel →
      (∀ e ∈ raw.zip raw.tail, ∃ m, tm.get? e.1 = some m ∧ mapFind m e.2 = none) →
      insertMiddlesLoop tm fuel raw result = some (raw ++ result.reverse) := by
  induction fuel with
  | zero =>
    intro raw result hne hlen _
    exact absurd (List.length_eq_zero.mp (by omega)) hne
  | succ fuel ih =>
    intro raw result hne hlen hno
    rcases List.eq_nil_or_concat raw with h | ⟨init, last, h⟩
    · exact absurd h hne
    · rw [List.concat_eq_append] at h
      subst h
      rcases List.eq_nil_or_concat init with h2 | ⟨init2, src, h2⟩
      · subst h2
        unfold insertMiddlesLoop
        simp
      · rw [List.concat_eq_append] at h2
        subst h2
        unfold insertMiddlesLoop
        have hrev : (init2 ++ [src] ++ [last]).reverse = last :: src :: init2.reverse := by
          simp
        rw [hrev]
        simp only
        obtain ⟨m, hm, hf⟩ := hno (src, last) (mem_zip_tail_last init2 src last)
        rw [hm]
        simp only
        rw [hf]
        simp only
        rw [List.dropLast_concat,
          ih (init2 ++ [src]) (result ++ [last]) (by simp)
            (by
              simp only [List.length_append, List.length_singleton] at hlen ⊢
              omega)
            (fun e he => hno e (mem_zip_tail_concat _ _ _ he))]
        simp

theorem insertMiddles_chain_some (cleaner : TransitiveCleaner) (fuel : Nat) (u v : DirNode)
    (mu : List (DirNode × List DirNode)) (ws : List DirNode)
    (hget : cleaner.transitiveMiddle.get? u = some mu) (hfind : mapFind mu v = some ws)
    (hlen : 0 < ws.length) (hfuel : ws.length + 3 ≤ fuel)
    (hplain : ∀ e ∈ ([u] ++ ws ++ [v]).zip ([u] ++ ws ++ [v]).tail,
      ∃ m, cleaner.transitiveMiddle.get? e.1 = some m ∧ mapFind m e.2 = none) :
    cleaner.insertMiddles fuel [u, v] = some ([u] ++ ws ++ [v]) := by
  obtain ⟨f, rfl⟩ : ∃ f, fuel = f + 1 := ⟨fuel - 1, by omega⟩
  unfold TransitiveCleaner.insertMiddles
  rw [insertMiddlesLoop]
  simp only [List.reverse_cons, List.reverse_nil, List.nil_append, List.singleton_append, hget,
    hfind]
  rw [if_pos (by omega)]
  have h := insertMiddlesLoop_plain_some cleaner.transitiveMiddle f ([u] ++ ws ++ [v]) []
    (by simp)
    (by
      simp only [List.length_append, List.length_singleton]
      omega) hplain
  simpa using h

theorem addCoverageAll_some (amount : Nat) (nodes : List DirNode) :
    ∀ coverage : List Nat, (∀ x ∈ nodes, x.1 < coverage.length) →
      ∃ cov, addCoverageAll amount coverage nodes = some cov ∧
        cov.length = coverage.length := by
  induction nodes with
  | nil =>
    intro coverage _
    exact ⟨coverage, rfl, rfl⟩
  | cons node rest ih =>
    intro coverage h
    have hn := h node (List.mem_cons_self _ _)
    unfold addCoverageAll addCoverage
    rw [List.getElem?_eq_getElem hn]
    simp only
    obtain ⟨cov, h1, h2⟩ := ih (coverage.set node.1 ((coverage[node.1] + amount) % 2 ^ 64))
      (by
        intro x hx
        rw [List.length_set]
        exact h x (List.mem_cons_of_mem _ hx))
    rw [List.length_set] at h2
    exact ⟨cov, h1, h2⟩

/-- The targets of one directed node: the loop returns when every chain is found and its
inner nodes have a coverage cell. -/
theorem cleanTargets_some (cleaner : TransitiveCleaner) (fuel : Nat) (start : DirNode)
    (L : Nat) :
    ∀ (targets : List (DirNode × Nat)) (acc : CleanAcc), acc.coverage.length = L →
      (∀ t ∈ targets, ∃ vec, cleaner.insertMiddles fuel [start, t.1] = some vec ∧ vec ≠ [] ∧
        ∀ x ∈ vec.tail.dropLast, x.1 < L) →
      ∃ acc2, cleanTargets cleaner fuel start acc targets = some acc2 ∧
        acc2.coverage.length = L := by
  intro targets
  induction targets with
  | nil =>
    intro acc hacc _
    exact ⟨acc, rfl, hacc⟩
  | cons target rest ih =>
    intro acc hacc h
    obtain ⟨vec, hvec, hne, hin⟩ := h target (List.mem_cons_self _ _)
    have hrest := fun t ht => h t (List.mem_cons_of_mem _ ht)
    unfold cleanTargets
    rw [hvec]
    simp only
    by_cases h2 : vec.length = 2
    · rw [if_pos h2]
      exact ih acc hacc hrest
    · rw [if_neg h2]
      obtain ⟨vfirst, hfirst⟩ : ∃ a, vec.head? = some a := by
        cases vec with
        | nil => exact absurd rfl hne
        | cons a _ => exact ⟨a, rfl⟩
      obtain ⟨vlast, hlast⟩ : ∃ a, vec.getLast? = some a := by
        cases hl : vec.getLast? with
        | none => exact absurd (List.getLast?_eq_none_iff.mp hl) hne
        | some a => exact ⟨a, rfl⟩
      rw [hfirst, hlast]
      simp only
      obtain ⟨cov, hcov, hcl⟩ := addCoverageAll_some target.2 vec.tail.dropLast acc.coverage
        (by
          intro x hx
          rw [hacc]
          exact hin x hx)
      rw [hcov]
      simp only
      exact ih _ (by rw [← hacc]; exact hcl) hrest

theorem cleanNodesLoop_some (order : List (DirNode × Nat) → List (DirNode × Nat))
    (cleaner : TransitiveCleaner) (fuel : Nat) (ec : EdgeMaps) (L : Nat)
    (hside : ∀ (s : DirNode) (T : List (DirNode × Nat)), ec.get? s = some T →
      ∀ t ∈ order T, ∃ vec, cleaner.insertMiddles fuel [s, t.1] = some vec ∧ vec ≠ [] ∧
        ∀ x ∈ vec.tail.dropLast, x.1 < L)
    (n : Nat) :
    ∀ (node : Nat) (acc : CleanAcc), node + n ≤ ec.forward.length →
      node + n ≤ ec.backward.length → acc.coverage.length = L →
      ∃ acc2, cleanNodesLoop order cleaner fuel ec n node acc = some acc2 := by
  induction n with
  | zero =>
    intro node acc _ _ _
    exact ⟨acc, rfl⟩
  | succ n ih =>
    intro node acc h1 h2 hacc
    obtain ⟨fwT, hfw⟩ := get?_isSome ec (node, true) (by simp only; omega) (by simp only; omega)
    obtain ⟨bwT, hbw⟩ := get?_isSome ec (node, false) (by simp only; omega)
      (by simp only; omega)
    obtain ⟨acc1, hrun1, hl1⟩ := cleanTargets_some cleaner fuel (node, true) L (order fwT) acc
      hacc (hside _ _ hfw)
    obtain ⟨acc3, hrun3, hl3⟩ := cleanTargets_some cleaner fuel (node, false) L (order bwT) acc1
      hl1 (hside _ _ hbw)
    unfold cleanNodesLoop
    rw [hfw, hbw]
    simp only [hrun1, hrun3]
    exact ih (node + 1) acc3 (by omega) (by omega) hl3

theorem applyOverlaps_some (l : List (DirNode × DirNode × Nat)) :
    ∀ maps : EdgeMaps,
      (∀ t ∈ l, t.1.1 < maps.forward.length ∧ t.1.1 < maps.backward.length) →
      ∃ maps2, applyOverlaps maps l = some maps2 := by
  induction l with
  | nil =>
    intro maps _
    exact ⟨maps, rfl⟩
  | cons t rest ih =>
    intro maps h
    obtain ⟨h1, h2⟩ := h t (List.mem_cons_self _ _)
    obtain ⟨m2, hm2⟩ := assign_isSome maps t.1 t.2.1 t.2.2 h1 h2
    obtain ⟨l1, l2⟩ := assign_lengths _ _ _ _ _ hm2
    unfold applyOverlaps
    rw [hm2]
    simp only
    apply ih m2
    intro x hx
    rw [l1, l2]
    exact h x (List.mem_cons_of_mem _ hx)

theorem applyAdd_some (l : List (DirNode × DirNode × Nat)) :
    ∀ maps : EdgeMaps,
      (∀ t ∈ l, t.1.1 < maps.forward.length ∧ t.1.1 < maps.backward.length) →
      ∃ maps2, applyAdd maps l = some maps2 ∧ maps2.forward.length = maps.forward.length ∧
        maps2.backward.length = maps.backward.length := by
  induction l with
  | nil =>
    intro maps _
    exact ⟨maps, rfl, rfl, rfl⟩
  | cons t rest ih =>
    intro maps h
    obtain ⟨h1, h2⟩ := h t (List.mem_cons_self _ _)
    obtain ⟨m2, hm2⟩ := increase_isSome maps t.1 t.2.1 t.2.2 h1 h2
    obtain ⟨l1, l2⟩ := increase_lengths _ _ _ _ _ hm2
    unfold applyAdd
    rw [hm2]
    simp only
    obtain ⟨m3, hm3, k1, k2⟩ := ih m2 (by
      intro x hx
      rw [l1, l2]
      exact h x (List.mem_cons_of_mem _ hx))
    exact ⟨m3, hm3, by rw [k1, l1], by rw [k2, l2]⟩

/-- An entry of the edge maps is still there after `applyAdd`. -/
theorem findAt_applyAdd_isSome (x y : DirNode) (l : List (DirNode × DirNode × Nat)) :
    ∀ maps maps2 : EdgeMaps, maps.total + amountSum l < 2 ^ 64 →
      applyAdd maps l = some maps2 → (maps.findAt x y).isSome = true →
      (maps2.findAt x y).isSome = true := by
  induction l with
  | nil =>
    intro maps maps2 _ h hs
    simp only [applyAdd, Option.some.injEq] at h
    rw [← h]
    exact hs
  | cons t rest ih =>
    intro maps maps2 hfit h hs
    have hsum : amountSum (t :: rest) = t.2.2 + amountSum rest := by
      simp [amountSum]
    rw [hsum] at hfit
    unfold applyAdd at h
    split at h
    · cases h
    · rename_i m2 hm2
      have hf := findAt_increase maps m2 t.1 t.2.1 x y t.2.2 (by omega) hm2
      have htot : m2.total = maps.total + t.2.2 := total_increase maps m2 t.1 t.2.1 t.2.2
        (by omega) hm2
      apply ih m2 maps2 (by omega) h
      rw [hf]
      split_ifs
      · rfl
      · exact hs

/-- C25 (counterexample): coverage is kept per node id, and a chain can hold a node id more
than once.  First, the reads `AGCAGCAGCTGG` and `AACCAGCTAACC` with `k = 5`, `w = 3`: the
edge from node 0 forward to node 1 forward has coverage `c = 1` and is the only edge with a
chain; the chain is `[0+, 2+, 2-, 1+]`, which passes through node 2 in both orientations, and
`cleanTransitiveEdges` raises `coverage[2]` from 1 to 3, that is by `2 * c`.  Second, the hash
list `exampleThroughStart`, built by the ingestion callback from the k-mers at the positions
0 and 2 of `GATCA`: the edge `u = 0+` to `v = 1+` has coverage `c = 1` and is the only edge
with a chain; the chain is `[0+, 0-, 1+]`, whose intermediate has the node id of `u`, and
`cleanTransitiveEdges` raises `coverage[u]` from 1 to 2. -/
theorem chain_counts_a_node_per_occurrence :
    ((loadReadsAsHashes exampleHash exampleTwiceReads 5 3 false).map
        (fun l => (l.coverage, l.edgeCoverage.get? (0, true)))
      = some ([2, 2, 1, 1], some [((0, true), 1), ((1, true), 1)]) ∧
    ((loadReadsAsHashes exampleHash exampleTwiceReads 5 3 false).bind
        (fun l => TransitiveCleaner.make exampleHash id 5 l)).map (fun t => t.transitiveMiddle)
      = some { forward := [[((1, true), [(2, true), (2, false)])], [], [], []]
               backward := [[], [], [], []] } ∧
    ((loadReadsAsHashes exampleHash exampleTwiceReads 5 3 false).bind
        (fun l => cleanTransitiveEdges exampleHash id 50 l 5)).map (fun l => l.coverage)
      = some [2, 2, 3, 1]) ∧
    ((ingestEmissions exampleHash 3 2 [3, 1, 4, 2, 1] (revCompRLE [3, 1, 4, 2, 1])
        [1, 1, 1, 1, 1]
        { result := HashList.empty 3, lastMinimizerPosition := sizeMax, last := (sizeMax, true),
          lastHash := 0 }
        ([0, 2].map (scanEmission [3, 1, 4, 2, 1] 3))).map
        (fun st => st.result.buildReverseCompHashSequences) = some exampleThroughStart ∧
    exampleThroughStart.coverage = [1, 1] ∧
    exampleThroughStart.edgeCoverage.get? (0, true) = some [((1, true), 1)] ∧
    (TransitiveCleaner.make exampleHash id 3 exampleThroughStart).map
        (fun t => t.transitiveMiddle)
      = some { forward := [[((1, true), [(0, false)])], []], backward := [[], []] } ∧
    (cleanTransitiveEdges exampleHash id 50 exampleThroughStart 3).map (fun l => l.coverage)
      = some [2, 1]) := by
  refine ⟨⟨?_, ?_, ?_⟩, ?_, ?_, ?_, ?_, ?_⟩ <;> decide

/-- C25 (amended): a hash list in which exactly one edge `u -> v`, of coverage `c`, has a
chain `[u, w1..wm, v]` (no step of the chain has a chain of its own).  With `m + 3` rounds of
fuel `cleanTransitiveEdges` returns; `m ≥ 1`; it adds `c` to the coverage of a node once for
every occurrence of its node id among the `w_i`, so it leaves `coverage[u]` and
`coverage[v]` as they are when their node ids are not among those of the `w_i`; it adds `c` to the edge coverage of every canonical
chain edge `canon(x_i, x_{i+1})`, once for every step of the chain that is this edge, and
takes `c` from that of `canon(u, v)`.  The hash list stores canonical edges, has one coverage
cell and one pair of edge maps per node, and the nodes of the chain and of the new overlaps
are among them; the counters are `size_t` values that stay below `2 ^ 64`. -/
theorem single_chain_reroutes_coverage (hash : List Nat → Nat)
    (order : List (DirNode × Nat) → List (DirNode × Nat)) (fuel : Nat)
    (list : HashList) (k : Nat) (cleaner : TransitiveCleaner) (u v : DirNode)
    (ws : List DirNode) (c : Nat) (mu : List (DirNode × Nat))
    (hmake : TransitiveCleaner.make hash order k list = some cleaner)
    (hchain : cleaner.transitiveMiddle.get? u = some [(v, ws)])
    (hothers : ∀ a m, a ≠ u → cleaner.transitiveMiddle.get? a = some m → m = [])
    (hplain : ∀ e ∈ ([u] ++ ws ++ [v]).zip ([u] ++ ws ++ [v]).tail, e ≠ (u, v))
    (hedge : list.edgeCoverage.get? u = some mu) (hmem : (v, c) ∈ mu)
    (hkeys : (mu.map Prod.fst).Nodup) (horder : (order mu).Perm mu)
    (hcanon : list.edgeCoverage.Canonical) (hfuel : ws.length + 3 ≤ fuel)
    (hshape : list.edgeCoverage.backward.length = list.edgeCoverage.forward.length)
    (hsize : list.edgeCoverage.size ≤ list.size)
    (hcells : list.edgeCoverage.size ≤ list.coverage.length)
    (hnodes : ∀ x ∈ ws ++ [v], x.1 < list.edgeCoverage.size)
    (hnew : ∀ t ∈ cleaner.newSequenceOverlaps,
      t.1.1 < list.sequenceOverlap.forward.length ∧
        t.1.1 < list.sequenceOverlap.backward.length)
    (hcov : list.coverage.sum + c * (ws.length + 1) < 2 ^ 64)
    (hec : list.edgeCoverage.total + c * (ws.length + 1) < 2 ^ 64) :
    ∃ cleaned, cleanTransitiveEdges hash order fuel list k = some cleaned ∧
      1 ≤ ws.length ∧
      (∀ (n c0 : Nat), list.coverage[n]? = some c0 →
        cleaned.coverage[n]?
          = some (c0 + c * (ws.filter (fun x => decide (x.1 = n))).length)) ∧
      ((∀ x ∈ ws, x.1 ≠ u.1) → cleaned.coverage[u.1]? = list.coverage[u.1]?) ∧
      ((∀ x ∈ ws, x.1 ≠ v.1) → cleaned.coverage[v.1]? = list.coverage[v.1]?) ∧
      ∀ a b : DirNode,
        cleaned.edgeCoverage.valueAt a b + (if (a, b) = canon u v then c else 0)
          = list.edgeCoverage.valueAt a b
            + c * ((([u] ++ ws ++ [v]).zip ([u] ++ ws ++ [v]).tail).filter
                (fun e => decide (canon e.1 e.2 = (a, b)))).length := by
  unfold VectorWithDirection.size at hsize hcells hnodes
  -- the chain is longer than the edge
  have hlen : 1 ≤ ws.length := by
    by_contra hx
    have hws : ws = [] := List.length_eq_zero.mp (by omega)
    subst hws
    exact hplain (u, v) (by simp) rfl
  have hu : u.1 < list.edgeCoverage.forward.length := get?_lt _ u mu hedge hshape.symm
  obtain ⟨⟨s1, s2⟩, _⟩ := make_keeps hash order k list cleaner hmake
  have htm : ∀ a : DirNode, a.1 < list.edgeCoverage.forward.length →
      ∃ m, cleaner.transitiveMiddle.get? a = some m :=
    fun a ha => get?_isSome _ a (by omega) (by omega)
  have hin : ∀ x ∈ [u] ++ ws ++ [v], x.1 < list.edgeCoverage.forward.length := by
    intro x hx
    rw [List.append_assoc, List.singleton_append, List.mem_cons] at hx
    rcases hx with hx | hx
    · rw [hx]
      exact hu
    · exact hnodes x hx
  have hfindv : mapFind [(v, ws)] v = some ws := by
    unfold mapFind
    rw [if_pos rfl]
  have hfindne : ∀ t : DirNode, t ≠ v → mapFind [(v, ws)] t = none := by
    intro t ht
    unfold mapFind
    rw [if_neg (fun hx => ht hx.symm)]
    rfl
  have hsteps : ∀ e ∈ ([u] ++ ws ++ [v]).zip ([u] ++ ws ++ [v]).tail,
      ∃ m, cleaner.transitiveMiddle.get? e.1 = some m ∧ mapFind m e.2 = none := by
    intro e he
    obtain ⟨m, hm⟩ := htm e.1 (hin e.1 (List.of_mem_zip he).1)
    refine ⟨m, hm, ?_⟩
    by_cases h1 : e.1 = u
    · rw [h1, hchain] at hm
      cases hm
      apply hfindne
      intro h2
      exact hplain e he (Prod.ext h1 h2)
    · rw [hothers e.1 m h1 hm]
      rfl
  obtain ⟨f, rfl⟩ : ∃ f, fuel = f + 2 := ⟨fuel - 2, by omega⟩
  -- every chain is found
  have hside : ∀ (s : DirNode) (T : List (DirNode × Nat)),
      list.edgeCoverage.get? s = some T →
      ∀ t ∈ order T, ∃ vec, cleaner.insertMiddles (f + 2) [s, t.1] = some vec ∧ vec ≠ [] ∧
        ∀ x ∈ vec.tail.dropLast, x.1 < list.coverage.length := by
    intro s T hT t _
    obtain ⟨m, hm⟩ := htm s (get?_lt _ s T hT hshape.symm)
    by_cases hchained : s = u ∧ t.1 = v
    · obtain ⟨hs, ht⟩ := hchained
      subst hs
      rw [ht]
      refine ⟨[s] ++ ws ++ [v], insertMiddles_chain_some cleaner (f + 2) s v [(v, ws)] ws
        hchain hfindv (by omega) hfuel hsteps, by simp, ?_⟩
      intro x hx
      have hxw : x ∈ ws := by simpa using hx
      have := hnodes x (List.mem_append_left _ hxw)
      omega
    · have hnone : mapFind m t.1 = none := by
        by_cases hs : s = u
        · rw [hs, hchain] at hm
          cases hm
          exact hfindne _ (fun ht => hchained ⟨hs, ht⟩)
        · rw [hothers s m hs hm]
          rfl
      refine ⟨[s, t.1], insertMiddles_no_chain cleaner f s t.1 m hm hnone, by simp, ?_⟩
      intro x hx
      simp at hx
  obtain ⟨acc, hacc⟩ := cleanNodesLoop_some order cleaner (f + 2) list.edgeCoverage
    list.coverage.length hside list.edgeCoverage.forward.length 0
    { coverage := list.coverage, addEdgeCoverage := [], removeEdgeCoverage := [] }
    (by omega) (by omega) rfl
  -- what the first phase has built
  have hin2 : (v, c) ∈ order mu := horder.mem_iff.mpr hmem
  obtain ⟨l1, l2, hdecomp⟩ := List.append_of_mem hin2
  have hnd : ((order mu).map Prod.fst).Nodup := (horder.map Prod.fst).nodup_iff.mpr hkeys
  rw [hdecomp, List.map_append, List.map_cons, List.nodup_append] at hnd
  obtain ⟨_, hnd2, hdisj⟩ := hnd
  rw [List.nodup_cons] at hnd2
  have hl1 : ∀ t ∈ l1, t.1 ≠ v := by
    intro t ht hx
    exact hdisj (List.mem_map.mpr ⟨t, ht, rfl⟩) (by rw [hx]; exact List.mem_cons_self _ _)
  have hl2 : ∀ t ∈ l2, t.1 ≠ v := by
    intro t ht hx
    exact hnd2.1 (List.mem_map.mpr ⟨t, ht, hx⟩)
  obtain ⟨cov, _, hacc2⟩ := (cleanNodesLoop_single order cleaner (f + 2) list.edgeCoverage u v
    ws c mu l1 l2 hchain hothers hplain hedge hdecomp hl1 hl2 _ _ _ _ hacc).1
    ⟨Nat.zero_le _, by omega⟩
  simp only [List.nil_append] at hacc2
  -- the second phase
  obtain ⟨so, hso⟩ := applyOverlaps_some cleaner.newSequenceOverlaps list.sequenceOverlap hnew
  have hsum : amountSum (chainEdges ([u] ++ ws ++ [v]) c) = c * (ws.length + 1) := by
    rw [amountSum_chainEdges]
    congr 1
    simp only [List.length_append, List.length_singleton]
    omega
  obtain ⟨ec1, hec1, e1, e2⟩ := applyAdd_some (chainEdges ([u] ++ ws ++ [v]) c)
    list.edgeCoverage (by
      intro t ht
      unfold chainEdges at ht
      obtain ⟨e, he, hte⟩ := List.mem_map.mp ht
      obtain ⟨g1, g2⟩ := List.of_mem_zip he
      have := (canon_fst_lt e.1 e.2 list.edgeCoverage.forward.length (hin _ g1)
        (hin _ (List.mem_of_mem_tail g2))).1
      rw [← hte]
      simp only
      omega)
  have hcuv : canon u v = (u, v) := hcanon u mu v c hedge hmem
  have hfind0 : list.edgeCoverage.findAt u v = some c := by
    unfold EdgeMaps.findAt
    rw [hedge]
    exact mapFind_of_mem_nodup mu v c hkeys hmem
  have hsome := findAt_applyAdd_isSome u v _ _ _ (by rw [hsum]; exact hec) hec1
    (by rw [hfind0]; rfl)
  have hval := valueAt_applyAdd u v _ _ _ (by rw [hsum]; exact hec) hec1
  obtain ⟨old, hold⟩ := Option.isSome_iff_exists.mp hsome
  have hge : old ≥ c := by
    rw [valueAt_eq_findAt, valueAt_eq_findAt, hold, hfind0] at hval
    simp only [Option.getD_some] at hval
    omega
  obtain ⟨m1, hm1⟩ := get?_isSome ec1 u (by omega) (by omega)
  have hfind1 : mapFind m1 v = some old := by
    unfold EdgeMaps.findAt at hold
    rw [hm1] at hold
    exact hold
  obtain ⟨ec2, hec2⟩ := assign_isSome ec1 u v (old - c) (by omega) (by omega)
  have hclean : cleanTransitiveEdges hash order (f + 2) list k
      = some { list with coverage := acc.coverage, sequenceOverlap := so, edgeCoverage := ec2 } := by
    unfold cleanTransitiveEdges
    rw [hmake]
    simp only [VectorWithDirection.size, hacc, hso]
    rw [hacc2]
    simp only [hec1, hcuv]
    unfold applyRemove
    rw [hm1]
    simp only [hfind1]
    rw [if_pos hge, hec2]
    rfl
  exact ⟨_, hclean, single_chain_result hash order (f + 2) list _ k cleaner u v ws c mu hclean
    hmake hchain hothers hplain hedge hmem hkeys horder hshape hcov hec⟩

/-- C25 (witness): in the worked example the edge from node 0 to node 1, of coverage 1, has
the chain through node 2. -/
theorem single_chain_reroutes_coverage_witness :
    TransitiveCleaner.make exampleHash id 3 exampleLoaded = some exampleCleaner ∧
      ∃ cleaned, cleanTransitiveEdges exampleHash id 50 exampleLoaded 3 = some cleaned ∧
      1 ≤ [((2, true) : DirNode)].length ∧
      (∀ (n c0 : Nat), exampleLoaded.coverage[n]? = some c0 →
        cleaned.coverage[n]?
          = some (c0 + 1 * ([((2, true) : DirNode)].filter
              (fun x => decide (x.1 = n))).length)) ∧
      ((∀ x ∈ [((2, true) : DirNode)], x.1 ≠ ((0, true) : DirNode).1) →
        cleaned.coverage[((0, true) : DirNode).1]?
          = exampleLoaded.coverage[((0, true) : DirNode).1]?) ∧
      ((∀ x ∈ [((2, true) : DirNode)], x.1 ≠ ((1, true) : DirNode).1) →
        cleaned.coverage[((1, true) : DirNode).1]?
          = exampleLoaded.coverage[((1, true) : DirNode).1]?) ∧
      ∀ a b : DirNode,
        cleaned.edgeCoverage.valueAt a b
            + (if (a, b) = canon (0, true) (1, true) then 1 else 0)
          = exampleLoaded.edgeCoverage.valueAt a b
            + 1 * ((([((0, true) : DirNode)] ++ [(2, true)] ++ [(1, true)]).zip
                ([((0, true) : DirNode)] ++ [(2, true)] ++ [(1, true)]).tail).filter
                (fun e : DirNode × DirNode => decide (canon e.1 e.2 = (a, b)))).length :=
  ⟨by decide,
    single_chain_reroutes_coverage exampleHash id 50 exampleLoaded 3
      exampleCleaner (0, true) (1, true) [(2, true)] 1 [((1, true), 1)]
      (by decide) (by decide) exampleCleaner_others (by decide) (by decide)
      (by decide) (by decide) (List.Perm.refl _)
      (loadReadsAsHashes_canonical exampleHash exampleReads 3 2 false exampleLoaded
        (by decide)).2 (by decide)
      (by decide) (by decide) (by decide) (by decide) (by decide) (by decide) (by decide)⟩

end MBG
